import Mathlib

/-! # ESBMC: array flattener and k-induction driver

A shallow embedding of `solvers/smt/array_conv.cpp` (the array flattener), of
the k-induction driver, the timeout handler, the property monitors, the
command-line option handling and the loading of the goto program of
`esbmc/parseoptions.cpp`, and of `symex_malloc` of
`goto-symex/builtin_functions.cpp`, followed by the properties established
about them.

Conventions of the embedding:

* a C++ function that mutates the flattener takes the state as an argument and
  returns the new state together with its result;
* undefined behaviour (an out-of-range `operator[]`, the use of a null or
  uninitialised term) and failed `assert`s are the result `none`;
* `std::set` / `std::map` containers are duplicate-free lists kept in the
  order of their keys.
-/

namespace Esbmc

/-! ## Expressions, sorts and SMT terms -/

/-- Index expressions of the intermediate representation, as far as the
flattener looks at them: the nil expression, integer constants (with the value
`constant_value.to_ulong()` yields) and every other expression, named by an
identifier. Equality is structural equality. -/
inductive expr2tc where
  | nil
  | constant_int (constant_value : Nat)
  | symbol (id : Nat)
  deriving DecidableEq, Repr

/-- The key by which ordered containers compare expressions. -/
def expr2tc.rank : expr2tc → Nat
  | .nil => 0
  | .constant_int v => 2 * v + 1
  | .symbol n => 2 * n + 2

inductive smt_sort_kind where
  | SMT_SORT_BOOL
  | SMT_SORT_BV
  | SMT_SORT_ARRAY
  deriving DecidableEq, Repr

structure smt_sort where
  id : smt_sort_kind
  data_width : Nat
  domain_width : Nat
  deriving DecidableEq, Repr

/-- Modelled from the spec: `is_unbounded_array` is declared in a header that is
not part of the sources; the spec describes bounded arrays as those whose
domain width is small (at most 12). -/
def is_unbounded_array (s : smt_sort) : Bool :=
  decide (s.id = smt_sort_kind.SMT_SORT_ARRAY) && decide (12 < s.domain_width)

/-- Terms handed out by the abstract solver interface. `fresh` is the result of
`mk_fresh`, `term` any term built by the caller outside the flattener, `index`
the conversion `convert_ast` of an index expression, `bvint` the result of
`mk_smt_bvint`; the remaining constructors are the function applications the
flattener builds (`make_conjunct` is a fold of `and` over `true_`). -/
inductive smt_ast where
  | fresh (n : Nat) (sort : smt_sort)
  | term (n : Nat)
  | index (e : expr2tc)
  | bvint (value : Nat) (width : Nat)
  | true_
  | eq (a b : smt_ast)
  | ite (cond t f : smt_ast)
  | implies (a b : smt_ast)
  | and (a b : smt_ast)
  deriving DecidableEq, Repr

/-- An interpretation of the atoms of the term language. -/
structure model where
  fresh : Nat → Nat
  term : Nat → Nat
  index : expr2tc → Nat

/-- Value of a term in a model; booleans are `0` (false) and non-zero (true). -/
def eval (M : model) : smt_ast → Nat
  | .fresh n _ => M.fresh n
  | .term n => M.term n
  | .index e => M.index e
  | .bvint v w => v % 2 ^ w
  | .true_ => 1
  | .eq a b => if eval M a = eval M b then 1 else 0
  | .ite c t f => if eval M c = 0 then eval M f else eval M t
  | .implies a b => if eval M a = 0 then 1 else (if eval M b = 0 then 0 else 1)
  | .and a b => if eval M a = 0 then 0 else (if eval M b = 0 then 0 else 1)

/-- The part of the solver context the flattener drives: the supply of fresh
variables and the constraints asserted so far (most recent first). -/
structure smt_convt where
  fresh_count : Nat
  assertions : List smt_ast
  deriving DecidableEq, Repr

def smt_convt.mk_fresh (c : smt_convt) (s : smt_sort) : smt_convt × smt_ast :=
  ({ c with fresh_count := c.fresh_count + 1 }, smt_ast.fresh c.fresh_count s)

def smt_convt.assert_ast (c : smt_convt) (a : smt_ast) : smt_convt :=
  { c with assertions := a :: c.assertions }

def smt_convt.convert_ast (e : expr2tc) : smt_ast := smt_ast.index e

/-- The conjunction `make_conjunct` builds from a vector of literals. -/
def make_conjunct : List smt_ast → smt_ast
  | [] => smt_ast.true_
  | a :: l => smt_ast.and a (make_conjunct l)

/-- A model satisfies a context when every asserted constraint is true in it. -/
def satisfies (M : model) (c : smt_convt) : Prop :=
  ∀ a ∈ c.assertions, eval M a ≠ 0

/-! ## Flattener data -/

/-- An array term: for bounded arrays the explicit element vector, for unbounded
ones the base identifier and the position in that base's update list. -/
structure array_ast where
  sort : smt_sort
  base_array_id : Nat
  array_update_num : Nat
  array_fields : List smt_ast
  deriving DecidableEq, Repr

structure array_select where
  src_array_update_num : Nat
  idx : expr2tc
  val : smt_ast
  deriving DecidableEq, Repr

/-- An update record. `placeholder` is the record `new_array_id` files at
position 0 (`is_ite = false`, nil index, union left uninitialised), `w` a plain
with-update, `i` an if-then-else between two array terms. -/
inductive array_with where
  | placeholder
  | w (idx : expr2tc) (src_array_update_num : Nat) (val : smt_ast)
  | i (true_arr_ast false_arr_ast : array_ast) (cond : smt_ast)
  deriving DecidableEq, Repr

def array_with.is_ite : array_with → Bool
  | .i _ _ _ => true
  | _ => false

def array_with.idx : array_with → expr2tc
  | .w e _ _ => e
  | _ => expr2tc.nil

structure array_equality where
  arr1_id : Nat
  arr2_id : Nat
  arr1_update_num : Nat
  arr2_update_num : Nat
  result : smt_ast
  deriving DecidableEq, Repr

/-- A vector of element terms; `none` is a slot still holding the null pointer. -/
abbrev ast_vect := List (Option smt_ast)

/-- The flattener. `array_indexes[b]` is the index set of base `b` (the
context level stored next to each index is never read by the flattener and is
left out), `array_values[b][u]` the select records filed at update `u`,
`array_updates[b]` the update records, `array_valuation[b][u]` the element
vector built at solve time. -/
structure array_convt where
  array_indexes : List (List expr2tc)
  array_values : List (List (List array_select))
  array_updates : List (List array_with)
  array_subtypes : List smt_sort
  array_of_vals : List (Nat × smt_ast)
  array_equalities : List array_equality
  array_valuation : List (List ast_vect)
  ctx : smt_convt
  deriving DecidableEq, Repr

/-- The flattener right after construction. -/
def array_convt.init : array_convt :=
  { array_indexes := [], array_values := [], array_updates := [],
    array_subtypes := [], array_of_vals := [], array_equalities := [],
    array_valuation := [], ctx := { fresh_count := 0, assertions := [] } }

/-! ## Container helpers -/

/-- In-place modification `l[i] = f(l[i])` of a vector element. -/
def update_at {α : Type} (l : List α) (i : Nat) (f : α → α) : Option (List α) :=
  match l[i]? with
  | some x => some (l.set i (f x))
  | none => none

/-- Insertion into an ordered duplicate-free container keyed by `rank`. -/
def set_insert {α : Type} [DecidableEq α] (rank : α → Nat) (e : α) : List α → List α
  | [] => [e]
  | x :: xs =>
    if e = x then x :: xs
    else if rank e < rank x then e :: x :: xs
    else x :: set_insert rank e xs

/-- Range insertion `dst.insert(src.begin(), src.end())`. -/
def set_insert_all {α : Type} [DecidableEq α] (rank : α → Nat) (src dst : List α) : List α :=
  src.foldl (fun acc e => set_insert rank e acc) dst

def idx_insert (e : expr2tc) (s : List expr2tc) : List expr2tc :=
  set_insert expr2tc.rank e s

/-- Lookup `idx_map.find(e)`: the index map sends the k-th index of the
(ordered) index set to position k. -/
def idx_map_find (idx_map : List expr2tc) (e : expr2tc) : Option Nat :=
  if e ∈ idx_map then some (idx_map.indexOf e) else none

def array_indexes_are_same (a b : List expr2tc) : Bool :=
  decide (a.length = b.length) && a.all (fun e => decide (e ∈ b))

/-! ## Building array terms (`array_conv.cpp`, conversion time) -/

namespace array_convt

/-- `new_array_id`: a new base with an empty index set, one (empty) select list
and the placeholder update record. -/
def new_array_id (s : array_convt) : Option (array_convt × Nat) :=
  let new_base_array_id := s.array_indexes.length
  let array_indexes := s.array_indexes ++ [[]]
  let array_values := s.array_values ++ [[]]
  match update_at array_values new_base_array_id (fun l => l ++ [[]]) with
  | none => none
  | some array_values =>
    let array_updates := s.array_updates ++ [[]]
    match update_at array_updates new_base_array_id (fun l => l ++ [array_with.placeholder]) with
    | none => none
    | some array_updates =>
      some ({ s with array_indexes := array_indexes, array_values := array_values,
                     array_updates := array_updates }, new_base_array_id)

/-- The loop of `mk_array_symbol` filling a bounded array with fresh elements. -/
def mk_fresh_fields (subtype : smt_sort) : Nat → smt_convt → smt_convt × List smt_ast
  | 0, c => (c, [])
  | n + 1, c =>
    let (c1, a) := c.mk_fresh subtype
    let (c2, rest) := mk_fresh_fields subtype n c1
    (c2, a :: rest)

def mk_array_symbol (s : array_convt) (ms subtype : smt_sort) : Option (array_convt × array_ast) :=
  if subtype.id = smt_sort_kind.SMT_SORT_ARRAY then none
  else if is_unbounded_array ms then
    match new_array_id s with
    | none => none
    | some (s1, id) =>
      some ({ s1 with array_subtypes := s1.array_subtypes ++ [subtype] },
            { sort := ms, base_array_id := id, array_update_num := 0, array_fields := [] })
  else
    let (c, fields) := mk_fresh_fields subtype (2 ^ ms.domain_width) s.ctx
    some ({ s with ctx := c },
          { sort := ms, base_array_id := 0, array_update_num := 0, array_fields := fields })

/-- Second half of `mk_unbounded_select`: the variable of an earlier select of
the same index at this update is reused, otherwise a fresh variable is made and
a select record filed. -/
def mk_unbounded_select_record (s : array_convt) (ma : array_ast) (real_idx : expr2tc)
    (ressort : smt_sort) : Option (array_convt × smt_ast) :=
  match s.array_values[ma.base_array_id]? with
  | none => none
  | some values =>
    match values[ma.array_update_num]? with
    | none => none
    | some sels =>
      match sels.find? (fun sel => decide (sel.idx = real_idx)) with
      | some sel => some (s, sel.val)
      | none =>
        let (c, a) := s.ctx.mk_fresh ressort
        let sel : array_select :=
          { src_array_update_num := ma.array_update_num, idx := real_idx, val := a }
        match update_at s.array_values ma.base_array_id
                (fun vs => vs.set ma.array_update_num (sels ++ [sel])) with
        | none => none
        | some array_values => some ({ s with array_values := array_values, ctx := c }, a)

/-- `mk_unbounded_select`: the index is recorded; when the update of the array
term is a plain with at the same index expression its value is returned. -/
def mk_unbounded_select (s : array_convt) (ma : array_ast) (real_idx : expr2tc)
    (ressort : smt_sort) : Option (array_convt × smt_ast) :=
  match update_at s.array_indexes ma.base_array_id (idx_insert real_idx) with
  | none => none
  | some array_indexes =>
    let s1 := { s with array_indexes := array_indexes }
    match s1.array_updates[ma.base_array_id]? with
    | none => none
    | some updates =>
      match updates[ma.array_update_num]? with
      | none => none
      | some w =>
        if ma.array_update_num ≠ 0 ∧ w.is_ite = false ∧ real_idx = w.idx then
          match w with
          | array_with.w _ _ val => some (s1, val)
          | _ => none
        else mk_unbounded_select_record s1 ma real_idx ressort

/-- `mk_unbounded_store`. -/
def mk_unbounded_store (s : array_convt) (ma : array_ast) (idx : expr2tc) (value : smt_ast)
    (ressort : smt_sort) : Option (array_convt × array_ast) :=
  match update_at s.array_indexes ma.base_array_id (idx_insert idx) with
  | none => none
  | some array_indexes =>
    match s.array_updates[ma.base_array_id]? with
    | none => none
    | some updates =>
      let newarr : array_ast :=
        { sort := ressort, base_array_id := ma.base_array_id,
          array_update_num := updates.length, array_fields := [] }
      let w := array_with.w idx ma.array_update_num value
      match update_at s.array_updates ma.base_array_id (fun l => l ++ [w]) with
      | none => none
      | some array_updates =>
        match update_at s.array_values ma.base_array_id (fun l => l ++ [[]]) with
        | none => none
        | some array_values =>
          some ({ s with array_indexes := array_indexes, array_updates := array_updates,
                         array_values := array_values }, newarr)

/-- `unbounded_array_ite`. -/
def unbounded_array_ite (s : array_convt) (cond : smt_ast) (true_arr false_arr : array_ast)
    (thesort : smt_sort) : Option (array_convt × array_ast) :=
  let new_arr_id := min true_arr.base_array_id false_arr.base_array_id
  match s.array_updates[true_arr.base_array_id]? with
  | none => none
  | some true_updates =>
    let newarr : array_ast :=
      { sort := thesort, base_array_id := new_arr_id,
        array_update_num := true_updates.length, array_fields := [] }
    let w := array_with.i true_arr false_arr cond
    match update_at s.array_updates new_arr_id (fun l => l ++ [w]) with
    | none => none
    | some array_updates =>
      match update_at s.array_values new_arr_id (fun l => l ++ [[]]) with
      | none => none
      | some array_values =>
        some ({ s with array_updates := array_updates, array_values := array_values }, newarr)

/-- `encode_array_equality`. -/
def encode_array_equality (s : array_convt) (a1 a2 : array_ast) : array_convt × smt_ast :=
  let (c, result) := s.ctx.mk_fresh
    { id := smt_sort_kind.SMT_SORT_BOOL, data_width := 1, domain_width := 0 }
  let e : array_equality :=
    { arr1_id := a1.base_array_id, arr2_id := a2.base_array_id,
      arr1_update_num := a1.array_update_num, arr2_update_num := a2.array_update_num,
      result := result }
  ({ s with array_equalities := s.array_equalities ++ [e], ctx := c }, result)

/-- The case switch of `mk_select` over every position of a bounded array. -/
def mk_select_loop (fresh real_idx : smt_ast) (dom_width : Nat) :
    Nat → List smt_ast → smt_convt → smt_convt
  | _, [], c => c
  | i, f :: fs, c =>
    mk_select_loop fresh real_idx dom_width (i + 1) fs
      (c.assert_ast (smt_ast.implies (smt_ast.eq real_idx (smt_ast.bvint i dom_width))
                                     (smt_ast.eq fresh f)))

/-- `mk_select`. -/
def mk_select (s : array_convt) (ma : array_ast) (idx : expr2tc) (ressort : smt_sort) :
    Option (array_convt × smt_ast) :=
  if is_unbounded_array ma.sort then mk_unbounded_select s ma idx ressort
  else if ma.array_fields.length = 0 then none
  else
    match idx with
    | expr2tc.constant_int intval =>
      if intval > ma.array_fields.length then
        let (c, a) := s.ctx.mk_fresh ressort
        some ({ s with ctx := c }, a)
      else
        match ma.array_fields[intval]? with
        | none => none
        | some a => some (s, a)
    | _ =>
      let (c, fresh) := s.ctx.mk_fresh ressort
      let real_idx := smt_convt.convert_ast idx
      let c1 := mk_select_loop fresh real_idx ma.sort.domain_width 0 ma.array_fields c
      some ({ s with ctx := c1 }, fresh)

/-- The element-wise conditional update of `mk_store` for a symbolic index. -/
def mk_store_loop (real_idx real_value : smt_ast) (dom_width : Nat) :
    Nat → List smt_ast → List smt_ast
  | _, [] => []
  | i, f :: fs =>
    smt_ast.ite (smt_ast.eq real_idx (smt_ast.bvint i dom_width)) real_value f
      :: mk_store_loop real_idx real_value dom_width (i + 1) fs

/-- `mk_store`. -/
def mk_store (s : array_convt) (ma : array_ast) (idx : expr2tc) (value : smt_ast)
    (ressort : smt_sort) : Option (array_convt × array_ast) :=
  if is_unbounded_array ma.sort then mk_unbounded_store s ma idx value ressort
  else if ma.array_fields.length = 0 then none
  else
    let mast : array_ast :=
      { sort := ressort, base_array_id := 0, array_update_num := 0,
        array_fields := ma.array_fields }
    match idx with
    | expr2tc.constant_int intval =>
      if intval > ma.array_fields.length then some (s, ma)
      else
        match mast.array_fields[intval]? with
        | none => none
        | some _ => some (s, { mast with array_fields := mast.array_fields.set intval value })
    | _ =>
      let real_idx := smt_convt.convert_ast idx
      some (s, { mast with array_fields :=
                   mk_store_loop real_idx value mast.sort.domain_width 0 mast.array_fields })

/-! ## Emitting the constraints (`array_conv.cpp`, solve time) -/

/-- One pass over a grouping set: `groupings[touched].insert(arrset)` for every
member; the flag records whether a size changed. -/
def join_touch (arrset : List Nat) :
    List Nat → List (List Nat) × Bool → Option (List (List Nat) × Bool)
  | [], acc => some acc
  | touched :: rest, (groupings, modified) =>
    match groupings[touched]? with
    | none => none
    | some g =>
      let g1 := set_insert_all id arrset g
      join_touch arrset rest
        (groupings.set touched g1, modified || decide (g.length ≠ g1.length))

/-- The body of the do-while loop of `join_array_indexes`: one sweep over all
grouping sets, positions `k, k+1, ...` for the given number of sets. -/
def join_pass : Nat → Nat → List (List Nat) × Bool → Option (List (List Nat) × Bool)
  | 0, _, acc => some acc
  | n + 1, k, (groupings, modified) =>
    match groupings[k]? with
    | none => none
    | some arrset =>
      match join_touch arrset arrset (groupings, modified) with
      | none => none
      | some acc => join_pass n (k + 1) acc

/-- The do-while loop, run for at most `fuel` sweeps. -/
def join_fix : Nat → List (List Nat) → Option (List (List Nat))
  | 0, _ => none
  | fuel + 1, groupings =>
    match join_pass groupings.length 0 (groupings, false) with
    | none => none
    | some (groupings1, modified) =>
      if modified then join_fix fuel groupings1 else some groupings1

/-- The ids an update list contributes to its own grouping set. -/
def join_collect : List array_with → List Nat → List Nat
  | [], g => g
  | array_with.i t f _ :: rest, g =>
    if t.base_array_id ≠ f.base_array_id then
      join_collect rest (set_insert id f.base_array_id (set_insert id t.base_array_id g))
    else join_collect rest g
  | _ :: rest, g => join_collect rest g

def join_equalities : List array_equality → List (List Nat) → Option (List (List Nat))
  | [], groupings => some groupings
  | e :: rest, groupings =>
    match update_at groupings e.arr1_id (set_insert id e.arr2_id) with
    | none => none
    | some g1 =>
      match update_at g1 e.arr2_id (set_insert id e.arr1_id) with
      | none => none
      | some g2 => join_equalities rest g2

/-- The grouping sets before the fixed point is computed. -/
def join_initial (s : array_convt) : Option (List (List Nat)) :=
  join_equalities s.array_equalities
    (s.array_updates.enum.map (fun p => set_insert id p.1 (join_collect p.2 [])))

def join_indexes_inner (arrid : Nat) :
    List Nat → List (List expr2tc) → Option (List (List expr2tc))
  | [], idxs => some idxs
  | touched :: rest, idxs =>
    match idxs[touched]?, idxs[arrid]? with
    | some src, some dst =>
      join_indexes_inner arrid rest (idxs.set arrid (set_insert_all expr2tc.rank src dst))
    | _, _ => none

def join_indexes_outer (groupings : List (List Nat)) :
    Nat → Nat → List (List expr2tc) → Option (List (List expr2tc))
  | 0, _, idxs => some idxs
  | n + 1, arrid, idxs =>
    match groupings[arrid]? with
    | none => none
    | some arrset =>
      match join_indexes_inner arrid arrset idxs with
      | none => none
      | some idxs1 => join_indexes_outer groupings n (arrid + 1) idxs1

/-- The grouping sets at the end of the do-while loop. -/
def join_groupings (s : array_convt) : Option (List (List Nat)) :=
  match join_initial s with
  | none => none
  | some g => join_fix (s.array_updates.length * s.array_updates.length + 1) g

/-- `join_array_indexes`. The do-while loop is run for at most `n * n + 1`
sweeps, `n` the number of base ids. -/
def join_array_indexes (s : array_convt) : Option array_convt :=
  match join_groupings s with
  | none => none
  | some groupings =>
    match join_indexes_outer groupings s.array_updates.length 0 s.array_indexes with
    | none => none
    | some idxs => some { s with array_indexes := idxs }

/-- Second loop of `collate_array_values`: file the select variables. -/
def collate_selects (idx_map : List expr2tc) : List array_select → ast_vect → Option ast_vect
  | [], vals => some vals
  | sel :: rest, vals =>
    match idx_map_find idx_map sel.idx with
    | none => none
    | some p => collate_selects idx_map rest (vals.set p (some sel.val))

/-- Third loop of `collate_array_values` without initial value. -/
def collate_fill_fresh (subtype : smt_sort) : ast_vect → smt_convt → smt_convt × ast_vect
  | [], c => (c, [])
  | some a :: rest, c =>
    let (c1, r) := collate_fill_fresh subtype rest c
    (c1, some a :: r)
  | none :: rest, c =>
    let (c1, a) := c.mk_fresh subtype
    let (c2, r) := collate_fill_fresh subtype rest c1
    (c2, some a :: r)

/-- Third loop of `collate_array_values` with an initial value. -/
def collate_fill_init (init_val : smt_ast) : ast_vect → smt_convt → smt_convt × ast_vect
  | [], c => (c, [])
  | some a :: rest, c =>
    let (c1, r) := collate_fill_init init_val rest (c.assert_ast (smt_ast.eq a init_val))
    (c1, some a :: r)
  | none :: rest, c =>
    let (c1, r) := collate_fill_init init_val rest c
    (c1, some init_val :: r)

/-- `collate_array_values`. -/
def collate_array_values (c : smt_convt) (vals : ast_vect) (idx_map : List expr2tc)
    (idxs : List array_select) (subtype : smt_sort) (init_val : Option smt_ast) :
    Option (smt_convt × ast_vect) :=
  if vals.length ≠ idx_map.length then none
  else
    match collate_selects idx_map idxs (vals.map (fun _ => none)) with
    | none => none
    | some vals1 =>
      match init_val with
      | none => some (collate_fill_fresh subtype vals1 c)
      | some iv => some (collate_fill_init iv vals1 c)

def ackerman_inner (vals : ast_vect) (outer_idx : smt_ast) (p : Nat) :
    Nat → List expr2tc → smt_convt → Option smt_convt
  | _, [], c => some c
  | q, e2 :: rest, c =>
    match vals[p]?, vals[q]? with
    | some (some vp), some (some vq) =>
      ackerman_inner vals outer_idx p (q + 1) rest
        (c.assert_ast (smt_ast.implies (smt_ast.eq outer_idx (smt_convt.convert_ast e2))
                                       (smt_ast.eq vp vq)))
    | _, _ => none

def ackerman_outer (vals : ast_vect) (idx_map : List expr2tc) :
    Nat → List expr2tc → smt_convt → Option smt_convt
  | _, [], c => some c
  | p, e :: rest, c =>
    match ackerman_inner vals (smt_convt.convert_ast e) p 0 idx_map c with
    | none => none
    | some c1 => ackerman_outer vals idx_map (p + 1) rest c1

/-- `add_initial_ackerman_constraints`. -/
def add_initial_ackerman_constraints (c : smt_convt) (vals : ast_vect)
    (idx_map : List expr2tc) : Option smt_convt :=
  ackerman_outer vals idx_map 0 idx_map c

def execute_array_update_loop (update_idx_ast updated_value : smt_ast) (updated_idx : Nat)
    (dest source : ast_vect) : Nat → List expr2tc → smt_convt → Option smt_convt
  | _, [], c => some c
  | q, e :: rest, c =>
    if q = updated_idx then
      execute_array_update_loop update_idx_ast updated_value updated_idx dest source (q + 1) rest c
    else
      match dest[q]?, source[q]? with
      | some (some d), some (some sv) =>
        execute_array_update_loop update_idx_ast updated_value updated_idx dest source (q + 1) rest
          (c.assert_ast (smt_ast.eq d
            (smt_ast.ite (smt_ast.eq update_idx_ast (smt_convt.convert_ast e)) updated_value sv)))
      | _, _ => none

/-- `execute_array_update`; `dest_data` is `data[dest_pos]` and `source_data`
is `data[src_pos]` (the two may be the same vector). -/
def execute_array_update (c : smt_convt) (data : List ast_vect) (dest_pos src_pos : Nat)
    (idx_map : List expr2tc) (idx : expr2tc) (updated_value : smt_ast) :
    Option (smt_convt × List ast_vect) :=
  match idx_map_find idx_map idx, data[dest_pos]? with
  | some updated_idx, some dest0 =>
    if updated_idx < dest0.length then
      let dest := dest0.set updated_idx (some updated_value)
      let data1 := data.set dest_pos dest
      match data1[src_pos]? with
      | none => none
      | some source =>
        match execute_array_update_loop (smt_convt.convert_ast idx) updated_value updated_idx
                dest source 0 idx_map c with
        | none => none
        | some c1 => some (c1, data1)
    else none
  | _, _ => none

/-- `execute_array_ite`, positions `i, i+1, ...` for the given count. -/
def execute_array_ite (dest true_vals false_vals : ast_vect) (cond : smt_ast) :
    Nat → Nat → smt_convt → Option smt_convt
  | 0, _, c => some c
  | n + 1, i, c =>
    match dest[i]?, true_vals[i]?, false_vals[i]? with
    | some (some d), some (some t), some (some f) =>
      execute_array_ite dest true_vals false_vals cond n (i + 1)
        (c.assert_ast (smt_ast.eq d (smt_ast.ite cond t f)))
    | _, _, _ => none

/-- The select loop of `execute_array_joining_ite`. -/
def joining_selects (remote_ast : array_ast) (subtype : smt_sort) :
    List expr2tc → array_convt → Option (array_convt × ast_vect)
  | [], s => some (s, [])
  | e :: rest, s =>
    match mk_unbounded_select s remote_ast e subtype with
    | none => none
    | some (s1, a) =>
      match joining_selects remote_ast subtype rest s1 with
      | none => none
      | some (s2, sels) => some (s2, some a :: sels)

/-- `execute_array_joining_ite`; `dest` is row `dest_pos` of valuation `vi`. -/
def execute_array_joining_ite (s : array_convt) (vi dest_pos cur_id : Nat)
    (true_arr_ast false_arr_ast : array_ast) (idx_map : List expr2tc) (cond : smt_ast)
    (subtype : smt_sort) : Option array_convt :=
  let local_arr_values_are_true := decide (true_arr_ast.base_array_id = cur_id)
  let local_ast := if local_arr_values_are_true then true_arr_ast else false_arr_ast
  let remote_ast := if local_arr_values_are_true then false_arr_ast else true_arr_ast
  match s.array_indexes[cur_id]?, s.array_indexes[remote_ast.base_array_id]? with
  | some cur_indexes, some remote_indexes =>
    if array_indexes_are_same cur_indexes remote_indexes = false then none
    else
      match joining_selects remote_ast subtype remote_indexes s with
      | none => none
      | some (s1, selects) =>
        match (s1.array_valuation[local_ast.base_array_id]?).bind
                (fun d => d[local_ast.array_update_num]?),
              (s1.array_valuation[vi]?).bind (fun d => d[dest_pos]?) with
        | some local_vals, some dest =>
          let true_vals := if local_arr_values_are_true then local_vals else selects
          let false_vals := if local_arr_values_are_true then selects else local_vals
          match execute_array_ite dest true_vals false_vals cond idx_map.length 0 s1.ctx with
          | none => none
          | some c => some { s1 with ctx := c }
        | _, _ => none
  | _, _ => none

/-- `execute_array_trans`: the transition to row `idx + 1` of valuation `vi`. -/
def execute_array_trans (s : array_convt) (vi arr idx : Nat) (idx_map : List expr2tc)
    (subtype : smt_sort) : Option array_convt :=
  match (s.array_valuation[vi]?).bind (fun d => d[idx + 1]?),
        (s.array_values[arr]?).bind (fun v => v[idx + 1]?),
        (s.array_updates[arr]?).bind (fun u => u[idx + 1]?) with
  | some dest0, some sels, some w =>
    match collate_array_values s.ctx dest0 idx_map sels subtype none with
    | none => none
    | some (c1, dest) =>
      match update_at s.array_valuation vi (fun d => d.set (idx + 1) dest) with
      | none => none
      | some valuation1 =>
        let s1 := { s with array_valuation := valuation1, ctx := c1 }
        match w with
        | array_with.i t f cond =>
          if t.base_array_id ≠ f.base_array_id then
            execute_array_joining_ite s1 vi (idx + 1) arr t f idx_map cond subtype
          else if t.array_update_num < idx + 1 ∧ f.array_update_num < idx + 1 then
            match (valuation1[vi]?).bind (fun d => d[t.array_update_num]?),
                  (valuation1[vi]?).bind (fun d => d[f.array_update_num]?) with
            | some tv, some fv =>
              match execute_array_ite dest tv fv cond idx_map.length 0 c1 with
              | none => none
              | some c2 => some { s1 with ctx := c2 }
            | _, _ => none
          else none
        | array_with.w widx src val =>
          match valuation1[vi]? with
          | none => none
          | some data =>
            match execute_array_update c1 data (idx + 1) src idx_map widx val with
            | none => none
            | some (c2, data1) =>
              some { s1 with array_valuation := valuation1.set vi data1, ctx := c2 }
        | array_with.placeholder => none
  | _, _, _ => none

def add_array_constraints_loop (vi arr : Nat) (idx_map : List expr2tc) (subtype : smt_sort) :
    Nat → Nat → array_convt → Option array_convt
  | 0, _, s => some s
  | n + 1, i, s =>
    match execute_array_trans s vi arr i idx_map subtype with
    | none => none
    | some s1 => add_array_constraints_loop vi arr idx_map subtype n (i + 1) s1

/-- `add_array_constraints`. -/
def add_array_constraints (s : array_convt) (arr : Nat) : Option array_convt :=
  match s.array_indexes[arr]?, s.array_subtypes[arr]?, s.array_values[arr]? with
  | some indexes, some subtype, some values =>
    let vi := s.array_valuation.length
    let data0 : List ast_vect := values.map (fun _ => indexes.map (fun _ => none))
    match data0[0]?, values[0]? with
    | some vals0, some sels0 =>
      match collate_array_values s.ctx vals0 indexes sels0 subtype
              (s.array_of_vals.lookup arr) with
      | none => none
      | some (c1, row0) =>
        match add_initial_ackerman_constraints c1 row0 indexes with
        | none => none
        | some c2 =>
          add_array_constraints_loop vi arr indexes subtype (values.length - 1) 0
            { s with array_valuation := s.array_valuation ++ [data0.set 0 row0], ctx := c2 }
    | _, _ => none
  | _, _, _ => none

def add_array_equalities_lits : ast_vect → ast_vect → Option (List smt_ast)
  | [], _ => some []
  | some x :: xs, some y :: ys =>
    match add_array_equalities_lits xs ys with
    | none => none
    | some l => some (smt_ast.eq x y :: l)
  | _, _ => none

/-- `add_array_equalities`. -/
def add_array_equalities_loop : List array_equality → array_convt → Option array_convt
  | [], s => some s
  | e :: rest, s =>
    match s.array_indexes[e.arr1_id]?, s.array_indexes[e.arr2_id]?,
          (s.array_valuation[e.arr1_id]?).bind (fun d => d[e.arr1_update_num]?),
          (s.array_valuation[e.arr2_id]?).bind (fun d => d[e.arr2_update_num]?) with
    | some i1, some i2, some a1, some a2 =>
      if array_indexes_are_same i1 i2 = false then none
      else
        match add_array_equalities_lits a1 a2 with
        | none => none
        | some lits =>
          add_array_equalities_loop rest
            { s with ctx := s.ctx.assert_ast (smt_ast.eq e.result (make_conjunct lits)) }
    | _, _, _, _ => none

def add_array_equalities (s : array_convt) : Option array_convt :=
  add_array_equalities_loop s.array_equalities s

def add_all_array_constraints : Nat → Nat → array_convt → Option array_convt
  | 0, _, s => some s
  | n + 1, i, s =>
    match add_array_constraints s i with
    | none => none
    | some s1 => add_all_array_constraints n (i + 1) s1

/-- `add_array_constraints_for_solving`. -/
def add_array_constraints_for_solving (s : array_convt) : Option array_convt :=
  match join_array_indexes s with
  | none => none
  | some s1 =>
    match add_all_array_constraints s1.array_indexes.length 0 s1 with
    | none => none
    | some s2 => add_array_equalities s2

end array_convt

/-! ## The k-induction driver (`parseoptions.cpp`) -/

inductive STEP where
  | NONE
  | BASE_CASE
  | FORWARD_CONDITION
  | INDUCTIVE_STEP
  deriving DecidableEq, Repr

/-- The record sent through the pipe. -/
structure resultt where
  step : STEP
  result : Int
  k : Nat
  finished : Bool
  deriving DecidableEq, Repr

inductive verdict where
  | VERIFICATION_UNKNOWN
  | VERIFICATION_FAILED
  | VERIFICATION_SUCCESSFUL
  deriving DecidableEq, Repr

/-- Conversion of an unsigned value to `short int`. -/
def to_short (n : Nat) : Int := (((n + 32768) % 65536 : Nat) : Int) - 32768

/-- The local variables of the parent of the parallel k-induction. -/
structure parent_state where
  results : List resultt
  bc_res : List Bool
  fc_res : List Bool
  is_res : List Bool
  solution_found : Int
  bc_finished : Bool
  fc_finished : Bool
  is_finished : Bool
  deriving DecidableEq, Repr

/-- The value the parent writes into the first three records of its buffer. -/
def invalid_result : resultt :=
  { step := STEP.NONE, result := -1, k := 51, finished := false }

/-- The parent's variables when it enters its loop. `MAX_STEPS` comes from a
header outside the sources and is a parameter; `garbage` stands for the
uninitialised records `results[3..]`. -/
def parent_init (MAX_STEPS : Nat) (garbage : List resultt) : parent_state :=
  { results := ([invalid_result, invalid_result, invalid_result] ++ garbage).take (MAX_STEPS * 3),
    bc_res := List.replicate MAX_STEPS false,
    fc_res := List.replicate MAX_STEPS true,
    is_res := List.replicate MAX_STEPS true,
    solution_found := 0,
    bc_finished := false, fc_finished := false, is_finished := false }

/-- Assignment `table[k] = value` to one of the result tables. -/
def table_set (table : List Bool) (k : Nat) (value : Bool) : Option (List Bool) :=
  if k < table.length then some (table.set k value) else none

/-- The `switch` of the parent's inner loop, for one record. -/
def parent_record (st : parent_state) (r : resultt) : Option parent_state :=
  match r.step with
  | STEP.BASE_CASE =>
    if r.finished then some { st with bc_finished := true }
    else
      match table_set st.bc_res r.k (decide (r.result ≠ 0)) with
      | none => none
      | some t =>
        some { st with bc_res := t,
                       solution_found := if r.result ≠ 0 then to_short r.k else st.solution_found }
  | STEP.FORWARD_CONDITION =>
    if r.finished then some { st with fc_finished := true }
    else
      match table_set st.fc_res r.k (decide (r.result ≠ 0)) with
      | none => none
      | some t =>
        some { st with fc_res := t,
                       solution_found := if r.result = 0 then to_short r.k else st.solution_found }
  | STEP.INDUCTIVE_STEP =>
    if r.finished then some { st with is_finished := true }
    else
      match table_set st.is_res r.k (decide (r.result ≠ 0)) with
      | none => none
      | some t =>
        some { st with is_res := t,
                       solution_found := if r.result = 0 then to_short r.k else st.solution_found }
  | STEP.NONE => some st

/-- The parent's inner `while`: the records of the buffer up to the first one
whose result is -1. -/
def parent_scan : List resultt → parent_state → Option parent_state
  | [], st => some st
  | r :: rest, st =>
    if r.result = -1 then some st
    else
      match parent_record st r with
      | none => none
      | some st1 => parent_scan rest st1

/-- What one turn of the parent's outer loop observes: the records the `read`
delivers and whether `waitpid` reports each child as gone. -/
structure poll where
  incoming : List resultt
  exited0 : Bool
  exited1 : Bool
  exited2 : Bool
  deriving DecidableEq, Repr

/-- The buffer after `read(commPipe[0], results, sizeof(results))`: the records
delivered overwrite the front of the buffer, the rest keeps its old content. -/
def poll_buffer (st : parent_state) (p : poll) : List resultt :=
  (p.incoming ++ st.results.drop p.incoming.length).take st.results.length

/-- One turn of the parent's outer loop. -/
def parent_turn (st : parent_state) (p : poll) : Option parent_state :=
  let st1 := { st with results := poll_buffer st p,
                       bc_finished := st.bc_finished || p.exited0,
                       fc_finished := st.fc_finished || p.exited1,
                       is_finished := st.is_finished || p.exited2 }
  parent_scan st1.results st1

/-- The records of a buffer the inner loop hands to its `switch`. -/
def scanned : List resultt → List resultt
  | [] => []
  | r :: rest => if r.result = -1 then [] else r :: scanned rest

/-- The parent's outer loop over the turns the environment allows; `none` also
when the turns run out while the loop condition still holds. -/
def parent_loop : List poll → parent_state → Option parent_state
  | [], st =>
    if ¬ (st.bc_finished ∧ st.fc_finished ∧ st.is_finished) ∧ st.solution_found = 0 then none
    else some st
  | p :: rest, st =>
    if ¬ (st.bc_finished ∧ st.fc_finished ∧ st.is_finished) ∧ st.solution_found = 0 then
      match parent_turn st p with
      | none => none
      | some st1 => parent_loop rest st1
    else some st

/-- The sequence of records the parent processes during its loop. -/
def parent_processed : List poll → parent_state → List resultt
  | [], _ => []
  | p :: rest, st =>
    if ¬ (st.bc_finished ∧ st.fc_finished ∧ st.is_finished) ∧ st.solution_found = 0 then
      scanned (poll_buffer st p) ++
        (match parent_turn st p with
         | none => []
         | some st1 => parent_processed rest st1)
    else []

/-- Lookup `table[solution_found]`. -/
def table_get (table : List Bool) (i : Int) : Option Bool :=
  if 0 ≤ i then table[i.toNat]? else none

/-- The verdict lines the parent prints after its loop, in order. -/
def parent_verdicts (st : parent_state) : Option (List verdict) :=
  match table_get st.bc_res st.solution_found, table_get st.fc_res st.solution_found,
        table_get st.is_res st.solution_found with
  | some bc, some fc, some is_ =>
    some ((if st.solution_found = 0 then [verdict.VERIFICATION_UNKNOWN] else [])
      ++ (if bc then [verdict.VERIFICATION_FAILED] else [])
      ++ (if !bc && !fc then [verdict.VERIFICATION_SUCCESSFUL] else [])
      ++ (if !bc && !is_ then [verdict.VERIFICATION_SUCCESSFUL] else []))
  | _, _, _ => none

/-- The parent branch of `doit_k_induction`: loop, then verdict. -/
def parent_run (MAX_STEPS : Nat) (garbage : List resultt) (polls : List poll) :
    Option (List verdict) :=
  match parent_loop polls (parent_init MAX_STEPS garbage) with
  | none => none
  | some st => parent_verdicts st

/-- Modelled from the spec: `startSolving` belongs to the worker classes of
`kinduction_parallel.h`, which is not part of the sources; per the spec a call
runs the BMC driver for the current k and returns the record of that run, with
`finished = false`. -/
def startSolving (role : STEP) (k : Nat) (result : Int) : resultt :=
  { step := role, result := result, k := k, finished := false }

/-- The test after which a worker returns early: non-zero for the base case,
zero for the forward condition and the inductive step. -/
def worker_returns (role : STEP) (result : Int) : Bool :=
  match role with
  | STEP.BASE_CASE => decide (result ≠ 0)
  | _ => decide (result = 0)

/-- The `for` loop of a worker and what follows it: records written to the pipe
and the value returned. `n` is the number of iterations left, `r` the record
variable. -/
def worker_loop (role : STEP) (solve : Nat → Int) : Nat → Nat → resultt → List resultt × Int
  | 0, _, r => ([{ r with finished := true }], 0)
  | n + 1, k, _ =>
    let r := startSolving role k (solve k)
    if worker_returns role r.result then ([r], r.result)
    else
      let (l, code) := worker_loop role solve n (k + 1) r
      (r :: l, code)

/-- The first value of `k_step` in a worker's loop. -/
def worker_start (role : STEP) : Nat :=
  match role with
  | STEP.BASE_CASE => 1
  | _ => 2

/-- A worker from the point where it opens its record: `uninit` stands for the
uninitialised `result` field of the record variable. -/
def worker (role : STEP) (max_k_step : Int) (solve : Nat → Int) (uninit : Int) :
    List resultt × Int :=
  worker_loop role solve (max_k_step + 1 - (worker_start role : Int)).toNat (worker_start role)
    { step := role, result := uninit, k := 0, finished := false }

/-- How a run of the driver ends. -/
inductive outcome where
  | returned (code : Int)
  | exited (code : Int)
  deriving DecidableEq, Repr

/-- What `doit` asks of the command line and of the functions it calls. -/
structure doit_env where
  version : Bool
  module : Bool
  gen_interface : Bool
  preprocess : Bool
  show_claims : Bool
  get_command_line_options : Option Int
  get_goto_program : Bool
  set_claims : Bool
  do_bmc : Int
  deriving DecidableEq, Repr

/-- `cbmc_parseoptionst::doit`. `get_command_line_options` is `some code` when
the option handling ends the process with that code. -/
def doit (e : doit_env) : outcome :=
  if e.version then outcome.returned 0
  else if e.module || e.gen_interface then outcome.returned 1
  else
    match e.get_command_line_options with
    | some code => outcome.exited code
    | none =>
      if e.preprocess then outcome.returned 0
      else if e.get_goto_program then outcome.returned 6
      else if e.show_claims then outcome.returned 0
      else if e.set_claims then outcome.returned 7
      else outcome.returned e.do_bmc

/-- The set-up of one configuration (base case, forward condition or inductive
step) in `doit_k_induction`. -/
structure config_env where
  get_command_line_options : Option Int
  get_goto_program : Bool
  set_claims : Bool
  deriving DecidableEq, Repr

/-- Set-up of one configuration in the sequential part: `some o` when the
driver ends there, `none` when it goes on. -/
def setup_sequential (show_claims : Bool) (c : config_env) : Option outcome :=
  match c.get_command_line_options with
  | some code => some (outcome.exited code)
  | none =>
    if c.get_goto_program then some (outcome.returned 6)
    else if show_claims then some (outcome.returned 0)
    else if c.set_claims then some (outcome.returned 7)
    else none

/-- Set-up of one configuration in a worker process. -/
def setup_worker (c : config_env) : Option outcome :=
  match c.get_command_line_options with
  | some code => some (outcome.exited code)
  | none =>
    if c.get_goto_program then some (outcome.returned 6)
    else if c.set_claims then some (outcome.returned 7)
    else none

/-- What the sequential path of `doit_k_induction` asks of the command line
and of the functions it calls; `loop` is the value its do-while loop returns. -/
structure k_induction_env where
  version : Bool
  module : Bool
  gen_interface : Bool
  preprocess : Bool
  show_claims : Bool
  base_case : config_env
  forward_condition : config_env
  inductive_step : config_env
  loop : Int
  deriving DecidableEq, Repr

/-- `cbmc_parseoptionst::doit_k_induction` without `--k-induction-parallel`:
the three configurations are set up in turn, then the loop runs. -/
def doit_k_induction (e : k_induction_env) : outcome :=
  if e.version then outcome.returned 0
  else if e.module || e.gen_interface then outcome.returned 1
  else if e.preprocess then outcome.returned 0
  else
    match setup_sequential e.show_claims e.base_case with
    | some o => o
    | none =>
      match setup_sequential e.show_claims e.forward_condition with
      | some o => o
      | none =>
        match setup_sequential e.show_claims e.inductive_step with
        | some o => o
        | none => outcome.returned e.loop

/-- A worker process of the parallel part: set-up, then the loop; the records
written and how the process ends. -/
def doit_k_induction_worker (role : STEP) (c : config_env) (max_k_step : Int)
    (solve : Nat → Int) (uninit : Int) : List resultt × outcome :=
  match setup_worker c with
  | some o => ([], o)
  | none =>
    let (l, code) := worker role max_k_step solve uninit
    (l, outcome.returned code)

/-- Invariant of the parent's loop while no base-case record reports a
violation: the tables keep their size, no base-case entry is set, and
`solution_found` is zero exactly as long as no forward-condition or
inductive-step record reported success; afterwards it is the `k` of such a
record of the trace `T`, whose table entry is still clear. -/
def parent_inv (MAX_STEPS : Nat) (T seen : List resultt) (st : parent_state) : Prop :=
  st.bc_res.length = MAX_STEPS ∧ st.fc_res.length = MAX_STEPS ∧ st.is_res.length = MAX_STEPS ∧
  (∀ k : Nat, st.bc_res[k]? = some true → False) ∧
  ((st.solution_found = 0 ∧
      ∀ r ∈ seen, r.finished = false →
        (r.step = STEP.FORWARD_CONDITION ∨ r.step = STEP.INDUCTIVE_STEP) → r.result ≠ 0) ∨
   (∃ r ∈ T, r.finished = false ∧ r.result = 0 ∧ st.solution_found = (r.k : Int) ∧
      ((r.step = STEP.FORWARD_CONDITION ∧ st.fc_res[r.k]? = some false) ∨
       (r.step = STEP.INDUCTIVE_STEP ∧ st.is_res[r.k]? = some false))))

/-! ## Values used in the worked examples -/

def sort_bv32 : smt_sort :=
  { id := smt_sort_kind.SMT_SORT_BV, data_width := 32, domain_width := 0 }

/-- A bounded array sort: four elements. -/
def sort_array2 : smt_sort :=
  { id := smt_sort_kind.SMT_SORT_ARRAY, data_width := 32, domain_width := 2 }

/-- An unbounded array sort. -/
def sort_array32 : smt_sort :=
  { id := smt_sort_kind.SMT_SORT_ARRAY, data_width := 32, domain_width := 32 }

/-- A run of `doit` in which loading the program fails. -/
def example_doit_env : doit_env :=
  { version := false, module := false, gen_interface := false, preprocess := false,
    show_claims := false, get_command_line_options := none,
    get_goto_program := true, set_claims := false, do_bmc := 0 }

/-- A sequential k-induction run in which the forward-condition configuration
fails to set its claims. -/
def example_k_induction_env : k_induction_env :=
  { version := false, module := false, gen_interface := false, preprocess := false,
    show_claims := false,
    base_case := { get_command_line_options := none, get_goto_program := false,
                   set_claims := false },
    forward_condition := { get_command_line_options := none, get_goto_program := false,
                           set_claims := true },
    inductive_step := { get_command_line_options := none, get_goto_program := false,
                        set_claims := false },
    loop := 0 }

/-- A poll that delivers the given records while every child is still alive. -/
def poll_of (incoming : List resultt) : poll :=
  { incoming := incoming, exited0 := false, exited1 := false, exited2 := false }

/-- The buffer tail `results[3..149]` for `MAX_STEPS = 50`, filled with records
the inner loop stops at. -/
def quiet_garbage : List resultt := List.replicate 147 invalid_result

/-! ## Notions used in the statements about `join_array_indexes` -/

/-- Two base ids are directly joined when they are the two sources of a
cross-base ite record or the two sides of a recorded array equality. -/
def joined (s : array_convt) (a b : Nat) : Prop :=
  (∃ us ∈ s.array_updates, ∃ t f c, array_with.i t f c ∈ us ∧
      t.base_array_id ≠ f.base_array_id ∧ a = t.base_array_id ∧ b = f.base_array_id) ∨
  (∃ e ∈ s.array_equalities, a = e.arr1_id ∧ b = e.arr2_id)

/-- An ite record between two different bases sits in the update list of the
smaller base id, where `unbounded_array_ite` files it. -/
def ite_record_placed (arrid : Nat) : array_with → Bool
  | array_with.i t f _ =>
    decide (t.base_array_id = f.base_array_id) ||
      decide (arrid = min t.base_array_id f.base_array_id)
  | _ => true

/-- The placement test for the update lists of the base ids `k, k+1, ...`. -/
def placed_from : Nat → List (List array_with) → Bool
  | _, [] => true
  | k, us :: rest => us.all (ite_record_placed k) && placed_from (k + 1) rest

/-- Every ite record of the history sits where `unbounded_array_ite` files it. -/
def ite_records_placed (s : array_convt) : Bool := placed_from 0 s.array_updates

/-- The set stored at position `j` of a vector of sets (empty when there is no
such position). -/
def entry_of {α : Type} (L : List (List α)) (j : Nat) : List α := (L[j]?).getD []

/-- The index set of a base id. -/
def index_set (s : array_convt) (a : Nat) : List expr2tc := entry_of s.array_indexes a

/-- Three unbounded arrays `a`, `b`, `c` (base ids 0, 1, 2), one select on each
(at the indexes `symbol 0`, `symbol 1`, `symbol 2`) and the ite of `a` and `b`. -/
def example_ite_history : Option array_convt :=
  (array_convt.mk_array_symbol array_convt.init sort_array32 sort_bv32).bind fun (s, a) =>
  (array_convt.mk_array_symbol s sort_array32 sort_bv32).bind fun (s, b) =>
  (array_convt.mk_array_symbol s sort_array32 sort_bv32).bind fun (s, c) =>
  (array_convt.mk_unbounded_select s a (expr2tc.symbol 0) sort_bv32).bind fun (s, _) =>
  (array_convt.mk_unbounded_select s b (expr2tc.symbol 1) sort_bv32).bind fun (s, _) =>
  (array_convt.mk_unbounded_select s c (expr2tc.symbol 2) sort_bv32).bind fun (s, _) =>
  (array_convt.unbounded_array_ite s (smt_ast.term 0) a b sort_array32).map fun (s, _) => s

def example_ite_state : array_convt := example_ite_history.getD array_convt.init

/-- The example history after `join_array_indexes`. -/
def example_ite_joined : array_convt :=
  (array_convt.join_array_indexes example_ite_state).getD example_ite_state

/-- Closedness of the grouping sets at the fixed point. -/
def closed_groupings (G : List (List Nat)) : Prop :=
  ∀ j, j < G.length → ∀ t ∈ entry_of G j, t < G.length ∧ ∀ x ∈ entry_of G j, x ∈ entry_of G t

/-! ## Notions used in the statements about solving -/

/-- Two-level lookup `v[b][u]`. -/
def at2 {α : Type} (v : List (List α)) (b u : Nat) : Option α := (v[b]?).bind (fun l => l[u]?)

/-- A select of index `j` with result `r` is on file at update `u` of base `b`,
and every record of that index filed there holds `r`. -/
def select_filed (s : array_convt) (b u : Nat) (j : expr2tc) (r : smt_ast) : Prop :=
  ∃ sels, at2 s.array_values b u = some sels ∧ (∃ sel ∈ sels, sel.idx = j ∧ sel.val = r) ∧
    ∀ sel ∈ sels, sel.idx = j → sel.val = r

/-- The select lists and the update lists have the same shape, and every base
has at least the placeholder record: what `new_array_id`, `mk_unbounded_store`
and `unbounded_array_ite` maintain. -/
def history_in_step (s : array_convt) : Bool :=
  decide (s.array_values.map List.length = s.array_updates.map List.length) &&
    s.array_updates.all (fun us => decide (1 ≤ us.length))

/-- What solve-time and select steps may do to a history: update records,
subtypes, initial values and equalities stay; index sets only grow; select
lists only grow, by records whose index is not yet in the list; assertions are
only added. -/
def history_le (s s' : array_convt) : Prop :=
  s'.array_updates = s.array_updates ∧ s'.array_subtypes = s.array_subtypes ∧
  s'.array_of_vals = s.array_of_vals ∧ s'.array_equalities = s.array_equalities ∧
  (∀ (b : Nat) (is : List expr2tc), s.array_indexes[b]? = some is →
    ∃ is', s'.array_indexes[b]? = some is' ∧ ∀ x ∈ is, x ∈ is') ∧
  (∀ (b u : Nat) (sels : List array_select), at2 s.array_values b u = some sels →
    ∃ extra, at2 s'.array_values b u = some (sels ++ extra) ∧
      ∀ x ∈ extra, ∀ y ∈ sels, x.idx ≠ y.idx) ∧
  (∀ a ∈ s.ctx.assertions, a ∈ s'.ctx.assertions)

/-- The history of the read-over-write example: one unbounded array. -/
def example_row_s0 : array_convt :=
  ((array_convt.mk_array_symbol array_convt.init sort_array32 sort_bv32).map Prod.fst).getD
    array_convt.init

/-- The array term of the example. -/
def example_row_a : array_ast :=
  { sort := sort_array32, base_array_id := 0, array_update_num := 0, array_fields := [] }

/-- The history after the store of `term 7` at `symbol 0`. -/
def example_row_s1 : array_convt :=
  ((array_convt.mk_unbounded_store example_row_s0 example_row_a (expr2tc.symbol 0)
      (smt_ast.term 7) sort_array32).map Prod.fst).getD array_convt.init

/-- The array term the store returns. -/
def example_row_a1 : array_ast :=
  { sort := sort_array32, base_array_id := 0, array_update_num := 1, array_fields := [] }

/-- The history after the select at `symbol 1`. -/
def example_row_s2 : array_convt :=
  ((array_convt.mk_unbounded_select example_row_s1 example_row_a1 (expr2tc.symbol 1)
      sort_bv32).map Prod.fst).getD array_convt.init

/-- The flattener after solving. -/
def example_row_s3 : array_convt :=
  (array_convt.add_array_constraints_for_solving example_row_s2).getD array_convt.init

/-- A model in which all index expressions have the value 0 and every variable
and term the value 5. -/
def example_row_model : model :=
  { fresh := fun _ => 5, term := fun _ => 5, index := fun _ => 0 }

/-! ## Notions used in the statements about Ackermann consistency -/

/-- The term `mk_unbounded_select` answers for index `e` at update `ur` of base
`r`: the value of the with-record at that very index expression, or else the
variable of the select record on file. -/
def select_promise (s : array_convt) (r ur : Nat) (e : expr2tc) (a : smt_ast) : Prop :=
  (ur ≠ 0 ∧ ∃ src, at2 s.array_updates r ur = some (array_with.w e src a)) ∨
  (¬ (ur ≠ 0 ∧ ∃ src val, at2 s.array_updates r ur = some (array_with.w e src val)) ∧
    select_filed s r ur e a)

/-- No select list holds two records of the same index expression. -/
def selects_nodup (s : array_convt) : Prop :=
  ∀ b u sels, at2 s.array_values b u = some sels → (sels.map array_select.idx).Nodup

/-- The grouping sets of `join_array_indexes` for `n` base ids: one set per
base id, each in container order and holding base ids only. -/
def group_inv (n : Nat) (G : List (List Nat)) : Prop :=
  G.length = n ∧ ∀ g ∈ G, g.Pairwise (fun x y => x < y) ∧ ∀ x ∈ g, x < n

/-- The number of entries of all grouping sets together. -/
def total_size (G : List (List Nat)) : Nat := (G.map List.length).sum

/-- The base ids named by an update record are ids of the history. -/
def record_ids_in_range (n : Nat) : array_with → Bool
  | array_with.i t f _ => decide (t.base_array_id < n) && decide (f.base_array_id < n)
  | _ => true

/-- Every base id named by an ite record or by a recorded equality is an id of
the history. -/
def ids_in_range (s : array_convt) : Bool :=
  s.array_updates.all (fun us => us.all (record_ids_in_range s.array_updates.length)) &&
  s.array_equalities.all (fun e =>
    decide (e.arr1_id < s.array_updates.length) && decide (e.arr2_id < s.array_updates.length))

/-! ## The timeout handler (`parseoptions.cpp`) -/

/-- The global flags `_k_induction`, `_base_case` and `_forward_condition` the
timeout handler reads. -/
structure process_flags where
  k_induction : Bool
  base_case : Bool
  forward_condition : Bool
  deriving DecidableEq, Repr

/-- The flags at program start. -/
def process_flags.init : process_flags :=
  { k_induction := false, base_case := false, forward_condition := false }

/-- The flags of a process of the parallel k-induction once it has entered its
branch of the `switch`: `doit_k_induction` sets `_k_induction` before it forks,
the base-case worker sets `_base_case`, the forward-condition worker sets
`_forward_condition`, the inductive-step worker and the parent set nothing. -/
def worker_flags (role : STEP) : process_flags :=
  let f := { process_flags.init with k_induction := true }
  match role with
  | STEP.BASE_CASE => { f with base_case := true }
  | STEP.FORWARD_CONDITION => { f with forward_condition := true }
  | STEP.INDUCTIVE_STEP => f
  | STEP.NONE => f

/-- `timeout_handler`: the records written to the pipe and how the process
ends; `uninit` stands for the `result` field, which the handler leaves
uninitialised. -/
def timeout_handler (f : process_flags) (uninit : Int) : List resultt × outcome :=
  let written : List resultt :=
    if f.k_induction then
      [{ step := if f.base_case then STEP.BASE_CASE
                 else if f.forward_condition then STEP.FORWARD_CONDITION
                 else STEP.INDUCTIVE_STEP,
         result := uninit, k := 0, finished := true }]
    else []
  (written, outcome.exited 1)

/-! ## Values used in the examples about update numbers -/

/-- Two unbounded arrays `a` (base 0) and `b` (base 1), the store of `term 7`
at `symbol 0` into `a`, and the ite with `b` as the true side and the stored
array as the false side; the result is the final history with the array term
the ite returns. -/
def example_ite_swapped : Option (array_convt × array_ast) :=
  (array_convt.mk_array_symbol array_convt.init sort_array32 sort_bv32).bind fun (s, a) =>
  (array_convt.mk_array_symbol s sort_array32 sort_bv32).bind fun (s, b) =>
  (array_convt.mk_unbounded_store s a (expr2tc.symbol 0) (smt_ast.term 7) sort_array32).bind
    fun (s, a1) =>
  array_convt.unbounded_array_ite s (smt_ast.term 0) b a1 sort_array32

/-! ## Values used in the example about array equalities -/

/-- The sort of booleans, as `encode_array_equality` builds it. -/
def sort_bool : smt_sort :=
  { id := smt_sort_kind.SMT_SORT_BOOL, data_width := 1, domain_width := 0 }

/-- Two unbounded arrays `a` and `b`, a select on `a` at `symbol 0`, a select on
`b` at `symbol 1` and the equality of `a` and `b`. -/
def example_eq_history : Option array_convt :=
  (array_convt.mk_array_symbol array_convt.init sort_array32 sort_bv32).bind fun (s, a) =>
  (array_convt.mk_array_symbol s sort_array32 sort_bv32).bind fun (s, b) =>
  (array_convt.mk_unbounded_select s a (expr2tc.symbol 0) sort_bv32).bind fun (s, _) =>
  (array_convt.mk_unbounded_select s b (expr2tc.symbol 1) sort_bv32).map fun (s, _) =>
  (array_convt.encode_array_equality s a b).1

def example_eq_state : array_convt := example_eq_history.getD array_convt.init

/-- The example history after solving. -/
def example_eq_solved : array_convt :=
  (array_convt.add_array_constraints_for_solving example_eq_state).getD array_convt.init

/-- A model in which index expressions and element variables have the value 0
and the result variable of the equality (variable 2) is true. -/
def example_eq_model : model :=
  { fresh := fun n => if n = 2 then 1 else 0, term := fun _ => 0, index := fun _ => 0 }

/-! ## The sequential k-induction loop (`parseoptions.cpp`) -/

/-- One BMC run of the sequential loop: the configuration, the unwind bound it
ran with and the value `do_bmc` returned (`true`: the check failed). -/
structure bmc_run where
  step : STEP
  unwind : Int
  res : Bool
  deriving DecidableEq, Repr

/-- The variables of the do-while loop of `doit_k_induction`: the phase flags,
`k_step` and the `unwind` option shared by the three configurations. -/
structure seq_state where
  base_case : Bool
  forward_condition : Bool
  k_step : Int
  unwind : Int
  deriving DecidableEq, Repr

/-- How the sequential loop ends: the value returned, whether the loop ran out
of bounds to try (the "giving up" exit) and the BMC runs made, in order. -/
structure seq_result where
  code : Int
  exhausted : Bool
  trace : List bmc_run
  deriving DecidableEq, Repr

/-- The loop condition `k_step <= max_k_step` at the end of an iteration: go
round again (with the fuel left) or give up. -/
def seq_continue (max_k_step : Int) (st : seq_state) (trace : List bmc_run)
    (again : seq_state → List bmc_run → Option seq_result) : Option seq_result :=
  if st.k_step ≤ max_k_step then again st trace
  else some { code := 0, exhausted := true, trace := trace }

/-- The do-while loop of the sequential k-induction, for at most `fuel`
iterations; `results n` is the value the `n`-th call of `do_bmc` returns. Every
iteration ends by setting `unwind` to `k_step`. -/
def sequential_loop (max_k_step : Int) (results : Nat → Bool) :
    Nat → seq_state → List bmc_run → Option seq_result
  | 0, _, _ => none
  | fuel + 1, st, trace =>
    let res := results trace.length
    if st.base_case then
      let trace1 := trace ++ [{ step := STEP.BASE_CASE, unwind := st.unwind, res := res }]
      if res then some { code := 1, exhausted := false, trace := trace1 }
      else
        seq_continue max_k_step
          { base_case := false, forward_condition := true, k_step := st.k_step + 1,
            unwind := st.k_step + 1 } trace1 (sequential_loop max_k_step results fuel)
    else if st.forward_condition then
      let trace1 := trace ++ [{ step := STEP.FORWARD_CONDITION, unwind := st.unwind, res := res }]
      if !res then some { code := 0, exhausted := false, trace := trace1 }
      else
        seq_continue max_k_step
          { st with forward_condition := false, unwind := st.k_step } trace1
          (sequential_loop max_k_step results fuel)
    else
      let trace1 := trace ++ [{ step := STEP.INDUCTIVE_STEP, unwind := st.unwind, res := res }]
      if !res then some { code := 0, exhausted := false, trace := trace1 }
      else
        seq_continue max_k_step
          { st with base_case := true, unwind := st.k_step } trace1
          (sequential_loop max_k_step results fuel)

/-- The loop variables when the loop is entered: the phase flags and `k_step`
are members set outside the sources and are parameters; the `unwind` option of
the three configurations was set from `k_step` by `get_command_line_options`. -/
def seq_init (base_case forward_condition : Bool) (k_step : Int) : seq_state :=
  { base_case := base_case, forward_condition := forward_condition, k_step := k_step,
    unwind := k_step }

/-- The sequential loop of `doit_k_induction`. -/
def sequential_run (max_k_step : Int) (results : Nat → Bool) (base_case forward_condition : Bool)
    (k_step : Int) : Option seq_result :=
  sequential_loop max_k_step results (3 * (max_k_step + 1 - k_step).toNat + 3)
    (seq_init base_case forward_condition k_step) []

/-- Invariant of the sequential loop: `unwind` equals `k_step` at the start of
every iteration, and outside the base-case phase the base case has passed at
the bound below the current one. -/
def seq_inv (st : seq_state) (trace : List bmc_run) : Prop :=
  st.unwind = st.k_step ∧
  (st.base_case = true ∨
    ({ step := STEP.BASE_CASE, unwind := st.unwind - 1, res := false } : bmc_run) ∈ trace)

/-- The number of iterations the loop can still make, up to the bounds left:
the weight of the phase within one bound. -/
def seq_phase_weight (st : seq_state) : Nat :=
  if st.base_case then 0 else if st.forward_condition then 2 else 1

/-- The results of the example run: every check passes. -/
def example_results : Nat → Bool := fun _ => false

/-! ## Expressions and symbols of the intermediate representation -/

mutual
/-- Types, as far as `symex_malloc` and the monitor instrumentation build
them; `dynamic t` is the type `t` with its `dynamic` attribute set. -/
inductive typet where
  | nil
  | bool
  | signedbv (width : Nat)
  | pointer (subtype : typet)
  | array (subtype : typet) (size : exprt)
  | dynamic (type : typet)
  | other (n : Nat)
  deriving DecidableEq, Repr
/-- Expressions and code, as far as `symex_malloc` and the monitor
instrumentation build and inspect them; `other` stands for every other
expression. -/
inductive exprt where
  | nil
  | constant (value : Int)
  | constant_bool (value : Bool)
  | symbol (identifier : String)
  | address_of (op0 : exprt)
  | index (op0 op1 : exprt)
  | typecast (type : typet) (op0 : exprt)
  | pointer_object (op0 : exprt)
  | code_assign (lhs rhs : exprt)
  | code_function_call (lhs function : exprt)
  | other (n : Nat)
  deriving DecidableEq, Repr
end

/-- The decimal rendering `i2string`. -/
def i2string (n : Nat) : String := Nat.repr n

/-- First operand of an expression; `none` when there is no operand. -/
def exprt.op0 : exprt → Option exprt
  | exprt.address_of x => some x
  | exprt.index x _ => some x
  | exprt.typecast _ x => some x
  | exprt.pointer_object x => some x
  | exprt.code_assign l _ => some l
  | exprt.code_function_call l _ => some l
  | _ => none

/-- `std::string::find` from the start: the first position at which `needle`
occurs in the text. -/
def str_find_from (needle : List Char) : List Char → Nat → Option Nat
  | [], i => if needle = [] then some i else none
  | c :: cs, i =>
    if needle = (c :: cs).take needle.length then some i
    else str_find_from needle cs (i + 1)

def str_find (needle text : String) : Option Nat := str_find_from needle.toList text.toList 0

/-- `std::string::substr(pos)`: the text from position `pos` on; beyond the end
of the text it throws. -/
def str_substr (text : String) (pos : Nat) : Option String :=
  if pos ≤ text.length then some (String.mk (text.toList.drop pos)) else none

/-- Assignment `m[k] = v` to a map kept in key order, the order of the
characters of the keys. -/
def map_assign {β : Type} (k : String) (v : β) : List (String × β) → List (String × β)
  | [] => [(k, v)]
  | (k', v') :: rest =>
    if k = k' then (k, v) :: rest
    else if k.toList < k'.toList then (k, v) :: (k', v') :: rest
    else (k', v') :: map_assign k v rest

/-- The text a property symbol holds: the characters of the operands of its
value up to the first zero. `strtol2 v` is `strtol(v, NULL, 2)`. -/
def property_text (strtol2 : String → Int) : List String → List Char
  | [] => []
  | v :: rest =>
    let c := (strtol2 v % 256).toNat
    if c ≠ 0 then Char.ofNat c :: property_text strtol2 rest else []

/-- First loop of `add_property_monitors`: the map `strings` of the symbols
collected as property definitions. A symbol is its name with the values of the
operands of its value. -/
def add_property_monitors_strings (strtol2 : String → Int)
    (symbols : List (String × List String)) : List (String × String) :=
  symbols.foldl
    (fun strings sym =>
      if str_find "__ESBMC_property_" sym.1 ≠ none then
        map_assign sym.1 (String.mk (property_text strtol2 sym.2)) strings
      else strings) []

/-- The name `add_property_monitors` derives for the monitor of a collected
symbol: the name of the symbol without its first 20 characters. -/
def property_name (key : String) : Option String := str_substr key 20

/-- A call of one of the operations of the flattener that change the history:
the five operations that build it and the two solve-time steps that follow
`join_array_indexes`. -/
inductive flattener_call where
  | mk_array_symbol (ms subtype : smt_sort)
  | mk_unbounded_select (ma : array_ast) (real_idx : expr2tc) (ressort : smt_sort)
  | mk_unbounded_store (ma : array_ast) (idx : expr2tc) (value : smt_ast) (ressort : smt_sort)
  | unbounded_array_ite (cond : smt_ast) (true_arr false_arr : array_ast) (thesort : smt_sort)
  | join_array_indexes
  | add_array_constraints (arr : Nat)
  | add_array_equalities
  deriving DecidableEq, Repr

/-- The flattener after a call; the term a call returns is dropped. -/
def flattener_call.run (s : array_convt) : flattener_call → Option array_convt
  | flattener_call.mk_array_symbol ms subtype =>
    (array_convt.mk_array_symbol s ms subtype).map Prod.fst
  | flattener_call.mk_unbounded_select ma real_idx ressort =>
    (array_convt.mk_unbounded_select s ma real_idx ressort).map Prod.fst
  | flattener_call.mk_unbounded_store ma idx value ressort =>
    (array_convt.mk_unbounded_store s ma idx value ressort).map Prod.fst
  | flattener_call.unbounded_array_ite cond true_arr false_arr thesort =>
    (array_convt.unbounded_array_ite s cond true_arr false_arr thesort).map Prod.fst
  | flattener_call.join_array_indexes => array_convt.join_array_indexes s
  | flattener_call.add_array_constraints arr => array_convt.add_array_constraints s arr
  | flattener_call.add_array_equalities => array_convt.add_array_equalities s

/-- The flattener after a sequence of calls, each of which returns. -/
def run_calls : List flattener_call → array_convt → Option array_convt
  | [], s => some s
  | c :: rest, s =>
    match c.run s with
    | none => none
    | some s1 => run_calls rest s1

/-- The recorded indexes cover the history: the index of every select record
of `values[b][u]` and of every plain with-record of `updates[b]` is in
`indexes[b]`. -/
def indexes_cover (s : array_convt) : Prop :=
  ∀ b : Nat,
    (∀ (u : Nat) (sels : List array_select), at2 s.array_values b u = some sels →
      ∀ sel ∈ sels, sel.idx ∈ index_set s b) ∧
    (∀ (idx : expr2tc) (src : Nat) (val : smt_ast),
      array_with.w idx src val ∈ entry_of s.array_updates b → idx ∈ index_set s b)

/-- The invariant behind `indexes_cover`: the three containers have one entry
per base, and the indexes of the records are in the index sets. -/
def history_covered (s : array_convt) : Prop :=
  s.array_values.length = s.array_indexes.length ∧
  s.array_updates.length = s.array_indexes.length ∧
  ∀ b : Nat,
    (∀ sels ∈ entry_of s.array_values b, ∀ sel ∈ sels, sel.idx ∈ index_set s b) ∧
    (∀ (idx : expr2tc) (src : Nat) (val : smt_ast),
      array_with.w idx src val ∈ entry_of s.array_updates b → idx ∈ index_set s b)

/-- Calls for the example: an array, a store into it, a select from the result,
and the solve-time steps. -/
def example_calls : List flattener_call :=
  [flattener_call.mk_array_symbol sort_array32 sort_bv32,
   flattener_call.mk_unbounded_store example_row_a (expr2tc.symbol 0) (smt_ast.term 7)
     sort_array32,
   flattener_call.mk_unbounded_select example_row_a1 (expr2tc.symbol 1) sort_bv32,
   flattener_call.join_array_indexes,
   flattener_call.add_array_constraints 0,
   flattener_call.add_array_equalities]

/-- A bounded array term of four elements, for the examples. -/
def example_bounded : array_ast :=
  { sort := sort_array2, base_array_id := 0, array_update_num := 0,
    array_fields := [smt_ast.term 0, smt_ast.term 1, smt_ast.term 2, smt_ast.term 3] }

/-! ## Constant arrays (`array_conv.cpp`) -/

/-- Insertion `m.insert(make_pair(k, v))` into the map of initial values, kept
in key order: an entry already there for the key stays. -/
def array_of_vals_insert (k : Nat) (v : smt_ast) : List (Nat × smt_ast) → List (Nat × smt_ast)
  | [] => [(k, v)]
  | (k', v') :: rest =>
    if k = k' then (k', v') :: rest
    else if k < k' then (k, v) :: (k', v') :: rest
    else (k', v') :: array_of_vals_insert k v rest

/-- `convert_array_of_wsort`; `idx_sort` is the sort of `init_val`.
`convert_array_of` calls it with the array sort the solver makes from the
domain width and the sort of the initial value. The name made by
`mk_fresh_name` is not looked at by the flattener and is left out. -/
def array_convt.convert_array_of_wsort (s : array_convt) (init_val : smt_ast)
    (idx_sort : smt_sort) (domain_width : Nat) (arr_sort : smt_sort) :
    Option (array_convt × array_ast) :=
  if is_unbounded_array arr_sort then
    match array_convt.mk_array_symbol s arr_sort idx_sort with
    | none => none
    | some (s1, mast) =>
      some ({ s1 with array_of_vals :=
                array_of_vals_insert mast.base_array_id init_val s1.array_of_vals }, mast)
  else
    some (s, { sort := arr_sort, base_array_id := 0, array_update_num := 0,
               array_fields := List.replicate (2 ^ domain_width) init_val })

/-- The example history of a constant unbounded array of `term 7`. -/
def example_const_s1 : array_convt :=
  ((array_convt.convert_array_of_wsort array_convt.init (smt_ast.term 7) sort_bv32 32
      sort_array32).map Prod.fst).getD array_convt.init

/-- A model in which the stored term and every variable have the value 3, and
different index expressions have different values. -/
def example_const_model : model :=
  { fresh := fun _ => 3, term := fun _ => 3, index := expr2tc.rank }

/-! ## Notions about the history tables -/

/-- A call of one of the operations that build the history of the unbounded
arrays. -/
inductive history_call where
  | new_array_id
  | mk_unbounded_select (ma : array_ast) (real_idx : expr2tc) (ressort : smt_sort)
  | mk_unbounded_store (ma : array_ast) (idx : expr2tc) (value : smt_ast) (ressort : smt_sort)
  | unbounded_array_ite (cond : smt_ast) (true_arr false_arr : array_ast) (thesort : smt_sort)
  deriving DecidableEq, Repr

/-- The flattener after a call; what the call returns is dropped. -/
def history_call.run (s : array_convt) : history_call → Option array_convt
  | history_call.new_array_id => (array_convt.new_array_id s).map Prod.fst
  | history_call.mk_unbounded_select ma real_idx ressort =>
    (array_convt.mk_unbounded_select s ma real_idx ressort).map Prod.fst
  | history_call.mk_unbounded_store ma idx value ressort =>
    (array_convt.mk_unbounded_store s ma idx value ressort).map Prod.fst
  | history_call.unbounded_array_ite cond true_arr false_arr thesort =>
    (array_convt.unbounded_array_ite s cond true_arr false_arr thesort).map Prod.fst

/-- The flattener after a sequence of calls, each of which returns. -/
def run_history_calls : List history_call → array_convt → Option array_convt
  | [], s => some s
  | c :: rest, s =>
    match c.run s with
    | none => none
    | some s1 => run_history_calls rest s1

/-- The history tables are in step: one entry per base id in each of the three
containers, and for every base as many select lists as update records, the
first record being the placeholder. -/
def tables_in_step (s : array_convt) : Prop :=
  s.array_updates.length = s.array_indexes.length ∧
  s.array_values.length = s.array_indexes.length ∧
  ∀ b, b < s.array_indexes.length →
    (entry_of s.array_values b).length = (entry_of s.array_updates b).length ∧
    (entry_of s.array_updates b)[0]? = some array_with.placeholder

/-- Calls for the example: two bases, a store into the first, an ite of the
result with the second and a select on the result of the store. -/
def example_history_calls : List history_call :=
  [history_call.new_array_id, history_call.new_array_id,
   history_call.mk_unbounded_store example_row_a (expr2tc.symbol 0) (smt_ast.term 7)
     sort_array32,
   history_call.unbounded_array_ite (smt_ast.term 1) example_row_a1
     { sort := sort_array32, base_array_id := 1, array_update_num := 0, array_fields := [] }
     sort_array32,
   history_call.mk_unbounded_select example_row_a1 (expr2tc.symbol 1) sort_bv32]

/-- The history the example calls leave. -/
def example_history_state : array_convt :=
  (run_history_calls example_history_calls array_convt.init).getD array_convt.init

/-- The runs of a trace follow `k_step` from the value `k`: every run is made
at the current value, which grows by one after a base-case run and stays after
every other run. -/
def k_steps_from : Int → List bmc_run → Bool
  | _, [] => true
  | k, x :: rest =>
    decide (x.unwind = k) && k_steps_from (if x.step = STEP.BASE_CASE then k + 1 else k) rest

/-! ## Notions about the verdict of the parent -/

/-- The value of an option: `set_option` is called with booleans, integers and
strings. -/
inductive option_value where
  | bool (b : Bool)
  | int (i : Int)
  | text (s : String)
  deriving DecidableEq, Repr

/-- The options: a map from option names to values. The class is declared
outside the sources; only its assignments are followed here, what
`get_bool_option` reads from a map is a parameter. -/
abbrev optionst := List (String × option_value)

/-- Assignment `options.set_option(name, value)`. -/
def set_opt (o : optionst) (name : String) (v : option_value) : optionst := map_assign name v o

/-- What `get_command_line_options` asks of the command line and of its
surroundings: the flags and values of the command line, the result of
`config.set(cmdline)`, the effect of `options.cmdline(cmdline)`, the reading
`options.get_bool_option`, the member `k_step`, and whether the two
`setrlimit` calls fail. -/
structure command_line where
  isset : String → Bool
  getval : String → String
  config_set : Bool
  options_cmdline : optionst → optionst
  get_bool_option : optionst → String → Bool
  k_step : Nat
  setrlimit_as_fails : Nat → Bool
  setrlimit_core_fails : Bool → Bool

/-- How `get_command_line_options` ends without returning: `exit`, `abort`, or
behaviour the language leaves undefined. -/
inductive options_stop where
  | exited (code : Int)
  | aborted
  | undefined
  deriving DecidableEq, Repr

/-- What `get_command_line_options` leaves when it returns: the options, the
seconds of the alarm installed for `--timeout`, the address-space limit
installed for `--memlimit`, and whether core dumps are unlimited. -/
structure options_result where
  options : optionst
  alarm : Option Nat
  memlimit : Option Nat
  core_unlimited : Bool
  deriving DecidableEq, Repr

/-- The digits a `strtol` scan reads, as a number. -/
def strtol_digits : List Char → Nat → Nat
  | [], acc => acc
  | c :: cs, acc =>
    if c.isDigit then strtol_digits cs (acc * 10 + (c.toNat - '0'.toNat)) else acc

/-- `isspace` of the C library in the C locale: the space and the characters
9 (tab) to 13 (carriage return). -/
def c_isspace (c : Char) : Bool :=
  decide (c.toNat = 32) || (decide (9 ≤ c.toNat) && decide (c.toNat ≤ 13))

/-- `strtol(s, NULL, 10)` of the C library, on a platform whose `long` has 64
bits: leading white space, an optional sign, the digits, the value clamped to
the range of `long`. -/
def strtol10 (s : String) : Int :=
  match s.toList.dropWhile c_isspace with
  | '-' :: rest => max (-(strtol_digits rest 0 : Int)) (-(2 ^ 63))
  | '+' :: rest => min (strtol_digits rest 0 : Int) (2 ^ 63 - 1)
  | cs => min (strtol_digits cs 0 : Int) (2 ^ 63 - 1)

/-- Conversion of a `long` to `int` (32 bits, two's complement). -/
def to_int (x : Int) : Int := (x + 2 ^ 31) % 2 ^ 32 - 2 ^ 31

/-- A run of assignments `options.set_option(name, value)`, in order. -/
def set_opts (l : List (String × option_value)) (o : optionst) : optionst :=
  l.foldl (fun o p => set_opt o p.1 p.2) o

/-- The option settings of `get_command_line_options` from `arrays-uf` to
`inlining` (the solver, encoding and scheduling options): one block of the
source per line group, each with the assignments of its branches. -/
def solver_options (e : command_line) (o : optionst) : optionst :=
  o
  |> set_opts (if e.isset "arrays-uf-always" then [("arrays-uf", option_value.text "always")]
      else if e.isset "arrays-uf-never" then [("arrays-uf", option_value.text "never")]
      else [("arrays-uf", option_value.text "auto")])
  |> set_opts (if e.isset "boolector-bv" then
        [("boolector-bv", option_value.bool true), ("int-encoding", option_value.bool false)]
      else [])
  |> set_opts (if e.isset "z3-bv" then
        [("z3", option_value.bool true), ("z3-bv", option_value.bool true),
         ("int-encoding", option_value.bool false)]
      else [])
  |> set_opts (if e.isset "lazy" then [("no-assume-guarantee", option_value.bool false)]
      else [("no-assume-guarantee", option_value.bool true)])
  |> set_opts (if e.isset "eager" then [("no-assume-guarantee", option_value.bool true)]
      else [("no-assume-guarantee", option_value.bool false)])
  |> set_opts (if e.isset "btor" then
        [("btor", option_value.bool true), ("boolector-bv", option_value.bool true)]
      else [])
  |> set_opts (if e.isset "z3-ir" then
        [("z3", option_value.bool true), ("z3-ir", option_value.bool true),
         ("int-encoding", option_value.bool true)]
      else [])
  |> set_opts (if e.isset "no-slice" then [("no-assume-guarantee", option_value.bool false)]
      else [])
  |> set_opts [("string-abstraction", option_value.bool true),
               ("fixedbv", option_value.bool true)]
  |> (fun o => set_opts
      (if !e.get_bool_option o "boolector-bv" && !e.get_bool_option o "z3" then
        [("z3", option_value.bool true), ("int-encoding", option_value.bool true)]
      else []) o)
  |> set_opts (if e.isset "qf_aufbv" then
        [("qf_aufbv", option_value.bool true), ("smt", option_value.bool true),
         ("z3", option_value.bool true)]
      else [])
  |> set_opts (if e.isset "qf_auflira" then
        [("qf_auflira", option_value.bool true), ("smt", option_value.bool true),
         ("z3", option_value.bool true), ("int-encoding", option_value.bool true)]
      else [])
  |> set_opts (if e.isset "context-switch" then
        [("context-switch", option_value.text (e.getval "context-switch"))]
      else [("context-switch", option_value.int (-1))])
  |> set_opts (if e.isset "uw-model" then
        [("uw-model", option_value.bool true), ("schedule", option_value.bool true),
         ("minisat", option_value.bool false)]
      else [("uw-model", option_value.bool false)])
  |> set_opts (if e.isset "no-lock-check" then [("no-lock-check", option_value.bool true)]
      else [("no-lock-check", option_value.bool false)])
  |> set_opts (if e.isset "deadlock-check" then
        [("deadlock-check", option_value.bool true),
         ("atomicity-check", option_value.bool false),
         ("no-assertions", option_value.bool true)]
      else [("deadlock-check", option_value.bool false)])
  |> set_opts (if e.isset "smtlib-ileave-num" then
        [("smtlib-ileave-num", option_value.text (e.getval "smtlib-ileave-num"))]
      else [("smtlib-ileave-num", option_value.text "1")])
  |> set_opts (if e.isset "inlining" then [("inlining", option_value.bool true)] else [])

/-- The option settings of `get_command_line_options` for the k-induction
profiles: base case, forward condition, inductive step, and the k-induction
flags themselves. -/
def profile_options (e : command_line) (o : optionst) : optionst :=
  o
  |> (fun o => set_opts
      (if e.isset "base-case" || e.get_bool_option o "base-case" then
        [("base-case", option_value.bool true), ("no-bounds-check", option_value.bool true),
         ("no-div-by-zero-check", option_value.bool true),
         ("no-pointer-check", option_value.bool true),
         ("no-unwinding-assertions", option_value.bool true)]
      else []) o)
  |> (fun o => set_opts
      (if e.isset "forward-condition" || e.get_bool_option o "forward-condition" then
        [("forward-condition", option_value.bool true),
         ("no-bounds-check", option_value.bool true),
         ("no-div-by-zero-check", option_value.bool true),
         ("no-pointer-check", option_value.bool true),
         ("no-unwinding-assertions", option_value.bool false),
         ("partial-loops", option_value.bool false)]
      else []) o)
  |> (fun o => set_opts
      (if e.isset "inductive-step" || e.get_bool_option o "inductive-step" then
        [("inductive-step", option_value.bool true),
         ("no-bounds-check", option_value.bool true),
         ("no-div-by-zero-check", option_value.bool true),
         ("no-pointer-check", option_value.bool true),
         ("no-unwinding-assertions", option_value.bool true),
         ("partial-loops", option_value.bool true)]
      else []) o)
  |> set_opts (if e.isset "k-induction" || e.isset "k-induction-parallel" then
        [("no-bounds-check", option_value.bool true),
         ("no-div-by-zero-check", option_value.bool true),
         ("no-pointer-check", option_value.bool true),
         ("no-unwinding-assertions", option_value.bool true),
         ("partial-loops", option_value.bool true),
         ("unwind", option_value.text (i2string e.k_step))]
      else [])

/-- The `--timeout` part: the multiplier of the suffix, the value read by
`strtol` into an `int`, and the seconds handed to `alarm`. An empty value is
read before its first character; a product outside the range of `int` is an
overflow. -/
def install_timeout (e : command_line) : Except options_stop (Option Nat) :=
  if e.isset "timeout" then
    let time := e.getval "timeout"
    match time.toList.getLast? with
    | none => Except.error options_stop.undefined
    | some c =>
      let mult : Except options_stop Int :=
        if !c.isDigit then
          if c = 's' then Except.ok 1
          else if c = 'm' then Except.ok 60
          else if c = 'h' then Except.ok 3600
          else if c = 'd' then Except.ok 86400
          else Except.error options_stop.aborted
        else Except.ok 1
      match mult with
      | Except.error s => Except.error s
      | Except.ok mult =>
        let timeout := to_int (strtol10 time) * mult
        if timeout < -(2 ^ 31) ∨ 2 ^ 31 ≤ timeout then Except.error options_stop.undefined
        else Except.ok (some (timeout % 2 ^ 32).toNat)
  else Except.ok none

/-- The `--memlimit` part on a platform whose `unsigned long` has 64 bits: the
multiplier of the suffix, the value read by `strtol`, their product and the
`setrlimit` call. An empty value is read before its first character. -/
def install_memlimit (e : command_line) : Except options_stop (Option Nat) :=
  if e.isset "memlimit" then
    let limit := e.getval "memlimit"
    match limit.toList.getLast? with
    | none => Except.error options_stop.undefined
    | some c =>
      let mult : Except options_stop Nat :=
        if !c.isDigit then
          if c = 'b' then Except.ok 1
          else if c = 'k' then Except.ok 1024
          else if c = 'm' then Except.ok (1024 * 1024)
          else if c = 'g' then Except.ok (1024 * 1024 * 1024)
          else Except.error options_stop.aborted
        else Except.ok (1024 * 1024)
      match mult with
      | Except.error s => Except.error s
      | Except.ok mult =>
        let size := (strtol10 limit % 2 ^ 64).toNat
        let size := (size * mult) % 2 ^ 64
        if e.setrlimit_as_fails size then Except.error options_stop.aborted
        else Except.ok (some size)
  else Except.ok none

/-- `cbmc_parseoptionst::get_command_line_options`, as built for a platform
other than Windows. -/
def get_command_line_options (e : command_line) (options : optionst) :
    Except options_stop options_result :=
  if e.config_set then Except.error (options_stop.exited 1)
  else
    let o := e.options_cmdline options
    if e.isset "git-hash" then Except.error (options_stop.exited 0)
    else
      let o := solver_options e o
      let o := profile_options e o
      let o := set_opts (if e.isset "show-counter-example" then
          [("show-counter-example", option_value.bool true)] else []) o
      match install_timeout e with
      | Except.error s => Except.error s
      | Except.ok alarm =>
        match install_memlimit e with
        | Except.error s => Except.error s
        | Except.ok memlimit =>
          if e.setrlimit_core_fails (e.isset "enable-core-dump") then
            Except.error options_stop.aborted
          else
            Except.ok { options := o, alarm := alarm, memlimit := memlimit,
                        core_unlimited := e.isset "enable-core-dump" }

/-- The value of a string of decimal digits. -/
def decimal_value (ds : List Char) : Nat :=
  ds.foldl (fun acc c => acc * 10 + (c.toNat - '0'.toNat)) 0

/-- A command line made of the flags `flags` and the values `values`, in
surroundings in which nothing fails; `get_bool_option` reads the booleans of
the map. -/
def example_command_line (flags : List String) (values : List (String × String)) :
    command_line :=
  { isset := fun n => decide (n ∈ flags) || (values.lookup n).isSome,
    getval := fun n => (values.lookup n).getD "",
    config_set := false,
    options_cmdline := fun o => o,
    get_bool_option := fun o n => decide (o.lookup n = some (option_value.bool true)),
    k_step := 1,
    setrlimit_as_fails := fun _ => false,
    setrlimit_core_fails := fun _ => false }

/-! ## Loading and processing the goto program -/

/-- What a call can throw: the three types that the handlers of
`get_goto_program` and `process_goto_program` catch, and anything else. -/
inductive thrown where
  | c_string
  | std_string
  | int
  | other
  deriving DecidableEq, Repr

/-- What `get_goto_program` and `process_goto_program` ask of the command line
and of the functions they call. A call either returns or throws; a field of a
call that the run does not reach has no meaning. `goto_check_features` is the
call of `goto_check` in the `show-features` branch, `value_set_analysis` the
construction and the run of the analysis, `value_set_update` its `update`.
Messages and timers are taken not to throw. -/
structure goto_program_env where
  isset : String → Bool
  args_size : Nat
  read_goto_binary : Except thrown Bool
  show_symbol_table : Except thrown Unit
  parse : Except thrown Bool
  typecheck : Except thrown Bool
  final : Except thrown Bool
  clear_parse : Except thrown Unit
  goto_convert : Except thrown Unit
  string_instrumentation : Except thrown Unit
  goto_partial_inline : Except thrown Unit
  goto_check : Except thrown Unit
  string_abstraction : Except thrown Unit
  value_set_analysis : Except thrown Unit
  show_value_sets : Except thrown Unit
  pointer_checks : Except thrown Unit
  add_failed_symbols : Except thrown Unit
  add_property_monitors : Except thrown Unit
  update : Except thrown Unit
  compute_loop_numbers : Except thrown Unit
  add_race_assertions : Except thrown Unit
  value_set_update : Except thrown Unit
  show_loop_numbers : Except thrown Unit
  goto_check_features : Except thrown Unit
  print_ileave_points : Except thrown Unit
  output : Except thrown Unit

/-- The three handlers `catch(const char *)`, `catch(const std::string)` and
`catch(int)`, each of which returns true; any other exception leaves the
function. -/
def catch_true (body : Except thrown Bool) : Except thrown Bool :=
  match body with
  | Except.ok b => Except.ok b
  | Except.error thrown.other => Except.error thrown.other
  | Except.error _ => Except.ok true

/-- A call made only when `c` holds. -/
def call_if (c : Bool) (call : Except thrown Unit) : Except thrown Unit :=
  if c then call else Except.ok ()

/-- `cbmc_parseoptionst::process_goto_program`: the value returned, or the
exception that leaves the function. -/
def process_goto_program (e : goto_program_env) : Except thrown Bool :=
  catch_true (
    call_if (e.isset "string-abstraction") e.string_instrumentation >>= fun _ =>
    call_if (!e.isset "inlining") e.goto_partial_inline >>= fun _ =>
    call_if (!e.isset "show-features") e.goto_check >>= fun _ =>
    call_if (e.isset "string-abstraction") e.string_abstraction >>= fun _ =>
    e.value_set_analysis >>= fun _ =>
    if e.isset "show-value-sets" then
      e.show_value_sets >>= fun _ => Except.ok true
    else
      e.pointer_checks >>= fun _ =>
      e.add_failed_symbols >>= fun _ =>
      e.add_property_monitors >>= fun _ =>
      e.update >>= fun _ =>
      e.compute_loop_numbers >>= fun _ =>
      call_if (e.isset "data-races-check")
        (e.add_race_assertions >>= fun _ => e.value_set_update) >>= fun _ =>
      if e.isset "show-loops" then
        e.show_loop_numbers >>= fun _ => Except.ok true
      else if e.isset "show-features" then
        e.goto_check_features >>= fun _ => Except.ok true
      else if e.isset "show-ileave-points" then
        e.print_ileave_points >>= fun _ => Except.ok true
      else if e.isset "show-goto-functions" then
        e.output >>= fun _ => Except.ok true
      else Except.ok false)

/-- `cbmc_parseoptionst::get_goto_program`: the value returned, or the
exception that leaves the function. -/
def get_goto_program (e : goto_program_env) : Except thrown Bool :=
  catch_true (
    (if e.isset "binary" then
      e.read_goto_binary >>= fun r =>
      if r then Except.ok (some true)
      else if e.isset "show-symbol-table" then
        e.show_symbol_table >>= fun _ => Except.ok (some true)
      else Except.ok none
    else
      if e.args_size = 0 then Except.ok (some true)
      else
        e.parse >>= fun r =>
        if r then Except.ok (some true)
        else
          e.typecheck >>= fun r =>
          if r then Except.ok (some true)
          else
            e.final >>= fun r =>
            if r then Except.ok (some true)
            else if e.isset "show-symbol-table" then
              e.show_symbol_table >>= fun _ => Except.ok (some true)
            else
              e.clear_parse >>= fun _ =>
              e.goto_convert >>= fun _ => Except.ok none) >>= fun early =>
    match early with
    | some b => Except.ok b
    | none =>
      process_goto_program e >>= fun r =>
      if r then Except.ok true else Except.ok false)

/-- A call that returns. -/
def returns : Except thrown Unit → Bool
  | Except.ok _ => true
  | Except.error _ => false

/-- A call that returns false, which is how `read_goto_binary`, `parse`,
`typecheck` and `final` report success. -/
def returns_false : Except thrown Bool → Bool
  | Except.ok b => !b
  | Except.error _ => false

/-- The program is built and processed without any error: there is a program
to read, the readers report success and no call throws. -/
def goto_program_env.without_error (e : goto_program_env) : Bool :=
  (e.isset "binary" || decide (e.args_size ≠ 0)) &&
  [e.read_goto_binary, e.parse, e.typecheck, e.final].all returns_false &&
  [e.show_symbol_table, e.clear_parse, e.goto_convert, e.string_instrumentation,
    e.goto_partial_inline, e.goto_check, e.string_abstraction, e.value_set_analysis,
    e.show_value_sets, e.pointer_checks, e.add_failed_symbols, e.add_property_monitors,
    e.update, e.compute_loop_numbers, e.add_race_assertions, e.value_set_update,
    e.show_loop_numbers, e.goto_check_features, e.print_ileave_points, e.output].all returns

/-- A call that returns true, which is how `read_goto_binary`, `parse`,
`typecheck` and `final` report an error. -/
def returns_true : Except thrown Bool → Bool
  | Except.ok b => b
  | Except.error _ => false

/-- Loading fails: the binary cannot be read, or there is no program on the
command line, or parsing, type checking or the final pass reports an error. -/
def goto_program_env.loading_fails (e : goto_program_env) : Bool :=
  if e.isset "binary" then returns_true e.read_goto_binary
  else
    decide (e.args_size = 0) ||
    returns_true e.parse ||
    (returns_false e.parse && returns_true e.typecheck) ||
    (returns_false e.parse && returns_false e.typecheck && returns_true e.final)

/-- A run with the flags `flags` on one source file in which every call
returns and the readers report success. -/
def example_goto_program_env (flags : List String) : goto_program_env :=
  { isset := fun n => decide (n ∈ flags),
    args_size := 1,
    read_goto_binary := Except.ok false,
    show_symbol_table := Except.ok (),
    parse := Except.ok false,
    typecheck := Except.ok false,
    final := Except.ok false,
    clear_parse := Except.ok (),
    goto_convert := Except.ok (),
    string_instrumentation := Except.ok (),
    goto_partial_inline := Except.ok (),
    goto_check := Except.ok (),
    string_abstraction := Except.ok (),
    value_set_analysis := Except.ok (),
    show_value_sets := Except.ok (),
    pointer_checks := Except.ok (),
    add_failed_symbols := Except.ok (),
    add_property_monitors := Except.ok (),
    update := Except.ok (),
    compute_loop_numbers := Except.ok (),
    add_race_assertions := Except.ok (),
    value_set_update := Except.ok (),
    show_loop_numbers := Except.ok (),
    goto_check_features := Except.ok (),
    print_ileave_points := Except.ok (),
    output := Except.ok () }

/-! ## Histories: the calls that build array terms -/

/-- A call of one of the operations by which a conversion builds array terms
and array equalities, before solving: every operation of `array_conv.cpp` that
changes the tables of the flattener (`new_array_id` is called by
`mk_array_symbol` only; `array_ite` is `unbounded_array_ite` on unbounded
arrays and leaves the flattener alone on bounded ones). -/
inductive build_call where
  | mk_array_symbol (ms subtype : smt_sort)
  | convert_array_of_wsort (init_val : smt_ast) (idx_sort : smt_sort) (domain_width : Nat)
      (arr_sort : smt_sort)
  | mk_select (ma : array_ast) (idx : expr2tc) (ressort : smt_sort)
  | mk_store (ma : array_ast) (idx : expr2tc) (value : smt_ast) (ressort : smt_sort)
  | mk_unbounded_select (ma : array_ast) (real_idx : expr2tc) (ressort : smt_sort)
  | mk_unbounded_store (ma : array_ast) (idx : expr2tc) (value : smt_ast) (ressort : smt_sort)
  | unbounded_array_ite (cond : smt_ast) (true_arr false_arr : array_ast) (thesort : smt_sort)
  | encode_array_equality (a1 a2 : array_ast)
  deriving DecidableEq, Repr

/-- The flattener after a call; the term a call returns is dropped. -/
def build_call.run (s : array_convt) : build_call → Option array_convt
  | build_call.mk_array_symbol ms subtype =>
    (array_convt.mk_array_symbol s ms subtype).map Prod.fst
  | build_call.convert_array_of_wsort init_val idx_sort domain_width arr_sort =>
    (array_convt.convert_array_of_wsort s init_val idx_sort domain_width arr_sort).map Prod.fst
  | build_call.mk_select ma idx ressort => (array_convt.mk_select s ma idx ressort).map Prod.fst
  | build_call.mk_store ma idx value ressort =>
    (array_convt.mk_store s ma idx value ressort).map Prod.fst
  | build_call.mk_unbounded_select ma real_idx ressort =>
    (array_convt.mk_unbounded_select s ma real_idx ressort).map Prod.fst
  | build_call.mk_unbounded_store ma idx value ressort =>
    (array_convt.mk_unbounded_store s ma idx value ressort).map Prod.fst
  | build_call.unbounded_array_ite cond true_arr false_arr thesort =>
    (array_convt.unbounded_array_ite s cond true_arr false_arr thesort).map Prod.fst
  | build_call.encode_array_equality a1 a2 => some (array_convt.encode_array_equality s a1 a2).1

/-- The flattener after a sequence of calls, each of which returns. -/
def run_build_calls : List build_call → array_convt → Option array_convt
  | [], s => some s
  | c :: rest, s =>
    match c.run s with
    | none => none
    | some s1 => run_build_calls rest s1

/-- The flattener `t` is reached from the flattener `s` by calls of the
operations that build array terms: any number of calls, with any arguments. -/
def reaches (s t : array_convt) : Prop :=
  ∃ calls : List build_call, run_build_calls calls s = some t

/-- What the history keeps when array terms are built: an update record stays
where it is, an initial value stays on file, index sets only grow, and a select
list only grows, by records whose index is not yet in the list. -/
def history_grows (s s' : array_convt) : Prop :=
  (∀ (b u : Nat) (w : array_with), at2 s.array_updates b u = some w →
    at2 s'.array_updates b u = some w) ∧
  (∀ (b : Nat) (v : smt_ast), s.array_of_vals.lookup b = some v →
    s'.array_of_vals.lookup b = some v) ∧
  (∀ (b : Nat) (is : List expr2tc), s.array_indexes[b]? = some is →
    ∃ is', s'.array_indexes[b]? = some is' ∧ ∀ x ∈ is, x ∈ is') ∧
  (∀ (b u : Nat) (sels : List array_select), at2 s.array_values b u = some sels →
    ∃ extra, at2 s'.array_values b u = some (sels ++ extra) ∧
      ∀ x ∈ extra, ∀ y ∈ sels, x.idx ≠ y.idx)

/-- The invariant of the histories built from the empty flattener: the tables
are in step, no select list holds two records of one index, and the initial
values on file belong to bases of the history. -/
def history_inv (s : array_convt) : Prop :=
  tables_in_step s ∧ selects_nodup s ∧ ∀ p ∈ s.array_of_vals, p.1 < s.array_indexes.length

/-! ## A longer history for the worked examples -/

/-- The read-over-write example with other calls in between: after the store,
a select on the array the store was applied to at `symbol 2` and a second
array. -/
def example_hist_mid : List build_call :=
  [build_call.mk_unbounded_select example_row_a (expr2tc.symbol 2) sort_bv32,
   build_call.mk_array_symbol sort_array32 sort_bv32]

def example_hist_t : array_convt :=
  (run_build_calls example_hist_mid example_row_s1).getD array_convt.init

/-- The history after the select on the stored array at `symbol 1`. -/
def example_hist_t1 : array_convt :=
  ((array_convt.mk_unbounded_select example_hist_t example_row_a1 (expr2tc.symbol 1)
      sort_bv32).map Prod.fst).getD array_convt.init

/-- The history after the select on the array the store was applied to, at
`symbol 1`. -/
def example_hist_t2 : array_convt :=
  ((array_convt.mk_unbounded_select example_hist_t1 example_row_a (expr2tc.symbol 1)
      sort_bv32).map Prod.fst).getD array_convt.init

/-- Calls made after the selects: a select on the stored array at `symbol 3`
and a store into it. -/
def example_hist_post : List build_call :=
  [build_call.mk_unbounded_select example_row_a1 (expr2tc.symbol 3) sort_bv32,
   build_call.mk_unbounded_store example_row_a1 (expr2tc.symbol 4) (smt_ast.term 8) sort_array32]

def example_hist_fin : array_convt :=
  (run_build_calls example_hist_post example_hist_t2).getD array_convt.init

def example_hist_solved : array_convt :=
  (array_convt.add_array_constraints_for_solving example_hist_fin).getD array_convt.init

/-- The constant-array example with other calls in between: a second array
after the constant array, the select at `symbol 1`, then a select at
`symbol 2` and a store into the constant array. -/
def example_const_t : array_convt :=
  (run_build_calls [build_call.mk_array_symbol sort_array32 sort_bv32] example_const_s1).getD
    array_convt.init

def example_const_t1 : array_convt :=
  ((array_convt.mk_select example_const_t example_row_a (expr2tc.symbol 1) sort_bv32).map
      Prod.fst).getD array_convt.init

def example_const_post : List build_call :=
  [build_call.mk_select example_row_a (expr2tc.symbol 2) sort_bv32,
   build_call.mk_store example_row_a (expr2tc.symbol 3) (smt_ast.term 8) sort_array32]

def example_const_fin : array_convt :=
  (run_build_calls example_const_post example_const_t1).getD array_convt.init

def example_const_solved : array_convt :=
  (array_convt.add_array_constraints_for_solving example_const_fin).getD array_convt.init

/-! # Properties -/

set_option maxRecDepth 20000

open array_convt

/-! ## Bounded arrays: constant index at the size of the array (C8, C9) -/

/-- A constant index strictly beyond the number of elements: `mk_select` returns
a fresh variable of the result sort and asserts nothing. -/
theorem mk_select_beyond_size (s : array_convt) (ma : array_ast) (c : Nat) (ressort : smt_sort)
    (hb : is_unbounded_array ma.sort = false) (hn : ma.array_fields.length ≠ 0)
    (hc : ma.array_fields.length < c) :
    array_convt.mk_select s ma (expr2tc.constant_int c) ressort
      = some ({ s with ctx := { fresh_count := s.ctx.fresh_count + 1,
                                assertions := s.ctx.assertions } },
              smt_ast.fresh s.ctx.fresh_count ressort) := by
  simp [array_convt.mk_select, hb, hn, hc, smt_convt.mk_fresh]

/-- A constant index equal to the number of elements passes the range test of
`mk_select` and indexes the element vector one past its end. -/
theorem mk_select_at_size (s : array_convt) (ma : array_ast) (ressort : smt_sort)
    (hb : is_unbounded_array ma.sort = false) :
    array_convt.mk_select s ma (expr2tc.constant_int ma.array_fields.length) ressort = none := by
  simp [array_convt.mk_select, hb]

/-- A constant index strictly beyond the number of elements: `mk_store` returns
the array it was given. -/
theorem mk_store_beyond_size (s : array_convt) (ma : array_ast) (c : Nat) (v : smt_ast)
    (ressort : smt_sort)
    (hb : is_unbounded_array ma.sort = false) (hn : ma.array_fields.length ≠ 0)
    (hc : ma.array_fields.length < c) :
    array_convt.mk_store s ma (expr2tc.constant_int c) v ressort = some (s, ma) := by
  simp [array_convt.mk_store, hb, hn, hc]

/-- A constant index equal to the number of elements passes the range test of
`mk_store` and writes one past the end of the element vector. -/
theorem mk_store_at_size (s : array_convt) (ma : array_ast) (v : smt_ast) (ressort : smt_sort)
    (hb : is_unbounded_array ma.sort = false) :
    array_convt.mk_store s ma (expr2tc.constant_int ma.array_fields.length) v ressort = none := by
  simp [array_convt.mk_store, hb]

/-- C8 (the code at the failing input): for the bounded array of four elements
made by `mk_array_symbol`, `mk_select` with the constant index 4 does not return
a fresh variable: the test `intval > size` lets the index through and the
element vector is read at position 4, past its end. -/
theorem C8_select_at_size_reads_past_the_end :
    (array_convt.mk_array_symbol array_convt.init sort_array2 sort_bv32).map
      (fun p => (p.2.array_fields.length,
                 array_convt.mk_select p.1 p.2 (expr2tc.constant_int 4) sort_bv32))
      = some (4, none) := by
  decide

/-- C9 (the code at the failing input): for the bounded array of four elements
made by `mk_array_symbol`, `mk_store` with the constant index 4 does not return
the original array: the test `intval > size` lets the index through and the
element vector is written at position 4, past its end. -/
theorem C9_store_at_size_writes_past_the_end :
    (array_convt.mk_array_symbol array_convt.init sort_array2 sort_bv32).map
      (fun p => (p.2.array_fields.length,
                 array_convt.mk_store p.1 p.2 (expr2tc.constant_int 4) (smt_ast.term 7)
                   sort_array2))
      = some (4, none) := by
  decide

/-! ## Exit codes (C10) -/

/-- C10: once `doit` reaches the call, it returns 6 when `get_goto_program`
reports failure and 7 when the program is loaded, `show-claims` is not set and
`set_claims` reports failure; the same holds for each of the three
configurations of `doit_k_induction`, in the sequential set-up and in the
worker processes (which write no record on these paths). -/
theorem C10_exit_codes :
    (∀ e : doit_env, e.version = false → e.module = false → e.gen_interface = false →
        e.get_command_line_options = none → e.preprocess = false →
        (e.get_goto_program = true → doit e = outcome.returned 6) ∧
        (e.get_goto_program = false → e.show_claims = false → e.set_claims = true →
          doit e = outcome.returned 7)) ∧
    (∀ e : k_induction_env, e.version = false → e.module = false → e.gen_interface = false →
        e.preprocess = false →
        (∀ c : config_env, c.get_command_line_options = none →
          (e.base_case = c ∨
           (setup_sequential e.show_claims e.base_case = none ∧ e.forward_condition = c) ∨
           (setup_sequential e.show_claims e.base_case = none ∧
            setup_sequential e.show_claims e.forward_condition = none ∧ e.inductive_step = c)) →
          (c.get_goto_program = true → doit_k_induction e = outcome.returned 6) ∧
          (c.get_goto_program = false → e.show_claims = false → c.set_claims = true →
            doit_k_induction e = outcome.returned 7))) ∧
    (∀ (role : STEP) (c : config_env) (max_k_step : Int) (solve : Nat → Int) (uninit : Int),
        c.get_command_line_options = none →
        (c.get_goto_program = true →
          doit_k_induction_worker role c max_k_step solve uninit = ([], outcome.returned 6)) ∧
        (c.get_goto_program = false → c.set_claims = true →
          doit_k_induction_worker role c max_k_step solve uninit = ([], outcome.returned 7))) := by
  refine ⟨?_, ?_, ?_⟩
  · intro e h1 h2 h3 h4 h5
    constructor
    · intro h6; simp [doit, h1, h2, h3, h4, h5, h6]
    · intro h6 h7 h8; simp [doit, h1, h2, h3, h4, h5, h6, h7, h8]
  · intro e h1 h2 h3 h4 c hc hwhich
    rcases hwhich with rfl | ⟨hb, rfl⟩ | ⟨hb, hf, rfl⟩
    · constructor
      · intro h6; simp [doit_k_induction, setup_sequential, h1, h2, h3, h4, hc, h6]
      · intro h6 h7 h8; simp [doit_k_induction, setup_sequential, h1, h2, h3, h4, hc, h6, h7, h8]
    · constructor
      · intro h6; simp [doit_k_induction, h1, h2, h3, h4, hb]; simp [setup_sequential, hc, h6]
      · intro h6 h7 h8
        simp [doit_k_induction, h1, h2, h3, h4, hb]; simp [setup_sequential, hc, h6, h7, h8]
    · constructor
      · intro h6; simp [doit_k_induction, h1, h2, h3, h4, hb, hf]; simp [setup_sequential, hc, h6]
      · intro h6 h7 h8
        simp [doit_k_induction, h1, h2, h3, h4, hb, hf]; simp [setup_sequential, hc, h6, h7, h8]
  · intro role c m solve u hc
    constructor
    · intro h6; simp [doit_k_induction_worker, setup_worker, hc, h6]
    · intro h6 h7; simp [doit_k_induction_worker, setup_worker, hc, h6, h7]

/-- Witness of C10: a `doit` run whose load fails, and a sequential k-induction
run whose forward-condition configuration fails to set its claims. -/
theorem C10_exit_codes_witness :
    doit example_doit_env = outcome.returned 6 ∧
    doit_k_induction example_k_induction_env = outcome.returned 7 :=
  ⟨(C10_exit_codes.1 example_doit_env rfl rfl rfl rfl rfl).1 rfl,
   ((C10_exit_codes.2.1 example_k_induction_env rfl rfl rfl rfl
      example_k_induction_env.forward_condition rfl
      (Or.inr (Or.inl ⟨rfl, rfl⟩))).2 rfl rfl rfl)⟩

/-! ## The parent of the parallel k-induction (C4, C5, C6) -/

/-- C4 (the code at the failing input): the base case reports a violation at
k = 1 and the forward condition reports unsat at k = 2, both delivered by one
`read`; the parent processes both records and prints VERIFICATION SUCCESSFUL,
not VERIFICATION FAILED. -/
theorem C4_base_sat_then_forward_unsat :
    parent_processed
        [poll_of [⟨STEP.BASE_CASE, 1, 1, false⟩, ⟨STEP.FORWARD_CONDITION, 0, 2, false⟩]]
        (parent_init 50 quiet_garbage)
      = [⟨STEP.BASE_CASE, 1, 1, false⟩, ⟨STEP.FORWARD_CONDITION, 0, 2, false⟩] ∧
    parent_run 50 quiet_garbage
        [poll_of [⟨STEP.BASE_CASE, 1, 1, false⟩, ⟨STEP.FORWARD_CONDITION, 0, 2, false⟩]]
      = some [verdict.VERIFICATION_SUCCESSFUL] :=
  ⟨rfl, rfl⟩

/-- C6 (the code at the failing input): the only record received is a
forward-condition unsat at k = 2; no base-case record has arrived, yet the
parent prints VERIFICATION SUCCESSFUL and not VERIFICATION UNKNOWN. -/
theorem C6_forward_unsat_without_base_case :
    parent_processed [poll_of [⟨STEP.FORWARD_CONDITION, 0, 2, false⟩]]
        (parent_init 50 quiet_garbage)
      = [⟨STEP.FORWARD_CONDITION, 0, 2, false⟩] ∧
    parent_run 50 quiet_garbage [poll_of [⟨STEP.FORWARD_CONDITION, 0, 2, false⟩]]
      = some [verdict.VERIFICATION_SUCCESSFUL] :=
  ⟨rfl, rfl⟩

/-- C5 (counterexample): the processed records contain a base-case unsat and a
forward-condition unsat at k = 2, followed in the same batch by a base-case
violation at k = 3; the verdict is VERIFICATION FAILED, not SUCCESSFUL. -/
theorem C5_counterexample :
    parent_processed
        [poll_of [⟨STEP.BASE_CASE, 0, 2, false⟩],
         poll_of [⟨STEP.FORWARD_CONDITION, 0, 2, false⟩, ⟨STEP.BASE_CASE, 1, 3, false⟩]]
        (parent_init 50 quiet_garbage)
      = [⟨STEP.BASE_CASE, 0, 2, false⟩, ⟨STEP.FORWARD_CONDITION, 0, 2, false⟩,
         ⟨STEP.BASE_CASE, 1, 3, false⟩] ∧
    parent_run 50 quiet_garbage
        [poll_of [⟨STEP.BASE_CASE, 0, 2, false⟩],
         poll_of [⟨STEP.FORWARD_CONDITION, 0, 2, false⟩, ⟨STEP.BASE_CASE, 1, 3, false⟩]]
      = some [verdict.VERIFICATION_FAILED] :=
  ⟨rfl, rfl⟩

theorem to_short_small (k : Nat) (h : k < 32768) : to_short k = (k : Int) := by
  unfold to_short; omega

theorem table_set_some {t t' : List Bool} {k : Nat} {v : Bool} (h : table_set t k v = some t') :
    k < t.length ∧ t' = t.set k v := by
  unfold table_set at h
  split at h
  · exact ⟨by assumption, by simpa using h.symm⟩
  · simp at h

theorem parent_record_inv (MAX_STEPS : Nat) (T seen : List resultt) (st st' : parent_state)
    (r : resultt)
    (hk : ∀ r ∈ T, r.finished = false → r.step ≠ STEP.NONE → 1 ≤ r.k ∧ r.k < 32768)
    (hcons : ∀ r1 ∈ T, ∀ r2 ∈ T, r1.finished = false → r2.finished = false →
      r1.step = r2.step → r1.k = r2.k → (r1.result = 0 ↔ r2.result = 0))
    (hnosat : ∀ r ∈ T, r.step = STEP.BASE_CASE → r.finished = false → r.result = 0)
    (hr : r ∈ T) (hinv : parent_inv MAX_STEPS T seen st)
    (hrec : parent_record st r = some st') :
    parent_inv MAX_STEPS T (seen ++ [r]) st' := by
  obtain ⟨l1, l2, l3, hbc, hsol⟩ := hinv
  -- the solution part is unaffected by a record that is not conclusive and leaves the witness alone
  have hseen : ∀ (P : resultt → Prop), (∀ x ∈ seen, P x) → P r → ∀ x ∈ seen ++ [r], P x := by
    intro P h1 h2 x hx
    rcases List.mem_append.1 hx with h | h
    · exact h1 x h
    · rw [List.mem_singleton.1 h]; exact h2
  unfold parent_record at hrec
  rcases hstep : r.step with _ | _ | _ | _
  · -- NONE
    simp [hstep] at hrec; subst hrec
    refine ⟨l1, l2, l3, hbc, ?_⟩
    rcases hsol with ⟨h0, hs⟩ | h
    · left; refine ⟨h0, hseen _ hs ?_⟩
      intro _ h; simp [hstep] at h
    · right; exact h
  · -- BASE_CASE
    simp only [hstep] at hrec
    by_cases hfin : r.finished = true
    · simp [hfin] at hrec; subst hrec
      refine ⟨l1, l2, l3, hbc, ?_⟩
      rcases hsol with ⟨h0, hs⟩ | h
      · left; refine ⟨h0, hseen _ hs ?_⟩
        intro h; simp [hfin] at h
      · right; exact h
    · have hfin' : r.finished = false := by simpa using hfin
      have hres : r.result = 0 := hnosat r hr hstep hfin'
      simp only [hfin', hres] at hrec
      simp at hrec
      rcases hts : table_set st.bc_res r.k false with _ | t
      · simp [hts] at hrec
      · simp [hts] at hrec; subst hrec
        obtain ⟨hlt, rfl⟩ := table_set_some hts
        refine ⟨by simpa using l1, l2, l3, ?_, ?_⟩
        · intro k hk'
          simp only [List.getElem?_set] at hk'
          split at hk'
          · simp at hk'
          · exact hbc k hk'
        · rcases hsol with ⟨h0, hs⟩ | h
          · left; refine ⟨h0, hseen _ hs ?_⟩
            intro _ h; simp [hstep] at h
          · right; exact h
  · -- FORWARD_CONDITION
    simp only [hstep] at hrec
    by_cases hfin : r.finished = true
    · simp [hfin] at hrec; subst hrec
      refine ⟨l1, l2, l3, hbc, ?_⟩
      rcases hsol with ⟨h0, hs⟩ | h
      · left; refine ⟨h0, hseen _ hs ?_⟩
        intro h; simp [hfin] at h
      · right; exact h
    · have hfin' : r.finished = false := by simpa using hfin
      simp only [hfin', Bool.false_eq_true, if_false] at hrec
      rcases hts : table_set st.fc_res r.k (decide (r.result ≠ 0)) with _ | t
      · rw [hts] at hrec; simp at hrec
      · rw [hts] at hrec; simp only [Option.some.injEq] at hrec; subst hrec
        obtain ⟨hlt, rfl⟩ := table_set_some hts
        have hkr := hk r hr hfin' (by simp [hstep])
        refine ⟨l1, by simpa using l2, l3, hbc, ?_⟩
        by_cases hres : r.result = 0
        · right
          refine ⟨r, hr, hfin', hres, ?_, Or.inl ⟨hstep, ?_⟩⟩
          · simp [hres, to_short_small r.k hkr.2]
          · simp [hres, hlt]
        · rcases hsol with ⟨h0, hs⟩ | ⟨w, hw, hwf, hwr, hwk, hwt⟩
          · left; refine ⟨by simpa [hres] using h0, hseen _ hs ?_⟩
            intro _ _; exact hres
          · right
            refine ⟨w, hw, hwf, hwr, by simpa [hres] using hwk, ?_⟩
            rcases hwt with ⟨hws, hwt⟩ | ⟨hws, hwt⟩
            · left; refine ⟨hws, ?_⟩
              have hne : r.k ≠ w.k := by
                intro hkk
                exact hres ((hcons r hr w hw hfin' hwf (by rw [hstep, hws]) hkk).2 hwr)
              simp [List.getElem?_set, hne, hwt]
            · right; exact ⟨hws, hwt⟩
  · -- INDUCTIVE_STEP
    simp only [hstep] at hrec
    by_cases hfin : r.finished = true
    · simp [hfin] at hrec; subst hrec
      refine ⟨l1, l2, l3, hbc, ?_⟩
      rcases hsol with ⟨h0, hs⟩ | h
      · left; refine ⟨h0, hseen _ hs ?_⟩
        intro h; simp [hfin] at h
      · right; exact h
    · have hfin' : r.finished = false := by simpa using hfin
      simp only [hfin', Bool.false_eq_true, if_false] at hrec
      rcases hts : table_set st.is_res r.k (decide (r.result ≠ 0)) with _ | t
      · rw [hts] at hrec; simp at hrec
      · rw [hts] at hrec; simp only [Option.some.injEq] at hrec; subst hrec
        obtain ⟨hlt, rfl⟩ := table_set_some hts
        have hkr := hk r hr hfin' (by simp [hstep])
        refine ⟨l1, l2, by simpa using l3, hbc, ?_⟩
        by_cases hres : r.result = 0
        · right
          refine ⟨r, hr, hfin', hres, ?_, Or.inr ⟨hstep, ?_⟩⟩
          · simp [hres, to_short_small r.k hkr.2]
          · simp [hres, hlt]
        · rcases hsol with ⟨h0, hs⟩ | ⟨w, hw, hwf, hwr, hwk, hwt⟩
          · left; refine ⟨by simpa [hres] using h0, hseen _ hs ?_⟩
            intro _ _; exact hres
          · right
            refine ⟨w, hw, hwf, hwr, by simpa [hres] using hwk, ?_⟩
            rcases hwt with ⟨hws, hwt⟩ | ⟨hws, hwt⟩
            · left; exact ⟨hws, hwt⟩
            · right; refine ⟨hws, ?_⟩
              have hne : r.k ≠ w.k := by
                intro hkk
                exact hres ((hcons r hr w hw hfin' hwf (by rw [hstep, hws]) hkk).2 hwr)
              simp [List.getElem?_set, hne, hwt]

theorem parent_record_total (MAX_STEPS : Nat) (T seen : List resultt) (st : parent_state)
    (r : resultt) (hinv : parent_inv MAX_STEPS T seen st)
    (hk : r.finished = false → r.step ≠ STEP.NONE → r.k < MAX_STEPS) :
    ∃ st', parent_record st r = some st' := by
  obtain ⟨l1, l2, l3, -, -⟩ := hinv
  unfold parent_record
  rcases hstep : r.step with _ | _ | _ | _ <;> simp only
  · exact ⟨_, rfl⟩
  all_goals
    by_cases hfin : r.finished = true
    · simp [hfin]
    · have hfin' : r.finished = false := by simpa using hfin
      have hlt := hk hfin' (by simp [hstep])
      simp [hfin', table_set, l1, l2, l3, hlt]

theorem parent_scan_inv (MAX_STEPS : Nat) (T : List resultt)
    (hk : ∀ r ∈ T, r.finished = false → r.step ≠ STEP.NONE →
      1 ≤ r.k ∧ r.k < 32768 ∧ r.k < MAX_STEPS)
    (hcons : ∀ r1 ∈ T, ∀ r2 ∈ T, r1.finished = false → r2.finished = false →
      r1.step = r2.step → r1.k = r2.k → (r1.result = 0 ↔ r2.result = 0))
    (hnosat : ∀ r ∈ T, r.step = STEP.BASE_CASE → r.finished = false → r.result = 0) :
    ∀ (buf seen : List resultt) (st : parent_state), (∀ r ∈ scanned buf, r ∈ T) →
      parent_inv MAX_STEPS T seen st →
      ∃ st', parent_scan buf st = some st' ∧ parent_inv MAX_STEPS T (seen ++ scanned buf) st' := by
  intro buf
  induction buf with
  | nil => intro seen st _ hinv; exact ⟨st, rfl, by simpa [scanned] using hinv⟩
  | cons r rest ih =>
    intro seen st hsub hinv
    by_cases hres : r.result = -1
    · exact ⟨st, by simp [parent_scan, hres], by simpa [scanned, hres] using hinv⟩
    · have hrT : r ∈ T := hsub r (by simp [scanned, hres])
      obtain ⟨st1, h1⟩ := parent_record_total MAX_STEPS T seen st r hinv
        (fun hf hs => (hk r hrT hf hs).2.2)
      have hinv1 := parent_record_inv MAX_STEPS T seen st st1 r
        (fun x hx hf hs => ⟨(hk x hx hf hs).1, (hk x hx hf hs).2.1⟩) hcons hnosat hrT hinv h1
      obtain ⟨st2, h2, hinv2⟩ := ih (seen ++ [r]) st1
        (fun x hx => hsub x (by simp [scanned, hres, hx])) hinv1
      refine ⟨st2, by simp [parent_scan, hres, h1, h2], ?_⟩
      simpa [scanned, hres] using hinv2

theorem parent_loop_inv (MAX_STEPS : Nat) (T : List resultt)
    (hk : ∀ r ∈ T, r.finished = false → r.step ≠ STEP.NONE →
      1 ≤ r.k ∧ r.k < 32768 ∧ r.k < MAX_STEPS)
    (hcons : ∀ r1 ∈ T, ∀ r2 ∈ T, r1.finished = false → r2.finished = false →
      r1.step = r2.step → r1.k = r2.k → (r1.result = 0 ↔ r2.result = 0))
    (hnosat : ∀ r ∈ T, r.step = STEP.BASE_CASE → r.finished = false → r.result = 0)
    (hpair : ∃ r ∈ T, r.finished = false ∧
      (r.step = STEP.FORWARD_CONDITION ∨ r.step = STEP.INDUCTIVE_STEP) ∧ r.result = 0) :
    ∀ (polls : List poll) (seen : List resultt) (st : parent_state),
      T = seen ++ parent_processed polls st → parent_inv MAX_STEPS T seen st →
      ∃ st', parent_loop polls st = some st' ∧ parent_inv MAX_STEPS T T st' ∧
        st'.solution_found ≠ 0 := by
  have hdone : ∀ (st : parent_state), parent_inv MAX_STEPS T T st → st.solution_found ≠ 0 := by
    intro st hinv
    obtain ⟨-, -, -, -, hsol⟩ := hinv
    rcases hsol with ⟨-, hs⟩ | ⟨w, hw, hwf, -, hwk, hws⟩
    · obtain ⟨r, hr, hf, hstep, hres⟩ := hpair
      exact absurd hres (hs r hr hf hstep)
    · have hk1 := (hk w hw hwf (by rcases hws with ⟨h, -⟩ | ⟨h, -⟩ <;> simp [h])).1
      rw [hwk]; omega
  intro polls
  induction polls with
  | nil =>
    intro seen st hT hinv
    have hTs : T = seen := by simpa [parent_processed] using hT
    rw [← hTs] at hinv
    have := hdone st hinv
    exact ⟨st, by simp [parent_loop, this], hinv, this⟩
  | cons p rest ih =>
    intro seen st hT hinv
    by_cases hc : ¬ (st.bc_finished ∧ st.fc_finished ∧ st.is_finished) ∧ st.solution_found = 0
    · rw [parent_processed, if_pos hc] at hT
      have hinv0 : parent_inv MAX_STEPS T seen
          { st with results := poll_buffer st p,
                    bc_finished := st.bc_finished || p.exited0,
                    fc_finished := st.fc_finished || p.exited1,
                    is_finished := st.is_finished || p.exited2 } := hinv
      obtain ⟨st1, h1, hinv1⟩ := parent_scan_inv MAX_STEPS T hk hcons hnosat
        (poll_buffer st p) seen _ (by intro r hr; rw [hT]; simp [hr]) hinv0
      have hturn : parent_turn st p = some st1 := h1
      rw [hturn] at hT
      obtain ⟨st2, h2, hinv2, hne⟩ := ih (seen ++ scanned (poll_buffer st p)) st1
        (by rw [List.append_assoc]; exact hT) hinv1
      exact ⟨st2, by rw [parent_loop, if_pos hc, hturn]; exact h2, hinv2, hne⟩
    · rw [parent_processed, if_neg hc] at hT
      have hTs : T = seen := by simpa using hT
      rw [← hTs] at hinv
      exact ⟨st, by rw [parent_loop, if_neg hc], hinv, hdone st hinv⟩

theorem parent_init_inv (MAX_STEPS : Nat) (garbage T : List resultt) :
    parent_inv MAX_STEPS T [] (parent_init MAX_STEPS garbage) := by
  refine ⟨by simp [parent_init], by simp [parent_init], by simp [parent_init], ?_, Or.inl ?_⟩
  · intro k hk
    simp [parent_init, List.getElem?_replicate] at hk
  · simp [parent_init]

/-- C5 (amended): when the records the parent processes contain no base-case
record reporting a violation, report every `k` in `1 .. MAX_STEPS - 1` and never
report two different outcomes for one (step, k), then a base-case record
reporting unsat together with a forward-condition or inductive-step record
reporting unsat at the same `k` makes the parent's loop end and its verdict
VERIFICATION SUCCESSFUL and nothing else. -/
theorem C5_success_verdict (MAX_STEPS : Nat) (garbage : List resultt) (polls : List poll)
    (hmax : MAX_STEPS ≤ 32768)
    (hk : ∀ r ∈ parent_processed polls (parent_init MAX_STEPS garbage),
      r.finished = false → r.step ≠ STEP.NONE → 1 ≤ r.k ∧ r.k < MAX_STEPS)
    (hcons : ∀ r1 ∈ parent_processed polls (parent_init MAX_STEPS garbage),
      ∀ r2 ∈ parent_processed polls (parent_init MAX_STEPS garbage),
      r1.finished = false → r2.finished = false →
      r1.step = r2.step → r1.k = r2.k → (r1.result = 0 ↔ r2.result = 0))
    (hnosat : ∀ r ∈ parent_processed polls (parent_init MAX_STEPS garbage),
      r.step = STEP.BASE_CASE → r.finished = false → r.result = 0)
    (hpair : ∃ k,
      (∃ r ∈ parent_processed polls (parent_init MAX_STEPS garbage),
        r.step = STEP.BASE_CASE ∧ r.finished = false ∧ r.k = k ∧ r.result = 0) ∧
      (∃ r ∈ parent_processed polls (parent_init MAX_STEPS garbage),
        (r.step = STEP.FORWARD_CONDITION ∨ r.step = STEP.INDUCTIVE_STEP) ∧
        r.finished = false ∧ r.k = k ∧ r.result = 0)) :
    ∃ vs, parent_run MAX_STEPS garbage polls = some vs ∧
      verdict.VERIFICATION_SUCCESSFUL ∈ vs ∧ ∀ v ∈ vs, v = verdict.VERIFICATION_SUCCESSFUL := by
  obtain ⟨k, -, r, hr, hstep, hfin, -, hres⟩ := hpair
  obtain ⟨st, hloop, hinv, hne⟩ := parent_loop_inv MAX_STEPS _
    (fun x hx hf hs => ⟨(hk x hx hf hs).1, by have := (hk x hx hf hs).2; omega, (hk x hx hf hs).2⟩)
    hcons hnosat ⟨r, hr, hfin, hstep, hres⟩ polls [] (parent_init MAX_STEPS garbage)
    (by simp) (parent_init_inv MAX_STEPS garbage _)
  obtain ⟨l1, l2, l3, hbc, hsol⟩ := hinv
  rcases hsol with ⟨h0, -⟩ | ⟨w, hw, hwf, hwr, hwk, hws⟩
  · exact absurd h0 hne
  · have hwlt : w.k < MAX_STEPS := by
      rcases hws with ⟨-, h⟩ | ⟨-, h⟩
      · have := (List.getElem?_eq_some_iff.1 h).1; omega
      · have := (List.getElem?_eq_some_iff.1 h).1; omega
    have hbcw : st.bc_res[w.k]? = some false := by
      rcases hb : st.bc_res[w.k]? with _ | b
      · have := List.getElem?_eq_none_iff.1 hb; omega
      · cases b
        · rfl
        · exact absurd hb (fun h => hbc w.k h)
    obtain ⟨fc, hfc⟩ : ∃ b, st.fc_res[w.k]? = some b :=
      ⟨_, List.getElem?_eq_getElem (by omega)⟩
    obtain ⟨is_, his⟩ : ∃ b, st.is_res[w.k]? = some b :=
      ⟨_, List.getElem?_eq_getElem (by omega)⟩
    have hsf : st.solution_found ≠ 0 := hne
    have hv : parent_verdicts st
        = some ((if !fc then [verdict.VERIFICATION_SUCCESSFUL] else [])
            ++ (if !is_ then [verdict.VERIFICATION_SUCCESSFUL] else [])) := by
      simp [parent_verdicts, table_get, hwk, hbcw, hfc, his]
      intro h; rw [hwk] at hsf; exact absurd (by exact_mod_cast h) hsf
    refine ⟨_, by rw [parent_run, hloop]; exact hv, ?_, ?_⟩
    · rcases hws with ⟨-, h⟩ | ⟨-, h⟩
      · rw [hfc] at h; cases h; simp
      · rw [his] at h; cases h; simp
    · intro v hv'
      cases fc <;> cases is_ <;> simp at hv' <;> try exact hv'

/-- Witness of C5 (amended): base case unsat at k = 1 and k = 2, forward
condition unsat at k = 2. -/
theorem C5_success_verdict_witness :
    ∃ vs, parent_run 50 quiet_garbage
        [poll_of [⟨STEP.BASE_CASE, 0, 1, false⟩, ⟨STEP.BASE_CASE, 0, 2, false⟩],
         poll_of [⟨STEP.FORWARD_CONDITION, 0, 2, false⟩]] = some vs ∧
      verdict.VERIFICATION_SUCCESSFUL ∈ vs ∧ ∀ v ∈ vs, v = verdict.VERIFICATION_SUCCESSFUL :=
  C5_success_verdict 50 quiet_garbage
    [poll_of [⟨STEP.BASE_CASE, 0, 1, false⟩, ⟨STEP.BASE_CASE, 0, 2, false⟩],
     poll_of [⟨STEP.FORWARD_CONDITION, 0, 2, false⟩]]
    (by decide) (by decide) (by decide) (by decide) ⟨2, by decide, by decide⟩

/-! ## The workers of the parallel k-induction (C7) -/

/-- C7 (counterexample): a base-case worker with `max_k_step = 1` whose only
run finds a violation writes the record of that run and returns; it writes no
`finished = true` record. -/
theorem C7_counterexample :
    worker STEP.BASE_CASE 1 (fun _ => 1) 0 = ([⟨STEP.BASE_CASE, 1, 1, false⟩], 1) ∧
    ¬ ∃ r ∈ (worker STEP.BASE_CASE 1 (fun _ => 1) 0).1, r.finished = true := by
  decide

theorem worker_loop_exhausted (role : STEP) (solve : Nat → Int) :
    ∀ (n k : Nat) (r : resultt),
      (∀ j, j < n → worker_returns role (solve (k + j)) = false) →
      worker_loop role solve n k r
        = ((List.range n).map (fun j => startSolving role (k + j) (solve (k + j)))
            ++ [{ (if n = 0 then r else startSolving role (k + n - 1) (solve (k + n - 1)))
                  with finished := true }], 0) := by
  intro n
  induction n with
  | zero => intro k r _; simp [worker_loop]
  | succ n ih =>
    intro k r h
    have h0 : worker_returns role (solve k) = false := by simpa using h 0 (by omega)
    have ih' := ih (k + 1) (startSolving role k (solve k))
      (fun j hj => by have := h (j + 1) (by omega); rwa [show k + 1 + j = k + (j + 1) by omega])
    simp only [worker_loop, startSolving] at ih' ⊢
    simp only [h0, ih', List.range_succ_eq_map, List.map_cons, List.map_map]
    simp only [Bool.false_eq_true, if_false, Nat.add_zero, List.cons_append]
    refine Prod.ext ?_ rfl
    simp only [List.cons.injEq, true_and]
    congr 1
    · apply List.map_congr_left
      intro j _
      simp [Nat.add_assoc, Nat.add_comm 1 j]
    · by_cases hn : n = 0
      · subst hn; simp
      · simp [hn]

theorem worker_loop_returns (role : STEP) (solve : Nat → Int) :
    ∀ (j0 n k : Nat) (r : resultt), j0 < n →
      (∀ j, j < j0 → worker_returns role (solve (k + j)) = false) →
      worker_returns role (solve (k + j0)) = true →
      worker_loop role solve n k r
        = ((List.range (j0 + 1)).map (fun j => startSolving role (k + j) (solve (k + j))),
           solve (k + j0)) := by
  intro j0
  induction j0 with
  | zero =>
    intro n k r hn _ h1
    obtain ⟨m, rfl⟩ : ∃ m, n = m + 1 := ⟨n - 1, by omega⟩
    have h1' : worker_returns role (solve k) = true := by simpa using h1
    simp [worker_loop, startSolving, h1', List.range_succ_eq_map]
  | succ j0 ih =>
    intro n k r hn h h1
    obtain ⟨m, rfl⟩ : ∃ m, n = m + 1 := ⟨n - 1, by omega⟩
    have h0 : worker_returns role (solve k) = false := by simpa using h 0 (by omega)
    have ih' := ih m (k + 1) (startSolving role k (solve k)) (by omega)
      (fun j hj => by have := h (j + 1) (by omega); rwa [show k + 1 + j = k + (j + 1) by omega])
      (by rwa [show k + 1 + j0 = k + (j0 + 1) by omega])
    simp only [worker_loop, startSolving] at ih' ⊢
    simp only [h0, ih']
    simp only [Bool.false_eq_true, if_false]
    rw [List.range_succ_eq_map (j0 + 1)]
    simp only [List.map_cons, List.map_map, Nat.add_zero]
    refine Prod.ext ?_ (by simp [Nat.add_assoc, Nat.add_comm 1 j0])
    simp only [List.cons.injEq, true_and]
    apply List.map_congr_left
    intro j _
    simp [Nat.add_assoc, Nat.add_comm 1 j]

/-- C7 (amended): a worker writes one `finished = false` record for each `k` it
runs, in increasing order of `k`. If none of the runs up to `max_k_step` is
conclusive (a violation for the base case, unsat for the forward condition and
the inductive step) these records are followed by exactly one `finished = true`
record of the worker's step; if the run at some `k` is conclusive the record of
that `k` is the last one written and no `finished = true` record follows. -/
theorem C7_worker_records (role : STEP) (max_k_step : Int) (solve : Nat → Int) (uninit : Int) :
    ((∀ j, j < (max_k_step + 1 - (worker_start role : Int)).toNat →
        worker_returns role (solve (worker_start role + j)) = false) →
      ∃ last : resultt, last.finished = true ∧ last.step = role ∧
        (worker role max_k_step solve uninit).1
          = (List.range (max_k_step + 1 - (worker_start role : Int)).toNat).map
              (fun j => startSolving role (worker_start role + j) (solve (worker_start role + j)))
            ++ [last]) ∧
    (∀ j0, j0 < (max_k_step + 1 - (worker_start role : Int)).toNat →
      (∀ j, j < j0 → worker_returns role (solve (worker_start role + j)) = false) →
      worker_returns role (solve (worker_start role + j0)) = true →
      (worker role max_k_step solve uninit).1
        = (List.range (j0 + 1)).map
            (fun j => startSolving role (worker_start role + j) (solve (worker_start role + j))) ∧
      ∀ r ∈ (worker role max_k_step solve uninit).1, r.finished = false) := by
  constructor
  · intro h
    rw [worker, worker_loop_exhausted role solve _ _ _ h]
    refine ⟨_, ?_, ?_, rfl⟩
    · rfl
    · split <;> rfl
  · intro j0 hj0 h h1
    rw [worker, worker_loop_returns role solve j0 _ _ _ hj0 h h1]
    refine ⟨rfl, ?_⟩
    intro r hr
    simp only [List.mem_map] at hr
    obtain ⟨j, -, rfl⟩ := hr
    rfl

/-- Witness of C7 (amended): a base-case worker that exhausts `max_k_step = 2`,
and a forward-condition worker whose second run is conclusive. -/
theorem C7_worker_records_witness :
    (worker STEP.BASE_CASE 2 (fun _ => 0) 7).1
      = [⟨STEP.BASE_CASE, 0, 1, false⟩, ⟨STEP.BASE_CASE, 0, 2, false⟩,
         ⟨STEP.BASE_CASE, 0, 2, true⟩] ∧
    (worker STEP.FORWARD_CONDITION 5 (fun k => if k = 3 then 0 else 1) 7).1
      = [⟨STEP.FORWARD_CONDITION, 1, 2, false⟩, ⟨STEP.FORWARD_CONDITION, 0, 3, false⟩] := by
  constructor
  · obtain ⟨last, h1, h2, h3⟩ :=
      (C7_worker_records STEP.BASE_CASE 2 (fun _ => 0) 7).1 (by decide)
    decide
  · exact ((C7_worker_records STEP.FORWARD_CONDITION 5 (fun k => if k = 3 then 0 else 1) 7).2 1
      (by decide) (by decide) (by decide)).1

/-! ## Index sets after `join_array_indexes` (C3) -/

/-! ### Ordered-set insertion -/

theorem mem_set_insert {α : Type} [DecidableEq α] (rank : α → Nat) (e x : α) (l : List α) :
    x ∈ set_insert rank e l ↔ x = e ∨ x ∈ l := by
  induction l with
  | nil => simp [set_insert]
  | cons y ys ih =>
    unfold set_insert
    split
    · rename_i h; subst h; simp
    · split
      · simp
      · simp only [List.mem_cons, ih]; tauto

theorem length_set_insert_ge {α : Type} [DecidableEq α] (rank : α → Nat) (e : α) (l : List α) :
    l.length ≤ (set_insert rank e l).length := by
  induction l with
  | nil => simp [set_insert]
  | cons y ys ih =>
    unfold set_insert
    split
    · simp
    · split
      · simp
      · simp only [List.length_cons]; omega

theorem set_insert_eq_of_length {α : Type} [DecidableEq α] (rank : α → Nat) (e : α) (l : List α)
    (h : (set_insert rank e l).length = l.length) : set_insert rank e l = l ∧ e ∈ l := by
  induction l with
  | nil => simp [set_insert] at h
  | cons y ys ih =>
    unfold set_insert at h ⊢
    split
    · rename_i h'; subst h'; simp
    · rename_i hne
      rw [if_neg hne] at h
      split
      · rename_i hlt; rw [if_pos hlt] at h; simp at h
      · rename_i hlt; rw [if_neg hlt] at h
        simp only [List.length_cons, Nat.add_right_cancel_iff] at h
        obtain ⟨h1, h2⟩ := ih h
        exact ⟨by rw [h1], List.mem_cons_of_mem _ h2⟩

theorem mem_set_insert_all {α : Type} [DecidableEq α] (rank : α → Nat) (x : α) :
    ∀ (src dst : List α), x ∈ set_insert_all rank src dst ↔ x ∈ src ∨ x ∈ dst := by
  intro src
  induction src with
  | nil => intro dst; simp [set_insert_all]
  | cons e es ih =>
    intro dst
    have := ih (set_insert rank e dst)
    simp only [set_insert_all, List.foldl_cons] at this ⊢
    rw [this, mem_set_insert]; simp only [List.mem_cons]; tauto

theorem length_set_insert_all_ge {α : Type} [DecidableEq α] (rank : α → Nat) :
    ∀ (src dst : List α), dst.length ≤ (set_insert_all rank src dst).length := by
  intro src
  induction src with
  | nil => intro dst; simp [set_insert_all]
  | cons e es ih =>
    intro dst
    have := ih (set_insert rank e dst)
    simp only [set_insert_all, List.foldl_cons] at this ⊢
    exact le_trans (length_set_insert_ge rank e dst) this

theorem set_insert_all_eq_of_length {α : Type} [DecidableEq α] (rank : α → Nat) :
    ∀ (src dst : List α), (set_insert_all rank src dst).length = dst.length →
      set_insert_all rank src dst = dst ∧ ∀ x ∈ src, x ∈ dst := by
  intro src
  induction src with
  | nil => intro dst _; simp [set_insert_all]
  | cons e es ih =>
    intro dst h
    have hge := length_set_insert_all_ge rank es (set_insert rank e dst)
    have hge1 := length_set_insert_ge rank e dst
    simp only [set_insert_all, List.foldl_cons] at h hge ih ⊢
    have h1 : (set_insert rank e dst).length = dst.length := by omega
    obtain ⟨he, hmem⟩ := set_insert_eq_of_length rank e dst h1
    rw [he] at h ⊢
    obtain ⟨h2, h3⟩ := ih dst h
    refine ⟨h2, ?_⟩
    intro x hx
    rcases List.mem_cons.1 hx with rfl | hx
    · exact hmem
    · exact h3 x hx

theorem entry_of_set {α : Type} (G : List (List α)) (t s : Nat) (g : List α) (ht : t < G.length) :
    entry_of (G.set t g) s = if t = s then g else entry_of G s := by
  unfold entry_of
  rw [List.getElem?_set]
  by_cases h : t = s
  · subst h; simp [ht]
  · simp [h]

theorem entry_of_of_getElem? {α : Type} {G : List (List α)} {s : Nat} {g : List α}
    (h : G[s]? = some g) :
    entry_of G s = g := by
  simp [entry_of, h]

theorem join_touch_spec (rel : Nat → Nat → Prop) (arrset : List Nat) :
    ∀ (l : List Nat) (G : List (List Nat)) (m : Bool) (G' : List (List Nat)) (m' : Bool),
      join_touch arrset l (G, m) = some (G', m') →
      G'.length = G.length ∧
      (∀ s x, x ∈ entry_of G s → x ∈ entry_of G' s) ∧
      (∀ t ∈ l, t < G.length) ∧
      ((∀ x ∈ arrset, ∀ t ∈ l, rel t x) → (∀ s x, x ∈ entry_of G s → rel s x) →
        ∀ s x, x ∈ entry_of G' s → rel s x) ∧
      (m = true → m' = true) ∧
      (m' = false → G' = G ∧ ∀ t ∈ l, ∀ x ∈ arrset, x ∈ entry_of G t) := by
  intro l
  induction l with
  | nil =>
    intro G m G' m' h
    simp only [join_touch, Option.some.injEq, Prod.mk.injEq] at h
    obtain ⟨rfl, rfl⟩ := h
    simp
  | cons touched rest ih =>
    intro G m G' m' h
    unfold join_touch at h
    rcases hg : G[touched]? with _ | g
    · simp [hg] at h
    · simp only [hg] at h
      have hlt : touched < G.length := (List.getElem?_eq_some_iff.1 hg).1
      obtain ⟨h1, h2, h3, h4, h5, h6⟩ := ih _ _ _ _ h
      have hgrp : entry_of G touched = g := entry_of_of_getElem? hg
      have hmono0 : ∀ s x, x ∈ entry_of G s →
          x ∈ entry_of (G.set touched (set_insert_all id arrset g)) s := by
        intro s x hx
        rw [entry_of_set _ _ _ _ hlt]
        split
        · rename_i hts; subst hts
          rw [mem_set_insert_all]; right; rw [← hgrp]; exact hx
        · exact hx
      refine ⟨by simpa using h1, fun s x hx => h2 s x (hmono0 s x hx), ?_, ?_, ?_, ?_⟩
      · intro t ht
        rcases List.mem_cons.1 ht with rfl | ht
        · exact hlt
        · simpa using h3 t ht
      · intro hrel hsound
        apply h4 (fun x hx t ht => hrel x hx t (List.mem_cons_of_mem _ ht))
        intro s x hx
        rw [entry_of_set _ _ _ _ hlt] at hx
        split at hx
        · rename_i hts; subst hts
          rcases (mem_set_insert_all _ _ _ _).1 hx with hx | hx
          · exact hrel x hx touched (List.mem_cons_self _ _)
          · exact hsound touched x (by rw [hgrp]; exact hx)
        · exact hsound s x hx
      · intro hm; apply h5; simp [hm]
      · intro hm'
        obtain ⟨hG, hall⟩ := h6 hm'
        have hflag : (m || decide (g.length ≠ (set_insert_all id arrset g).length)) = false := by
          rcases hb : (m || decide (g.length ≠ (set_insert_all id arrset g).length)) with _ | _
          · rfl
          · have := h5 hb
            rw [hm'] at this; exact absurd this (by simp)
        have hlen : (set_insert_all id arrset g).length = g.length := by
          simp only [Bool.or_eq_false_iff, decide_eq_false_iff_not, ne_eq, not_not] at hflag
          exact hflag.2.symm
        obtain ⟨heq, hsub⟩ := set_insert_all_eq_of_length id arrset g hlen
        have hset : G.set touched (set_insert_all id arrset g) = G := by
          rw [heq]
          apply List.ext_getElem?
          intro i
          rw [List.getElem?_set]
          split
          · rename_i hi; subst hi; simp [hlt, hg]
          · rfl
        rw [hset] at hG hall
        refine ⟨hG, ?_⟩
        intro t ht x hx
        rcases List.mem_cons.1 ht with rfl | ht
        · rw [hgrp]; exact hsub x hx
        · exact hall t ht x hx

theorem join_pass_spec (rel : Nat → Nat → Prop) (hsymm : ∀ a b, rel a b → rel b a)
    (htrans : ∀ a b c, rel a b → rel b c → rel a c) :
    ∀ (n k : Nat) (G : List (List Nat)) (m : Bool) (G' : List (List Nat)) (m' : Bool),
      join_pass n k (G, m) = some (G', m') →
      G'.length = G.length ∧
      (∀ s x, x ∈ entry_of G s → x ∈ entry_of G' s) ∧
      ((∀ s x, x ∈ entry_of G s → rel s x) → ∀ s x, x ∈ entry_of G' s → rel s x) ∧
      (m = true → m' = true) ∧
      (m' = false → G' = G ∧ ∀ j, k ≤ j → j < k + n →
        j < G.length ∧ ∀ t ∈ entry_of G j, t < G.length ∧ ∀ x ∈ entry_of G j, x ∈ entry_of G t) := by
  intro n
  induction n with
  | zero =>
    intro k G m G' m' h
    simp only [join_pass, Option.some.injEq, Prod.mk.injEq] at h
    obtain ⟨rfl, rfl⟩ := h
    refine ⟨rfl, fun _ _ h => h, fun h => h, fun h => h, fun _ => ⟨rfl, ?_⟩⟩
    intro j h1 h2; omega
  | succ n ih =>
    intro k G m G' m' h
    unfold join_pass at h
    rcases hg : G[k]? with _ | arrset
    · simp [hg] at h
    · simp only [hg] at h
      rcases ht : join_touch arrset arrset (G, m) with _ | ⟨G1, m1⟩
      · simp [ht] at h
      · simp only [ht] at h
        have hklt : k < G.length := (List.getElem?_eq_some_iff.1 hg).1
        have hgrp : entry_of G k = arrset := entry_of_of_getElem? hg
        obtain ⟨t1, t2, t3, t4, t5, t6⟩ := join_touch_spec rel arrset arrset G m G1 m1 ht
        obtain ⟨p1, p2, p3, p4, p5⟩ := ih (k + 1) G1 m1 G' m' h
        refine ⟨by omega, fun s x hx => p2 s x (t2 s x hx), ?_, fun hm => p4 (t5 hm), ?_⟩
        · intro hsound
          apply p3
          apply t4 _ hsound
          intro x hx t htm
          have h1 := hsound k x (by rw [hgrp]; exact hx)
          have h2 := hsound k t (by rw [hgrp]; exact htm)
          exact htrans _ _ _ (hsymm _ _ h2) h1
        · intro hm'
          obtain ⟨hG1, hall⟩ := p5 hm'
          have hm1 : m1 = false := by
            rcases hb : m1 with _ | _
            · rfl
            · have := p4 hb; rw [hm'] at this; exact absurd this (by simp)
          obtain ⟨hG, hall0⟩ := t6 hm1
          subst hG
          refine ⟨hG1, ?_⟩
          intro j hj1 hj2
          by_cases hjk : j = k
          · subst hjk
            refine ⟨hklt, ?_⟩
            intro t htm
            rw [hgrp] at htm ⊢
            exact ⟨t3 t htm, hall0 t htm⟩
          · exact hall j (by omega) (by omega)

theorem join_fix_spec (rel : Nat → Nat → Prop) (hsymm : ∀ a b, rel a b → rel b a)
    (htrans : ∀ a b c, rel a b → rel b c → rel a c) :
    ∀ (fuel : Nat) (G G' : List (List Nat)),
      join_fix fuel G = some G' →
      G'.length = G.length ∧
      (∀ s x, x ∈ entry_of G s → x ∈ entry_of G' s) ∧
      ((∀ s x, x ∈ entry_of G s → rel s x) → ∀ s x, x ∈ entry_of G' s → rel s x) ∧
      closed_groupings G' := by
  intro fuel
  induction fuel with
  | zero => intro G G' h; simp [join_fix] at h
  | succ fuel ih =>
    intro G G' h
    unfold join_fix at h
    rcases hp : join_pass G.length 0 (G, false) with _ | ⟨G1, m1⟩
    · simp [hp] at h
    · simp only [hp] at h
      obtain ⟨p1, p2, p3, -, p5⟩ := join_pass_spec rel hsymm htrans _ _ _ _ _ _ hp
      by_cases hm : m1 = true
      · rw [if_pos hm] at h
        obtain ⟨q1, q2, q3, q4⟩ := ih G1 G' h
        exact ⟨by omega, fun s x hx => q2 s x (p2 s x hx), fun hs => q3 (p3 hs), q4⟩
      · rw [if_neg hm] at h
        simp only [Option.some.injEq] at h
        subst h
        have hm' : m1 = false := by simpa using hm
        obtain ⟨hG, hall⟩ := p5 hm'
        subst hG
        refine ⟨rfl, fun _ _ h => h, fun h => h, ?_⟩
        intro j hj
        exact (hall j (Nat.zero_le _) (by omega)).2

theorem update_at_some {α : Type} {l l' : List α} {i : Nat} {f : α → α}
    (h : update_at l i f = some l') : ∃ x, l[i]? = some x ∧ l' = l.set i (f x) := by
  unfold update_at at h
  split at h
  · rename_i x hx; exact ⟨x, hx, by simpa using h.symm⟩
  · simp at h

theorem placed_from_spec : ∀ (l : List (List array_with)) (k j : Nat) (us : List array_with)
    (w : array_with), placed_from k l = true → l[j]? = some us → w ∈ us →
    ite_record_placed (k + j) w = true := by
  intro l
  induction l with
  | nil => intro k j us w _ h; simp at h
  | cons u rest ih =>
    intro k j us w hp hj hw
    simp only [placed_from, Bool.and_eq_true, List.all_eq_true] at hp
    cases j with
    | zero =>
      simp only [List.getElem?_cons_zero, Option.some.injEq] at hj
      subst hj
      exact hp.1 w hw
    | succ j =>
      simp only [List.getElem?_cons_succ] at hj
      have := ih (k + 1) j us w hp.2 hj hw
      rwa [show k + 1 + j = k + (j + 1) by omega] at this

theorem mem_join_collect (x : Nat) : ∀ (us : List array_with) (g : List Nat),
    x ∈ join_collect us g ↔ x ∈ g ∨ ∃ t f c, array_with.i t f c ∈ us ∧
      t.base_array_id ≠ f.base_array_id ∧ (x = t.base_array_id ∨ x = f.base_array_id) := by
  intro us
  induction us with
  | nil => intro g; simp [join_collect]
  | cons u rest ih =>
    intro g
    cases u with
    | placeholder =>
      simp only [join_collect, ih, List.mem_cons]
      constructor
      · rintro (h | ⟨t, f, c, h1, h2⟩)
        · exact Or.inl h
        · exact Or.inr ⟨t, f, c, Or.inr h1, h2⟩
      · rintro (h | ⟨t, f, c, h1 | h1, h2⟩)
        · exact Or.inl h
        · cases h1
        · exact Or.inr ⟨t, f, c, h1, h2⟩
    | w a b c =>
      simp only [join_collect, ih, List.mem_cons]
      constructor
      · rintro (h | ⟨t, f, c, h1, h2⟩)
        · exact Or.inl h
        · exact Or.inr ⟨t, f, c, Or.inr h1, h2⟩
      · rintro (h | ⟨t, f, c, h1 | h1, h2⟩)
        · exact Or.inl h
        · cases h1
        · exact Or.inr ⟨t, f, c, h1, h2⟩
    | i t0 f0 c0 =>
      unfold join_collect
      split
      · rename_i hne
        rw [ih]
        simp only [mem_set_insert, id, List.mem_cons]
        constructor
        · rintro ((h | h | h) | ⟨t, f, c, h1, h2⟩)
          · exact Or.inr ⟨t0, f0, c0, Or.inl rfl, hne, Or.inr h⟩
          · exact Or.inr ⟨t0, f0, c0, Or.inl rfl, hne, Or.inl h⟩
          · exact Or.inl h
          · exact Or.inr ⟨t, f, c, Or.inr h1, h2⟩
        · rintro (h | ⟨t, f, c, h1 | h1, h2, h3⟩)
          · exact Or.inl (Or.inr (Or.inr h))
          · cases h1
            rcases h3 with h3 | h3
            · exact Or.inl (Or.inr (Or.inl h3))
            · exact Or.inl (Or.inl h3)
          · exact Or.inr ⟨t, f, c, h1, h2, h3⟩
      · rename_i hne
        rw [ih]
        simp only [List.mem_cons]
        constructor
        · rintro (h | ⟨t, f, c, h1, h2⟩)
          · exact Or.inl h
          · exact Or.inr ⟨t, f, c, Or.inr h1, h2⟩
        · rintro (h | ⟨t, f, c, h1 | h1, h2, h3⟩)
          · exact Or.inl h
          · cases h1; exact absurd h2 hne
          · exact Or.inr ⟨t, f, c, h1, h2, h3⟩

theorem join_equalities_spec : ∀ (es : List array_equality) (G G' : List (List Nat)),
    join_equalities es G = some G' →
    G'.length = G.length ∧
    (∀ e ∈ es, e.arr1_id < G.length ∧ e.arr2_id < G.length) ∧
    (∀ s x, x ∈ entry_of G' s ↔ x ∈ entry_of G s ∨
      ∃ e ∈ es, (s = e.arr1_id ∧ x = e.arr2_id) ∨ (s = e.arr2_id ∧ x = e.arr1_id)) := by
  intro es
  induction es with
  | nil =>
    intro G G' h
    simp only [join_equalities, Option.some.injEq] at h
    subst h; simp
  | cons e rest ih =>
    intro G G' h
    unfold join_equalities at h
    rcases h1 : update_at G e.arr1_id (set_insert id e.arr2_id) with _ | g1
    · simp [h1] at h
    · simp only [h1] at h
      rcases h2 : update_at g1 e.arr2_id (set_insert id e.arr1_id) with _ | g2
      · simp [h2] at h
      · simp only [h2] at h
        obtain ⟨x1, hx1, rfl⟩ := update_at_some h1
        obtain ⟨x2, hx2, rfl⟩ := update_at_some h2
        have hl1 : e.arr1_id < G.length := (List.getElem?_eq_some_iff.1 hx1).1
        have hl2 : e.arr2_id < G.length := by
          have := (List.getElem?_eq_some_iff.1 hx2).1; simpa using this
        obtain ⟨q1, q2, q3⟩ := ih _ _ h
        refine ⟨by simpa using q1, ?_, ?_⟩
        · intro e' he'
          rcases List.mem_cons.1 he' with rfl | he'
          · exact ⟨hl1, hl2⟩
          · simpa using q2 e' he'
        · intro s x
          rw [q3, entry_of_set _ _ _ _ (by simpa using hl2)]
          have hx2' : entry_of (G.set e.arr1_id (set_insert id e.arr2_id x1)) e.arr2_id = x2 :=
            entry_of_of_getElem? hx2
          have hx1' : entry_of G e.arr1_id = x1 := entry_of_of_getElem? hx1
          have key : ∀ s, x ∈ entry_of (G.set e.arr1_id (set_insert id e.arr2_id x1)) s ↔
              x ∈ entry_of G s ∨ (s = e.arr1_id ∧ x = e.arr2_id) := by
            intro s
            rw [entry_of_set _ _ _ _ hl1]
            split
            · rename_i hs; subst hs
              rw [mem_set_insert, hx1']; simp only [id]; tauto
            · rename_i hs
              constructor
              · intro h; exact Or.inl h
              · rintro (h | ⟨h, -⟩)
                · exact h
                · exact absurd h.symm hs
          simp only [List.mem_cons, exists_eq_or_imp]
          split
          · rename_i hs; subst hs
            rw [mem_set_insert, ← hx2', key]; simp only [id]
            constructor
            · rintro ((h | h | h) | h)
              · exact Or.inr (Or.inl (Or.inr ⟨trivial, h⟩))
              · exact Or.inl h
              · exact Or.inr (Or.inl (Or.inl h))
              · exact Or.inr (Or.inr h)
            · rintro (h | (h | ⟨-, h⟩) | h)
              · exact Or.inl (Or.inr (Or.inl h))
              · exact Or.inl (Or.inr (Or.inr h))
              · exact Or.inl (Or.inl h)
              · exact Or.inr h
          · rename_i hs
            rw [key]
            constructor
            · rintro ((h | h) | h)
              · exact Or.inl h
              · exact Or.inr (Or.inl (Or.inl h))
              · exact Or.inr (Or.inr h)
            · rintro (h | (h | ⟨h, -⟩) | h)
              · exact Or.inl (Or.inl h)
              · exact Or.inl (Or.inr h)
              · exact absurd h.symm hs
              · exact Or.inr h

theorem entry_of_join_initial_base (s : array_convt) (a : Nat) (us : List array_with)
    (h : s.array_updates[a]? = some us) :
    entry_of (s.array_updates.enum.map (fun p => set_insert id p.1 (join_collect p.2 []))) a
      = set_insert id a (join_collect us []) := by
  simp [entry_of, List.getElem?_map, List.getElem?_enum, h]

theorem entry_of_join_initial_none (s : array_convt) (a : Nat)
    (h : s.array_updates[a]? = none) :
    entry_of (s.array_updates.enum.map (fun p => set_insert id p.1 (join_collect p.2 []))) a = [] := by
  simp [entry_of, List.getElem?_map, List.getElem?_enum, h]

theorem mem_entry_of_lt {α : Type} {G : List (List α)} {a : Nat} {x : α} (h : x ∈ entry_of G a) :
    a < G.length := by
  by_contra hc
  have : G[a]? = none := List.getElem?_eq_none_iff.2 (by omega)
  simp [entry_of, this] at h

theorem join_groupings_spec (s : array_convt) (G : List (List Nat))
    (hplaced : ite_records_placed s = true) (h : join_groupings s = some G) :
    G.length = s.array_updates.length ∧ closed_groupings G ∧
    (∀ a, a < G.length → a ∈ entry_of G a) ∧
    (∀ a b, b ∈ entry_of G a ↔ a < G.length ∧ Relation.EqvGen (joined s) a b) := by
  unfold join_groupings at h
  rcases h0 : join_initial s with _ | G1
  · simp [h0] at h
  · simp only [h0] at h
    unfold join_initial at h0
    obtain ⟨e1, e2, e3⟩ := join_equalities_spec _ _ _ h0
    have hsymm : ∀ a b, Relation.EqvGen (joined s) a b → Relation.EqvGen (joined s) b a :=
      fun a b h => Relation.EqvGen.symm a b h
    have htrans : ∀ a b c, Relation.EqvGen (joined s) a b → Relation.EqvGen (joined s) b c →
        Relation.EqvGen (joined s) a c := fun a b c h1 h2 => Relation.EqvGen.trans a b c h1 h2
    obtain ⟨f1, f2, f3, f4⟩ := join_fix_spec _ hsymm htrans _ _ _ h
    have hlen : G.length = s.array_updates.length := by
      rw [f1, e1]; simp
    -- soundness of the initial sets
    have hsound1 : ∀ a x, x ∈ entry_of G1 a → Relation.EqvGen (joined s) a x := by
      intro a x hx
      rcases (e3 a x).1 hx with hx | ⟨e, he, ⟨rfl, rfl⟩ | ⟨rfl, rfl⟩⟩
      · rcases hu : s.array_updates[a]? with _ | us
        · rw [entry_of_join_initial_none s a hu] at hx; simp at hx
        · rw [entry_of_join_initial_base s a us hu, mem_set_insert, mem_join_collect] at hx
          rcases hx with rfl | hx | ⟨t, f, c, hw, hne, hx⟩
          · exact Relation.EqvGen.refl _
          · simp at hx
          · have hp := placed_from_spec _ 0 a us _ hplaced hu hw
            simp only [ite_record_placed, Bool.or_eq_true, decide_eq_true_eq, Nat.zero_add] at hp
            have hj : joined s t.base_array_id f.base_array_id :=
              Or.inl ⟨us, List.mem_iff_getElem?.2 ⟨a, hu⟩, t, f, c, hw, hne, rfl, rfl⟩
            have ha : a = t.base_array_id ∨ a = f.base_array_id := by
              rcases hp with hp | hp
              · exact absurd hp hne
              · rcases Nat.le_total t.base_array_id f.base_array_id with h | h
                · left; rw [hp]; exact Nat.min_eq_left h
                · right; rw [hp]; exact Nat.min_eq_right h
            rcases ha with ha | ha <;> rcases hx with hx' | hx' <;> rw [ha, hx']
            · exact Relation.EqvGen.refl _
            · exact Relation.EqvGen.rel _ _ hj
            · exact Relation.EqvGen.symm _ _ (Relation.EqvGen.rel _ _ hj)
            · exact Relation.EqvGen.refl _
      · exact Relation.EqvGen.rel _ _ (Or.inr ⟨e, he, rfl, rfl⟩)
      · exact Relation.EqvGen.symm _ _ (Relation.EqvGen.rel _ _ (Or.inr ⟨e, he, rfl, rfl⟩))
    have hsound : ∀ a x, x ∈ entry_of G a → Relation.EqvGen (joined s) a x := f3 hsound1
    -- every set holds its own id
    have hself : ∀ a, a < G.length → a ∈ entry_of G a := by
      intro a ha
      apply f2; rw [e3]; left
      obtain ⟨us, hu⟩ : ∃ us, s.array_updates[a]? = some us :=
        ⟨_, List.getElem?_eq_getElem (by omega)⟩
      rw [entry_of_join_initial_base s a us hu, mem_set_insert]; left; rfl
    -- directly joined ids are in each other's sets
    have hbase : ∀ a b, joined s a b → b ∈ entry_of G a ∨ a ∈ entry_of G b := by
      intro a b hj
      rcases hj with ⟨us, hus, t, f, c, hw, hne, rfl, rfl⟩ | ⟨e, he, rfl, rfl⟩
      · obtain ⟨arrid, hu⟩ := List.mem_iff_getElem?.1 hus
        have hp := placed_from_spec _ 0 arrid us _ hplaced hu hw
        simp only [ite_record_placed, Bool.or_eq_true, decide_eq_true_eq, Nat.zero_add] at hp
        have hmem : ∀ x, (x = t.base_array_id ∨ x = f.base_array_id) → x ∈ entry_of G arrid := by
          intro x hx
          apply f2; rw [e3]; left
          rw [entry_of_join_initial_base s arrid us hu, mem_set_insert, mem_join_collect]
          exact Or.inr (Or.inr ⟨t, f, c, hw, hne, hx⟩)
        rcases hp with hp | hp
        · exact absurd hp hne
        · rcases Nat.le_total t.base_array_id f.base_array_id with h | h
          · left; rw [← Nat.min_eq_left h, ← hp]; exact hmem _ (Or.inr rfl)
          · right; rw [← Nat.min_eq_right h, ← hp]; exact hmem _ (Or.inl rfl)
      · left; apply f2; rw [e3]; right; exact ⟨e, he, Or.inl ⟨rfl, rfl⟩⟩
    refine ⟨hlen, f4, hself, ?_⟩
    -- membership in a set implies membership the other way round
    have hback : ∀ a b, b ∈ entry_of G a → a ∈ entry_of G b := by
      intro a b hb
      have ha := mem_entry_of_lt hb
      exact (f4 a ha b hb).2 a (hself a ha)
    intro a b
    constructor
    · intro hb; exact ⟨mem_entry_of_lt hb, hsound a b hb⟩
    · rintro ⟨ha, hab⟩
      have key : ∀ a b, Relation.EqvGen (joined s) a b →
          (a < G.length → b ∈ entry_of G a) ∧ (b < G.length → a ∈ entry_of G b) := by
        intro a b hab
        induction hab with
        | rel x y hxy =>
          rcases hbase x y hxy with h | h
          · exact ⟨fun _ => h, fun _ => hback _ _ h⟩
          · exact ⟨fun _ => hback _ _ h, fun _ => h⟩
        | refl x => exact ⟨hself x, hself x⟩
        | symm x y _ ih => exact ⟨ih.2, ih.1⟩
        | trans x y z _ _ ih1 ih2 =>
          constructor
          · intro hx
            have hy := ih1.1 hx
            have hylt := (f4 x hx y hy).1
            have hz := ih2.1 hylt
            exact (f4 y hylt x (hback _ _ hy)).2 z hz
          · intro hz
            have hy := ih2.2 hz
            have hylt := (f4 z hz y hy).1
            have hx := ih1.2 hylt
            exact (f4 y hylt z (hback _ _ hy)).2 x hx
      exact (key a b hab).1 ha

theorem join_indexes_inner_spec (arrid : Nat) :
    ∀ (l : List Nat) (idxs idxs' : List (List expr2tc)),
      join_indexes_inner arrid l idxs = some idxs' →
      idxs'.length = idxs.length ∧
      (∀ j, j ≠ arrid → idxs'[j]? = idxs[j]?) ∧
      (∀ t ∈ l, t < idxs.length) ∧
      (∀ e, e ∈ entry_of idxs' arrid ↔
        e ∈ entry_of idxs arrid ∨ ∃ t ∈ l, e ∈ entry_of idxs t) := by
  intro l
  induction l with
  | nil =>
    intro idxs idxs' h
    simp only [join_indexes_inner, Option.some.injEq] at h
    subst h; simp
  | cons touched rest ih =>
    intro idxs idxs' h
    unfold join_indexes_inner at h
    rcases h1 : idxs[touched]? with _ | src
    · simp [h1] at h
    · rcases h2 : idxs[arrid]? with _ | dst
      · simp [h1, h2] at h
      · simp only [h1, h2] at h
        obtain ⟨q1, q2, q3, q4⟩ := ih _ _ h
        have hlt : arrid < idxs.length := (List.getElem?_eq_some_iff.1 h2).1
        have htl : touched < idxs.length := (List.getElem?_eq_some_iff.1 h1).1
        have hsrc : entry_of idxs touched = src := entry_of_of_getElem? h1
        have hdst : entry_of idxs arrid = dst := entry_of_of_getElem? h2
        have key : ∀ (e : expr2tc) (t : Nat),
            e ∈ entry_of (idxs.set arrid (set_insert_all expr2tc.rank src dst)) t ↔
              e ∈ entry_of idxs t ∨ (t = arrid ∧ e ∈ src) := by
          intro e t
          rw [entry_of_set _ _ _ _ hlt]
          split
          · rename_i ht; subst ht
            rw [mem_set_insert_all, hdst]; tauto
          · rename_i ht
            constructor
            · intro h; exact Or.inl h
            · rintro (h | ⟨h, -⟩)
              · exact h
              · exact absurd h.symm ht
        refine ⟨by simpa using q1, ?_, ?_, ?_⟩
        · intro j hj
          rw [q2 j hj, List.getElem?_set_ne (Ne.symm hj)]
        · intro t ht
          rcases List.mem_cons.1 ht with rfl | ht
          · exact htl
          · simpa using q3 t ht
        · intro e
          rw [q4, key]
          constructor
          · rintro ((h | ⟨-, h⟩) | ⟨t, ht, h⟩)
            · exact Or.inl h
            · exact Or.inr ⟨touched, List.mem_cons_self _ _, by rw [hsrc]; exact h⟩
            · rcases (key e t).1 h with h | ⟨-, h⟩
              · exact Or.inr ⟨t, List.mem_cons_of_mem _ ht, h⟩
              · exact Or.inr ⟨touched, List.mem_cons_self _ _, by rw [hsrc]; exact h⟩
          · rintro (h | ⟨t, ht, h⟩)
            · exact Or.inl (Or.inl h)
            · rcases List.mem_cons.1 ht with rfl | ht
              · exact Or.inl (Or.inr ⟨rfl, by rw [← hsrc]; exact h⟩)
              · exact Or.inr ⟨t, ht, (key e t).2 (Or.inl h)⟩

theorem join_indexes_outer_spec (G : List (List Nat)) (idxs0 : List (List expr2tc))
    (hclosed : closed_groupings G) (hself : ∀ a, a < G.length → a ∈ entry_of G a) :
    ∀ (n k : Nat) (idxs idxs' : List (List expr2tc)),
      join_indexes_outer G n k idxs = some idxs' →
      k + n ≤ G.length →
      (∀ a, a < k → ∀ e, e ∈ entry_of idxs a ↔ ∃ b ∈ entry_of G a, e ∈ entry_of idxs0 b) →
      (∀ a, k ≤ a → idxs[a]? = idxs0[a]?) →
      (∀ a, a < k + n → ∀ e, e ∈ entry_of idxs' a ↔ ∃ b ∈ entry_of G a, e ∈ entry_of idxs0 b) ∧
      (∀ a, k + n ≤ a → idxs'[a]? = idxs0[a]?) ∧
      idxs'.length = idxs.length := by
  intro n
  induction n with
  | zero =>
    intro k idxs idxs' h _ h1 h2
    simp only [join_indexes_outer, Option.some.injEq] at h
    subst h
    exact ⟨fun a ha => h1 a (by omega), fun a ha => h2 a (by omega), rfl⟩
  | succ n ih =>
    intro k idxs idxs' h hk h1 h2
    unfold join_indexes_outer at h
    rcases hg : G[k]? with _ | arrset
    · simp [hg] at h
    · simp only [hg] at h
      rcases hi : join_indexes_inner k arrset idxs with _ | idxs1
      · simp [hi] at h
      · simp only [hi] at h
        have hgk : entry_of G k = arrset := entry_of_of_getElem? hg
        have hklt : k < G.length := (List.getElem?_eq_some_iff.1 hg).1
        obtain ⟨i1, i2, i3, i4⟩ := join_indexes_inner_spec k arrset idxs idxs1 hi
        have hsame : ∀ a, a ≠ k → entry_of idxs1 a = entry_of idxs a := by
          intro a ha; unfold entry_of; rw [i2 a ha]
        have horig : ∀ a, k ≤ a → entry_of idxs a = entry_of idxs0 a := by
          intro a ha; unfold entry_of; rw [h2 a ha]
        obtain ⟨r1, r2, r3⟩ := ih (k + 1) idxs1 idxs' h (by omega) (by
          intro a ha e
          by_cases hak : a = k
          · subst hak
            rw [i4, hgk, horig a (Nat.le_refl _)]
            constructor
            · rintro (h | ⟨t, ht, h⟩)
              · exact ⟨a, by rw [← hgk]; exact hself a hklt, h⟩
              · by_cases hta : t < a
                · obtain ⟨b, hb, hbe⟩ := (h1 t hta e).1 h
                  -- the set of t is inside the set of a
                  have hta' : t ∈ entry_of G a := by rw [hgk]; exact ht
                  have hat : a ∈ entry_of G t := (hclosed a hklt t hta').2 a (hself a hklt)
                  have htlt := (hclosed a hklt t hta').1
                  exact ⟨b, by rw [← hgk]; exact (hclosed t htlt a hat).2 b hb, hbe⟩
                · exact ⟨t, ht, by rw [← horig t (by omega)]; exact h⟩
            · rintro ⟨b, hb, hbe⟩
              by_cases hba : b < a
              · right
                refine ⟨b, hb, (h1 b hba e).2 ⟨b, ?_, hbe⟩⟩
                have hb' : b ∈ entry_of G a := by rw [hgk]; exact hb
                exact hself b (hclosed a hklt b hb').1
              · by_cases hbeq : b = a
                · subst hbeq; exact Or.inl hbe
                · exact Or.inr ⟨b, hb, by rw [horig b (by omega)]; exact hbe⟩
          · rw [hsame a hak]; exact h1 a (by omega) e) (by
          intro a ha
          rw [i2 a (by omega)]; exact h2 a (by omega))
        exact ⟨fun a ha => r1 a (by omega), fun a ha => r2 a (by omega), by omega⟩

/-- C3: after `join_array_indexes`, for a history whose cross-base ite records
sit in the update list of the smaller of their two base ids (where
`unbounded_array_ite` files them), any two base ids related by the reflexive,
symmetric, transitive closure of "are the two sources of a cross-base ite
record or the two sides of a recorded array equality" have the same index set,
and the index set of a base id is exactly the union of the pre-join index sets
of the ids of its class. -/
theorem C3_index_set_closure (s s' : array_convt) (hplaced : ite_records_placed s = true)
    (h : join_array_indexes s = some s') :
    (∀ a b, a < s.array_updates.length → Relation.EqvGen (joined s) a b →
      ∀ e, e ∈ index_set s' a ↔ e ∈ index_set s' b) ∧
    (∀ a, a < s.array_updates.length →
      ∀ e, e ∈ index_set s' a ↔ ∃ b, Relation.EqvGen (joined s) a b ∧ e ∈ index_set s b) := by
  unfold join_array_indexes at h
  rcases hG : join_groupings s with _ | G
  · simp [hG] at h
  · simp only [hG] at h
    rcases hI : join_indexes_outer G s.array_updates.length 0 s.array_indexes with _ | idxs
    · simp [hI] at h
    · simp only [hI, Option.some.injEq] at h
      subst h
      obtain ⟨g1, g2, g3, g4⟩ := join_groupings_spec s G hplaced hG
      obtain ⟨o1, -, -⟩ := join_indexes_outer_spec G s.array_indexes g2 g3 _ 0 _ _ hI
        (by omega) (by intro a ha; omega) (by intro a _; rfl)
      have hb : ∀ a, a < s.array_updates.length →
          ∀ e, e ∈ entry_of idxs a ↔
            ∃ b, Relation.EqvGen (joined s) a b ∧ e ∈ index_set s b := by
        intro a ha e
        rw [o1 a (by omega) e]
        constructor
        · rintro ⟨b, hb, hbe⟩
          exact ⟨b, ((g4 a b).1 hb).2, hbe⟩
        · rintro ⟨b, hb, hbe⟩
          exact ⟨b, (g4 a b).2 ⟨by omega, hb⟩, hbe⟩
      refine ⟨?_, hb⟩
      intro a b ha hab e
      have hbG : b ∈ entry_of G a := (g4 a b).2 ⟨by omega, hab⟩
      have hblt : b < s.array_updates.length := by
        have := (g2 a (by omega) b hbG).1; omega
      show e ∈ entry_of idxs a ↔ e ∈ entry_of idxs b
      rw [hb a ha e, hb b hblt e]
      constructor
      · rintro ⟨c, hc, hce⟩
        exact ⟨c, Relation.EqvGen.trans _ _ _ (Relation.EqvGen.symm _ _ hab) hc, hce⟩
      · rintro ⟨c, hc, hce⟩
        exact ⟨c, Relation.EqvGen.trans _ _ _ hab hc, hce⟩


/-- The example history is the one the calls produce. -/
theorem example_ite_history_eq : example_ite_history = some example_ite_state := by
  decide

/-- Witness of C3: in the example history the ite joins base ids 0 and 1, whose
index sets both become `{symbol 0, symbol 1}`; base id 2 keeps `{symbol 2}`. -/
theorem C3_index_set_closure_witness :
    ite_records_placed example_ite_state = true ∧
    join_array_indexes example_ite_state = some example_ite_joined ∧
    example_ite_joined.array_indexes
      = [[expr2tc.symbol 0, expr2tc.symbol 1], [expr2tc.symbol 0, expr2tc.symbol 1],
         [expr2tc.symbol 2]] ∧
    (expr2tc.symbol 0 ∈ index_set example_ite_joined 0 ↔
      expr2tc.symbol 0 ∈ index_set example_ite_joined 1) :=
  ⟨by decide, by decide, by decide,
   (C3_index_set_closure example_ite_state example_ite_joined (by decide) (by decide)).1 0 1
     (by decide)
     (Relation.EqvGen.rel _ _ (Or.inl
       ⟨[array_with.placeholder,
         array_with.i ⟨sort_array32, 0, 0, []⟩ ⟨sort_array32, 1, 0, []⟩ (smt_ast.term 0)],
        by decide, ⟨sort_array32, 0, 0, []⟩, ⟨sort_array32, 1, 0, []⟩, smt_ast.term 0,
        by decide, by decide, rfl, rfl⟩))
     (expr2tc.symbol 0)⟩

/-! ## Read over write for unbounded arrays (C1) -/

theorem history_le_refl (s : array_convt) : history_le s s :=
  ⟨rfl, rfl, rfl, rfl, fun _ is h => ⟨is, h, fun _ hx => hx⟩,
   fun _ _ sels h => ⟨[], by simpa using h, by simp⟩, fun _ h => h⟩

theorem history_le_trans {s1 s2 s3 : array_convt} (h12 : history_le s1 s2)
    (h23 : history_le s2 s3) : history_le s1 s3 := by
  obtain ⟨a1, a2, a3, a4, a5, a6, a7⟩ := h12
  obtain ⟨b1, b2, b3, b4, b5, b6, b7⟩ := h23
  refine ⟨by rw [b1, a1], by rw [b2, a2], by rw [b3, a3], by rw [b4, a4], ?_, ?_,
    fun a h => b7 a (a7 a h)⟩
  · intro b is h
    obtain ⟨is', h', hsub⟩ := a5 b is h
    obtain ⟨is'', h'', hsub'⟩ := b5 b is' h'
    exact ⟨is'', h'', fun x hx => hsub' x (hsub x hx)⟩
  · intro b u sels h
    obtain ⟨e1, h1, hd1⟩ := a6 b u sels h
    obtain ⟨e2, h2, hd2⟩ := b6 b u _ h1
    refine ⟨e1 ++ e2, by rw [h2, List.append_assoc], ?_⟩
    intro x hx y hy
    rcases List.mem_append.1 hx with hx | hx
    · exact hd1 x hx y hy
    · exact hd2 x hx y (List.mem_append_left _ hy)

theorem at2_set_set {α : Type} (v : List (List α)) (b u b' u' : Nat) (l : List α) (x : α)
    (hb : v[b]? = some l) (hu : u < l.length) :
    at2 (v.set b (l.set u x)) b' u' = if b = b' ∧ u = u' then some x else at2 v b' u' := by
  unfold at2
  have hlt : b < v.length := (List.getElem?_eq_some_iff.1 hb).1
  by_cases hbb : b = b'
  · subst hbb
    simp only [List.getElem?_set, hlt, if_true, Option.some_bind, hb, true_and]
    by_cases huu : u = u'
    · subst huu; simp [hu]
    · simp [huu]
  · simp [List.getElem?_set_ne hbb, hbb]

/-- Full description of `mk_unbounded_select`. -/
theorem mk_unbounded_select_spec {s s' : array_convt} {ma : array_ast} {e : expr2tc}
    {rs : smt_sort} {a : smt_ast} (h : mk_unbounded_select s ma e rs = some (s', a)) :
    ∃ is us w, s.array_indexes[ma.base_array_id]? = some is ∧
      s.array_updates[ma.base_array_id]? = some us ∧ us[ma.array_update_num]? = some w ∧
      ((ma.array_update_num ≠ 0 ∧ (∃ src, w = array_with.w e src a) ∧
          s' = { s with array_indexes := s.array_indexes.set ma.base_array_id (idx_insert e is) }) ∨
       (¬ (ma.array_update_num ≠ 0 ∧ ∃ src val, w = array_with.w e src val) ∧
        ∃ vs sels, s.array_values[ma.base_array_id]? = some vs ∧
          vs[ma.array_update_num]? = some sels ∧
          (((∃ sel ∈ sels, sel.idx = e ∧ sel.val = a) ∧
             s' = { s with array_indexes :=
                      s.array_indexes.set ma.base_array_id (idx_insert e is) }) ∨
           ((∀ sel ∈ sels, sel.idx ≠ e) ∧ a = smt_ast.fresh s.ctx.fresh_count rs ∧
             s' = { s with
                      array_indexes := s.array_indexes.set ma.base_array_id (idx_insert e is),
                      array_values := s.array_values.set ma.base_array_id
                        (vs.set ma.array_update_num
                          (sels ++ [{ src_array_update_num := ma.array_update_num,
                                      idx := e, val := a }])),
                      ctx := { fresh_count := s.ctx.fresh_count + 1,
                               assertions := s.ctx.assertions } })))) := by
  unfold mk_unbounded_select at h
  rcases hi : update_at s.array_indexes ma.base_array_id (idx_insert e) with _ | idxs
  · simp [hi] at h
  · obtain ⟨is, his, rfl⟩ := update_at_some hi
    simp only [hi] at h
    rcases hu : s.array_updates[ma.base_array_id]? with _ | us
    · simp [hu] at h
    · simp only [hu] at h
      rcases hw : us[ma.array_update_num]? with _ | w
      · simp [hw] at h
      · simp only [hw] at h
        refine ⟨is, us, w, his, rfl, hw, ?_⟩
        by_cases hsc : ma.array_update_num ≠ 0 ∧ w.is_ite = false ∧ e = w.idx
        · rw [if_pos hsc] at h
          obtain ⟨h0, -, hidx⟩ := hsc
          cases w with
          | placeholder => simp at h
          | i t f c => simp at h
          | w e' src val =>
            simp only [array_with.idx] at hidx
            subst hidx
            simp only [Option.some.injEq, Prod.mk.injEq] at h
            obtain ⟨rfl, rfl⟩ := h
            exact Or.inl ⟨h0, ⟨src, rfl⟩, rfl⟩
        · rw [if_neg hsc] at h
          have hno : ¬ (ma.array_update_num ≠ 0 ∧ ∃ src val, w = array_with.w e src val) := by
            rintro ⟨h0, src, val, rfl⟩
            exact hsc ⟨h0, rfl, rfl⟩
          unfold mk_unbounded_select_record at h
          simp only at h
          rcases hv : s.array_values[ma.base_array_id]? with _ | vs
          · simp [hv] at h
          · simp only [hv] at h
            rcases hs : vs[ma.array_update_num]? with _ | sels
            · simp [hs] at h
            · simp only [hs] at h
              refine Or.inr ⟨hno, vs, sels, rfl, hs, ?_⟩
              rcases hf : sels.find? (fun sel => decide (sel.idx = e)) with _ | sel
              · simp only [hf] at h
                have hnone : ∀ sel ∈ sels, sel.idx ≠ e := by
                  intro sel hsel
                  have := List.find?_eq_none.1 hf sel hsel
                  simpa using this
                simp only [smt_convt.mk_fresh, update_at, hv] at h
                simp only [Option.some.injEq, Prod.mk.injEq] at h
                obtain ⟨rfl, rfl⟩ := h
                exact Or.inr ⟨hnone, rfl, rfl⟩
              · simp only [hf, Option.some.injEq, Prod.mk.injEq] at h
                obtain ⟨rfl, rfl⟩ := h
                have h1 := List.mem_of_find?_eq_some hf
                have h2 := List.find?_some hf
                exact Or.inl ⟨⟨sel, h1, by simpa using h2, rfl⟩, rfl⟩

/-! ### Solve-time functions that only touch the solver context -/

theorem collate_selects_spec (idx_map : List expr2tc) :
    ∀ (idxs : List array_select) (vals vals' : ast_vect),
      collate_selects idx_map idxs vals = some vals' →
      vals'.length = vals.length ∧
      (∀ sel ∈ idxs, sel.idx ∈ idx_map) ∧
      (∀ p : Nat, (∀ sel ∈ idxs, idx_map.indexOf sel.idx ≠ p) → vals'[p]? = vals[p]?) ∧
      (∀ (p : Nat) (a : smt_ast), p < vals.length →
        (∃ sel ∈ idxs, idx_map.indexOf sel.idx = p) →
        (∀ sel ∈ idxs, idx_map.indexOf sel.idx = p → sel.val = a) →
        vals'[p]? = some (some a)) := by
  intro idxs
  induction idxs with
  | nil =>
    intro vals vals' h
    simp only [collate_selects, Option.some.injEq] at h
    subst h; simp
  | cons sel rest ih =>
    intro vals vals' h
    unfold collate_selects at h
    by_cases hm : sel.idx ∈ idx_map
    · simp only [idx_map_find, hm, if_true] at h
      obtain ⟨q1, q2, q3, q4⟩ := ih _ _ h
      refine ⟨by simpa using q1, ?_, ?_, ?_⟩
      · intro x hx
        rcases List.mem_cons.1 hx with rfl | hx
        · exact hm
        · exact q2 x hx
      · intro p hp
        rw [q3 p (fun x hx => hp x (List.mem_cons_of_mem _ hx))]
        rw [List.getElem?_set_ne (hp sel (List.mem_cons_self _ _))]
      · intro p a hp hex hall
        by_cases hr : ∃ x ∈ rest, idx_map.indexOf x.idx = p
        · exact q4 p a (by simpa using hp) hr
            (fun x hx hxp => hall x (List.mem_cons_of_mem _ hx) hxp)
        · have hsel : idx_map.indexOf sel.idx = p := by
            obtain ⟨x, hx, hxp⟩ := hex
            rcases List.mem_cons.1 hx with rfl | hx
            · exact hxp
            · exact absurd ⟨x, hx, hxp⟩ hr
          rw [q3 p (fun x hx hxp => hr ⟨x, hx, hxp⟩), hsel]
          rw [hall sel (List.mem_cons_self _ _) hsel]
          simp [hp]
    · simp [idx_map_find, hm] at h

theorem collate_fill_fresh_spec (subtype : smt_sort) :
    ∀ (vals : ast_vect) (c : smt_convt),
      (collate_fill_fresh subtype vals c).2.length = vals.length ∧
      (collate_fill_fresh subtype vals c).1.assertions = c.assertions ∧
      c.fresh_count ≤ (collate_fill_fresh subtype vals c).1.fresh_count ∧
      (∀ p : Nat, p < vals.length →
        ∃ a, (collate_fill_fresh subtype vals c).2[p]? = some (some a)) ∧
      (∀ (p : Nat) (a : smt_ast), vals[p]? = some (some a) →
        (collate_fill_fresh subtype vals c).2[p]? = some (some a)) := by
  intro vals
  induction vals with
  | nil => intro c; simp [collate_fill_fresh]
  | cons v rest ih =>
    intro c
    cases v with
    | some a0 =>
      obtain ⟨q1, q2, q3, q4, q5⟩ := ih c
      simp only [collate_fill_fresh]
      refine ⟨by simp [q1], q2, q3, ?_, ?_⟩
      · intro p hp
        cases p with
        | zero => exact ⟨a0, by simp⟩
        | succ p => simpa using q4 p (by simpa using hp)
      · intro p a hpa
        cases p with
        | zero => simpa using hpa
        | succ p => simpa using q5 p a (by simpa using hpa)
    | none =>
      obtain ⟨q1, q2, q3, q4, q5⟩ := ih (c.mk_fresh subtype).1
      simp only [collate_fill_fresh]
      refine ⟨by simp [q1], by rw [q2]; rfl, ?_, ?_, ?_⟩
      · have : c.fresh_count ≤ (c.mk_fresh subtype).1.fresh_count := by
          simp [smt_convt.mk_fresh]
        exact le_trans this q3
      · intro p hp
        cases p with
        | zero => exact ⟨(c.mk_fresh subtype).2, by simp⟩
        | succ p => simpa using q4 p (by simpa using hp)
      · intro p a hpa
        cases p with
        | zero => simp at hpa
        | succ p => simpa using q5 p a (by simpa using hpa)

theorem collate_fill_init_spec (init_val : smt_ast) :
    ∀ (vals : ast_vect) (c : smt_convt),
      (collate_fill_init init_val vals c).2.length = vals.length ∧
      (∀ a ∈ c.assertions, a ∈ (collate_fill_init init_val vals c).1.assertions) ∧
      (collate_fill_init init_val vals c).1.fresh_count = c.fresh_count ∧
      (∀ p : Nat, p < vals.length →
        ∃ a, (collate_fill_init init_val vals c).2[p]? = some (some a)) ∧
      (∀ (p : Nat) (a : smt_ast), vals[p]? = some (some a) →
        (collate_fill_init init_val vals c).2[p]? = some (some a) ∧
        smt_ast.eq a init_val ∈ (collate_fill_init init_val vals c).1.assertions) ∧
      (∀ p : Nat, vals[p]? = some none →
        (collate_fill_init init_val vals c).2[p]? = some (some init_val)) := by
  intro vals
  induction vals with
  | nil => intro c; simp [collate_fill_init]
  | cons v rest ih =>
    intro c
    cases v with
    | some a0 =>
      obtain ⟨q1, q2, q3, q4, q5, q6⟩ := ih (c.assert_ast (smt_ast.eq a0 init_val))
      simp only [collate_fill_init]
      refine ⟨by simp [q1], ?_, by rw [q3]; rfl, ?_, ?_, ?_⟩
      · intro a ha
        exact q2 a (by simp [smt_convt.assert_ast, ha])
      · intro p hp
        cases p with
        | zero => exact ⟨a0, by simp⟩
        | succ p => simpa using q4 p (by simpa using hp)
      · intro p a hpa
        cases p with
        | zero =>
          simp only [List.getElem?_cons_zero, Option.some.injEq] at hpa
          subst hpa
          exact ⟨by simp, q2 _ (by simp [smt_convt.assert_ast])⟩
        | succ p => simpa using q5 p a (by simpa using hpa)
      · intro p hp
        cases p with
        | zero => simp at hp
        | succ p => simpa using q6 p (by simpa using hp)
    | none =>
      obtain ⟨q1, q2, q3, q4, q5, q6⟩ := ih c
      simp only [collate_fill_init]
      refine ⟨by simp [q1], q2, q3, ?_, ?_, ?_⟩
      · intro p hp
        cases p with
        | zero => exact ⟨init_val, by simp⟩
        | succ p => simpa using q4 p (by simpa using hp)
      · intro p a hpa
        cases p with
        | zero => simp at hpa
        | succ p => simpa using q5 p a (by simpa using hpa)
      · intro p hp
        cases p with
        | zero => simp
        | succ p => simpa using q6 p (by simpa using hp)

/-- What `collate_array_values` guarantees about the vector it fills. -/
theorem collate_array_values_spec {c c' : smt_convt} {vals row : ast_vect}
    {idx_map : List expr2tc} {idxs : List array_select} {subtype : smt_sort}
    {init_val : Option smt_ast}
    (h : collate_array_values c vals idx_map idxs subtype init_val = some (c', row)) :
    row.length = idx_map.length ∧ vals.length = idx_map.length ∧
    (∀ a ∈ c.assertions, a ∈ c'.assertions) ∧
    c.fresh_count ≤ c'.fresh_count ∧
    (∀ sel ∈ idxs, sel.idx ∈ idx_map) ∧
    (∀ p : Nat, p < idx_map.length → ∃ a, row[p]? = some (some a)) ∧
    (∀ (e : expr2tc) (a : smt_ast), e ∈ idx_map → (∃ sel ∈ idxs, sel.idx = e) →
      (∀ sel ∈ idxs, sel.idx = e → sel.val = a) →
      row[idx_map.indexOf e]? = some (some a) ∧
      ∀ iv, init_val = some iv → smt_ast.eq a iv ∈ c'.assertions) ∧
    (∀ (e : expr2tc) (iv : smt_ast), e ∈ idx_map → init_val = some iv →
      (∀ sel ∈ idxs, sel.idx ≠ e) → row[idx_map.indexOf e]? = some (some iv)) := by
  unfold collate_array_values at h
  by_cases hl : vals.length ≠ idx_map.length
  · simp [hl] at h
  · have hl' : vals.length = idx_map.length := by simpa using hl
    rw [if_neg hl] at h
    rcases hs : collate_selects idx_map idxs (vals.map (fun _ => none)) with _ | vals1
    · rw [hs] at h; simp at h
    · rw [hs] at h; simp only at h
      obtain ⟨s1, s2, s3, s4⟩ := collate_selects_spec idx_map idxs _ _ hs
      have hlen1 : vals1.length = idx_map.length := by rw [s1]; simpa using hl'
      have hsel : ∀ (e : expr2tc) (a : smt_ast), e ∈ idx_map → (∃ sel ∈ idxs, sel.idx = e) →
          (∀ sel ∈ idxs, sel.idx = e → sel.val = a) →
          vals1[idx_map.indexOf e]? = some (some a) := by
        intro e a he hex hall
        apply s4 _ a
        · simpa [hl'] using List.indexOf_lt_length.2 he
        · obtain ⟨sel, hsel, rfl⟩ := hex
          exact ⟨sel, hsel, rfl⟩
        · intro sel hsel hp
          exact hall sel hsel ((List.indexOf_inj (s2 sel hsel) he).1 hp)
      have hnosel : ∀ (e : expr2tc), e ∈ idx_map → (∀ sel ∈ idxs, sel.idx ≠ e) →
          vals1[idx_map.indexOf e]? = some none := by
        intro e he hall
        rw [s3 _ (fun sel hsel hp =>
          hall sel hsel ((List.indexOf_inj (s2 sel hsel) he).1 hp))]
        have : idx_map.indexOf e < vals.length := by
          simpa [hl'] using List.indexOf_lt_length.2 he
        rw [List.getElem?_map, List.getElem?_eq_getElem this]; rfl
      cases init_val with
      | none =>
        simp only [Option.some.injEq] at h
        obtain ⟨f1, f2, f3, f4, f5⟩ := collate_fill_fresh_spec subtype vals1 c
        rw [h] at f1 f2 f3 f4 f5
        simp only at f1 f2 f3 f4 f5
        refine ⟨by omega, hl', fun a ha => by rw [f2]; exact ha, f3, s2,
          fun p hp => f4 p (by omega), ?_, ?_⟩
        · intro e a he hex hall
          exact ⟨f5 _ a (hsel e a he hex hall), fun iv hiv => by cases hiv⟩
        · intro e iv _ hiv; cases hiv
      | some iv0 =>
        simp only [Option.some.injEq] at h
        obtain ⟨f1, f2, f3, f4, f5, f6⟩ := collate_fill_init_spec iv0 vals1 c
        rw [h] at f1 f2 f3 f4 f5 f6
        simp only at f1 f2 f3 f4 f5 f6
        refine ⟨by omega, hl', f2, by omega, s2, fun p hp => f4 p (by omega), ?_, ?_⟩
        · intro e a he hex hall
          obtain ⟨g1, g2⟩ := f5 _ a (hsel e a he hex hall)
          exact ⟨g1, fun iv hiv => by cases hiv; exact g2⟩
        · intro e iv he hiv hall
          cases hiv
          exact f6 _ (hnosel e he hall)

theorem ackerman_inner_spec (vals : ast_vect) (outer_idx : smt_ast) (p : Nat) :
    ∀ (l : List expr2tc) (q0 : Nat) (c c' : smt_convt),
      ackerman_inner vals outer_idx p q0 l c = some c' →
      (∀ a ∈ c.assertions, a ∈ c'.assertions) ∧ c'.fresh_count = c.fresh_count ∧
      (∀ (k : Nat) (e2 : expr2tc), l[k]? = some e2 →
        ∃ vp vq, vals[p]? = some (some vp) ∧ vals[q0 + k]? = some (some vq) ∧
          smt_ast.implies (smt_ast.eq outer_idx (smt_ast.index e2)) (smt_ast.eq vp vq)
            ∈ c'.assertions) := by
  intro l
  induction l with
  | nil =>
    intro q0 c c' h
    simp only [ackerman_inner, Option.some.injEq] at h
    subst h; simp
  | cons e rest ih =>
    intro q0 c c' h
    unfold ackerman_inner at h
    rcases hp : vals[p]? with _ | _ | vp
    · simp [hp] at h
    · simp [hp] at h
    · rcases hq : vals[q0]? with _ | _ | vq
      · simp [hp, hq] at h
      · simp [hp, hq] at h
      · simp only [hp, hq] at h
        obtain ⟨q1, q2, q3⟩ := ih _ _ _ h
        refine ⟨fun a ha => q1 a (by simp [smt_convt.assert_ast, ha]),
          by rw [q2]; rfl, ?_⟩
        intro k e2 hk
        cases k with
        | zero =>
          simp only [List.getElem?_cons_zero, Option.some.injEq] at hk
          subst hk
          exact ⟨vp, vq, rfl, by simpa using hq,
            q1 _ (by simp [smt_convt.assert_ast, smt_convt.convert_ast])⟩
        | succ k =>
          simp only [List.getElem?_cons_succ] at hk
          obtain ⟨vp', vq', h1, h2, h3⟩ := q3 k e2 hk
          exact ⟨vp', vq', hp.symm.trans h1, by rw [← h2]; congr 1; omega, h3⟩

theorem ackerman_outer_spec (vals : ast_vect) (idx_map : List expr2tc) :
    ∀ (l : List expr2tc) (p0 : Nat) (c c' : smt_convt),
      ackerman_outer vals idx_map p0 l c = some c' →
      (∀ a ∈ c.assertions, a ∈ c'.assertions) ∧ c'.fresh_count = c.fresh_count ∧
      (∀ (k : Nat) (e : expr2tc), l[k]? = some e →
        ∀ (k2 : Nat) (e2 : expr2tc), idx_map[k2]? = some e2 →
        ∃ vp vq, vals[p0 + k]? = some (some vp) ∧ vals[k2]? = some (some vq) ∧
          smt_ast.implies (smt_ast.eq (smt_ast.index e) (smt_ast.index e2)) (smt_ast.eq vp vq)
            ∈ c'.assertions) := by
  intro l
  induction l with
  | nil =>
    intro p0 c c' h
    simp only [ackerman_outer, Option.some.injEq] at h
    subst h; simp
  | cons e rest ih =>
    intro p0 c c' h
    unfold ackerman_outer at h
    rcases hi : ackerman_inner vals (smt_convt.convert_ast e) p0 0 idx_map c with _ | c1
    · simp [hi] at h
    · simp only [hi] at h
      obtain ⟨i1, i2, i3⟩ := ackerman_inner_spec vals _ p0 idx_map 0 c c1 hi
      obtain ⟨q1, q2, q3⟩ := ih _ _ _ h
      refine ⟨fun a ha => q1 a (i1 a ha), by rw [q2, i2], ?_⟩
      intro k e' hk k2 e2 hk2
      cases k with
      | zero =>
        simp only [List.getElem?_cons_zero, Option.some.injEq] at hk
        subst hk
        obtain ⟨vp, vq, h1, h2, h3⟩ := i3 k2 e2 hk2
        exact ⟨vp, vq, by simpa using h1, by simpa using h2, q1 _ h3⟩
      | succ k =>
        simp only [List.getElem?_cons_succ] at hk
        obtain ⟨vp, vq, h1, h2, h3⟩ := q3 k e' hk k2 e2 hk2
        exact ⟨vp, vq, by rw [← h1]; congr 1; omega, h2, h3⟩

/-- The constraints `add_initial_ackerman_constraints` asserts. -/
theorem add_initial_ackerman_constraints_spec {c c' : smt_convt} {vals : ast_vect}
    {idx_map : List expr2tc}
    (h : add_initial_ackerman_constraints c vals idx_map = some c') :
    (∀ a ∈ c.assertions, a ∈ c'.assertions) ∧ c'.fresh_count = c.fresh_count ∧
    (∀ (p : Nat) (e : expr2tc), idx_map[p]? = some e →
      ∀ (q : Nat) (e2 : expr2tc), idx_map[q]? = some e2 →
      ∃ vp vq, vals[p]? = some (some vp) ∧ vals[q]? = some (some vq) ∧
        smt_ast.implies (smt_ast.eq (smt_ast.index e) (smt_ast.index e2)) (smt_ast.eq vp vq)
          ∈ c'.assertions) := by
  obtain ⟨q1, q2, q3⟩ := ackerman_outer_spec vals idx_map idx_map 0 c c' h
  refine ⟨q1, q2, ?_⟩
  intro p e hp q e2 hq
  simpa using q3 p e hp q e2 hq

theorem execute_array_update_loop_spec (uia uv : smt_ast) (ui : Nat) (dest source : ast_vect) :
    ∀ (l : List expr2tc) (q0 : Nat) (c c' : smt_convt),
      execute_array_update_loop uia uv ui dest source q0 l c = some c' →
      (∀ a ∈ c.assertions, a ∈ c'.assertions) ∧ c'.fresh_count = c.fresh_count ∧
      (∀ (k : Nat) (e : expr2tc), l[k]? = some e → q0 + k ≠ ui →
        ∃ d sv, dest[q0 + k]? = some (some d) ∧ source[q0 + k]? = some (some sv) ∧
          smt_ast.eq d (smt_ast.ite (smt_ast.eq uia (smt_ast.index e)) uv sv)
            ∈ c'.assertions) := by
  intro l
  induction l with
  | nil =>
    intro q0 c c' h
    simp only [execute_array_update_loop, Option.some.injEq] at h
    subst h; simp
  | cons e rest ih =>
    intro q0 c c' h
    unfold execute_array_update_loop at h
    by_cases hq : q0 = ui
    · rw [if_pos hq] at h
      obtain ⟨q1, q2, q3⟩ := ih _ _ _ h
      refine ⟨q1, q2, ?_⟩
      intro k e' hk hne
      cases k with
      | zero => exact absurd hq (by simpa using hne)
      | succ k =>
        simp only [List.getElem?_cons_succ] at hk
        obtain ⟨d, sv, h1, h2, h3⟩ := q3 k e' hk (by omega)
        exact ⟨d, sv, by rw [← h1]; congr 1; omega, by rw [← h2]; congr 1; omega, h3⟩
    · rw [if_neg hq] at h
      rcases hd : dest[q0]? with _ | _ | d
      · simp [hd] at h
      · simp [hd] at h
      · rcases hs : source[q0]? with _ | _ | sv
        · simp [hd, hs] at h
        · simp [hd, hs] at h
        · simp only [hd, hs] at h
          obtain ⟨q1, q2, q3⟩ := ih _ _ _ h
          refine ⟨fun a ha => q1 a (by simp [smt_convt.assert_ast, ha]), by rw [q2]; rfl, ?_⟩
          intro k e' hk hne
          cases k with
          | zero =>
            simp only [List.getElem?_cons_zero, Option.some.injEq] at hk
            subst hk
            exact ⟨d, sv, by simpa using hd, by simpa using hs,
              q1 _ (by simp [smt_convt.assert_ast, smt_convt.convert_ast])⟩
          | succ k =>
            simp only [List.getElem?_cons_succ] at hk
            obtain ⟨d', sv', h1, h2, h3⟩ := q3 k e' hk (by omega)
            exact ⟨d', sv', by rw [← h1]; congr 1; omega, by rw [← h2]; congr 1; omega, h3⟩

/-- What `execute_array_update` does to the data and which constraints it asserts. -/
theorem execute_array_update_spec {c c' : smt_convt} {data data1 : List ast_vect}
    {dest_pos src_pos : Nat} {idx_map : List expr2tc} {idx : expr2tc} {uv : smt_ast}
    (h : execute_array_update c data dest_pos src_pos idx_map idx uv = some (c', data1)) :
    idx ∈ idx_map ∧
    ∃ dest0 source, data[dest_pos]? = some dest0 ∧ idx_map.indexOf idx < dest0.length ∧
      data1 = data.set dest_pos (dest0.set (idx_map.indexOf idx) (some uv)) ∧
      data1[src_pos]? = some source ∧
      (∀ a ∈ c.assertions, a ∈ c'.assertions) ∧ c'.fresh_count = c.fresh_count ∧
      (∀ (q : Nat) (e : expr2tc), idx_map[q]? = some e → q ≠ idx_map.indexOf idx →
        ∃ d sv, (dest0.set (idx_map.indexOf idx) (some uv))[q]? = some (some d) ∧
          source[q]? = some (some sv) ∧
          smt_ast.eq d (smt_ast.ite (smt_ast.eq (smt_ast.index idx) (smt_ast.index e)) uv sv)
            ∈ c'.assertions) := by
  unfold execute_array_update at h
  by_cases hm : idx ∈ idx_map
  · simp only [idx_map_find, hm, if_true] at h
    rcases hd : data[dest_pos]? with _ | dest0
    · simp [hd] at h
    · simp only [hd] at h
      by_cases hlt : idx_map.indexOf idx < dest0.length
      · rw [if_pos hlt] at h
        rcases hs : (data.set dest_pos (dest0.set (idx_map.indexOf idx) (some uv)))[src_pos]?
          with _ | source
        · simp [hs] at h
        · simp only [hs] at h
          rcases hl : execute_array_update_loop (smt_convt.convert_ast idx) uv
              (idx_map.indexOf idx) (dest0.set (idx_map.indexOf idx) (some uv)) source 0 idx_map c
            with _ | c1
          · simp [hl] at h
          · simp only [hl, Option.some.injEq, Prod.mk.injEq] at h
            obtain ⟨rfl, rfl⟩ := h
            obtain ⟨q1, q2, q3⟩ := execute_array_update_loop_spec _ _ _ _ _ _ _ _ _ hl
            refine ⟨hm, dest0, source, rfl, hlt, rfl, hs, q1, q2, ?_⟩
            intro q e hq hne
            simpa [smt_convt.convert_ast] using q3 q e hq (by simpa using hne)
      · rw [if_neg hlt] at h; simp at h
  · simp [idx_map_find, hm] at h

/-- The constraints `execute_array_ite` asserts. -/
theorem execute_array_ite_spec (dest tv fv : ast_vect) (cond : smt_ast) :
    ∀ (n i0 : Nat) (c c' : smt_convt),
      execute_array_ite dest tv fv cond n i0 c = some c' →
      (∀ a ∈ c.assertions, a ∈ c'.assertions) ∧ c'.fresh_count = c.fresh_count ∧
      (∀ k : Nat, k < n →
        ∃ d t f, dest[i0 + k]? = some (some d) ∧ tv[i0 + k]? = some (some t) ∧
          fv[i0 + k]? = some (some f) ∧
          smt_ast.eq d (smt_ast.ite cond t f) ∈ c'.assertions) := by
  intro n
  induction n with
  | zero =>
    intro i0 c c' h
    simp only [execute_array_ite, Option.some.injEq] at h
    subst h; simp
  | succ n ih =>
    intro i0 c c' h
    unfold execute_array_ite at h
    rcases hd : dest[i0]? with _ | _ | d
    · simp [hd] at h
    · simp [hd] at h
    · rcases ht : tv[i0]? with _ | _ | t
      · simp [hd, ht] at h
      · simp [hd, ht] at h
      · rcases hf : fv[i0]? with _ | _ | f
        · simp [hd, ht, hf] at h
        · simp [hd, ht, hf] at h
        · simp only [hd, ht, hf] at h
          obtain ⟨q1, q2, q3⟩ := ih _ _ _ h
          refine ⟨fun a ha => q1 a (by simp [smt_convt.assert_ast, ha]), by rw [q2]; rfl, ?_⟩
          intro k hk
          cases k with
          | zero =>
            exact ⟨d, t, f, by simpa using hd, by simpa using ht, by simpa using hf,
              q1 _ (by simp [smt_convt.assert_ast])⟩
          | succ k =>
            obtain ⟨d', t', f', h1, h2, h3, h4⟩ := q3 k (by omega)
            exact ⟨d', t', f', by rw [← h1]; congr 1; omega, by rw [← h2]; congr 1; omega,
              by rw [← h3]; congr 1; omega, h4⟩

/-! ### Frame properties of the solve-time functions -/

theorem history_le_of_ctx (s : array_convt) (c : smt_convt) (v : List (List ast_vect))
    (h : ∀ a ∈ s.ctx.assertions, a ∈ c.assertions) :
    history_le s { s with array_valuation := v, ctx := c } :=
  ⟨rfl, rfl, rfl, rfl, fun _ is h => ⟨is, h, fun _ hx => hx⟩,
   fun _ _ sels h => ⟨[], by simpa using h, by simp⟩, h⟩

theorem mk_unbounded_select_history_le {s s' : array_convt} {ma : array_ast} {e : expr2tc}
    {rs : smt_sort} {a : smt_ast} (h : mk_unbounded_select s ma e rs = some (s', a)) :
    history_le s s' ∧ s'.array_valuation = s.array_valuation ∧
    s'.ctx.assertions = s.ctx.assertions := by
  obtain ⟨is, us, w, his, hus, hw, hcase⟩ := mk_unbounded_select_spec h
  have hidx : ∀ (b : Nat) (is0 : List expr2tc), s.array_indexes[b]? = some is0 →
      ∃ is', (s.array_indexes.set ma.base_array_id (idx_insert e is))[b]? = some is' ∧
        ∀ x ∈ is0, x ∈ is' := by
    intro b is0 hb
    by_cases hbb : ma.base_array_id = b
    · subst hbb
      rw [his] at hb; cases hb
      refine ⟨idx_insert e is, ?_, fun x hx => ?_⟩
      · rw [List.getElem?_set]; simp [(List.getElem?_eq_some_iff.1 his).1]
      · exact (mem_set_insert _ _ _ _).2 (Or.inr hx)
    · exact ⟨is0, by rw [List.getElem?_set_ne hbb]; exact hb, fun _ hx => hx⟩
  rcases hcase with ⟨-, -, rfl⟩ | ⟨-, vs, sels, hvs, hsels, ⟨-, rfl⟩ | ⟨hnone, -, rfl⟩⟩
  · exact ⟨⟨rfl, rfl, rfl, rfl, hidx, fun _ _ sels h => ⟨[], by simpa using h, by simp⟩,
      fun _ h => h⟩, rfl, rfl⟩
  · exact ⟨⟨rfl, rfl, rfl, rfl, hidx, fun _ _ sels h => ⟨[], by simpa using h, by simp⟩,
      fun _ h => h⟩, rfl, rfl⟩
  · refine ⟨⟨rfl, rfl, rfl, rfl, hidx, ?_, fun _ h => h⟩, rfl, rfl⟩
    intro b u sels0 h0
    have hu : ma.array_update_num < vs.length := (List.getElem?_eq_some_iff.1 hsels).1
    simp only
    rw [at2_set_set _ _ _ _ _ _ _ hvs hu]
    by_cases hbu : ma.base_array_id = b ∧ ma.array_update_num = u
    · obtain ⟨rfl, rfl⟩ := hbu
      have : at2 s.array_values ma.base_array_id ma.array_update_num = some sels := by
        simp [at2, hvs, hsels]
      rw [this] at h0; cases h0
      refine ⟨[{ src_array_update_num := ma.array_update_num, idx := e, val := a }],
        by simp, ?_⟩
      intro x hx y hy
      rw [List.mem_singleton.1 hx]
      exact fun heq => hnone y hy heq.symm
    · rw [if_neg hbu]
      exact ⟨[], by simpa using h0, by simp⟩

theorem joining_selects_history_le (remote_ast : array_ast) (subtype : smt_sort) :
    ∀ (l : List expr2tc) (s s' : array_convt) (sels : ast_vect),
      joining_selects remote_ast subtype l s = some (s', sels) →
      history_le s s' ∧ s'.array_valuation = s.array_valuation ∧
      s'.ctx.assertions = s.ctx.assertions := by
  intro l
  induction l with
  | nil =>
    intro s s' sels h
    simp only [joining_selects, Option.some.injEq, Prod.mk.injEq] at h
    obtain ⟨rfl, -⟩ := h
    exact ⟨history_le_refl _, rfl, rfl⟩
  | cons e rest ih =>
    intro s s' sels h
    unfold joining_selects at h
    rcases h1 : mk_unbounded_select s remote_ast e subtype with _ | ⟨s1, a⟩
    · simp [h1] at h
    · simp only [h1] at h
      rcases h2 : joining_selects remote_ast subtype rest s1 with _ | ⟨s2, sels2⟩
      · simp [h2] at h
      · simp only [h2, Option.some.injEq, Prod.mk.injEq] at h
        obtain ⟨rfl, -⟩ := h
        obtain ⟨a1, a2, a3⟩ := mk_unbounded_select_history_le h1
        obtain ⟨b1, b2, b3⟩ := ih _ _ _ h2
        exact ⟨history_le_trans a1 b1, by rw [b2, a2], by rw [b3, a3]⟩

theorem history_le_ctx {s s' : array_convt} (h : history_le s s') (c : smt_convt)
    (hc : ∀ a ∈ s'.ctx.assertions, a ∈ c.assertions) (v : List (List ast_vect)) :
    history_le s { s' with array_valuation := v, ctx := c } :=
  history_le_trans h (history_le_of_ctx s' c v hc)

theorem execute_array_joining_ite_history_le {s s' : array_convt} {vi dest_pos cur_id : Nat}
    {t f : array_ast} {idx_map : List expr2tc} {cond : smt_ast} {subtype : smt_sort}
    (h : execute_array_joining_ite s vi dest_pos cur_id t f idx_map cond subtype = some s') :
    history_le s s' := by
  unfold execute_array_joining_ite at h
  simp only at h
  split at h
  · split at h
    · simp at h
    · split at h
      · simp at h
      · rename_i s1 selects hsel
        split at h
        · split at h
          · simp at h
          · rename_i c hc
            simp only [Option.some.injEq] at h
            subst h
            obtain ⟨a1, a2, a3⟩ := joining_selects_history_le _ _ _ _ _ _ hsel
            obtain ⟨q1, -, -⟩ := execute_array_ite_spec _ _ _ _ _ _ _ _ hc
            have := history_le_ctx a1 c q1 s1.array_valuation
            exact this
        · simp at h
  · simp at h

theorem execute_array_trans_history_le {s s' : array_convt} {vi arr idx : Nat}
    {idx_map : List expr2tc} {subtype : smt_sort}
    (h : execute_array_trans s vi arr idx idx_map subtype = some s') : history_le s s' := by
  unfold execute_array_trans at h
  split at h
  · rename_i dest0 sels w _ _ _
    split at h
    · simp at h
    · rename_i c1 dest hcol
      obtain ⟨-, -, k1, -⟩ := collate_array_values_spec hcol
      split at h
      · simp at h
      · rename_i valuation1 _
        have hbase : history_le s { s with array_valuation := valuation1, ctx := c1 } :=
          history_le_of_ctx s c1 valuation1 k1
        split at h
        · -- ite
          split at h
          · exact history_le_trans hbase (execute_array_joining_ite_history_le h)
          · split at h
            · split at h
              · split at h
                · simp at h
                · rename_i c2 hc2
                  simp only [Option.some.injEq] at h
                  subst h
                  obtain ⟨q1, -, -⟩ := execute_array_ite_spec _ _ _ _ _ _ _ _ hc2
                  exact history_le_of_ctx s c2 valuation1 (fun a ha => q1 a (k1 a ha))
              · simp at h
            · simp at h
        · -- with
          split at h
          · simp at h
          · split at h
            · simp at h
            · rename_i c2 data1 hup
              simp only [Option.some.injEq] at h
              subst h
              obtain ⟨-, dest0', source, -, -, -, -, q1, -, -⟩ := execute_array_update_spec hup
              exact history_le_of_ctx s c2 _ (fun a ha => q1 a (k1 a ha))
        · simp at h
  · simp at h

theorem add_array_constraints_loop_history_le (vi arr : Nat) (idx_map : List expr2tc)
    (subtype : smt_sort) :
    ∀ (n i0 : Nat) (s s' : array_convt),
      add_array_constraints_loop vi arr idx_map subtype n i0 s = some s' → history_le s s' := by
  intro n
  induction n with
  | zero =>
    intro i0 s s' h
    simp only [add_array_constraints_loop, Option.some.injEq] at h
    subst h; exact history_le_refl _
  | succ n ih =>
    intro i0 s s' h
    unfold add_array_constraints_loop at h
    rcases h1 : execute_array_trans s vi arr i0 idx_map subtype with _ | s1
    · simp [h1] at h
    · simp only [h1] at h
      exact history_le_trans (execute_array_trans_history_le h1) (ih _ _ _ h)

theorem add_array_constraints_history_le {s s' : array_convt} {arr : Nat}
    (h : add_array_constraints s arr = some s') : history_le s s' := by
  unfold add_array_constraints at h
  split at h
  · rename_i indexes subtype values _ _ _
    simp only at h
    split at h
    · rename_i vals0 sels0 _ _
      split at h
      · simp at h
      · rename_i c1 row0 hcol
        obtain ⟨-, -, k1, -⟩ := collate_array_values_spec hcol
        split at h
        · simp at h
        · rename_i c2 hack
          obtain ⟨q1, -, -⟩ := add_initial_ackerman_constraints_spec hack
          exact history_le_trans
            (history_le_of_ctx s c2 _ (fun a ha => q1 a (k1 a ha)))
            (add_array_constraints_loop_history_le _ _ _ _ _ _ _ _ h)
    · simp at h
  · simp at h

theorem add_all_array_constraints_history_le :
    ∀ (n i0 : Nat) (s s' : array_convt),
      add_all_array_constraints n i0 s = some s' → history_le s s' := by
  intro n
  induction n with
  | zero =>
    intro i0 s s' h
    simp only [add_all_array_constraints, Option.some.injEq] at h
    subst h; exact history_le_refl _
  | succ n ih =>
    intro i0 s s' h
    unfold add_all_array_constraints at h
    rcases h1 : add_array_constraints s i0 with _ | s1
    · simp [h1] at h
    · simp only [h1] at h
      exact history_le_trans (add_array_constraints_history_le h1) (ih _ _ _ h)

theorem add_array_equalities_loop_history_le :
    ∀ (l : List array_equality) (s s' : array_convt),
      add_array_equalities_loop l s = some s' → history_le s s' := by
  intro l
  induction l with
  | nil =>
    intro s s' h
    simp only [add_array_equalities_loop, Option.some.injEq] at h
    subst h; exact history_le_refl _
  | cons e rest ih =>
    intro s s' h
    unfold add_array_equalities_loop at h
    split at h
    · split at h
      · simp at h
      · split at h
        · simp at h
        · rename_i lits _
          refine history_le_trans ?_ (ih _ _ h)
          have := history_le_of_ctx s
            (s.ctx.assert_ast (smt_ast.eq e.result (make_conjunct lits))) s.array_valuation
            (fun a ha => by simp [smt_convt.assert_ast, ha])
          exact this
    · simp at h

theorem join_indexes_outer_mono (G : List (List Nat)) :
    ∀ (n k : Nat) (idxs idxs' : List (List expr2tc)),
      join_indexes_outer G n k idxs = some idxs' →
      idxs'.length = idxs.length ∧ ∀ b x, x ∈ entry_of idxs b → x ∈ entry_of idxs' b := by
  intro n
  induction n with
  | zero =>
    intro k idxs idxs' h
    simp only [join_indexes_outer, Option.some.injEq] at h
    subst h; exact ⟨rfl, fun _ _ h => h⟩
  | succ n ih =>
    intro k idxs idxs' h
    unfold join_indexes_outer at h
    rcases hg : G[k]? with _ | arrset
    · simp [hg] at h
    · simp only [hg] at h
      rcases hi : join_indexes_inner k arrset idxs with _ | idxs1
      · simp [hi] at h
      · simp only [hi] at h
        obtain ⟨i1, i2, -, i4⟩ := join_indexes_inner_spec k arrset idxs idxs1 hi
        obtain ⟨r1, r2⟩ := ih _ _ _ h
        refine ⟨by omega, ?_⟩
        intro b x hx
        apply r2
        by_cases hb : b = k
        · subst hb; exact (i4 x).2 (Or.inl hx)
        · unfold entry_of at hx ⊢; rw [i2 b hb]; exact hx

theorem join_array_indexes_history_le {s s' : array_convt}
    (h : join_array_indexes s = some s') :
    history_le s s' ∧ s'.array_valuation = s.array_valuation ∧ s'.ctx = s.ctx ∧
    s'.array_values = s.array_values ∧ s'.array_indexes.length = s.array_indexes.length := by
  unfold join_array_indexes at h
  rcases hG : join_groupings s with _ | G
  · simp [hG] at h
  · simp only [hG] at h
    rcases hI : join_indexes_outer G s.array_updates.length 0 s.array_indexes with _ | idxs
    · simp [hI] at h
    · simp only [hI, Option.some.injEq] at h
      subst h
      obtain ⟨m1, m2⟩ := join_indexes_outer_mono G _ _ _ _ hI
      refine ⟨⟨rfl, rfl, rfl, rfl, ?_, fun _ _ sels h => ⟨[], by simpa using h, by simp⟩,
        fun _ h => h⟩, rfl, rfl, rfl, m1⟩
      intro b is hb
      have hlt : b < idxs.length := by
        have := (List.getElem?_eq_some_iff.1 hb).1; omega
      refine ⟨idxs[b], List.getElem?_eq_getElem hlt, ?_⟩
      intro x hx
      have := m2 b x (by simp [entry_of, hb, hx])
      simpa [entry_of, List.getElem?_eq_getElem hlt] using this

theorem select_filed_mono {s s' : array_convt} (h : history_le s s') {b u : Nat} {j : expr2tc}
    {r : smt_ast} (hf : select_filed s b u j r) : select_filed s' b u j r := by
  obtain ⟨sels, h1, ⟨sel, hsel, hj, hr⟩, h3⟩ := hf
  obtain ⟨extra, h4, h5⟩ := h.2.2.2.2.2.1 b u sels h1
  refine ⟨sels ++ extra, h4, ⟨sel, List.mem_append_left _ hsel, hj, hr⟩, ?_⟩
  intro x hx hxj
  rcases List.mem_append.1 hx with hx | hx
  · exact h3 x hx hxj
  · exact absurd (hxj.trans hj.symm) (h5 x hx sel hsel)

theorem index_set_mono {s s' : array_convt} (h : history_le s s') {b : Nat} {e : expr2tc}
    (he : e ∈ index_set s b) : e ∈ index_set s' b := by
  unfold index_set entry_of at he ⊢
  rcases hb : s.array_indexes[b]? with _ | is
  · simp [hb] at he
  · obtain ⟨is', h1, h2⟩ := h.2.2.2.2.1 b is hb
    simp only [hb, Option.getD_some] at he
    simp only [h1, Option.getD_some]
    exact h2 e he

/-- The transition to the row of a plain with-update ties a select variable
filed at that row to the stored value. -/
theorem execute_array_trans_emits {s s' : array_convt} {vi arr idx : Nat}
    {idx_map : List expr2tc} {subtype : smt_sort} {i j : expr2tc} {src : Nat} {v r : smt_ast}
    (h : execute_array_trans s vi arr idx idx_map subtype = some s')
    (hw : at2 s.array_updates arr (idx + 1) = some (array_with.w i src v))
    (hsel : select_filed s arr (idx + 1) j r) (hj : j ∈ idx_map) (hij : i ≠ j) :
    ∃ sv, smt_ast.eq r (smt_ast.ite (smt_ast.eq (smt_ast.index i) (smt_ast.index j)) v sv)
      ∈ s'.ctx.assertions := by
  obtain ⟨sels, hsels, hex, hall⟩ := hsel
  unfold execute_array_trans at h
  unfold at2 at hw hsels
  rw [hsels, hw] at h
  split at h
  · rename_i dest0 sels' w' hd heq1 heq2
    cases heq1; cases heq2
    split at h
    · simp at h
    · rename_i c1 dest hcol
      obtain ⟨k0, -, k1, -, -, -, k6, -⟩ := collate_array_values_spec hcol
      have hrow : dest[idx_map.indexOf j]? = some (some r) :=
        (k6 j r hj (by obtain ⟨sel, h1, h2, -⟩ := hex; exact ⟨sel, h1, h2⟩) hall).1
      split at h
      · simp at h
      · rename_i valuation1 hval
        obtain ⟨d0, hd0, rfl⟩ := update_at_some hval
        simp only at h
        split at h
        · simp at h
        · rename_i data hdata
          split at h
          · simp at h
          · rename_i c2 data1 hup
            simp only [Option.some.injEq] at h
            subst h
            obtain ⟨hi, dest0', source, hdest0', -, -, -, -, -, q3⟩ := execute_array_update_spec hup
            have hlt : vi < s.array_valuation.length := (List.getElem?_eq_some_iff.1 hd0).1
            have hdata' : data = d0.set (idx + 1) dest := by
              rw [List.getElem?_set] at hdata
              simpa [hlt] using hdata.symm
            have hidx1 : idx + 1 < d0.length := by
              rw [hd0] at hd
              simp only [Option.some_bind] at hd
              exact (List.getElem?_eq_some_iff.1 hd).1
            have hdest : dest0' = dest := by
              rw [hdata', List.getElem?_set] at hdest0'
              simpa [hidx1] using hdest0'.symm
            subst hdest
            have hne : idx_map.indexOf j ≠ idx_map.indexOf i := by
              intro hc
              exact hij ((List.indexOf_inj hj hi).1 hc).symm
            obtain ⟨d, sv, g1, -, g3⟩ := q3 _ j (List.getElem?_indexOf hj) hne
            rw [List.getElem?_set_ne (Ne.symm hne), hrow] at g1
            cases g1
            exact ⟨sv, g3⟩
  · simp at h

theorem add_array_constraints_loop_emits (vi arr : Nat) (idx_map : List expr2tc)
    (subtype : smt_sort) {i j : expr2tc} {src u : Nat} {v r : smt_ast}
    (hj : j ∈ idx_map) (hij : i ≠ j) :
    ∀ (n i0 : Nat) (s s' : array_convt),
      add_array_constraints_loop vi arr idx_map subtype n i0 s = some s' →
      at2 s.array_updates arr u = some (array_with.w i src v) →
      select_filed s arr u j r → i0 < u → u ≤ i0 + n →
      ∃ sv, smt_ast.eq r (smt_ast.ite (smt_ast.eq (smt_ast.index i) (smt_ast.index j)) v sv)
        ∈ s'.ctx.assertions := by
  intro n
  induction n with
  | zero => intro i0 s s' _ _ _ h1 h2; omega
  | succ n ih =>
    intro i0 s s' h hw hsel h1 h2
    unfold add_array_constraints_loop at h
    rcases ht : execute_array_trans s vi arr i0 idx_map subtype with _ | s1
    · simp [ht] at h
    · simp only [ht] at h
      have hle := execute_array_trans_history_le ht
      by_cases hu : i0 + 1 = u
      · subst hu
        obtain ⟨sv, hsv⟩ := execute_array_trans_emits ht hw hsel hj hij
        exact ⟨sv, (add_array_constraints_loop_history_le _ _ _ _ _ _ _ _ h).2.2.2.2.2.2 _ hsv⟩
      · exact ih (i0 + 1) s1 s' h (by rw [hle.1]; exact hw) (select_filed_mono hle hsel)
          (by omega) (by omega)

theorem add_array_constraints_emits {s s' : array_convt} {arr : Nat} {i j : expr2tc}
    {src u : Nat} {v r : smt_ast}
    (h : add_array_constraints s arr = some s')
    (hw : at2 s.array_updates arr u = some (array_with.w i src v))
    (hsel : select_filed s arr u j r) (hj : j ∈ index_set s arr) (hij : i ≠ j) (hu : 1 ≤ u) :
    ∃ sv, smt_ast.eq r (smt_ast.ite (smt_ast.eq (smt_ast.index i) (smt_ast.index j)) v sv)
      ∈ s'.ctx.assertions := by
  unfold add_array_constraints at h
  split at h
  · rename_i indexes subtype values hidx _ hvals
    simp only at h
    split at h
    · rename_i vals0 sels0 _ _
      split at h
      · simp at h
      · rename_i c1 row0 hcol
        obtain ⟨-, -, k1, -⟩ := collate_array_values_spec hcol
        split at h
        · simp at h
        · rename_i c2 hack
          obtain ⟨q1, -, -⟩ := add_initial_ackerman_constraints_spec hack
          have hj' : j ∈ indexes := by
            simpa [index_set, entry_of, hidx] using hj
          have hlen : u < values.length := by
            obtain ⟨sels, h1, -⟩ := hsel
            simp only [at2, hvals, Option.some_bind] at h1
            exact (List.getElem?_eq_some_iff.1 h1).1
          have hle := history_le_of_ctx s c2
            (s.array_valuation ++
              [(values.map (fun _ => indexes.map (fun _ => (none : Option smt_ast)))).set 0 row0])
            (fun a ha => q1 a (k1 a ha))
          exact add_array_constraints_loop_emits _ _ _ _ hj' hij _ _ _ _ h hw
            (select_filed_mono hle hsel) (by omega) (by omega)
    · simp at h
  · simp at h

theorem add_all_array_constraints_emits {b : Nat} {i j : expr2tc}
    {src u : Nat} {v r : smt_ast} (hij : i ≠ j) (hu : 1 ≤ u) :
    ∀ (n i0 : Nat) (s s' : array_convt),
      add_all_array_constraints n i0 s = some s' →
      at2 s.array_updates b u = some (array_with.w i src v) →
      select_filed s b u j r → j ∈ index_set s b → i0 ≤ b → b < i0 + n →
      ∃ sv, smt_ast.eq r (smt_ast.ite (smt_ast.eq (smt_ast.index i) (smt_ast.index j)) v sv)
        ∈ s'.ctx.assertions := by
  intro n
  induction n with
  | zero => intro i0 s s' _ _ _ _ h1 h2; omega
  | succ n ih =>
    intro i0 s s' h hw hsel hj h1 h2
    unfold add_all_array_constraints at h
    rcases ht : add_array_constraints s i0 with _ | s1
    · simp [ht] at h
    · simp only [ht] at h
      have hle := add_array_constraints_history_le ht
      by_cases hb : i0 = b
      · subst hb
        obtain ⟨sv, hsv⟩ := add_array_constraints_emits ht hw hsel hj hij hu
        exact ⟨sv, (add_all_array_constraints_history_le _ _ _ _ h).2.2.2.2.2.2 _ hsv⟩
      · exact ih (i0 + 1) s1 s' h (by rw [hle.1]; exact hw) (select_filed_mono hle hsel)
          (index_set_mono hle hj) (by omega) (by omega)

/-- Solving ties a select variable filed at the row of a plain with-update to
the stored value. -/
theorem add_array_constraints_for_solving_emits {s s' : array_convt} {b : Nat} {i j : expr2tc}
    {src u : Nat} {v r : smt_ast}
    (h : add_array_constraints_for_solving s = some s')
    (hw : at2 s.array_updates b u = some (array_with.w i src v))
    (hsel : select_filed s b u j r) (hj : j ∈ index_set s b) (hij : i ≠ j) (hu : 1 ≤ u) :
    ∃ sv, smt_ast.eq r (smt_ast.ite (smt_ast.eq (smt_ast.index i) (smt_ast.index j)) v sv)
      ∈ s'.ctx.assertions := by
  unfold add_array_constraints_for_solving at h
  rcases h1 : join_array_indexes s with _ | s1
  · simp [h1] at h
  · simp only [h1] at h
    rcases h2 : add_all_array_constraints s1.array_indexes.length 0 s1 with _ | s2
    · simp [h2] at h
    · simp only [h2] at h
      obtain ⟨hle, -, -, -, hlen⟩ := join_array_indexes_history_le h1
      have hb : b < s1.array_indexes.length := by
        rw [hlen]
        by_contra hc
        have : s.array_indexes[b]? = none := List.getElem?_eq_none_iff.2 (by omega)
        simp [index_set, entry_of, this] at hj
      obtain ⟨sv, hsv⟩ := add_all_array_constraints_emits hij hu _ _ _ _ h2
        (by rw [hle.1]; exact hw) (select_filed_mono hle hsel) (index_set_mono hle hj)
        (Nat.zero_le _) (by omega)
      exact ⟨sv, (add_array_equalities_loop_history_le _ _ _ h).2.2.2.2.2.2 _ hsv⟩

/-- Full description of `mk_unbounded_store`. -/
theorem mk_unbounded_store_spec {s s' : array_convt} {ma a' : array_ast} {idx : expr2tc}
    {value : smt_ast} {rs : smt_sort}
    (h : mk_unbounded_store s ma idx value rs = some (s', a')) :
    ∃ is us vs, s.array_indexes[ma.base_array_id]? = some is ∧
      s.array_updates[ma.base_array_id]? = some us ∧
      s.array_values[ma.base_array_id]? = some vs ∧
      a' = { sort := rs, base_array_id := ma.base_array_id, array_update_num := us.length,
             array_fields := [] } ∧
      s' = { s with
               array_indexes := s.array_indexes.set ma.base_array_id (idx_insert idx is),
               array_updates := s.array_updates.set ma.base_array_id
                 (us ++ [array_with.w idx ma.array_update_num value]),
               array_values := s.array_values.set ma.base_array_id (vs ++ [[]]) } := by
  unfold mk_unbounded_store at h
  rcases hi : update_at s.array_indexes ma.base_array_id (idx_insert idx) with _ | idxs
  · simp [hi] at h
  · obtain ⟨is, his, rfl⟩ := update_at_some hi
    simp only [hi] at h
    rcases hu : s.array_updates[ma.base_array_id]? with _ | us
    · simp [hu] at h
    · simp only [hu] at h
      rcases hv : s.array_values[ma.base_array_id]? with _ | vs
      · simp [update_at, hu, hv] at h
      · simp only [update_at, hu, hv, Option.some.injEq, Prod.mk.injEq] at h
        obtain ⟨rfl, rfl⟩ := h
        exact ⟨is, us, vs, his, rfl, rfl, rfl, rfl⟩

theorem history_in_step_spec {s : array_convt} (h : history_in_step s = true) {b : Nat}
    {us : List array_with} {vs : List (List array_select)}
    (hu : s.array_updates[b]? = some us) (hv : s.array_values[b]? = some vs) :
    vs.length = us.length ∧ 1 ≤ us.length := by
  simp only [history_in_step, Bool.and_eq_true, decide_eq_true_eq, List.all_eq_true] at h
  obtain ⟨h1, h2⟩ := h
  constructor
  · have := congrArg (fun l => l[b]?) h1
    simpa [List.getElem?_map, hu, hv] using this
  · exact h2 us (List.mem_iff_getElem?.2 ⟨b, hu⟩)

/-! ## Ackermann consistency of the element vectors (C2) -/

theorem eval_eq_ne_zero {M : model} {a b : smt_ast} (h : eval M (smt_ast.eq a b) ≠ 0) :
    eval M a = eval M b := by
  by_contra hne
  exact h (by simp [eval, hne])

theorem index_set_of_getElem? {s : array_convt} {b : Nat} {is : List expr2tc}
    (h : s.array_indexes[b]? = some is) : index_set s b = is := by
  simp [index_set, entry_of, h]

/-- The shape of a successful `add_array_constraints`. -/
theorem add_array_constraints_cases {s s' : array_convt} {arr : Nat}
    (h : add_array_constraints s arr = some s') :
    ∃ indexes subtype values sels0 c1 row0 c2,
      s.array_indexes[arr]? = some indexes ∧ s.array_subtypes[arr]? = some subtype ∧
      s.array_values[arr]? = some values ∧ values[0]? = some sels0 ∧
      collate_array_values s.ctx (indexes.map (fun _ => none)) indexes sels0 subtype
        (s.array_of_vals.lookup arr) = some (c1, row0) ∧
      add_initial_ackerman_constraints c1 row0 indexes = some c2 ∧
      add_array_constraints_loop s.array_valuation.length arr indexes subtype
        (values.length - 1) 0
        { s with array_valuation := s.array_valuation ++
                   [(values.map (fun _ => indexes.map (fun _ => none))).set 0 row0],
                 ctx := c2 } = some s' := by
  unfold add_array_constraints at h
  split at h
  · rename_i indexes subtype values hi hsub hv
    simp only at h
    split at h
    · rename_i vals0 sels0 hv0 hs0
      have hvals0 : vals0 = indexes.map (fun _ => none) := by
        rw [List.getElem?_map, hs0] at hv0
        simpa using hv0.symm
      subst hvals0
      split at h
      · simp at h
      · rename_i c1 row0 hcol
        split at h
        · simp at h
        · rename_i c2 hack
          exact ⟨indexes, subtype, values, sels0, c1, row0, c2, hi, hsub, hv, hs0, hcol, hack, h⟩
    · simp at h
  · simp at h

theorem pairwise_set_insert (e : Nat) :
    ∀ l : List Nat, l.Pairwise (fun x y => x < y) →
      (set_insert id e l).Pairwise (fun x y => x < y) := by
  intro l
  induction l with
  | nil => intro _; simp [set_insert]
  | cons x xs ih =>
    intro h
    unfold set_insert
    rw [List.pairwise_cons] at h
    by_cases h1 : e = x
    · simp only [h1, if_true]; exact List.pairwise_cons.2 h
    · simp only [h1, if_false, id]
      by_cases h2 : e < x
      · simp only [h2, if_true]
        rw [List.pairwise_cons]
        refine ⟨?_, List.pairwise_cons.2 h⟩
        intro y hy
        rcases List.mem_cons.1 hy with rfl | hy
        · exact h2
        · exact lt_trans h2 (h.1 y hy)
      · simp only [h2, if_false]
        rw [List.pairwise_cons]
        refine ⟨?_, ih h.2⟩
        intro y hy
        rcases (mem_set_insert _ _ _ _).1 hy with rfl | hy
        · omega
        · exact h.1 y hy

theorem pairwise_set_insert_all (src : List Nat) :
    ∀ dst : List Nat, dst.Pairwise (fun x y => x < y) →
      (set_insert_all id src dst).Pairwise (fun x y => x < y) := by
  induction src with
  | nil => intro dst h; simpa [set_insert_all] using h
  | cons x xs ih =>
    intro dst h
    have := ih (set_insert id x dst) (pairwise_set_insert x dst h)
    simpa [set_insert_all] using this

theorem sorted_length_le {l : List Nat} {n : Nat} (hs : l.Pairwise (fun x y => x < y))
    (hb : ∀ x ∈ l, x < n) : l.length ≤ n := by
  have hnd : l.Nodup := hs.imp (fun hab heq => by omega)
  have hsub : l ⊆ List.range n := fun x hx => List.mem_range.2 (hb x hx)
  have := (List.subperm_of_subset hnd hsub).length_le
  simpa using this

theorem total_size_set : ∀ (G : List (List Nat)) (j : Nat) (g g1 : List Nat),
    G[j]? = some g → total_size (G.set j g1) + g.length = total_size G + g1.length := by
  intro G
  induction G with
  | nil => intro j g g1 h; simp at h
  | cons x xs ih =>
    intro j g g1 h
    cases j with
    | zero =>
      simp only [List.getElem?_cons_zero, Option.some.injEq] at h
      subst h
      simp only [total_size, List.set_cons_zero, List.map_cons, List.sum_cons]
      omega
    | succ j =>
      simp only [List.getElem?_cons_succ] at h
      have := ih j g g1 h
      simp only [total_size, List.set_cons_succ, List.map_cons, List.sum_cons] at this ⊢
      omega

theorem total_size_le {n : Nat} {G : List (List Nat)} (h : group_inv n G) :
    total_size G ≤ n * n := by
  obtain ⟨hlen, hall⟩ := h
  have : (G.map List.length).sum ≤ (G.map List.length).length • n := by
    apply List.sum_le_card_nsmul
    intro x hx
    obtain ⟨g, hg, rfl⟩ := List.mem_map.1 hx
    exact sorted_length_le (hall g hg).1 (hall g hg).2
  simpa [total_size, hlen] using this

theorem group_inv_set {n : Nat} {G : List (List Nat)} (h : group_inv n G) (j : Nat)
    {g : List Nat} (hs : g.Pairwise (fun x y => x < y)) (hb : ∀ x ∈ g, x < n) :
    group_inv n (G.set j g) := by
  refine ⟨by rw [List.length_set]; exact h.1, ?_⟩
  intro x hx
  rcases List.mem_or_eq_of_mem_set hx with hx | rfl
  · exact h.2 x hx
  · exact ⟨hs, hb⟩

theorem join_touch_total {n : Nat} (arrset : List Nat) (hab : ∀ x ∈ arrset, x < n) :
    ∀ (l : List Nat) (G : List (List Nat)) (m : Bool),
      group_inv n G → (∀ t ∈ l, t < n) →
      ∃ G' m', join_touch arrset l (G, m) = some (G', m') ∧ group_inv n G' ∧
        total_size G ≤ total_size G' ∧ (m' = true → m = true ∨ total_size G < total_size G') := by
  intro l
  induction l with
  | nil =>
    intro G m hG _
    exact ⟨G, m, rfl, hG, le_refl _, fun h => Or.inl h⟩
  | cons t rest ih =>
    intro G m hG hl
    have ht : t < G.length := by rw [hG.1]; exact hl t (List.mem_cons_self _ _)
    have hg : G[t]? = some G[t] := List.getElem?_eq_getElem ht
    have hgm : G[t] ∈ G := List.getElem_mem _
    have hs1 := pairwise_set_insert_all arrset G[t] (hG.2 _ hgm).1
    have hb1 : ∀ x ∈ set_insert_all id arrset G[t], x < n := by
      intro x hx
      rcases (mem_set_insert_all _ _ _ _).1 hx with hx | hx
      · exact hab x hx
      · exact (hG.2 _ hgm).2 x hx
    have hG1 := group_inv_set hG t hs1 hb1
    obtain ⟨G', m', h1, h2, h3, h4⟩ := ih (G.set t (set_insert_all id arrset G[t]))
      (m || decide (G[t].length ≠ (set_insert_all id arrset G[t]).length)) hG1
      (fun x hx => hl x (List.mem_cons_of_mem _ hx))
    have hts := total_size_set G t G[t] (set_insert_all id arrset G[t]) hg
    have hge := length_set_insert_all_ge id arrset G[t]
    refine ⟨G', m', ?_, h2, by omega, ?_⟩
    · unfold join_touch
      simp only [hg]
      exact h1
    · intro hm'
      rcases h4 hm' with h5 | h5
      · simp only [Bool.or_eq_true, decide_eq_true_eq] at h5
        rcases h5 with h5 | h5
        · exact Or.inl h5
        · right; omega
      · right; omega

theorem join_pass_total {n : Nat} :
    ∀ (cnt k : Nat) (G : List (List Nat)) (m : Bool),
      group_inv n G → k + cnt ≤ n →
      ∃ G' m', join_pass cnt k (G, m) = some (G', m') ∧ group_inv n G' ∧
        total_size G ≤ total_size G' ∧ (m' = true → m = true ∨ total_size G < total_size G') := by
  intro cnt
  induction cnt with
  | zero =>
    intro k G m hG _
    exact ⟨G, m, rfl, hG, le_refl _, fun h => Or.inl h⟩
  | succ cnt ih =>
    intro k G m hG hk
    have hkl : k < G.length := by rw [hG.1]; omega
    have hg : G[k]? = some G[k] := List.getElem?_eq_getElem hkl
    have hgm : G[k] ∈ G := List.getElem_mem _
    obtain ⟨G1, m1, a1, a2, a3, a4⟩ := join_touch_total G[k] (hG.2 _ hgm).2
      G[k] G m hG (hG.2 _ hgm).2
    obtain ⟨G', m', b1, b2, b3, b4⟩ := ih (k + 1) G1 m1 a2 (by omega)
    refine ⟨G', m', ?_, b2, by omega, ?_⟩
    · unfold join_pass
      simp only [hg, a1]
      exact b1
    · intro hm'
      rcases b4 hm' with h5 | h5
      · rcases a4 h5 with h6 | h6
        · exact Or.inl h6
        · right; omega
      · right; omega

/-- The do-while loop of `join_array_indexes` ends within the sweeps it is
given: every sweep that changes a grouping set enlarges one, and `n` sets of
base ids hold at most `n * n` entries. -/
theorem join_fix_total {n : Nat} :
    ∀ (fuel : Nat) (G : List (List Nat)),
      group_inv n G → n * n < fuel + total_size G →
      ∃ G', join_fix fuel G = some G' ∧ group_inv n G' := by
  intro fuel
  induction fuel with
  | zero =>
    intro G hG h
    have := total_size_le hG
    omega
  | succ fuel ih =>
    intro G hG h
    obtain ⟨G1, m1, a1, a2, a3, a4⟩ := join_pass_total G.length 0 G false hG (by rw [hG.1]; omega)
    unfold join_fix
    simp only [a1]
    cases m1 with
    | false => exact ⟨G1, by simp, a2⟩
    | true =>
      simp only [if_true]
      apply ih G1 a2
      rcases a4 rfl with h5 | h5
      · simp at h5
      · omega

theorem join_collect_inv {n : Nat} :
    ∀ (us : List array_with) (g : List Nat),
      g.Pairwise (fun x y => x < y) → (∀ x ∈ g, x < n) →
      (∀ w ∈ us, record_ids_in_range n w = true) →
      (join_collect us g).Pairwise (fun x y => x < y) ∧ ∀ x ∈ join_collect us g, x < n := by
  intro us
  induction us with
  | nil => intro g hs hb _; exact ⟨hs, hb⟩
  | cons w rest ih =>
    intro g hs hb hr
    have hrest : ∀ w ∈ rest, record_ids_in_range n w = true :=
      fun x hx => hr x (List.mem_cons_of_mem _ hx)
    cases w with
    | placeholder => simpa [join_collect] using ih g hs hb hrest
    | w e src val => simpa [join_collect] using ih g hs hb hrest
    | i t f c =>
      have hw := hr _ (List.mem_cons_self _ _)
      simp only [record_ids_in_range, Bool.and_eq_true, decide_eq_true_eq] at hw
      unfold join_collect
      by_cases hne : t.base_array_id ≠ f.base_array_id
      · rw [if_pos hne]
        apply ih _ (pairwise_set_insert _ _ (pairwise_set_insert _ _ hs)) _ hrest
        intro x hx
        rcases (mem_set_insert _ _ _ _).1 hx with rfl | hx
        · exact hw.2
        · rcases (mem_set_insert _ _ _ _).1 hx with rfl | hx
          · exact hw.1
          · exact hb x hx
      · rw [if_neg hne]
        exact ih g hs hb hrest

theorem join_equalities_total {n : Nat} :
    ∀ (es : List array_equality) (G : List (List Nat)),
      group_inv n G → (∀ e ∈ es, e.arr1_id < n ∧ e.arr2_id < n) →
      ∃ G', join_equalities es G = some G' ∧ group_inv n G' := by
  intro es
  induction es with
  | nil => intro G hG _; exact ⟨G, rfl, hG⟩
  | cons e rest ih =>
    intro G hG he
    obtain ⟨h1, h2⟩ := he e (List.mem_cons_self _ _)
    have hl1 : e.arr1_id < G.length := by rw [hG.1]; exact h1
    have hg1 : G[e.arr1_id]? = some G[e.arr1_id] := List.getElem?_eq_getElem hl1
    have hG1 : group_inv n (G.set e.arr1_id (set_insert id e.arr2_id G[e.arr1_id])) := by
      apply group_inv_set hG _ (pairwise_set_insert _ _ (hG.2 _ (List.getElem_mem _)).1)
      intro x hx
      rcases (mem_set_insert _ _ _ _).1 hx with rfl | hx
      · exact h2
      · exact (hG.2 _ (List.getElem_mem _)).2 x hx
    have hl2 : e.arr2_id < (G.set e.arr1_id (set_insert id e.arr2_id G[e.arr1_id])).length := by
      rw [hG1.1]; exact h2
    have hG2 := group_inv_set hG1 e.arr2_id
      (pairwise_set_insert e.arr1_id _ (hG1.2 _ (List.getElem_mem hl2)).1)
      (by
        intro x hx
        rcases (mem_set_insert _ _ _ _).1 hx with rfl | hx
        · exact h1
        · exact (hG1.2 _ (List.getElem_mem hl2)).2 x hx)
    obtain ⟨G', hG', hinv⟩ := ih _ hG2 (fun x hx => he x (List.mem_cons_of_mem _ hx))
    refine ⟨G', ?_, hinv⟩
    unfold join_equalities
    simp only [update_at, hg1, List.getElem?_eq_getElem hl2]
    exact hG'

theorem ids_in_range_spec {s : array_convt} (h : ids_in_range s = true) :
    (∀ us ∈ s.array_updates, ∀ w ∈ us, record_ids_in_range s.array_updates.length w = true) ∧
    ∀ e ∈ s.array_equalities,
      e.arr1_id < s.array_updates.length ∧ e.arr2_id < s.array_updates.length := by
  unfold ids_in_range at h
  simp only [Bool.and_eq_true, List.all_eq_true, decide_eq_true_eq] at h
  exact ⟨fun us hus w hw => h.1 us hus w hw, fun e he => h.2 e he⟩

theorem join_groupings_total {s : array_convt} (h : ids_in_range s = true) :
    ∃ G, join_groupings s = some G ∧ group_inv s.array_updates.length G := by
  obtain ⟨h1, h2⟩ := ids_in_range_spec h
  have hG0 : group_inv s.array_updates.length
      (s.array_updates.enum.map (fun p => set_insert id p.1 (join_collect p.2 []))) := by
    refine ⟨by simp, ?_⟩
    intro g hg
    obtain ⟨p, hp, rfl⟩ := List.mem_map.1 hg
    have hp' := List.mem_enum_iff_getElem?.1 hp
    have hlt : p.1 < s.array_updates.length := (List.getElem?_eq_some_iff.1 hp').1
    obtain ⟨c1, c2⟩ := join_collect_inv (n := s.array_updates.length) p.2 []
      List.Pairwise.nil (fun x hx => by simp at hx) (h1 p.2 (List.getElem?_mem hp'))
    refine ⟨pairwise_set_insert _ _ c1, ?_⟩
    intro x hx
    rcases (mem_set_insert _ _ _ _).1 hx with rfl | hx
    · exact hlt
    · exact c2 x hx
  obtain ⟨G1, e1, e2⟩ := join_equalities_total s.array_equalities _ hG0 h2
  obtain ⟨G', f1, hG'⟩ := join_fix_total (s.array_updates.length * s.array_updates.length + 1) G1
    e2 (by omega)
  refine ⟨G', ?_, hG'⟩
  unfold join_groupings join_initial
  simp only [e1]
  exact f1

theorem join_indexes_inner_total (arrid : Nat) :
    ∀ (l : List Nat) (idxs : List (List expr2tc)),
      (∀ t ∈ l, t < idxs.length) → arrid < idxs.length →
      ∃ idxs', join_indexes_inner arrid l idxs = some idxs' ∧ idxs'.length = idxs.length := by
  intro l
  induction l with
  | nil => intro idxs _ _; exact ⟨idxs, rfl, rfl⟩
  | cons t rest ih =>
    intro idxs hl ha
    have ht : t < idxs.length := hl t (List.mem_cons_self _ _)
    obtain ⟨idxs', h1, h2⟩ := ih (idxs.set arrid (set_insert_all expr2tc.rank idxs[t] idxs[arrid]))
      (fun x hx => by rw [List.length_set]; exact hl x (List.mem_cons_of_mem _ hx))
      (by rw [List.length_set]; exact ha)
    refine ⟨idxs', ?_, by rw [h2, List.length_set]⟩
    unfold join_indexes_inner
    simp only [List.getElem?_eq_getElem ht, List.getElem?_eq_getElem ha]
    exact h1

theorem join_indexes_outer_total {n : Nat} {G : List (List Nat)} (hG : group_inv n G) :
    ∀ (cnt k : Nat) (idxs : List (List expr2tc)),
      idxs.length = n → k + cnt ≤ n →
      ∃ idxs', join_indexes_outer G cnt k idxs = some idxs' := by
  intro cnt
  induction cnt with
  | zero => intro k idxs _ _; exact ⟨idxs, rfl⟩
  | succ cnt ih =>
    intro k idxs hlen hk
    have hkl : k < G.length := by rw [hG.1]; omega
    obtain ⟨idxs1, h1, h2⟩ := join_indexes_inner_total k G[k] idxs
      (fun t ht => by rw [hlen]; exact (hG.2 _ (List.getElem_mem hkl)).2 t ht) (by omega)
    obtain ⟨idxs', h3⟩ := ih (k + 1) idxs1 (by rw [h2, hlen]) (by omega)
    refine ⟨idxs', ?_⟩
    unfold join_indexes_outer
    simp only [List.getElem?_eq_getElem hkl, h1]
    exact h3

/-- `join_array_indexes` returns on every history whose records name base ids
of the history only and which has an index set for every base id: the sweeps
allowed for the do-while loop are enough. -/
theorem join_array_indexes_total {s : array_convt} (h : ids_in_range s = true)
    (hlen : s.array_indexes.length = s.array_updates.length) :
    ∃ s', join_array_indexes s = some s' := by
  obtain ⟨G, h1, h2⟩ := join_groupings_total h
  obtain ⟨idxs, h3⟩ := join_indexes_outer_total h2 s.array_updates.length 0 s.array_indexes
    hlen (by omega)
  exact ⟨{ s with array_indexes := idxs }, by unfold join_array_indexes; simp only [h1, h3]⟩

/-! ## The timeout handler (C11) -/

/-- C11: in a k-induction worker the timeout handler writes exactly one record,
with `finished = true` and the step of the worker's role, and then exits; in a
process that is not in k-induction mode it writes no record. -/
theorem C11_timeout_record (role : STEP) (f : process_flags) (uninit : Int) :
    (role ≠ STEP.NONE →
      timeout_handler (worker_flags role) uninit =
        ([{ step := role, result := uninit, k := 0, finished := true }], outcome.exited 1)) ∧
    (f.k_induction = false → timeout_handler f uninit = ([], outcome.exited 1)) := by
  constructor
  · intro h
    cases role <;> first | exact absurd rfl h | rfl
  · intro h
    simp [timeout_handler, h]

/-- Witness of C11: the handler in the forward-condition worker, and in a
process started without k-induction. -/
theorem C11_timeout_record_witness :
    timeout_handler (worker_flags STEP.FORWARD_CONDITION) 7 =
      ([{ step := STEP.FORWARD_CONDITION, result := 7, k := 0, finished := true }],
        outcome.exited 1) ∧
    timeout_handler process_flags.init 7 = ([], outcome.exited 1) :=
  ⟨(C11_timeout_record STEP.FORWARD_CONDITION process_flags.init 7).1 (by decide),
   (C11_timeout_record STEP.FORWARD_CONDITION process_flags.init 7).2 rfl⟩

/-! ## The select shortcut (C19) -/

/-- C19: a select on an array term whose update is a plain with-update at the
very index expression returns the stored value term; the state changes in the
index set of the base only (no fresh variable, no select record). -/
theorem C19_select_shortcut (s : array_convt) (ma : array_ast) (idx : expr2tc) (rs : smt_sort)
    (is : List expr2tc) (src : Nat) (val : smt_ast)
    (hi : s.array_indexes[ma.base_array_id]? = some is)
    (hu : ma.array_update_num ≠ 0)
    (hw : at2 s.array_updates ma.base_array_id ma.array_update_num =
      some (array_with.w idx src val)) :
    mk_unbounded_select s ma idx rs =
      some ({ s with array_indexes := s.array_indexes.set ma.base_array_id (idx_insert idx is) },
            val) := by
  unfold at2 at hw
  obtain ⟨us, hus, hw'⟩ := Option.bind_eq_some.1 hw
  unfold mk_unbounded_select
  simp only [update_at, hi, hus, hw']
  rw [if_pos ⟨hu, rfl, rfl⟩]

/-- Witness of C19: the select at `symbol 0` on the array stored to at
`symbol 0` returns the stored term. -/
theorem C19_select_shortcut_witness :
    mk_unbounded_select example_row_s1 example_row_a1 (expr2tc.symbol 0) sort_bv32 =
      some ({ example_row_s1 with
                array_indexes := example_row_s1.array_indexes.set 0
                  (idx_insert (expr2tc.symbol 0) [expr2tc.symbol 0]) },
            smt_ast.term 7) :=
  C19_select_shortcut example_row_s1 example_row_a1 (expr2tc.symbol 0) sort_bv32
    [expr2tc.symbol 0] 0 (smt_ast.term 7) (by decide) (by decide) (by decide)

/-! ## Update numbers of the array terms returned (C17) -/

/-- Description of `unbounded_array_ite`: the record goes to the update list of
the smaller base id, the update number of the array term returned is the
length of the update list of the base of the true side. -/
theorem unbounded_array_ite_spec {s s' : array_convt} {cond : smt_ast} {t f r : array_ast}
    {rs : smt_sort} (h : unbounded_array_ite s cond t f rs = some (s', r)) :
    ∃ tus us vs, s.array_updates[t.base_array_id]? = some tus ∧
      s.array_updates[min t.base_array_id f.base_array_id]? = some us ∧
      s.array_values[min t.base_array_id f.base_array_id]? = some vs ∧
      r = { sort := rs, base_array_id := min t.base_array_id f.base_array_id,
            array_update_num := tus.length, array_fields := [] } ∧
      s' = { s with
               array_updates := s.array_updates.set (min t.base_array_id f.base_array_id)
                 (us ++ [array_with.i t f cond]),
               array_values := s.array_values.set (min t.base_array_id f.base_array_id)
                 (vs ++ [[]]) } := by
  unfold unbounded_array_ite at h
  simp only at h
  rcases ht : s.array_updates[t.base_array_id]? with _ | tus
  · simp [ht] at h
  · simp only [ht] at h
    rcases hu : update_at s.array_updates (min t.base_array_id f.base_array_id)
        (fun l => l ++ [array_with.i t f cond]) with _ | ups
    · simp [hu] at h
    · obtain ⟨us, hus, rfl⟩ := update_at_some hu
      simp only [hu] at h
      rcases hv : update_at s.array_values (min t.base_array_id f.base_array_id)
          (fun l => l ++ [[]]) with _ | vals
      · simp [hv] at h
      · obtain ⟨vs, hvs, rfl⟩ := update_at_some hv
        simp only [hv, Option.some.injEq, Prod.mk.injEq] at h
        obtain ⟨rfl, rfl⟩ := h
        exact ⟨tus, us, vs, rfl, hus, hvs, rfl, rfl⟩

/-- The array term `mk_unbounded_store` returns names the position of the
record the call appended. -/
theorem mk_unbounded_store_update_num {s s' : array_convt} {ma a' : array_ast} {idx : expr2tc}
    {value : smt_ast} {rs : smt_sort}
    (h : mk_unbounded_store s ma idx value rs = some (s', a')) :
    at2 s'.array_updates a'.base_array_id a'.array_update_num =
      some (array_with.w idx ma.array_update_num value) := by
  obtain ⟨is, us, vs, hi, hu, hv, rfl, rfl⟩ := mk_unbounded_store_spec h
  simp only [at2]
  rw [List.getElem?_set, if_pos rfl]
  simp [(List.getElem?_eq_some_iff.1 hu).1]

/-- The array term `unbounded_array_ite` returns names the position of the
record the call appended when the base id of the true side is not the larger
one. -/
theorem unbounded_array_ite_update_num {s s' : array_convt} {cond : smt_ast} {t f r : array_ast}
    {rs : smt_sort} (h : unbounded_array_ite s cond t f rs = some (s', r))
    (hle : t.base_array_id ≤ f.base_array_id) :
    at2 s'.array_updates r.base_array_id r.array_update_num = some (array_with.i t f cond) := by
  obtain ⟨tus, us, vs, ht, hu, hv, rfl, rfl⟩ := unbounded_array_ite_spec h
  rw [Nat.min_eq_left hle] at hu ⊢
  rw [ht] at hu; cases hu
  simp only [at2]
  rw [List.getElem?_set, if_pos rfl]
  simp [(List.getElem?_eq_some_iff.1 ht).1]

/-- C17 (the code at the failing input): for the ite whose true side is an
array of base 1 and whose false side is the stored array of base 0, the array
term returned has base 0 and update number 1, while the ite record was
appended at position 2 of the update list of base 0; position 1 holds the
with-record of the earlier store. -/
theorem C17_ite_update_num_of_true_base :
    example_ite_swapped.map (fun p =>
      (p.2.base_array_id, p.2.array_update_num,
       (entry_of p.1.array_updates 0).length,
       at2 p.1.array_updates 0 1, (at2 p.1.array_updates 0 2).map array_with.is_ite))
    = some (0, 1, 3, some (array_with.w (expr2tc.symbol 0) 0 (smt_ast.term 7)), some true) := by
  decide

/-! ## Deferred array equalities (C13) -/

theorem eval_make_conjunct (M : model) :
    ∀ (v1 v2 : ast_vect) (lits : List smt_ast), add_array_equalities_lits v1 v2 = some lits →
      (eval M (make_conjunct lits) ≠ 0 ↔
        ∀ i : Nat, i < v1.length →
          ∃ x y, v1[i]? = some (some x) ∧ v2[i]? = some (some y) ∧ eval M x = eval M y) := by
  intro v1
  induction v1 with
  | nil =>
    intro v2 lits h
    simp only [add_array_equalities_lits, Option.some.injEq] at h
    subst h
    simp [make_conjunct, eval]
  | cons a rest ih =>
    intro v2 lits h
    cases a with
    | none => simp [add_array_equalities_lits] at h
    | some x =>
      cases v2 with
      | nil => simp [add_array_equalities_lits] at h
      | cons b rest2 =>
        cases b with
        | none => simp [add_array_equalities_lits] at h
        | some y =>
          unfold add_array_equalities_lits at h
          rcases h1 : add_array_equalities_lits rest rest2 with _ | l
          · simp [h1] at h
          · simp only [h1, Option.some.injEq] at h
            subst h
            have i2 := ih rest2 l h1
            · constructor
              · intro hne i hi
                have hxy : eval M x = eval M y := by
                  by_contra hc
                  exact hne (by simp [make_conjunct, eval, hc])
                have hrest : eval M (make_conjunct l) ≠ 0 := by
                  intro hc
                  exact hne (by simp [make_conjunct, eval, hc])
                cases i with
                | zero => exact ⟨x, y, by simp, by simp, hxy⟩
                | succ i =>
                  simp only [List.getElem?_cons_succ]
                  exact i2.1 hrest i (by simpa using hi)
              · intro hall
                obtain ⟨x', y', e1, e2, e3⟩ := hall 0 (by simp)
                simp only [List.getElem?_cons_zero, Option.some.injEq] at e1 e2
                subst e1 e2
                have hrest : eval M (make_conjunct l) ≠ 0 := by
                  apply i2.2
                  intro i hi
                  have := hall (i + 1) (by simpa using hi)
                  simpa only [List.getElem?_cons_succ] using this
                simp [make_conjunct, eval, e3, hrest]

/-- Every recorded equality gets its constraint: the result variable equals
the conjunction of the position-wise equalities of the two element vectors. -/
theorem add_array_equalities_loop_spec :
    ∀ (l : List array_equality) (s s' : array_convt),
      add_array_equalities_loop l s = some s' →
      s'.array_valuation = s.array_valuation ∧
      (∀ a ∈ s.ctx.assertions, a ∈ s'.ctx.assertions) ∧
      ∀ e ∈ l, ∃ v1 v2 lits,
        at2 s.array_valuation e.arr1_id e.arr1_update_num = some v1 ∧
        at2 s.array_valuation e.arr2_id e.arr2_update_num = some v2 ∧
        add_array_equalities_lits v1 v2 = some lits ∧
        smt_ast.eq e.result (make_conjunct lits) ∈ s'.ctx.assertions := by
  intro l
  induction l with
  | nil =>
    intro s s' h
    simp only [add_array_equalities_loop, Option.some.injEq] at h
    subst h
    exact ⟨rfl, fun _ h => h, fun e he => by simp at he⟩
  | cons e rest ih =>
    intro s s' h
    unfold add_array_equalities_loop at h
    split at h
    · rename_i i1 i2 v1 v2 hi1 hi2 hv1 hv2
      split at h
      · simp at h
      · split at h
        · simp at h
        · rename_i lits hl
          obtain ⟨a1, a2, a3⟩ := ih _ _ h
          simp only at a1 a2 a3
          refine ⟨a1, fun a ha => a2 a (by simp [smt_convt.assert_ast, ha]), ?_⟩
          intro e' he'
          rcases List.mem_cons.1 he' with rfl | he'
          · exact ⟨v1, v2, lits, hv1, hv2, hl, a2 _ (by simp [smt_convt.assert_ast])⟩
          · exact a3 e' he'
    · simp at h

/-- C13: `encode_array_equality` asserts nothing, records one obligation with
the two (base id, update number) pairs and returns a fresh boolean variable;
after solving, for every recorded obligation, in every model of the asserted
constraints the result variable is true exactly when the two element vectors
agree at every position. -/
theorem C13_deferred_equality (s : array_convt) (a1 a2 : array_ast) (t t' : array_convt)
    (e : array_equality) (M : model)
    (h : add_array_constraints_for_solving t = some t') (he : e ∈ t.array_equalities)
    (hM : satisfies M t'.ctx) :
    encode_array_equality s a1 a2 =
      ({ s with
           array_equalities := s.array_equalities ++
             [{ arr1_id := a1.base_array_id, arr2_id := a2.base_array_id,
                arr1_update_num := a1.array_update_num,
                arr2_update_num := a2.array_update_num,
                result := smt_ast.fresh s.ctx.fresh_count sort_bool }],
           ctx := { fresh_count := s.ctx.fresh_count + 1, assertions := s.ctx.assertions } },
       smt_ast.fresh s.ctx.fresh_count sort_bool) ∧
    ∃ v1 v2, at2 t'.array_valuation e.arr1_id e.arr1_update_num = some v1 ∧
      at2 t'.array_valuation e.arr2_id e.arr2_update_num = some v2 ∧
      (eval M e.result ≠ 0 ↔
        ∀ i : Nat, i < v1.length →
          ∃ x y, v1[i]? = some (some x) ∧ v2[i]? = some (some y) ∧ eval M x = eval M y) := by
  refine ⟨rfl, ?_⟩
  unfold add_array_constraints_for_solving at h
  rcases hj : join_array_indexes t with _ | t1
  · simp [hj] at h
  · simp only [hj] at h
    rcases ha : add_all_array_constraints t1.array_indexes.length 0 t1 with _ | t2
    · simp [ha] at h
    · simp only [ha] at h
      have heq : t2.array_equalities = t.array_equalities :=
        (add_all_array_constraints_history_le _ _ _ _ ha).2.2.2.1.trans
          (join_array_indexes_history_le hj).1.2.2.2.1
      obtain ⟨b1, b2, b3⟩ := add_array_equalities_loop_spec _ _ _ h
      obtain ⟨v1, v2, lits, c1, c2, c3, c4⟩ := b3 e (by rw [heq]; exact he)
      refine ⟨v1, v2, by rw [b1]; exact c1, by rw [b1]; exact c2, ?_⟩
      have d2 := eval_make_conjunct M v1 v2 lits c3
      have hev : eval M e.result = eval M (make_conjunct lits) := by
        have := hM _ c4
        by_contra hc
        exact this (by simp [eval, hc])
      rw [hev]
      exact d2

/-- Witness of C13: the equality of two arrays with one select each. -/
theorem C13_deferred_equality_witness :
    add_array_constraints_for_solving example_eq_state = some example_eq_solved ∧
    satisfies example_eq_model example_eq_solved.ctx ∧
    ∃ v1 v2, at2 example_eq_solved.array_valuation 0 0 = some v1 ∧
      at2 example_eq_solved.array_valuation 1 0 = some v2 ∧
      (eval example_eq_model (smt_ast.fresh 2 sort_bool) ≠ 0 ↔
        ∀ i : Nat, i < v1.length →
          ∃ x y, v1[i]? = some (some x) ∧ v2[i]? = some (some y) ∧
            eval example_eq_model x = eval example_eq_model y) :=
  ⟨by decide, by unfold satisfies; decide,
   (C13_deferred_equality array_convt.init example_row_a example_row_a example_eq_state
      example_eq_solved
      { arr1_id := 0, arr2_id := 1, arr1_update_num := 0, arr2_update_num := 0,
        result := smt_ast.fresh 2 sort_bool }
      example_eq_model (by decide) (by decide) (by unfold satisfies; decide)).2⟩

/-! ## The sequential k-induction loop (C16) -/

/-- C16 (as stated) fails: started in the base-case phase at `k_step = 1`, with
a base case that passes at bound 1 and a forward condition that holds at bound
2, the loop returns success after these two runs; no bound has both a passed
base case and a passed forward condition or inductive step. -/
theorem C16_counterexample :
    sequential_run 50 example_results true false 1 =
      some { code := 0, exhausted := false,
             trace := [{ step := STEP.BASE_CASE, unwind := 1, res := false },
                       { step := STEP.FORWARD_CONDITION, unwind := 2, res := false }] } ∧
    ¬ ∃ k : Int,
      ({ step := STEP.BASE_CASE, unwind := k, res := false } : bmc_run) ∈
        [{ step := STEP.BASE_CASE, unwind := 1, res := false },
         { step := STEP.FORWARD_CONDITION, unwind := 2, res := false }] ∧
      (({ step := STEP.FORWARD_CONDITION, unwind := k, res := false } : bmc_run) ∈
        [{ step := STEP.BASE_CASE, unwind := 1, res := false },
         { step := STEP.FORWARD_CONDITION, unwind := 2, res := false }] ∨
       ({ step := STEP.INDUCTIVE_STEP, unwind := k, res := false } : bmc_run) ∈
        [{ step := STEP.BASE_CASE, unwind := 1, res := false },
         { step := STEP.FORWARD_CONDITION, unwind := 2, res := false }]) := by
  refine ⟨by decide, ?_⟩
  rintro ⟨k, h1, h2⟩
  simp only [List.mem_cons, bmc_run.mk.injEq, List.mem_singleton, List.not_mem_nil,
    or_false, true_and, and_true, false_and, and_false, false_or, reduceCtorEq] at h1 h2
  omega

theorem sequential_loop_total (max_k_step : Int) (results : Nat → Bool) :
    ∀ (fuel : Nat) (st : seq_state) (trace : List bmc_run),
      3 * (max_k_step + 1 - st.k_step).toNat + seq_phase_weight st + 1 ≤ fuel →
      ∃ r, sequential_loop max_k_step results fuel st trace = some r := by
  intro fuel
  induction fuel with
  | zero => intro st trace h; omega
  | succ fuel ih =>
    intro st trace h
    unfold sequential_loop
    simp only
    by_cases hb : st.base_case = true
    · simp only [hb, if_true]
      by_cases hr : results trace.length = true
      · simp [hr]
      · simp only [hr, Bool.false_eq_true, if_false, seq_continue]
        by_cases hk : st.k_step + 1 ≤ max_k_step
        · simp only [hk, if_true]
          apply ih
          simp only [seq_phase_weight, Bool.false_eq_true, if_false, if_true]
          simp only [seq_phase_weight, hb, if_true] at h
          omega
        · simp [hk]
    · simp only [hb, Bool.false_eq_true, if_false]
      by_cases hf : st.forward_condition = true
      · simp only [hf, if_true]
        by_cases hr : results trace.length = true
        · simp only [hr, Bool.not_true, Bool.false_eq_true, if_false, seq_continue]
          by_cases hk : st.k_step ≤ max_k_step
          · simp only [hk, if_true]
            apply ih
            simp only [seq_phase_weight, hb, Bool.false_eq_true, if_false]
            simp only [seq_phase_weight, hb, hf, Bool.false_eq_true, if_false, if_true] at h
            omega
          · simp [hk]
        · simp [hr]
      · simp only [hf, Bool.false_eq_true, if_false]
        by_cases hr : results trace.length = true
        · simp only [hr, Bool.not_true, Bool.false_eq_true, if_false, seq_continue]
          by_cases hk : st.k_step ≤ max_k_step
          · simp only [hk, if_true]
            apply ih
            simp only [seq_phase_weight, if_true]
            simp only [seq_phase_weight, hb, hf, Bool.false_eq_true, if_false] at h
            omega
          · simp [hk]
        · simp [hr]

theorem sequential_loop_verdict (max_k_step : Int) (results : Nat → Bool) :
    ∀ (fuel : Nat) (st : seq_state) (trace : List bmc_run) (r : seq_result),
      sequential_loop max_k_step results fuel st trace = some r →
      (∃ k : Int, ({ step := STEP.BASE_CASE, unwind := k, res := true } : bmc_run) ∈ r.trace ∨
        r.code = 0) ∧
      (seq_inv st trace → r.code = 0 → r.exhausted = false →
        ∃ k : Int, ({ step := STEP.BASE_CASE, unwind := k, res := false } : bmc_run) ∈ r.trace ∧
          (({ step := STEP.FORWARD_CONDITION, unwind := k + 1, res := false } : bmc_run)
              ∈ r.trace ∨
           ({ step := STEP.INDUCTIVE_STEP, unwind := k + 1, res := false } : bmc_run)
              ∈ r.trace)) ∧
      ∀ x ∈ trace, x ∈ r.trace := by
  intro fuel
  induction fuel with
  | zero => intro st trace r h; simp [sequential_loop] at h
  | succ fuel ih =>
    intro st trace r h
    unfold sequential_loop at h
    simp only at h
    by_cases hb : st.base_case = true
    · simp only [hb, if_true] at h
      by_cases hr : results trace.length = true
      · simp only [hr, if_true, Option.some.injEq] at h
        subst h
        refine ⟨⟨st.unwind, Or.inl (by simp)⟩, fun _ hc => by simp at hc, fun x hx => by simp [hx]⟩
      · simp only [hr, Bool.false_eq_true, if_false, seq_continue] at h
        have hr' : results trace.length = false := by simpa using hr
        by_cases hk : st.k_step + 1 ≤ max_k_step
        · simp only [hk, if_true] at h
          obtain ⟨a1, a2, a3⟩ := ih _ _ _ h
          refine ⟨a1, ?_, fun x hx => a3 x (by simp [hx])⟩
          intro hinv
          apply a2
          refine ⟨rfl, Or.inr ?_⟩
          simp only [add_sub_cancel_right, List.mem_append, List.mem_singleton]
          right
          rw [hinv.1]
        · simp only [hk, if_false, Option.some.injEq] at h
          subst h
          exact ⟨⟨0, Or.inr rfl⟩, fun _ _ hc => by simp at hc, fun x hx => by simp [hx]⟩
    · simp only [hb, Bool.false_eq_true, if_false] at h
      by_cases hf : st.forward_condition = true
      · simp only [hf, if_true] at h
        by_cases hr : results trace.length = true
        · simp only [hr, Bool.not_true, Bool.false_eq_true, if_false, seq_continue] at h
          by_cases hk : st.k_step ≤ max_k_step
          · simp only [hk, if_true] at h
            obtain ⟨a1, a2, a3⟩ := ih _ _ _ h
            refine ⟨a1, ?_, fun x hx => a3 x (by simp [hx])⟩
            intro hinv
            apply a2
            refine ⟨rfl, ?_⟩
            rcases hinv.2 with hh | hh
            · exact absurd hh hb
            · right
              simp only [List.mem_append, List.mem_singleton]
              left
              rw [← hinv.1]; exact hh
          · simp only [hk, if_false, Option.some.injEq] at h
            subst h
            exact ⟨⟨0, Or.inr rfl⟩, fun _ _ hc => by simp at hc, fun x hx => by simp [hx]⟩
        · have hr' : results trace.length = false := by simpa using hr
          simp only [hr', Bool.not_false, if_true, Option.some.injEq] at h
          subst h
          refine ⟨⟨0, Or.inr rfl⟩, ?_, fun x hx => by simp [hx]⟩
          intro hinv _ _
          rcases hinv.2 with hh | hh
          · exact absurd hh hb
          · exact ⟨st.unwind - 1, by simp [hh], Or.inl (by simp)⟩
      · simp only [hf, Bool.false_eq_true, if_false] at h
        by_cases hr : results trace.length = true
        · simp only [hr, Bool.not_true, Bool.false_eq_true, if_false, seq_continue] at h
          by_cases hk : st.k_step ≤ max_k_step
          · simp only [hk, if_true] at h
            obtain ⟨a1, a2, a3⟩ := ih _ _ _ h
            refine ⟨a1, ?_, fun x hx => a3 x (by simp [hx])⟩
            intro hinv
            apply a2
            exact ⟨rfl, Or.inl rfl⟩
          · simp only [hk, if_false, Option.some.injEq] at h
            subst h
            exact ⟨⟨0, Or.inr rfl⟩, fun _ _ hc => by simp at hc, fun x hx => by simp [hx]⟩
        · have hr' : results trace.length = false := by simpa using hr
          simp only [hr', Bool.not_false, if_true, Option.some.injEq] at h
          subst h
          refine ⟨⟨0, Or.inr rfl⟩, ?_, fun x hx => by simp [hx]⟩
          intro hinv _ _
          rcases hinv.2 with hh | hh
          · exact absurd hh hb
          · exact ⟨st.unwind - 1, by simp [hh], Or.inr (by simp)⟩

/-- C16 (amended): started in the base-case phase, the sequential loop returns
for every sequence of BMC results; when it returns success before running out
of bounds, a base case has passed at some bound `k` and the forward condition
or the inductive step has passed at the bound `k + 1`; when it returns a
failure, a base-case run found a violation. -/
theorem C16_sequential_verdict (max_k_step : Int) (results : Nat → Bool)
    (base_case forward_condition : Bool) (k_step : Int) (hphase : base_case = true) :
    ∃ r, sequential_run max_k_step results base_case forward_condition k_step = some r ∧
      (r.code = 0 → r.exhausted = false →
        ∃ k : Int, ({ step := STEP.BASE_CASE, unwind := k, res := false } : bmc_run) ∈ r.trace ∧
          (({ step := STEP.FORWARD_CONDITION, unwind := k + 1, res := false } : bmc_run)
              ∈ r.trace ∨
           ({ step := STEP.INDUCTIVE_STEP, unwind := k + 1, res := false } : bmc_run)
              ∈ r.trace)) ∧
      (r.code ≠ 0 →
        ∃ k : Int, ({ step := STEP.BASE_CASE, unwind := k, res := true } : bmc_run) ∈ r.trace) := by
  obtain ⟨r, hr⟩ := sequential_loop_total max_k_step results
    (3 * (max_k_step + 1 - k_step).toNat + 3) (seq_init base_case forward_condition k_step) []
    (by
      subst hphase
      simp only [seq_init, seq_phase_weight, if_true]
      omega)
  refine ⟨r, hr, ?_, ?_⟩
  · obtain ⟨-, a2, -⟩ := sequential_loop_verdict _ _ _ _ _ _ hr
    exact a2 ⟨rfl, Or.inl hphase⟩
  · intro hc
    obtain ⟨⟨k, hk⟩, -, -⟩ := sequential_loop_verdict _ _ _ _ _ _ hr
    rcases hk with hk | hk
    · exact ⟨k, hk⟩
    · exact absurd hk hc

/-- Witness of C16: the run of the counterexample, where the base case passes
at bound 1 and the forward condition at bound 2. -/
theorem C16_sequential_verdict_witness :
    (true : Bool) = true ∧
    ∃ r, sequential_run 50 example_results true false 1 = some r ∧
      (r.code = 0 → r.exhausted = false →
        ∃ k : Int, ({ step := STEP.BASE_CASE, unwind := k, res := false } : bmc_run) ∈ r.trace ∧
          (({ step := STEP.FORWARD_CONDITION, unwind := k + 1, res := false } : bmc_run)
              ∈ r.trace ∨
           ({ step := STEP.INDUCTIVE_STEP, unwind := k + 1, res := false } : bmc_run)
              ∈ r.trace)) ∧
      (r.code ≠ 0 →
        ∃ k : Int, ({ step := STEP.BASE_CASE, unwind := k, res := true } : bmc_run) ∈ r.trace) :=
  ⟨rfl, C16_sequential_verdict 50 example_results true false 1 rfl⟩

/-! ## Names of dynamic symbols (C12) -/

/-- C15 (the code at the failing input): a symbol whose name holds the text
`__ESBMC_property_` at a later position, and does not start with
`c::__ESBMC_property_`, is collected as a property definition, next to a
symbol with the reserved beginning; the monitor name derived from it is what
is left of its name after 20 characters. -/
theorem C15_property_text_inside_a_name :
    add_property_monitors_strings (fun _ => 0)
        [("c::__ESBMC_property_p", []), ("c::main::x__ESBMC_property_q", []), ("c::main::y", [])]
      = [("c::__ESBMC_property_p", ""), ("c::main::x__ESBMC_property_q", "")] ∧
    str_find "c::__ESBMC_property_" "c::main::x__ESBMC_property_q" = none ∧
    str_find "__ESBMC_property_" "c::main::x__ESBMC_property_q" = some 10 ∧
    property_name "c::main::x__ESBMC_property_q" = some "operty_q" := by
  decide

/-! ## The recorded indexes cover the history (C20) -/

theorem history_covered_grow {s s' : array_convt}
    (hv : s'.array_values.length = s'.array_indexes.length)
    (hu : s'.array_updates.length = s'.array_indexes.length)
    (hidx : ∀ b x, x ∈ index_set s b → x ∈ index_set s' b)
    (hsel : ∀ b, ∀ sels' ∈ entry_of s'.array_values b, ∀ sel ∈ sels',
      (∃ sels ∈ entry_of s.array_values b, sel ∈ sels) ∨ sel.idx ∈ index_set s' b)
    (hw : ∀ b idx src val, array_with.w idx src val ∈ entry_of s'.array_updates b →
      array_with.w idx src val ∈ entry_of s.array_updates b ∨ idx ∈ index_set s' b)
    (h : history_covered s) : history_covered s' := by
  refine ⟨hv, hu, fun b => ⟨?_, ?_⟩⟩
  · intro sels' hs' sel hsel'
    rcases hsel b sels' hs' sel hsel' with ⟨sels, h1, h2⟩ | h1
    · exact hidx b _ ((h.2.2 b).1 sels h1 sel h2)
    · exact h1
  · intro idx src val hmem
    rcases hw b idx src val hmem with h1 | h1
    · exact hidx b _ ((h.2.2 b).2 idx src val h1)
    · exact h1

theorem history_covered_congr {s s' : array_convt} (hi : s'.array_indexes = s.array_indexes)
    (hv : s'.array_values = s.array_values) (hu : s'.array_updates = s.array_updates)
    (h : history_covered s) : history_covered s' := by
  unfold history_covered index_set at *
  rw [hi, hv, hu]; exact h

theorem index_set_set (s : array_convt) (B b : Nat) (is : List expr2tc)
    (l : List (List expr2tc)) (hB : B < s.array_indexes.length)
    (hl : l = s.array_indexes.set B is) :
    entry_of l b = if B = b then is else index_set s b := by
  subst hl; unfold index_set; exact entry_of_set _ _ _ _ hB

theorem mk_unbounded_select_covered {s s' : array_convt} {ma : array_ast} {e : expr2tc}
    {rs : smt_sort} {a : smt_ast} (h : mk_unbounded_select s ma e rs = some (s', a))
    (hc : history_covered s) : history_covered s' := by
  obtain ⟨is, us, w, his, hus, hw, hcase⟩ := mk_unbounded_select_spec h
  have hB : ma.base_array_id < s.array_indexes.length := (List.getElem?_eq_some_iff.1 his).1
  have hisE : index_set s ma.base_array_id = is := index_set_of_getElem? his
  have hidx : ∀ b x, x ∈ index_set s b →
      x ∈ entry_of (s.array_indexes.set ma.base_array_id (idx_insert e is)) b := by
    intro b x hx
    rw [entry_of_set _ _ _ _ hB]
    by_cases hb : ma.base_array_id = b
    · subst hb; rw [if_pos rfl]; rw [hisE] at hx
      exact (mem_set_insert _ _ _ _).2 (Or.inr hx)
    · rw [if_neg hb]; exact hx
  rcases hcase with ⟨-, -, rfl⟩ | ⟨-, vs, sels, hvs, hsels, ⟨-, rfl⟩ | ⟨hnone, -, rfl⟩⟩
  · refine history_covered_grow ?_ ?_ hidx ?_ ?_ hc
    · simpa using hc.1
    · simpa using hc.2.1
    · intro b sels' hs' sel hsel; exact Or.inl ⟨sels', hs', hsel⟩
    · intro b idx src val hm; exact Or.inl hm
  · refine history_covered_grow ?_ ?_ hidx ?_ ?_ hc
    · simpa using hc.1
    · simpa using hc.2.1
    · intro b sels' hs' sel hsel; exact Or.inl ⟨sels', hs', hsel⟩
    · intro b idx src val hm; exact Or.inl hm
  · refine history_covered_grow ?_ ?_ hidx ?_ ?_ hc
    · simpa using hc.1
    · simpa using hc.2.1
    · intro b sels' hs' sel hsel
      have hBv : ma.base_array_id < s.array_values.length := (List.getElem?_eq_some_iff.1 hvs).1
      simp only at hs'
      rw [entry_of_set _ _ _ _ hBv] at hs'
      by_cases hb : ma.base_array_id = b
      · subst hb
        rw [if_pos rfl] at hs'
        rcases List.mem_or_eq_of_mem_set hs' with hs' | hs'
        · exact Or.inl ⟨sels', by rw [entry_of_of_getElem? hvs]; exact hs', hsel⟩
        · subst hs'
          rcases List.mem_append.1 hsel with hsel | hsel
          · exact Or.inl ⟨sels, by
              rw [entry_of_of_getElem? hvs]; exact List.getElem?_mem hsels, hsel⟩
          · right
            rw [List.mem_singleton.1 hsel]
            show e ∈ entry_of (s.array_indexes.set ma.base_array_id (idx_insert e is)) _
            rw [entry_of_set _ _ _ _ hB, if_pos rfl]
            exact (mem_set_insert _ _ _ _).2 (Or.inl rfl)
      · rw [if_neg hb] at hs'
        exact Or.inl ⟨sels', hs', hsel⟩
    · intro b idx src val hm; exact Or.inl hm

theorem mk_unbounded_store_covered {s s' : array_convt} {ma a' : array_ast} {idx : expr2tc}
    {value : smt_ast} {rs : smt_sort}
    (h : mk_unbounded_store s ma idx value rs = some (s', a'))
    (hc : history_covered s) : history_covered s' := by
  obtain ⟨is, us, vs, his, hus, hvs, -, rfl⟩ := mk_unbounded_store_spec h
  have hB : ma.base_array_id < s.array_indexes.length := (List.getElem?_eq_some_iff.1 his).1
  have hBv : ma.base_array_id < s.array_values.length := (List.getElem?_eq_some_iff.1 hvs).1
  have hBu : ma.base_array_id < s.array_updates.length := (List.getElem?_eq_some_iff.1 hus).1
  have hisE : index_set s ma.base_array_id = is := index_set_of_getElem? his
  refine history_covered_grow ?_ ?_ ?_ ?_ ?_ hc
  · simpa using hc.1
  · simpa using hc.2.1
  · intro b x hx
    show x ∈ entry_of (s.array_indexes.set ma.base_array_id (idx_insert idx is)) b
    rw [entry_of_set _ _ _ _ hB]
    by_cases hb : ma.base_array_id = b
    · subst hb; rw [if_pos rfl]; rw [hisE] at hx
      exact (mem_set_insert _ _ _ _).2 (Or.inr hx)
    · rw [if_neg hb]; exact hx
  · intro b sels' hs' sel hsel
    simp only at hs'
    rw [entry_of_set _ _ _ _ hBv] at hs'
    by_cases hb : ma.base_array_id = b
    · subst hb
      rw [if_pos rfl] at hs'
      rcases List.mem_append.1 hs' with hs' | hs'
      · exact Or.inl ⟨sels', by rw [entry_of_of_getElem? hvs]; exact hs', hsel⟩
      · rw [List.mem_singleton.1 hs'] at hsel; simp at hsel
    · rw [if_neg hb] at hs'
      exact Or.inl ⟨sels', hs', hsel⟩
  · intro b i0 src val hm
    simp only at hm
    rw [entry_of_set _ _ _ _ hBu] at hm
    by_cases hb : ma.base_array_id = b
    · subst hb
      rw [if_pos rfl] at hm
      rcases List.mem_append.1 hm with hm | hm
      · exact Or.inl (by rw [entry_of_of_getElem? hus]; exact hm)
      · right
        have := List.mem_singleton.1 hm
        simp only [array_with.w.injEq] at this
        rw [this.1]
        show idx ∈ entry_of (s.array_indexes.set ma.base_array_id (idx_insert idx is)) _
        rw [entry_of_set _ _ _ _ hB, if_pos rfl]
        exact (mem_set_insert _ _ _ _).2 (Or.inl rfl)
    · rw [if_neg hb] at hm
      exact Or.inl hm

theorem unbounded_array_ite_covered {s s' : array_convt} {cond : smt_ast} {t f r : array_ast}
    {rs : smt_sort} (h : unbounded_array_ite s cond t f rs = some (s', r))
    (hc : history_covered s) : history_covered s' := by
  obtain ⟨tus, us, vs, -, hus, hvs, -, rfl⟩ := unbounded_array_ite_spec h
  have hBv := (List.getElem?_eq_some_iff.1 hvs).1
  have hBu := (List.getElem?_eq_some_iff.1 hus).1
  refine history_covered_grow (s := s) ?_ ?_ (fun _ _ hx => hx) ?_ ?_ hc
  · simpa using hc.1
  · simpa using hc.2.1
  · intro b sels' hs' sel hsel
    simp only at hs'
    rw [entry_of_set _ _ _ _ hBv] at hs'
    by_cases hb : min t.base_array_id f.base_array_id = b
    · subst hb
      rw [if_pos rfl] at hs'
      rcases List.mem_append.1 hs' with hs' | hs'
      · exact Or.inl ⟨sels', by rw [entry_of_of_getElem? hvs]; exact hs', hsel⟩
      · rw [List.mem_singleton.1 hs'] at hsel; simp at hsel
    · rw [if_neg hb] at hs'
      exact Or.inl ⟨sels', hs', hsel⟩
  · intro b i0 src val hm
    simp only at hm
    rw [entry_of_set _ _ _ _ hBu] at hm
    by_cases hb : min t.base_array_id f.base_array_id = b
    · subst hb
      rw [if_pos rfl] at hm
      rcases List.mem_append.1 hm with hm | hm
      · exact Or.inl (by rw [entry_of_of_getElem? hus]; exact hm)
      · simp at hm
    · rw [if_neg hb] at hm
      exact Or.inl hm

theorem entry_of_append_singleton {α : Type} (L : List (List α)) (x : List α) (b : Nat) :
    entry_of (L ++ [x]) b = if b = L.length then x else entry_of L b := by
  unfold entry_of
  by_cases hb : b < L.length
  · rw [List.getElem?_append_left hb, if_neg (by omega)]
  · rw [List.getElem?_append_right (by omega)]
    by_cases he : b = L.length
    · subst he; simp
    · rw [if_neg he]
      have h1 : ([x] : List (List α))[b - L.length]? = none :=
        List.getElem?_eq_none (by simp; omega)
      have h2 : L[b]? = none := List.getElem?_eq_none (by omega)
      rw [h1, h2]

theorem new_array_id_covered {s s' : array_convt} {id : Nat}
    (h : new_array_id s = some (s', id)) (hc : history_covered s) : history_covered s' := by
  obtain ⟨hv, hu, hcov⟩ := hc
  unfold new_array_id at h
  have e1 : update_at (s.array_values ++ [[]]) s.array_indexes.length (fun l => l ++ [[]]) =
      some (s.array_values ++ [[[]]]) := by
    unfold update_at
    rw [← hv, List.getElem?_append_right (le_refl _)]
    simp
  have e2 : update_at (s.array_updates ++ [[]]) s.array_indexes.length
      (fun l => l ++ [array_with.placeholder]) =
      some (s.array_updates ++ [[array_with.placeholder]]) := by
    unfold update_at
    rw [← hu, List.getElem?_append_right (le_refl _)]
    simp
  simp only [e1, e2, Option.some.injEq, Prod.mk.injEq] at h
  obtain ⟨rfl, -⟩ := h
  refine ⟨by simp [hv], by simp [hu], fun b => ⟨?_, ?_⟩⟩
  · intro sels hs sel hsel
    simp only [index_set] at hs ⊢
    rw [entry_of_append_singleton] at hs ⊢
    by_cases hb : b = s.array_values.length
    · rw [if_pos hb] at hs; rw [List.mem_singleton.1 hs] at hsel; simp at hsel
    · rw [if_neg hb] at hs; rw [if_neg (by omega)]
      exact (hcov b).1 sels hs sel hsel
  · intro idx src val hm
    simp only [index_set] at hm ⊢
    rw [entry_of_append_singleton] at hm ⊢
    by_cases hb : b = s.array_updates.length
    · rw [if_pos hb] at hm; simp at hm
    · rw [if_neg hb] at hm; rw [if_neg (by omega)]
      exact (hcov b).2 idx src val hm

theorem mk_array_symbol_covered {s s' : array_convt} {ms subtype : smt_sort} {a : array_ast}
    (h : mk_array_symbol s ms subtype = some (s', a)) (hc : history_covered s) :
    history_covered s' := by
  unfold mk_array_symbol at h
  split at h
  · simp at h
  · split at h
    · rcases hn : new_array_id s with _ | ⟨s1, id⟩
      · simp [hn] at h
      · simp only [hn, Option.some.injEq, Prod.mk.injEq] at h
        obtain ⟨rfl, -⟩ := h
        exact history_covered_congr (s := s1) rfl rfl rfl (new_array_id_covered hn hc)
    · simp only [Option.some.injEq, Prod.mk.injEq] at h
      obtain ⟨rfl, -⟩ := h
      exact history_covered_congr rfl rfl rfl hc

theorem join_array_indexes_covered {s s' : array_convt} (h : join_array_indexes s = some s')
    (hc : history_covered s) : history_covered s' := by
  obtain ⟨hle, -, -, hvals, hlen⟩ := join_array_indexes_history_le h
  refine history_covered_grow ?_ ?_ (fun b x hx => index_set_mono hle hx) ?_ ?_ hc
  · rw [hvals, hlen]; exact hc.1
  · rw [hle.1, hlen]; exact hc.2.1
  · intro b sels' hs' sel hsel; rw [hvals] at hs'; exact Or.inl ⟨sels', hs', hsel⟩
  · intro b idx src val hm; rw [hle.1] at hm; exact Or.inl hm

theorem joining_selects_covered (remote_ast : array_ast) (subtype : smt_sort) :
    ∀ (l : List expr2tc) (s s' : array_convt) (sels : ast_vect),
      joining_selects remote_ast subtype l s = some (s', sels) →
      history_covered s → history_covered s' := by
  intro l
  induction l with
  | nil =>
    intro s s' sels h hc
    simp only [joining_selects, Option.some.injEq, Prod.mk.injEq] at h
    obtain ⟨rfl, -⟩ := h
    exact hc
  | cons e rest ih =>
    intro s s' sels h hc
    unfold joining_selects at h
    rcases h1 : mk_unbounded_select s remote_ast e subtype with _ | ⟨s1, a⟩
    · simp [h1] at h
    · simp only [h1] at h
      rcases h2 : joining_selects remote_ast subtype rest s1 with _ | ⟨s2, sels2⟩
      · simp [h2] at h
      · simp only [h2, Option.some.injEq, Prod.mk.injEq] at h
        obtain ⟨rfl, -⟩ := h
        exact ih _ _ _ h2 (mk_unbounded_select_covered h1 hc)

theorem execute_array_joining_ite_covered {s s' : array_convt} {vi dest_pos cur_id : Nat}
    {t f : array_ast} {idx_map : List expr2tc} {cond : smt_ast} {subtype : smt_sort}
    (h : execute_array_joining_ite s vi dest_pos cur_id t f idx_map cond subtype = some s')
    (hc : history_covered s) : history_covered s' := by
  unfold execute_array_joining_ite at h
  simp only at h
  split at h
  · split at h
    · simp at h
    · split at h
      · simp at h
      · rename_i s1 selects hsel
        split at h
        · split at h
          · simp at h
          · simp only [Option.some.injEq] at h
            subst h
            exact history_covered_congr (s := s1) rfl rfl rfl
              (joining_selects_covered _ _ _ _ _ _ hsel hc)
        · simp at h
  · simp at h

theorem execute_array_trans_covered {s s' : array_convt} {vi arr idx : Nat}
    {idx_map : List expr2tc} {subtype : smt_sort}
    (h : execute_array_trans s vi arr idx idx_map subtype = some s')
    (hc : history_covered s) : history_covered s' := by
  unfold execute_array_trans at h
  split at h
  · split at h
    · simp at h
    · rename_i c1 dest hcol
      split at h
      · simp at h
      · rename_i valuation1 _
        have hbase : history_covered { s with array_valuation := valuation1, ctx := c1 } :=
          history_covered_congr (s := s) rfl rfl rfl hc
        split at h
        · split at h
          · exact execute_array_joining_ite_covered h hbase
          · split at h
            · split at h
              · split at h
                · simp at h
                · simp only [Option.some.injEq] at h
                  subst h
                  exact history_covered_congr (s := s) rfl rfl rfl hc
              · simp at h
            · simp at h
        · split at h
          · simp at h
          · split at h
            · simp at h
            · simp only [Option.some.injEq] at h
              subst h
              exact history_covered_congr (s := s) rfl rfl rfl hc
        · simp at h
  · simp at h

theorem add_array_constraints_loop_covered (vi arr : Nat) (idx_map : List expr2tc)
    (subtype : smt_sort) :
    ∀ (n i0 : Nat) (s s' : array_convt),
      add_array_constraints_loop vi arr idx_map subtype n i0 s = some s' →
      history_covered s → history_covered s' := by
  intro n
  induction n with
  | zero =>
    intro i0 s s' h hc
    simp only [add_array_constraints_loop, Option.some.injEq] at h
    subst h; exact hc
  | succ n ih =>
    intro i0 s s' h hc
    unfold add_array_constraints_loop at h
    rcases h1 : execute_array_trans s vi arr i0 idx_map subtype with _ | s1
    · simp [h1] at h
    · simp only [h1] at h
      exact ih _ _ _ h (execute_array_trans_covered h1 hc)

theorem add_array_constraints_covered {s s' : array_convt} {arr : Nat}
    (h : add_array_constraints s arr = some s') (hc : history_covered s) :
    history_covered s' := by
  unfold add_array_constraints at h
  split at h
  · simp only at h
    split at h
    · split at h
      · simp at h
      · split at h
        · simp at h
        · exact add_array_constraints_loop_covered _ _ _ _ _ _ _ _ h
            (history_covered_congr (s := s) rfl rfl rfl hc)
    · simp at h
  · simp at h

theorem add_array_equalities_loop_covered :
    ∀ (l : List array_equality) (s s' : array_convt),
      add_array_equalities_loop l s = some s' → history_covered s → history_covered s' := by
  intro l
  induction l with
  | nil =>
    intro s s' h hc
    simp only [add_array_equalities_loop, Option.some.injEq] at h
    subst h; exact hc
  | cons e rest ih =>
    intro s s' h hc
    unfold add_array_equalities_loop at h
    split at h
    · split at h
      · simp at h
      · split at h
        · simp at h
        · exact ih _ _ h (history_covered_congr (s := s) rfl rfl rfl hc)
    · simp at h

theorem flattener_call_covered {s s' : array_convt} (c : flattener_call)
    (h : c.run s = some s') (hc : history_covered s) : history_covered s' := by
  cases c with
  | mk_array_symbol ms subtype =>
    simp only [flattener_call.run, Option.map_eq_some', Prod.exists, exists_and_right,
      exists_eq_right] at h
    obtain ⟨a, h⟩ := h
    exact mk_array_symbol_covered h hc
  | mk_unbounded_select ma e rs =>
    simp only [flattener_call.run, Option.map_eq_some', Prod.exists, exists_and_right,
      exists_eq_right] at h
    obtain ⟨a, h⟩ := h
    exact mk_unbounded_select_covered h hc
  | mk_unbounded_store ma idx value rs =>
    simp only [flattener_call.run, Option.map_eq_some', Prod.exists, exists_and_right,
      exists_eq_right] at h
    obtain ⟨a, h⟩ := h
    exact mk_unbounded_store_covered h hc
  | unbounded_array_ite cond t f rs =>
    simp only [flattener_call.run, Option.map_eq_some', Prod.exists, exists_and_right,
      exists_eq_right] at h
    obtain ⟨a, h⟩ := h
    exact unbounded_array_ite_covered h hc
  | join_array_indexes => exact join_array_indexes_covered h hc
  | add_array_constraints arr => exact add_array_constraints_covered h hc
  | add_array_equalities => exact add_array_equalities_loop_covered _ _ _ h hc

theorem run_calls_covered :
    ∀ (calls : List flattener_call) (s s' : array_convt),
      run_calls calls s = some s' → history_covered s → history_covered s' := by
  intro calls
  induction calls with
  | nil =>
    intro s s' h hc
    simp only [run_calls, Option.some.injEq] at h
    subst h; exact hc
  | cons c rest ih =>
    intro s s' h hc
    unfold run_calls at h
    rcases h1 : c.run s with _ | s1
    · simp [h1] at h
    · simp only [h1] at h
      exact ih _ _ h (flattener_call_covered c h1 hc)

theorem history_covered_init : history_covered array_convt.init := by
  refine ⟨rfl, rfl, fun b => ⟨?_, ?_⟩⟩
  · intro sels hs; simp [entry_of, array_convt.init] at hs
  · intro idx src val hm; simp [entry_of, array_convt.init] at hm

theorem mem_entry_of_at2 {α : Type} {v : List (List α)} {b u : Nat} {x : α}
    (h : at2 v b u = some x) : x ∈ entry_of v b := by
  unfold at2 at h
  rcases hb : v[b]? with _ | l
  · simp [hb] at h
  · simp only [hb, Option.some_bind] at h
    rw [entry_of_of_getElem? hb]
    exact List.getElem?_mem h

theorem collate_selects_isSome (idx_map : List expr2tc) :
    ∀ (sels : List array_select) (vals : ast_vect), (∀ sel ∈ sels, sel.idx ∈ idx_map) →
      (collate_selects idx_map sels vals).isSome = true := by
  intro sels
  induction sels with
  | nil => intro vals _; rfl
  | cons sel rest ih =>
    intro vals h
    unfold collate_selects
    have hm : sel.idx ∈ idx_map := h sel (List.mem_cons_self _ _)
    simp only [idx_map_find, hm, if_true]
    exact ih _ (fun x hx => h x (List.mem_cons_of_mem _ hx))

/-- C20: in every state reached from the empty flattener through calls of
`mk_array_symbol`, `mk_unbounded_select`, `mk_unbounded_store`,
`unbounded_array_ite` and `join_array_indexes` (and of the solve-time steps
`add_array_constraints` and `add_array_equalities`), with any arguments, the
index of every select record of `values[b][u]` and of every plain with-record
of `updates[b]` is in `indexes[b]`; so the lookup of the index of such a record
in the index map of its base, the one `collate_array_values` and
`execute_array_update` assert, finds it. -/
theorem C20_indexes_cover (calls : List flattener_call) (s : array_convt)
    (h : run_calls calls array_convt.init = some s) :
    indexes_cover s ∧
    (∀ (b u : Nat) (sels : List array_select) (vals : ast_vect),
      at2 s.array_values b u = some sels →
      (collate_selects (index_set s b) sels vals).isSome = true) ∧
    (∀ (b : Nat) (idx : expr2tc) (src : Nat) (val : smt_ast),
      array_with.w idx src val ∈ entry_of s.array_updates b →
      (idx_map_find (index_set s b) idx).isSome = true) := by
  have hc := run_calls_covered calls _ _ h history_covered_init
  refine ⟨fun b => ⟨?_, (hc.2.2 b).2⟩, ?_, ?_⟩
  · intro u sels hs sel hsel
    exact (hc.2.2 b).1 sels (mem_entry_of_at2 hs) sel hsel
  · intro b u sels vals hs
    exact collate_selects_isSome _ _ _ (fun sel hsel => (hc.2.2 b).1 sels (mem_entry_of_at2 hs) sel hsel)
  · intro b idx src val hm
    have := (hc.2.2 b).2 idx src val hm
    simp [idx_map_find, this]

/-- Witness of C20: the example calls return, and in the state they leave the
index of the with-record and of the select record are in the index set. -/
theorem C20_indexes_cover_witness :
    run_calls example_calls array_convt.init = some example_row_s3 ∧
    indexes_cover example_row_s3 ∧
    (idx_map_find (index_set example_row_s3 0) (expr2tc.symbol 0)).isSome = true :=
  ⟨by decide, (C20_indexes_cover example_calls example_row_s3 (by decide)).1,
   (C20_indexes_cover example_calls example_row_s3 (by decide)).2.2 0 (expr2tc.symbol 0) 0
     (smt_ast.term 7) (by decide)⟩

/-! ## A store leaves the other indices alone (C18) -/

theorem selects_nodup_of_le {s s' : array_convt} (h : history_le s s')
    (hn : selects_nodup s') : selects_nodup s := by
  intro b u sels hs
  obtain ⟨extra, h1, -⟩ := h.2.2.2.2.2.1 b u sels hs
  have := hn b u _ h1
  rw [List.map_append] at this
  exact (List.nodup_append.1 this).1

/-- The term `mk_unbounded_select` returns is the term promised for the index
at the update of the array term, and the index is in the index set. -/
theorem mk_unbounded_select_promise {s s' : array_convt} {ma : array_ast} {e : expr2tc}
    {rs : smt_sort} {a : smt_ast} (h : mk_unbounded_select s ma e rs = some (s', a))
    (hn : selects_nodup s) :
    select_promise s' ma.base_array_id ma.array_update_num e a ∧
    e ∈ index_set s' ma.base_array_id := by
  obtain ⟨is, us, w, his, hus, hw, hcase⟩ := mk_unbounded_select_spec h
  have hB : ma.base_array_id < s.array_indexes.length := (List.getElem?_eq_some_iff.1 his).1
  have hmem : e ∈ entry_of (s.array_indexes.set ma.base_array_id (idx_insert e is))
      ma.base_array_id := by
    rw [entry_of_set _ _ _ _ hB, if_pos rfl]
    exact (mem_set_insert _ _ _ _).2 (Or.inl rfl)
  have hatw : at2 s.array_updates ma.base_array_id ma.array_update_num = some w := by
    simp [at2, hus, hw]
  rcases hcase with ⟨h0, ⟨src, rfl⟩, rfl⟩ | ⟨hno, vs, sels, hvs, hsels, ⟨hex, rfl⟩ | ⟨hnone, ha, rfl⟩⟩
  · exact ⟨Or.inl ⟨h0, src, hatw⟩, hmem⟩
  · have hats : at2 s.array_values ma.base_array_id ma.array_update_num = some sels := by
      simp [at2, hvs, hsels]
    refine ⟨Or.inr ⟨?_, ?_⟩, hmem⟩
    · rintro ⟨h0, src, val, hh⟩
      exact hno ⟨h0, src, val, by simpa [at2, hus, hw] using hh⟩
    · obtain ⟨sel, hsel, hidx, hv⟩ := hex
      refine ⟨sels, hats, ⟨sel, hsel, hidx, hv⟩, ?_⟩
      intro x hx hxe
      have := List.inj_on_of_nodup_map (hn _ _ _ hats) hx hsel (hxe.trans hidx.symm)
      rw [this, hv]
  · have hu : ma.array_update_num < vs.length := (List.getElem?_eq_some_iff.1 hsels).1
    refine ⟨Or.inr ⟨?_, ?_⟩, hmem⟩
    · rintro ⟨h0, src, val, hh⟩
      exact hno ⟨h0, src, val, by simpa [at2, hus, hw] using hh⟩
    · refine ⟨sels ++ [{ src_array_update_num := ma.array_update_num, idx := e, val := a }],
        ?_, ⟨_, List.mem_append_right _ (List.mem_singleton_self _), rfl, rfl⟩, ?_⟩
      · simp only
        rw [at2_set_set _ _ _ _ _ _ _ hvs hu, if_pos ⟨rfl, rfl⟩]
      · intro x hx hxe
        rcases List.mem_append.1 hx with hx | hx
        · exact absurd hxe (hnone x hx)
        · rw [List.mem_singleton.1 hx]

/-- `mk_select` on a bounded array term at a constant index inside the element
vector returns the element at that position and leaves the flattener alone. -/
theorem mk_select_constant (s : array_convt) (a : array_ast) (c : Nat) (rs : smt_sort)
    (ha : is_unbounded_array a.sort = false) (hc : c < a.array_fields.length) :
    mk_select s a (expr2tc.constant_int c) rs = some (s, a.array_fields[c]) := by
  unfold mk_select
  have h0 : a.array_fields.length ≠ 0 := by omega
  have h1 : ¬ c > a.array_fields.length := by omega
  simp only [ha, Bool.false_eq_true, if_false, h0, h1, List.getElem?_eq_getElem hc]

/-- C22: on a bounded array term `a` with `n` element terms and constant indexes
`c, d < n`, `mk_store(a, c, v)` returns an array term with `n` element terms,
the vector of `a` with position `c` replaced; `mk_select` of it at `c` is the
term `v`, at `d ≠ c` it is the same term as `mk_select(a, d)`; and `mk_select`
on `a` itself still returns the old element at `c`. -/
theorem C22_bounded_direct_indexing (s : array_convt) (a : array_ast) (c d : Nat) (v : smt_ast)
    (rs rs1 : smt_sort)
    (ha : is_unbounded_array a.sort = false) (hrs : is_unbounded_array rs = false)
    (hc : c < a.array_fields.length) (hd : d < a.array_fields.length) :
    ∃ a', mk_store s a (expr2tc.constant_int c) v rs = some (s, a') ∧
      a'.array_fields.length = a.array_fields.length ∧
      a'.array_fields = a.array_fields.set c v ∧
      mk_select s a' (expr2tc.constant_int c) rs1 = some (s, v) ∧
      (d ≠ c → mk_select s a' (expr2tc.constant_int d) rs1 =
        mk_select s a (expr2tc.constant_int d) rs1) ∧
      mk_select s a (expr2tc.constant_int c) rs1 = some (s, a.array_fields[c]) := by
  have h0 : a.array_fields.length ≠ 0 := by omega
  have h1 : ¬ c > a.array_fields.length := by omega
  refine ⟨{ sort := rs, base_array_id := 0, array_update_num := 0,
            array_fields := a.array_fields.set c v }, ?_, by simp, rfl, ?_, ?_,
    mk_select_constant s a c rs1 ha hc⟩
  · unfold mk_store
    simp only [ha, Bool.false_eq_true, if_false, h0, h1, List.getElem?_eq_getElem hc]
  · rw [mk_select_constant s _ c rs1 hrs (by simpa using hc)]
    simp
  · intro hdc
    rw [mk_select_constant s _ d rs1 hrs (by simpa using hd), mk_select_constant s a d rs1 ha hd]
    simp [List.getElem_set_ne (Ne.symm hdc)]

/-- Witness of C22: a store at position 1 of a bounded array of four elements,
read back at positions 1 and 3. -/
theorem C22_bounded_direct_indexing_witness :
    ∃ a', mk_store array_convt.init example_bounded (expr2tc.constant_int 1) (smt_ast.term 9)
        sort_array2 = some (array_convt.init, a') ∧
      a'.array_fields.length = example_bounded.array_fields.length ∧
      a'.array_fields = example_bounded.array_fields.set 1 (smt_ast.term 9) ∧
      mk_select array_convt.init a' (expr2tc.constant_int 1) sort_bv32 =
        some (array_convt.init, smt_ast.term 9) ∧
      (3 ≠ 1 → mk_select array_convt.init a' (expr2tc.constant_int 3) sort_bv32 =
        mk_select array_convt.init example_bounded (expr2tc.constant_int 3) sort_bv32) ∧
      mk_select array_convt.init example_bounded (expr2tc.constant_int 1) sort_bv32 =
        some (array_convt.init, example_bounded.array_fields[1]) :=
  C22_bounded_direct_indexing array_convt.init example_bounded 1 3 (smt_ast.term 9)
    sort_array2 sort_bv32 (by decide) (by decide) (by decide) (by decide)

/-! ## Constant arrays (C21) -/

theorem lookup_array_of_vals_insert (k : Nat) (v : smt_ast) :
    ∀ l : List (Nat × smt_ast), (∀ p ∈ l, p.1 ≠ k) →
      (array_of_vals_insert k v l).lookup k = some v := by
  intro l
  induction l with
  | nil => intro _; simp [array_of_vals_insert, List.lookup]
  | cons p rest ih =>
    intro h
    obtain ⟨k', v'⟩ := p
    have hne : k' ≠ k := h (k', v') (List.mem_cons_self _ _)
    have hne' : ¬ k = k' := fun hh => hne hh.symm
    unfold array_of_vals_insert
    rw [if_neg hne']
    by_cases hlt : k < k'
    · rw [if_pos hlt]; simp [List.lookup]
    · rw [if_neg hlt]
      have hb : (k == k') = false := by simpa using hne'
      rw [List.lookup, hb]
      exact ih (fun q hq => h q (List.mem_cons_of_mem _ hq))

/-- Description of `new_array_id` on a flattener whose three containers have
one entry per base. -/
theorem new_array_id_spec (s : array_convt)
    (hv : s.array_values.length = s.array_indexes.length)
    (hu : s.array_updates.length = s.array_indexes.length) :
    new_array_id s =
      some ({ s with array_indexes := s.array_indexes ++ [[]],
                     array_values := s.array_values ++ [[[]]],
                     array_updates := s.array_updates ++ [[array_with.placeholder]] },
            s.array_indexes.length) := by
  unfold new_array_id
  have e1 : update_at (s.array_values ++ [[]]) s.array_indexes.length (fun l => l ++ [[]]) =
      some (s.array_values ++ [[[]]]) := by
    unfold update_at
    rw [← hv, List.getElem?_append_right (le_refl _)]
    simp
  have e2 : update_at (s.array_updates ++ [[]]) s.array_indexes.length
      (fun l => l ++ [array_with.placeholder]) =
      some (s.array_updates ++ [[array_with.placeholder]]) := by
    unfold update_at
    rw [← hu, List.getElem?_append_right (le_refl _)]
    simp
  simp only [e1, e2]

/-- The initial vector of a base with an initial value ties every select
variable on file for update 0 to that value. -/
theorem add_array_constraints_init_emits {s s' : array_convt} {arr : Nat} {j : expr2tc}
    {v r : smt_ast} (h : add_array_constraints s arr = some s')
    (hval : s.array_of_vals.lookup arr = some v)
    (hsel : select_filed s arr 0 j r) (hj : j ∈ index_set s arr) :
    smt_ast.eq r v ∈ s'.ctx.assertions := by
  obtain ⟨indexes, subtype, values, sels0, c1, row0, c2, hi, -, hvs, hs0, hcol, hack, hloop⟩ :=
    add_array_constraints_cases h
  obtain ⟨-, -, -, -, -, -, k7, -⟩ := collate_array_values_spec hcol
  obtain ⟨q1, -, -⟩ := add_initial_ackerman_constraints_spec hack
  obtain ⟨sels, hsels, hex, hall⟩ := hsel
  have hsels' : sels = sels0 := by
    simp only [at2, hvs, Option.some_bind] at hsels
    rw [hs0] at hsels
    exact (Option.some.inj hsels).symm
  subst hsels'
  have hj' : j ∈ indexes := by simpa [index_set, entry_of, hi] using hj
  have hex' : ∃ sel ∈ sels, sel.idx = j := by
    obtain ⟨sel, h1, h2, -⟩ := hex
    exact ⟨sel, h1, h2⟩
  have hmem := (k7 j r hj' hex' hall).2 v hval
  exact (add_array_constraints_loop_history_le _ _ _ _ _ _ _ _ hloop).2.2.2.2.2.2 _ (q1 _ hmem)

theorem add_all_array_constraints_init_emits {b : Nat} {j : expr2tc} {v r : smt_ast} :
    ∀ (n i0 : Nat) (s s' : array_convt),
      add_all_array_constraints n i0 s = some s' →
      s.array_of_vals.lookup b = some v →
      select_filed s b 0 j r → j ∈ index_set s b → i0 ≤ b → b < i0 + n →
      smt_ast.eq r v ∈ s'.ctx.assertions := by
  intro n
  induction n with
  | zero => intro i0 s s' _ _ _ _ h1 h2; omega
  | succ n ih =>
    intro i0 s s' h hval hsel hj h1 h2
    unfold add_all_array_constraints at h
    rcases ht : add_array_constraints s i0 with _ | s1
    · simp [ht] at h
    · simp only [ht] at h
      have hle := add_array_constraints_history_le ht
      by_cases hb : i0 = b
      · subst hb
        exact (add_all_array_constraints_history_le _ _ _ _ h).2.2.2.2.2.2 _
          (add_array_constraints_init_emits ht hval hsel hj)
      · exact ih (i0 + 1) s1 s' h (by rw [hle.2.2.1]; exact hval) (select_filed_mono hle hsel)
          (index_set_mono hle hj) (by omega) (by omega)

/-- Solving ties a select variable on file for update 0 of a base with an
initial value to that value. -/
theorem add_array_constraints_for_solving_init_emits {s s' : array_convt} {b : Nat}
    {j : expr2tc} {v r : smt_ast}
    (h : add_array_constraints_for_solving s = some s')
    (hval : s.array_of_vals.lookup b = some v)
    (hsel : select_filed s b 0 j r) (hj : j ∈ index_set s b) :
    smt_ast.eq r v ∈ s'.ctx.assertions := by
  unfold add_array_constraints_for_solving at h
  rcases h1 : join_array_indexes s with _ | s1
  · simp [h1] at h
  · simp only [h1] at h
    rcases h2 : add_all_array_constraints s1.array_indexes.length 0 s1 with _ | s2
    · simp [h2] at h
    · simp only [h2] at h
      obtain ⟨hle, -, -, -, hlen⟩ := join_array_indexes_history_le h1
      have hj1 := index_set_mono hle hj
      have hb : b < s1.array_indexes.length := by
        by_contra hge
        have : s1.array_indexes[b]? = none := List.getElem?_eq_none (by omega)
        simp [index_set, entry_of, this] at hj1
      have := add_all_array_constraints_init_emits _ 0 s1 s2 h2 (by rw [hle.2.2.1]; exact hval)
        (select_filed_mono hle hsel) hj1 (Nat.zero_le _) (by omega)
      exact (add_array_equalities_loop_history_le _ _ _ h).2.2.2.2.2.2 _ this

/-! ## The history tables stay in step (C24) -/

theorem tables_in_step_append {s : array_convt} {B : Nat} {us : List array_with}
    {vs : List (List array_select)} (w : array_with) (idxs : List (List expr2tc))
    (hi : idxs.length = s.array_indexes.length)
    (hus : s.array_updates[B]? = some us) (hvs : s.array_values[B]? = some vs)
    (h : tables_in_step s) :
    tables_in_step { s with array_indexes := idxs,
                            array_updates := s.array_updates.set B (us ++ [w]),
                            array_values := s.array_values.set B (vs ++ [[]]) } := by
  obtain ⟨h1, h2, h3⟩ := h
  have hBu : B < s.array_updates.length := (List.getElem?_eq_some_iff.1 hus).1
  have hBv : B < s.array_values.length := (List.getElem?_eq_some_iff.1 hvs).1
  refine ⟨by simp [h1, hi], by simp [h2, hi], ?_⟩
  intro b hb
  simp only at hb ⊢
  rw [hi] at hb
  obtain ⟨g1, g2⟩ := h3 b hb
  rw [entry_of_set _ _ _ _ hBu, entry_of_set _ _ _ _ hBv]
  by_cases hbb : B = b
  · subst hbb
    rw [entry_of_of_getElem? hus] at g1 g2
    rw [entry_of_of_getElem? hvs] at g1
    rw [if_pos rfl, if_pos rfl]
    refine ⟨by simp [g1], ?_⟩
    have hlt : 0 < us.length := (List.getElem?_eq_some_iff.1 g2).1
    rw [List.getElem?_append_left hlt]; exact g2
  · rw [if_neg hbb, if_neg hbb]; exact ⟨g1, g2⟩

theorem mk_unbounded_select_in_step {s s' : array_convt} {ma : array_ast} {e : expr2tc}
    {rs : smt_sort} {a : smt_ast} (h : mk_unbounded_select s ma e rs = some (s', a))
    (hc : tables_in_step s) : tables_in_step s' := by
  obtain ⟨is, us, w, his, hus, hw, hcase⟩ := mk_unbounded_select_spec h
  obtain ⟨h1, h2, h3⟩ := hc
  rcases hcase with ⟨-, -, rfl⟩ | ⟨-, vs, sels, hvs, hsels, ⟨-, rfl⟩ | ⟨-, -, rfl⟩⟩
  · exact ⟨by simp [h1], by simp [h2], fun b hb => h3 b (by simpa using hb)⟩
  · exact ⟨by simp [h1], by simp [h2], fun b hb => h3 b (by simpa using hb)⟩
  · have hBv : ma.base_array_id < s.array_values.length := (List.getElem?_eq_some_iff.1 hvs).1
    refine ⟨by simp [h1], by simp [h2], ?_⟩
    intro b hb
    obtain ⟨g1, g2⟩ := h3 b (by simpa using hb)
    simp only
    rw [entry_of_set _ _ _ _ hBv]
    by_cases hbb : ma.base_array_id = b
    · subst hbb
      rw [if_pos rfl, List.length_set]
      rw [entry_of_of_getElem? hvs] at g1
      exact ⟨g1, g2⟩
    · rw [if_neg hbb]; exact ⟨g1, g2⟩

theorem mk_unbounded_store_in_step {s s' : array_convt} {ma a' : array_ast} {idx : expr2tc}
    {value : smt_ast} {rs : smt_sort}
    (h : mk_unbounded_store s ma idx value rs = some (s', a'))
    (hc : tables_in_step s) : tables_in_step s' := by
  obtain ⟨is, us, vs, his, hus, hvs, -, rfl⟩ := mk_unbounded_store_spec h
  exact tables_in_step_append _ _ (by simp) hus hvs hc

theorem unbounded_array_ite_in_step {s s' : array_convt} {cond : smt_ast} {t f r : array_ast}
    {rs : smt_sort} (h : unbounded_array_ite s cond t f rs = some (s', r))
    (hc : tables_in_step s) : tables_in_step s' := by
  obtain ⟨tus, us, vs, -, hus, hvs, -, rfl⟩ := unbounded_array_ite_spec h
  exact tables_in_step_append _ s.array_indexes rfl hus hvs hc

theorem new_array_id_in_step {s s' : array_convt} {id : Nat}
    (h : new_array_id s = some (s', id)) (hc : tables_in_step s) : tables_in_step s' := by
  obtain ⟨h1, h2, h3⟩ := hc
  rw [new_array_id_spec s h2 h1] at h
  simp only [Option.some.injEq, Prod.mk.injEq] at h
  obtain ⟨rfl, -⟩ := h
  refine ⟨by simp [h1], by simp [h2], ?_⟩
  intro b hb
  simp only [List.length_append, List.length_singleton] at hb
  simp only
  rw [entry_of_append_singleton, entry_of_append_singleton]
  by_cases hbb : b = s.array_indexes.length
  · rw [if_pos (by omega), if_pos (by omega)]
    exact ⟨rfl, rfl⟩
  · rw [if_neg (by omega), if_neg (by omega)]
    exact h3 b (by omega)

theorem run_history_calls_in_step :
    ∀ (calls : List history_call) (s s' : array_convt),
      run_history_calls calls s = some s' → tables_in_step s → tables_in_step s' := by
  intro calls
  induction calls with
  | nil =>
    intro s s' h hc
    simp only [run_history_calls, Option.some.injEq] at h
    subst h; exact hc
  | cons c rest ih =>
    intro s s' h hc
    unfold run_history_calls at h
    rcases h1 : c.run s with _ | s1
    · simp [h1] at h
    · simp only [h1] at h
      refine ih _ _ h ?_
      cases c with
      | new_array_id =>
        simp only [history_call.run, Option.map_eq_some', Prod.exists, exists_and_right,
          exists_eq_right] at h1
        obtain ⟨a, h1⟩ := h1
        exact new_array_id_in_step h1 hc
      | mk_unbounded_select ma e rs =>
        simp only [history_call.run, Option.map_eq_some', Prod.exists, exists_and_right,
          exists_eq_right] at h1
        obtain ⟨a, h1⟩ := h1
        exact mk_unbounded_select_in_step h1 hc
      | mk_unbounded_store ma idx value rs =>
        simp only [history_call.run, Option.map_eq_some', Prod.exists, exists_and_right,
          exists_eq_right] at h1
        obtain ⟨a, h1⟩ := h1
        exact mk_unbounded_store_in_step h1 hc
      | unbounded_array_ite cond t f rs =>
        simp only [history_call.run, Option.map_eq_some', Prod.exists, exists_and_right,
          exists_eq_right] at h1
        obtain ⟨a, h1⟩ := h1
        exact unbounded_array_ite_in_step h1 hc

/-- C24: in every state reached from the empty flattener through calls of
`new_array_id`, `mk_unbounded_select`, `mk_unbounded_store` and
`unbounded_array_ite`, with any arguments, `array_indexes`, `array_updates` and
`array_values` have the same number of base ids, and for every base id the
update list and the list of select lists have the same length, which is at
least 1, the record at position 0 being the placeholder. -/
theorem C24_tables_in_step (calls : List history_call) (s : array_convt)
    (h : run_history_calls calls array_convt.init = some s) :
    s.array_updates.length = s.array_indexes.length ∧
    s.array_values.length = s.array_indexes.length ∧
    ∀ b, b < s.array_indexes.length →
      (entry_of s.array_values b).length = (entry_of s.array_updates b).length ∧
      1 ≤ (entry_of s.array_updates b).length ∧
      at2 s.array_updates b 0 = some array_with.placeholder := by
  have h0 : tables_in_step array_convt.init :=
    ⟨rfl, rfl, fun b hb => by simp [array_convt.init] at hb⟩
  obtain ⟨h1, h2, h3⟩ := run_history_calls_in_step calls _ _ h h0
  refine ⟨h1, h2, fun b hb => ?_⟩
  obtain ⟨g1, g2⟩ := h3 b hb
  refine ⟨g1, (List.getElem?_eq_some_iff.1 g2).1, ?_⟩
  have hbu : b < s.array_updates.length := by omega
  simp only [at2, entry_of, List.getElem?_eq_getElem hbu, Option.getD_some,
    Option.some_bind] at g2 ⊢
  exact g2

/-- Witness of C24: the example calls return and leave two bases whose tables
are in step. -/
theorem C24_tables_in_step_witness :
    run_history_calls example_history_calls array_convt.init = some example_history_state ∧
    example_history_state.array_updates.length = example_history_state.array_indexes.length ∧
    example_history_state.array_values.length = example_history_state.array_indexes.length ∧
    ∀ b, b < example_history_state.array_indexes.length →
      (entry_of example_history_state.array_values b).length =
        (entry_of example_history_state.array_updates b).length ∧
      1 ≤ (entry_of example_history_state.array_updates b).length ∧
      at2 example_history_state.array_updates b 0 = some array_with.placeholder :=
  ⟨by decide, C24_tables_in_step example_history_calls example_history_state (by decide)⟩

/-! ## The grouping fixpoint terminates (C29) -/

/-- C29: for a history with `n` base ids whose ite records and equalities name
base ids of the history, the do-while loop of `join_array_indexes` exits within
`n * n + 1` passes; every pass over grouping sets in their invariant keeps the
invariant, a pass that sets `modified` makes the grouping sets strictly larger
in total, and the `n` sets hold at most `n * n` ids together. -/
theorem C29_grouping_fixpoint_terminates (s : array_convt) (h : ids_in_range s = true) :
    (∃ G0 G, join_initial s = some G0 ∧ group_inv s.array_updates.length G0 ∧
      join_fix (s.array_updates.length * s.array_updates.length + 1) G0 = some G) ∧
    (∀ (G G' : List (List Nat)) (m : Bool), group_inv s.array_updates.length G →
      join_pass G.length 0 (G, false) = some (G', m) →
      group_inv s.array_updates.length G' ∧ (m = true → total_size G < total_size G')) ∧
    (∀ G : List (List Nat), group_inv s.array_updates.length G →
      total_size G ≤ s.array_updates.length * s.array_updates.length) := by
  refine ⟨?_, ?_, fun G hG => total_size_le hG⟩
  · obtain ⟨h1, h2⟩ := ids_in_range_spec h
    have hG0 : group_inv s.array_updates.length
        (s.array_updates.enum.map (fun p => set_insert id p.1 (join_collect p.2 []))) := by
      refine ⟨by simp, ?_⟩
      intro g hg
      obtain ⟨p, hp, rfl⟩ := List.mem_map.1 hg
      have hp' := List.mem_enum_iff_getElem?.1 hp
      have hlt : p.1 < s.array_updates.length := (List.getElem?_eq_some_iff.1 hp').1
      obtain ⟨c1, c2⟩ := join_collect_inv (n := s.array_updates.length) p.2 []
        List.Pairwise.nil (fun x hx => by simp at hx) (h1 p.2 (List.getElem?_mem hp'))
      refine ⟨pairwise_set_insert _ _ c1, ?_⟩
      intro x hx
      rcases (mem_set_insert _ _ _ _).1 hx with rfl | hx
      · exact hlt
      · exact c2 x hx
    obtain ⟨G0, e1, e2⟩ := join_equalities_total _ _ hG0 h2
    obtain ⟨G, e3, -⟩ := join_fix_total
      (s.array_updates.length * s.array_updates.length + 1) G0 e2 (by omega)
    exact ⟨G0, G, e1, e2, e3⟩
  · intro G G' m hG hp
    obtain ⟨G1, m1, a1, a2, -, a4⟩ := join_pass_total G.length 0 G false hG (by rw [hG.1]; omega)
    rw [a1] at hp
    simp only [Option.some.injEq, Prod.mk.injEq] at hp
    obtain ⟨rfl, rfl⟩ := hp
    refine ⟨a2, fun hm => ?_⟩
    rcases a4 hm with h0 | h0
    · cases h0
    · exact h0

/-- Witness of C29: the history of the ite of two bases. -/
theorem C29_grouping_fixpoint_terminates_witness :
    ∃ G0 G, join_initial example_ite_state = some G0 ∧
      group_inv example_ite_state.array_updates.length G0 ∧
      join_fix (example_ite_state.array_updates.length *
        example_ite_state.array_updates.length + 1) G0 = some G :=
  (C29_grouping_fixpoint_terminates example_ite_state (by decide)).1

/-! ## The sequential loop is bounded (C30) -/

/-- The runs the sequential loop adds to the trace: at most three per bound
left, and they follow `k_step`. -/
theorem sequential_loop_runs (max_k_step : Int) (results : Nat → Bool) :
    ∀ (fuel : Nat) (st : seq_state) (trace : List bmc_run) (r : seq_result),
      sequential_loop max_k_step results fuel st trace = some r →
      st.unwind = st.k_step →
      ∃ runs, r.trace = trace ++ runs ∧
        runs.length ≤ 3 * (max_k_step - st.k_step).toNat + seq_phase_weight st + 1 ∧
        k_steps_from st.k_step runs = true := by
  intro fuel
  induction fuel with
  | zero => intro st trace r h; simp [sequential_loop] at h
  | succ fuel ih =>
    intro st trace r h hu
    unfold sequential_loop at h
    simp only at h
    by_cases hb : st.base_case = true
    · simp only [hb, if_true] at h
      by_cases hr : results trace.length = true
      · simp only [hr, if_true, Option.some.injEq] at h
        subst h
        exact ⟨[_], rfl, by simp, by simp [k_steps_from, hu]⟩
      · simp only [hr, Bool.false_eq_true, if_false, seq_continue] at h
        by_cases hk : st.k_step + 1 ≤ max_k_step
        · simp only [hk, if_true] at h
          obtain ⟨runs, e1, e2, e3⟩ := ih _ _ _ h rfl
          refine ⟨({ step := STEP.BASE_CASE, unwind := st.unwind, res := false } : bmc_run) :: runs,
            by rw [e1, List.append_assoc]; rfl, ?_, ?_⟩
          · simp only [seq_phase_weight, Bool.false_eq_true, if_false, if_true] at e2
            simp only [seq_phase_weight, hb, if_true, List.length_cons]
            omega
          · simp only [k_steps_from, hu, decide_True, Bool.true_and, if_true]
            exact e3
        · simp only [hk, if_false, Option.some.injEq] at h
          subst h
          exact ⟨[_], rfl, by simp, by simp [k_steps_from, hu]⟩
    · have hb' : st.base_case = false := by simpa using hb
      simp only [hb', Bool.false_eq_true, if_false] at h
      by_cases hf : st.forward_condition = true
      · simp only [hf, if_true] at h
        by_cases hr : results trace.length = true
        · simp only [hr, Bool.not_true, Bool.false_eq_true, if_false, seq_continue] at h
          by_cases hk : st.k_step ≤ max_k_step
          · simp only [hk, if_true] at h
            obtain ⟨runs, e1, e2, e3⟩ := ih _ _ _ h rfl
            refine ⟨({ step := STEP.FORWARD_CONDITION, unwind := st.unwind, res := true } : bmc_run) :: runs,
            by rw [e1, List.append_assoc]; rfl, ?_, ?_⟩
            · simp only [seq_phase_weight, hb', Bool.false_eq_true, if_false] at e2
              simp only [seq_phase_weight, hb', hf, Bool.false_eq_true, if_false, if_true,
                List.length_cons]
              omega
            · simp only [k_steps_from, hu, decide_True, Bool.true_and]
              simpa using e3
          · simp only [hk, if_false, Option.some.injEq] at h
            subst h
            exact ⟨[_], rfl, by simp, by simp [k_steps_from, hu]⟩
        · have hr' : results trace.length = false := by simpa using hr
          simp only [hr', Bool.not_false, if_true, Option.some.injEq] at h
          subst h
          exact ⟨[_], rfl, by simp, by simp [k_steps_from, hu]⟩
      · have hf' : st.forward_condition = false := by simpa using hf
        simp only [hf', Bool.false_eq_true, if_false] at h
        by_cases hr : results trace.length = true
        · simp only [hr, Bool.not_true, Bool.false_eq_true, if_false, seq_continue] at h
          by_cases hk : st.k_step ≤ max_k_step
          · simp only [hk, if_true] at h
            obtain ⟨runs, e1, e2, e3⟩ := ih _ _ _ h rfl
            refine ⟨({ step := STEP.INDUCTIVE_STEP, unwind := st.unwind, res := true } : bmc_run) :: runs,
            by rw [e1, List.append_assoc]; rfl, ?_, ?_⟩
            · simp only [seq_phase_weight, if_true] at e2
              simp only [seq_phase_weight, hb', hf', Bool.false_eq_true, if_false,
                List.length_cons]
              omega
            · simp only [k_steps_from, hu, decide_True, Bool.true_and]
              simpa using e3
          · simp only [hk, if_false, Option.some.injEq] at h
            subst h
            exact ⟨[_], rfl, by simp, by simp [k_steps_from, hu]⟩
        · have hr' : results trace.length = false := by simpa using hr
          simp only [hr', Bool.not_false, if_true, Option.some.injEq] at h
          subst h
          exact ⟨[_], rfl, by simp, by simp [k_steps_from, hu]⟩

/-- C30: for every initial phase, every initial `k_step ≤ max_k_step` and every
sequence of BMC results, the sequential loop returns after at most
`3 * (max_k_step - k_step + 1)` BMC runs, and the runs follow `k_step`: each is
made at the current value, which never decreases and grows by exactly one on
each base-case run. -/
theorem C30_sequential_loop_bounded (max_k_step k_step : Int) (results : Nat → Bool)
    (base_case forward_condition : Bool) (hk : k_step ≤ max_k_step) :
    ∃ r, sequential_run max_k_step results base_case forward_condition k_step = some r ∧
      (r.trace.length : Int) ≤ 3 * (max_k_step - k_step + 1) ∧
      k_steps_from k_step r.trace = true := by
  obtain ⟨r, hr⟩ := sequential_loop_total max_k_step results
    (3 * (max_k_step + 1 - k_step).toNat + 3) (seq_init base_case forward_condition k_step) []
    (by
      have : seq_phase_weight (seq_init base_case forward_condition k_step) ≤ 2 := by
        unfold seq_phase_weight; split <;> [omega; (split <;> omega)]
      simp only [seq_init] at this ⊢
      omega)
  obtain ⟨runs, e1, e2, e3⟩ := sequential_loop_runs max_k_step results _ _ _ _ hr rfl
  refine ⟨r, hr, ?_, ?_⟩
  · have hw : seq_phase_weight (seq_init base_case forward_condition k_step) ≤ 2 := by
      unfold seq_phase_weight; split <;> [omega; (split <;> omega)]
    simp only [List.nil_append] at e1
    rw [e1]
    simp only [seq_init] at e2 hw
    omega
  · simp only [List.nil_append] at e1
    rw [e1]; exact e3

/-- Witness of C30: the loop entered in the forward-condition phase with
`k_step = 2` and `max_k_step = 3`, every check failing to conclude: six runs. -/
theorem C30_sequential_loop_bounded_witness :
    ∃ r, sequential_run 3 (fun n => decide (n % 3 ≠ 2)) false true 2 = some r ∧
      (r.trace.length : Int) ≤ 3 * (3 - 2 + 1) ∧ k_steps_from 2 r.trace = true :=
  C30_sequential_loop_bounded 3 2 (fun n => decide (n % 3 ≠ 2)) false true (by decide)

/-! ## One verdict per run (C25) -/

theorem lookup_set_opt (o : optionst) (k : String) (v : option_value) (j : String) :
    (set_opt o k v).lookup j = if j = k then some v else o.lookup j := by
  unfold set_opt
  induction o with
  | nil =>
    by_cases hjk : j = k
    · subst hjk; simp [map_assign, List.lookup]
    · have : (j == k) = false := by simpa using hjk
      simp [map_assign, List.lookup, this, hjk]
  | cons p rest ih =>
    obtain ⟨k', v'⟩ := p
    unfold map_assign
    by_cases hkk : k = k'
    · subst hkk
      rw [if_pos rfl]
      by_cases hjk : j = k
      · subst hjk; simp [List.lookup]
      · have : (j == k) = false := by simpa using hjk
        simp [List.lookup, this, hjk]
    · rw [if_neg hkk]
      by_cases hlt : k.toList < k'.toList
      · rw [if_pos hlt]
        by_cases hjk : j = k
        · subst hjk; simp [List.lookup]
        · have : (j == k) = false := by simpa using hjk
          simp [List.lookup, this, hjk]
      · rw [if_neg hlt]
        by_cases hjk' : j = k'
        · subst hjk'
          have hne : ¬ j = k := fun h => hkk h.symm
          simp [List.lookup, hne]
        · have : (j == k') = false := by simpa using hjk'
          rw [List.lookup, this]
          simp only
          rw [ih]
          by_cases hjk : j = k
          · simp [hjk]
          · simp [hjk, List.lookup, this]

/-- Reading an option after a run of assignments: the last assignment to it,
or what was there before. -/
theorem lookup_set_opts (l : List (String × option_value)) (j : String) :
    ∀ o : optionst, (set_opts l o).lookup j =
      match l.reverse.lookup j with
      | some v => some v
      | none => o.lookup j := by
  induction l with
  | nil => intro o; rfl
  | cons p rest ih =>
    intro o
    obtain ⟨k, v⟩ := p
    have hstep : set_opts ((k, v) :: rest) o = set_opts rest (set_opt o k v) := rfl
    rw [hstep, ih, List.reverse_cons, lookup_set_opt]
    have happ : (rest.reverse ++ [(k, v)]).lookup j =
        match rest.reverse.lookup j with
        | some w => some w
        | none => if j = k then some v else none := by
      generalize rest.reverse = r
      induction r with
      | nil =>
        by_cases hjk : j = k
        · subst hjk; simp [List.lookup]
        · have : (j == k) = false := by simpa using hjk
          simp [List.lookup, this, hjk]
      | cons q r ihr =>
        obtain ⟨k', v'⟩ := q
        by_cases hjk' : j = k'
        · subst hjk'; simp [List.lookup]
        · have : (j == k') = false := by simpa using hjk'
          simp only [List.cons_append, List.lookup, this]
          exact ihr
    rw [happ]
    cases rest.reverse.lookup j with
    | some w => rfl
    | none => by_cases hjk : j = k <;> simp [hjk]

/-- A run of assignments that does not name an option leaves it alone. -/
theorem lookup_set_opts_frame (l : List (String × option_value)) (j : String) (o : optionst)
    (h : l.reverse.lookup j = none) : (set_opts l o).lookup j = o.lookup j := by
  rw [lookup_set_opts, h]

/-- A block of assignments under a condition leaves alone an option that
neither branch names. -/
theorem lookup_set_opts_if_frame (c : Prop) [Decidable c] (l1 l2 : List (String × option_value))
    (j : String) (o : optionst) (h1 : l1.reverse.lookup j = none)
    (h2 : l2.reverse.lookup j = none) :
    (set_opts (if c then l1 else l2) o).lookup j = o.lookup j := by
  split
  · exact lookup_set_opts_frame _ _ _ h1
  · exact lookup_set_opts_frame _ _ _ h2

/-- The profile part leaves `no-assume-guarantee` alone. -/
theorem profile_options_no_assume_guarantee (e : command_line) (o : optionst) :
    (profile_options e o).lookup "no-assume-guarantee" = o.lookup "no-assume-guarantee" := by
  unfold profile_options
  beta_reduce
  repeat rw [lookup_set_opts_if_frame _ _ _ _ _ (by rfl) (by rfl)]

/-- The solver part decides `no-assume-guarantee`. -/
theorem solver_options_no_assume_guarantee (e : command_line) (o : optionst) :
    (solver_options e o).lookup "no-assume-guarantee" =
      some (option_value.bool (e.isset "eager" && !e.isset "no-slice")) := by
  unfold solver_options
  beta_reduce
  repeat
    first
    | rw [lookup_set_opts_if_frame _ _ _ _ _ (by rfl) (by rfl)]
    | rw [lookup_set_opts_frame _ _ _ (by rfl)]
  rw [lookup_set_opts]
  cases e.isset "no-slice"
  · simp only [Bool.false_eq_true, if_false, List.reverse_nil, List.lookup]
    repeat rw [lookup_set_opts_if_frame _ _ _ _ _ (by rfl) (by rfl)]
    rw [lookup_set_opts]
    cases e.isset "eager" <;> rfl
  · cases e.isset "eager" <;> rfl

/-- With a k-induction flag the profile part ends by setting the unwinding
policy. -/
theorem profile_options_k_induction (e : command_line) (o : optionst)
    (hk : e.isset "k-induction" = true ∨ e.isset "k-induction-parallel" = true) :
    (profile_options e o).lookup "no-unwinding-assertions" = some (option_value.bool true) ∧
    (profile_options e o).lookup "partial-loops" = some (option_value.bool true) := by
  have hc : (e.isset "k-induction" || e.isset "k-induction-parallel") = true := by
    rcases hk with h | h <;> simp [h]
  unfold profile_options
  beta_reduce
  constructor
  · rw [lookup_set_opts, hc]; rfl
  · rw [lookup_set_opts, hc]; rfl

/-- The options `get_command_line_options` returns. -/
theorem get_command_line_options_ok {e : command_line} {options : optionst}
    {r : options_result} (h : get_command_line_options e options = Except.ok r) :
    r.options =
      set_opts (if e.isset "show-counter-example" then
          [("show-counter-example", option_value.bool true)] else [])
        (profile_options e (solver_options e (e.options_cmdline options))) ∧
    install_memlimit e = Except.ok r.memlimit ∧ install_timeout e = Except.ok r.alarm := by
  unfold get_command_line_options at h
  by_cases hc : e.config_set = true
  · simp [hc] at h
  · by_cases hg : e.isset "git-hash" = true
    · simp [hc, hg] at h
    · rcases h1 : install_timeout e with s | alarm
      · simp [hc, hg, h1] at h
      · rcases h2 : install_memlimit e with s | mem
        · simp [hc, hg, h1, h2] at h
        · by_cases hcore : e.setrlimit_core_fails (e.isset "enable-core-dump") = true
          · simp [hc, hg, h1, h2, hcore] at h
          · simp only [hc, hg, h1, h2, hcore, if_false, Bool.false_eq_true,
              Except.ok.injEq] at h
            subst h
            exact ⟨rfl, rfl, rfl⟩

/-- C28: in the options `get_command_line_options` returns, `no-assume-guarantee`
is true exactly when `--eager` is set and `--no-slice` is not; the value does not
depend on `--lazy`. -/
theorem C28_no_assume_guarantee (e : command_line) (options : optionst) (r : options_result)
    (h : get_command_line_options e options = Except.ok r) :
    r.options.lookup "no-assume-guarantee" =
      some (option_value.bool (e.isset "eager" && !e.isset "no-slice")) := by
  rw [(get_command_line_options_ok h).1, lookup_set_opts_if_frame _ _ _ _ _ (by rfl) (by rfl),
    profile_options_no_assume_guarantee, solver_options_no_assume_guarantee]

/-- Witness of C28: `--lazy --eager` gives true, `--lazy --eager --no-slice`
gives false. -/
theorem C28_no_assume_guarantee_witness :
    (∃ r, get_command_line_options (example_command_line ["lazy", "eager"] []) [] = Except.ok r ∧
      r.options.lookup "no-assume-guarantee" = some (option_value.bool true)) ∧
    (∃ r, get_command_line_options
        (example_command_line ["lazy", "eager", "no-slice"] []) [] = Except.ok r ∧
      r.options.lookup "no-assume-guarantee" = some (option_value.bool false)) :=
  ⟨⟨_, rfl, C28_no_assume_guarantee (example_command_line ["lazy", "eager"] []) [] _ rfl⟩,
   ⟨_, rfl, C28_no_assume_guarantee
      (example_command_line ["lazy", "eager", "no-slice"] []) [] _ rfl⟩⟩

/-- C26: when `--k-induction` or `--k-induction-parallel` is set, the options
`get_command_line_options` returns have `no-unwinding-assertions` and
`partial-loops` true, whatever profile the options asked for. -/
theorem C26_k_induction_unwinding_policy (e : command_line) (options : optionst)
    (r : options_result)
    (hk : e.isset "k-induction" = true ∨ e.isset "k-induction-parallel" = true)
    (h : get_command_line_options e options = Except.ok r) :
    r.options.lookup "no-unwinding-assertions" = some (option_value.bool true) ∧
    r.options.lookup "partial-loops" = some (option_value.bool true) := by
  obtain ⟨h1, h2⟩ := profile_options_k_induction e
    (solver_options e (e.options_cmdline options)) hk
  rw [(get_command_line_options_ok h).1]
  constructor
  · rw [lookup_set_opts_if_frame _ _ _ _ _ (by rfl) (by rfl)]; exact h1
  · rw [lookup_set_opts_if_frame _ _ _ _ _ (by rfl) (by rfl)]; exact h2

/-- Witness of C26: `--k-induction` together with the forward-condition
profile. -/
theorem C26_k_induction_unwinding_policy_witness :
    ∃ r, get_command_line_options
        (example_command_line ["k-induction", "forward-condition"] []) [] = Except.ok r ∧
      r.options.lookup "no-unwinding-assertions" = some (option_value.bool true) ∧
      r.options.lookup "partial-loops" = some (option_value.bool true) :=
  ⟨_, rfl, C26_k_induction_unwinding_policy
    (example_command_line ["k-induction", "forward-condition"] []) [] _ (Or.inl (by decide)) rfl⟩

/-! ### The memory limit (C23) -/

theorem strtol_digits_append (suffix : List Char) :
    ∀ (ds : List Char) (acc : Nat), (∀ c ∈ ds, c.isDigit = true) →
      strtol_digits (ds ++ suffix) acc =
        strtol_digits suffix (ds.foldl (fun a c => a * 10 + (c.toNat - '0'.toNat)) acc) := by
  intro ds
  induction ds with
  | nil => intro acc _; rfl
  | cons d rest ih =>
    intro acc h
    have hd : d.isDigit = true := h d (List.mem_cons_self _ _)
    simp only [List.cons_append, strtol_digits, hd, if_true, List.foldl_cons]
    exact ih _ (fun c hc => h c (List.mem_cons_of_mem _ hc))

/-- `strtol` reads a string of digits, followed by nothing or by one character
that is not a digit, as the value of the digits. -/
theorem strtol10_digits (ds suffix : List Char) (hne : ds ≠ [])
    (hd : ∀ c ∈ ds, c.isDigit = true) (hN : decimal_value ds < 2 ^ 63)
    (hs : suffix = [] ∨ ∃ c, suffix = [c] ∧ c.isDigit = false) :
    strtol10 (String.mk (ds ++ suffix)) = (decimal_value ds : Int) := by
  obtain ⟨d, rest, rfl⟩ := List.exists_cons_of_ne_nil hne
  have hdd : d.isDigit = true := hd d (List.mem_cons_self _ _)
  have hsp : c_isspace d = false := by
    have hdd' := hdd
    simp only [Char.isDigit, Bool.and_eq_true, decide_eq_true_eq, ge_iff_le] at hdd'
    have h1 : 48 ≤ d.toNat := hdd'.1
    unfold c_isspace
    simp
    omega
  have hminus : d ≠ '-' := by rintro rfl; revert hdd; decide
  have hplus : d ≠ '+' := by rintro rfl; revert hdd; decide
  have hval : strtol_digits (d :: rest ++ suffix) 0 = decimal_value (d :: rest) := by
    rw [strtol_digits_append suffix (d :: rest) 0 hd]
    rcases hs with rfl | ⟨c, rfl, hc⟩
    · rfl
    · simp [strtol_digits, hc, decimal_value]
  unfold strtol10
  have hdrop : (String.mk (d :: rest ++ suffix)).toList.dropWhile c_isspace =
      d :: (rest ++ suffix) := by
    simp [List.dropWhile, hsp]
  rw [hdrop]
  split
  · rename_i heq; simp only [List.cons.injEq] at heq; exact absurd heq.1 hminus
  · rename_i heq; simp only [List.cons.injEq] at heq; exact absurd heq.1 hplus
  · have : strtol_digits (d :: (rest ++ suffix)) 0 = decimal_value (d :: rest) := hval
    rw [this]
    omega

/-- C23 (counterexample): the memory limit `100`, without a suffix, installs a
limit of 104857600 bytes, not of 100 bytes. -/
theorem C23_counterexample :
    (install_memlimit (example_command_line [] [("memlimit", "100")])).toOption =
      some (some 104857600) ∧
    (install_memlimit (example_command_line [] [("memlimit", "100")])).toOption ≠
      some (some 100) := by
  decide

/-- C23 (amended): for a memory limit made of a decimal number `N < 2^34`
optionally followed by one character, when `setrlimit` does not fail the limit
installed is `N * 2^20` bytes when there is no suffix, `N` bytes for the suffix
`b`, `N * 2^10` for `k`, `N * 2^20` for `m` and `N * 2^30` for `g`; any other
character that is not a digit aborts. -/
theorem C23_memlimit (e : command_line) (ds : List Char) (hne : ds ≠ [])
    (hd : ∀ c ∈ ds, c.isDigit = true) (hN : decimal_value ds < 2 ^ 34)
    (hset : e.isset "memlimit" = true) (hok : ∀ n, e.setrlimit_as_fails n = false) :
    (e.getval "memlimit" = String.mk ds →
      install_memlimit e = Except.ok (some (decimal_value ds * 2 ^ 20))) ∧
    (∀ c : Char, c.isDigit = false → e.getval "memlimit" = String.mk (ds ++ [c]) →
      install_memlimit e =
        if c = 'b' then Except.ok (some (decimal_value ds))
        else if c = 'k' then Except.ok (some (decimal_value ds * 2 ^ 10))
        else if c = 'm' then Except.ok (some (decimal_value ds * 2 ^ 20))
        else if c = 'g' then Except.ok (some (decimal_value ds * 2 ^ 30))
        else Except.error options_stop.aborted) := by
  have hN63 : decimal_value ds < 2 ^ 63 := by omega
  constructor
  · intro hv
    have hlast : ds.getLast? = some (ds.getLast hne) := List.getLast?_eq_getLast _ hne
    have hdl : (ds.getLast hne).isDigit = true := hd _ (List.getLast_mem hne)
    have hst := strtol10_digits ds [] hne hd hN63 (Or.inl rfl)
    rw [List.append_nil] at hst
    unfold install_memlimit
    simp only [hset, if_true, hv, String.toList, hlast, hdl, Bool.not_true, Bool.false_eq_true,
      if_false, hst, hok]
    congr 2
    omega
  · intro c hc hv
    have hlast : (ds ++ [c]).getLast? = some c := by simp
    have hst := strtol10_digits ds [c] hne hd hN63 (Or.inr ⟨c, rfl, hc⟩)
    unfold install_memlimit
    simp only [hset, if_true, hv, String.toList, hlast, hc, Bool.not_false, hst]
    by_cases hb : c = 'b'
    · simp only [hb, if_true, hok, Bool.false_eq_true, if_false]
      congr 2
      omega
    · by_cases hk : c = 'k'
      · subst hk
        simp only [hb, if_false, if_true, hok, Bool.false_eq_true]
        congr 2
        omega
      · by_cases hm : c = 'm'
        · subst hm
          simp only [hb, hk, if_false, if_true, hok, Bool.false_eq_true]
          congr 2
          omega
        · by_cases hg : c = 'g'
          · subst hg
            simp only [hb, hk, hm, if_false, if_true, hok, Bool.false_eq_true]
            congr 2
            omega
          · simp only [hb, hk, hm, hg, if_false]

/-- Witness of C23: `100m` installs 104857600 bytes and `2g` installs
2147483648 bytes. -/
theorem C23_memlimit_witness :
    install_memlimit (example_command_line [] [("memlimit", "100m")]) =
      Except.ok (some 104857600) ∧
    install_memlimit (example_command_line [] [("memlimit", "2g")]) =
      Except.ok (some 2147483648) :=
  ⟨by simpa [decimal_value] using
      (C23_memlimit (example_command_line [] [("memlimit", "100m")]) ['1', '0', '0']
        (by decide) (by decide) (by decide) (by decide) (fun _ => rfl)).2 'm' (by decide)
        (by decide),
   by simpa [decimal_value] using
      (C23_memlimit (example_command_line [] [("memlimit", "2g")]) ['2']
        (by decide) (by decide) (by decide) (by decide) (fun _ => rfl)).2 'g' (by decide)
        (by decide)⟩

theorem returns_eq {c : Except thrown Unit} (h : returns c = true) : c = Except.ok () := by
  cases c with
  | error t => simp [returns] at h
  | ok u => rfl

theorem returns_false_eq {c : Except thrown Bool} (h : returns_false c = true) :
    c = Except.ok false := by
  cases c with
  | error t => simp [returns_false] at h
  | ok b => simp [returns_false] at h; rw [h]

theorem returns_true_eq {c : Except thrown Bool} (h : returns_true c = true) :
    c = Except.ok true := by
  cases c with
  | error t => simp [returns_true] at h
  | ok b => simp [returns_true] at h; rw [h]

/-- A display flag makes `process_goto_program` return true when no call
throws. -/
theorem process_goto_program_display (e : goto_program_env)
    (herr : e.without_error = true)
    (hshow : e.isset "show-goto-functions" = true ∨ e.isset "show-loops" = true ∨
      e.isset "show-value-sets" = true ∨ e.isset "show-features" = true ∨
      e.isset "show-ileave-points" = true) :
    process_goto_program e = Except.ok true := by
  simp only [goto_program_env.without_error, Bool.and_eq_true, List.all_eq_true] at herr
  have hr : ∀ c ∈ [e.show_symbol_table, e.clear_parse, e.goto_convert,
      e.string_instrumentation, e.goto_partial_inline, e.goto_check, e.string_abstraction,
      e.value_set_analysis, e.show_value_sets, e.pointer_checks, e.add_failed_symbols,
      e.add_property_monitors, e.update, e.compute_loop_numbers, e.add_race_assertions,
      e.value_set_update, e.show_loop_numbers, e.goto_check_features, e.print_ileave_points,
      e.output], c = Except.ok () := fun c hc => returns_eq (herr.2 c hc)
  have e1 := hr e.string_instrumentation (by simp)
  have e2 := hr e.goto_partial_inline (by simp)
  have e3 := hr e.goto_check (by simp)
  have e4 := hr e.string_abstraction (by simp)
  have e5 := hr e.value_set_analysis (by simp)
  have e6 := hr e.show_value_sets (by simp)
  have e7 := hr e.pointer_checks (by simp)
  have e8 := hr e.add_failed_symbols (by simp)
  have e9 := hr e.add_property_monitors (by simp)
  have e10 := hr e.update (by simp)
  have e11 := hr e.compute_loop_numbers (by simp)
  have e12 := hr e.add_race_assertions (by simp)
  have e13 := hr e.value_set_update (by simp)
  have e14 := hr e.show_loop_numbers (by simp)
  have e15 := hr e.goto_check_features (by simp)
  have e16 := hr e.print_ileave_points (by simp)
  have e17 := hr e.output (by simp)
  have hb : ∀ (c : Except thrown Bool), (Except.ok () : Except thrown Unit) >>= (fun _ => c) = c :=
    fun c => rfl
  have hc : ∀ b : Bool, call_if b (Except.ok ()) = (Except.ok () : Except thrown Unit) := by
    intro b; cases b <;> rfl
  unfold process_goto_program
  rw [e1, e2, e3, e4, e5, e6, e7, e8, e9, e10, e11, e12, e13, e14, e15, e16, e17]
  simp only [hb, hc]
  have hd : call_if (e.isset "data-races-check")
      ((Except.ok () : Except thrown Unit) >>= fun _ => (Except.ok () : Except thrown Unit)) =
      Except.ok () := hc _
  rw [hd]
  simp only [hb]
  by_cases a1 : e.isset "show-value-sets" = true
  · simp [a1, catch_true]
  by_cases a2 : e.isset "show-loops" = true
  · simp [a1, a2, catch_true]
  by_cases a3 : e.isset "show-features" = true
  · simp [a1, a2, a3, catch_true]
  by_cases a4 : e.isset "show-ileave-points" = true
  · simp [a1, a2, a3, a4, catch_true]
  by_cases a5 : e.isset "show-goto-functions" = true
  · simp [a1, a2, a3, a4, a5, catch_true]
  · exfalso
    rcases hshow with h | h | h | h | h <;> contradiction

/-- A display flag makes `get_goto_program` return true when the program is
built and processed without any error. -/
theorem get_goto_program_display (e : goto_program_env)
    (herr : e.without_error = true)
    (hshow : e.isset "show-goto-functions" = true ∨ e.isset "show-loops" = true ∨
      e.isset "show-value-sets" = true ∨ e.isset "show-features" = true ∨
      e.isset "show-ileave-points" = true ∨ e.isset "show-symbol-table" = true) :
    get_goto_program e = Except.ok true := by
  have herr0 := herr
  simp only [goto_program_env.without_error, Bool.and_eq_true, List.all_eq_true] at herr
  have h0 := herr.1.1
  have hr : ∀ c ∈ [e.read_goto_binary, e.parse, e.typecheck, e.final], c = Except.ok false :=
    fun c hc => returns_false_eq (herr.1.2 c hc)
  have e1 := hr e.read_goto_binary (by simp)
  have e3 := hr e.parse (by simp)
  have e4 := hr e.typecheck (by simp)
  have e5 := hr e.final (by simp)
  have e2 := returns_eq (herr.2 e.show_symbol_table (by simp))
  have e6 := returns_eq (herr.2 e.clear_parse (by simp))
  have e7 := returns_eq (herr.2 e.goto_convert (by simp))
  have hb : ∀ (α : Type) (c : Except thrown α),
      (Except.ok () : Except thrown Unit) >>= (fun _ => c) = c := fun _ _ => rfl
  have hf : ∀ (α : Type) (f : Bool → Except thrown α),
      (Except.ok false : Except thrown Bool) >>= f = f false := fun _ _ => rfl
  have hs : ∀ (b : Bool) (f : Option Bool → Except thrown Bool),
      (Except.ok (some b) : Except thrown (Option Bool)) >>= f = f (some b) := fun _ _ => rfl
  have hn : ∀ (f : Option Bool → Except thrown Bool),
      (Except.ok none : Except thrown (Option Bool)) >>= f = f none := fun _ => rfl
  have ht : ∀ (f : Bool → Except thrown Bool),
      (Except.ok true : Except thrown Bool) >>= f = f true := fun _ => rfl
  unfold get_goto_program
  rw [e1, e2, e3, e4, e5, e6, e7]
  simp only [hb, hf]
  by_cases a : e.isset "show-symbol-table" = true
  · by_cases b : e.isset "binary" = true
    · simp [a, b, hs, catch_true]
    · have hargs : e.args_size ≠ 0 := by simpa [b] using h0
      simp [a, b, hargs, hs, catch_true]
  · have hp : process_goto_program e = Except.ok true := by
      apply process_goto_program_display e herr0
      simpa [a] using hshow
    by_cases b : e.isset "binary" = true
    · simp [a, b, hn, hp, ht, catch_true]
    · have hargs : e.args_size ≠ 0 := by simpa [b] using h0
      simp [a, b, hargs, hn, hp, ht, catch_true]

/-- When loading fails `get_goto_program` returns true. -/
theorem get_goto_program_loading_fails (e : goto_program_env)
    (hfail : e.loading_fails = true) : get_goto_program e = Except.ok true := by
  have hf : ∀ (α : Type) (f : Bool → Except thrown α),
      (Except.ok false : Except thrown Bool) >>= f = f false := fun _ _ => rfl
  have ht : ∀ (α : Type) (f : Bool → Except thrown α),
      (Except.ok true : Except thrown Bool) >>= f = f true := fun _ _ => rfl
  have hs : ∀ (b : Bool) (f : Option Bool → Except thrown Bool),
      (Except.ok (some b) : Except thrown (Option Bool)) >>= f = f (some b) := fun _ _ => rfl
  unfold goto_program_env.loading_fails at hfail
  unfold get_goto_program
  by_cases b : e.isset "binary" = true
  · rw [if_pos b] at hfail
    rw [returns_true_eq hfail]
    simp [b, ht, hs, catch_true]
  · rw [if_neg b] at hfail
    simp only [Bool.or_eq_true, Bool.and_eq_true, decide_eq_true_eq] at hfail
    rcases hfail with ((h | h) | ⟨h1, h2⟩) | ⟨⟨h1, h2⟩, h3⟩
    · simp [b, h, hs, catch_true]
    · rw [returns_true_eq h]
      by_cases z : e.args_size = 0 <;> simp [b, z, ht, hs, catch_true]
    · rw [returns_false_eq h1, returns_true_eq h2]
      by_cases z : e.args_size = 0 <;> simp [b, z, ht, hf, hs, catch_true]
    · rw [returns_false_eq h1, returns_false_eq h2, returns_true_eq h3]
      by_cases z : e.args_size = 0 <;> simp [b, z, ht, hf, hs, catch_true]

/-- C27: when the goto program is built and processed without any error and
one of `show-goto-functions`, `show-loops`, `show-value-sets`, `show-features`,
`show-ileave-points` or `show-symbol-table` is set, `get_goto_program` returns
true, so that a run of `doit` that reaches the call returns 6; this is the
value a run of `doit` returns when loading fails. -/
theorem C27_display_only_runs_return_6 (l : goto_program_env) (e : doit_env)
    (herr : l.without_error = true)
    (hshow : l.isset "show-goto-functions" = true ∨ l.isset "show-loops" = true ∨
      l.isset "show-value-sets" = true ∨ l.isset "show-features" = true ∨
      l.isset "show-ileave-points" = true ∨ l.isset "show-symbol-table" = true)
    (hv : e.version = false) (hm : e.module = false) (hg : e.gen_interface = false)
    (ho : e.get_command_line_options = none) (hp : e.preprocess = false)
    (hcall : get_goto_program l = Except.ok e.get_goto_program) :
    get_goto_program l = Except.ok true ∧ doit e = outcome.returned 6 ∧
    ∀ (l2 : goto_program_env) (e2 : doit_env), l2.loading_fails = true →
      e2.version = false → e2.module = false → e2.gen_interface = false →
      e2.get_command_line_options = none → e2.preprocess = false →
      get_goto_program l2 = Except.ok e2.get_goto_program →
      doit e2 = doit e := by
  have key : ∀ (l : goto_program_env) (e : doit_env), get_goto_program l = Except.ok true →
      e.version = false → e.module = false → e.gen_interface = false →
      e.get_command_line_options = none → e.preprocess = false →
      get_goto_program l = Except.ok e.get_goto_program → doit e = outcome.returned 6 := by
    intro l e h hv hm hg ho hp hcall
    rw [h] at hcall
    have hb : e.get_goto_program = true := by
      injection hcall with hcall; exact hcall.symm
    simp [doit, hv, hm, hg, ho, hp, hb]
  have h1 := get_goto_program_display l herr hshow
  have h2 := key l e h1 hv hm hg ho hp hcall
  refine ⟨h1, h2, ?_⟩
  intro l2 e2 hfail hv2 hm2 hg2 ho2 hp2 hcall2
  rw [h2]
  exact key l2 e2 (get_goto_program_loading_fails l2 hfail) hv2 hm2 hg2 ho2 hp2 hcall2

/-- C27 at a run with `show-loops` on one source file, next to a run in which
parsing fails: both return 6. -/
theorem C27_display_only_runs_return_6_witness :
    (example_goto_program_env ["show-loops"]).without_error = true ∧
    get_goto_program (example_goto_program_env ["show-loops"]) = Except.ok true ∧
    doit example_doit_env = outcome.returned 6 ∧
    doit { example_doit_env with do_bmc := 1 } = outcome.returned 6 :=
  have h := C27_display_only_runs_return_6 (example_goto_program_env ["show-loops"])
    example_doit_env (by decide) (Or.inr (Or.inl (by decide))) rfl rfl rfl rfl rfl (by rfl)
  ⟨by decide, h.1, h.2.1,
    (h.2.2 { example_goto_program_env [] with parse := Except.ok true }
      { example_doit_env with do_bmc := 1 } (by decide) rfl rfl rfl rfl rfl (by rfl)).trans
      h.2.1⟩

/-! ## Histories built from the empty flattener -/

theorem history_grows_refl (s : array_convt) : history_grows s s :=
  ⟨fun _ _ _ h => h, fun _ _ h => h, fun _ is h => ⟨is, h, fun _ hx => hx⟩,
   fun _ _ sels h => ⟨[], by simpa using h, by simp⟩⟩

theorem history_grows_trans {s1 s2 s3 : array_convt} (h12 : history_grows s1 s2)
    (h23 : history_grows s2 s3) : history_grows s1 s3 := by
  obtain ⟨a1, a2, a3, a4⟩ := h12
  obtain ⟨b1, b2, b3, b4⟩ := h23
  refine ⟨fun b u w h => b1 _ _ _ (a1 _ _ _ h), fun b v h => b2 _ _ (a2 _ _ h), ?_, ?_⟩
  · intro b is h
    obtain ⟨is', h1, h2⟩ := a3 b is h
    obtain ⟨is'', h3, h4⟩ := b3 b is' h1
    exact ⟨is'', h3, fun x hx => h4 x (h2 x hx)⟩
  · intro b u sels h
    obtain ⟨e1, h1, h2⟩ := a4 b u sels h
    obtain ⟨e2, h3, h4⟩ := b4 b u _ h1
    refine ⟨e1 ++ e2, by rw [h3, List.append_assoc], ?_⟩
    intro x hx y hy
    rcases List.mem_append.1 hx with hx | hx
    · exact h2 x hx y hy
    · exact h4 x hx y (List.mem_append_left _ hy)

theorem history_grows_of_le {s s' : array_convt} (h : history_le s s') : history_grows s s' :=
  ⟨fun b u w hw => by rw [h.1]; exact hw, fun b v hv => by rw [h.2.2.1]; exact hv,
   h.2.2.2.2.1, h.2.2.2.2.2.1⟩

/-- A state that differs only in the fields that the history does not look at. -/
theorem history_grows_of_eq {s s' : array_convt} (hi : s'.array_indexes = s.array_indexes)
    (hv : s'.array_values = s.array_values) (hu : s'.array_updates = s.array_updates)
    (ho : s'.array_of_vals = s.array_of_vals) : history_grows s s' :=
  ⟨fun b u w h => by rw [hu]; exact h, fun b v h => by rw [ho]; exact h,
   fun b is h => ⟨is, by rw [hi]; exact h, fun _ hx => hx⟩,
   fun b u sels h => ⟨[], by rw [hv]; simpa using h, by simp⟩⟩

theorem history_inv_of_eq {s s' : array_convt} (hi : s'.array_indexes = s.array_indexes)
    (hv : s'.array_values = s.array_values) (hu : s'.array_updates = s.array_updates)
    (ho : s'.array_of_vals = s.array_of_vals) (h : history_inv s) : history_inv s' := by
  obtain ⟨h1, h2, h3⟩ := h
  refine ⟨?_, ?_, ?_⟩
  · unfold tables_in_step at h1 ⊢
    rw [hi, hv, hu]; exact h1
  · unfold selects_nodup at h2 ⊢
    rw [hv]; exact h2
  · rw [hi, ho]; exact h3

theorem at2_set_append {α : Type} {L : List (List α)} {B : Nat} {l : List α} (x : α)
    (hB : L[B]? = some l) {b u : Nat} {w : α} (h : at2 L b u = some w) :
    at2 (L.set B (l ++ [x])) b u = some w := by
  have hlt : B < L.length := (List.getElem?_eq_some_iff.1 hB).1
  unfold at2 at h ⊢
  by_cases hb : B = b
  · subst hb
    rw [hB] at h
    simp only [Option.some_bind] at h
    have hu : u < l.length := (List.getElem?_eq_some_iff.1 h).1
    simp only [List.getElem?_set, hlt, if_true, Option.some_bind]
    rw [List.getElem?_append_left hu]; exact h
  · rw [List.getElem?_set_ne hb]; exact h

theorem at2_append_singleton {α : Type} {L : List (List α)} (e : List α) {b u : Nat} {w : α}
    (h : at2 L b u = some w) : at2 (L ++ [e]) b u = some w := by
  unfold at2 at h ⊢
  rcases hb : L[b]? with _ | l
  · simp [hb] at h
  · have hlt : b < L.length := (List.getElem?_eq_some_iff.1 hb).1
    rw [List.getElem?_append_left hlt, hb]
    rw [hb] at h; exact h

/-- Appending an update record, with its empty select list, to a base. -/
theorem history_grows_append {s : array_convt} {B : Nat} {us : List array_with}
    {vs : List (List array_select)} (w : array_with) (idxs : List (List expr2tc))
    (hi : ∀ (b : Nat) (is : List expr2tc), s.array_indexes[b]? = some is →
      ∃ is', idxs[b]? = some is' ∧ ∀ x ∈ is, x ∈ is')
    (hus : s.array_updates[B]? = some us) (hvs : s.array_values[B]? = some vs) :
    history_grows s { s with array_indexes := idxs,
                             array_updates := s.array_updates.set B (us ++ [w]),
                             array_values := s.array_values.set B (vs ++ [[]]) } :=
  ⟨fun b u x h => at2_set_append w hus h, fun _ _ h => h, hi,
   fun b u sels h => ⟨[], by simpa using at2_set_append [] hvs h, by simp⟩⟩

theorem selects_nodup_append {s : array_convt} {B : Nat} {vs : List (List array_select)}
    (idxs : List (List expr2tc)) (ups : List (List array_with))
    (hvs : s.array_values[B]? = some vs) (h : selects_nodup s) :
    selects_nodup { s with array_indexes := idxs, array_updates := ups,
                           array_values := s.array_values.set B (vs ++ [[]]) } := by
  have hlt : B < s.array_values.length := (List.getElem?_eq_some_iff.1 hvs).1
  intro b u sels hs
  simp only [at2] at hs
  by_cases hb : B = b
  · subst hb
    simp only [List.getElem?_set, hlt, if_true, Option.some_bind] at hs
    by_cases hu : u < vs.length
    · rw [List.getElem?_append_left hu] at hs
      exact h B u sels (by simp [at2, hvs, hs])
    · rw [List.getElem?_append_right (by omega)] at hs
      rcases hk : u - vs.length with _ | k
      · rw [hk] at hs
        simp only [List.getElem?_cons_zero, Option.some.injEq] at hs
        subst hs; simp
      · rw [hk] at hs; simp at hs
  · rw [List.getElem?_set_ne hb] at hs
    exact h b u sels hs

theorem idx_set_grows (idxs : List (List expr2tc)) (B : Nat) (e : expr2tc) (is0 : List expr2tc)
    (h0 : idxs[B]? = some is0) :
    ∀ (b : Nat) (is : List expr2tc), idxs[b]? = some is →
      ∃ is', (idxs.set B (idx_insert e is0))[b]? = some is' ∧ ∀ x ∈ is, x ∈ is' := by
  intro b is h
  have hlt : B < idxs.length := (List.getElem?_eq_some_iff.1 h0).1
  by_cases hb : B = b
  · subst hb
    rw [h0] at h; cases h
    exact ⟨idx_insert e is0, by simp [hlt], fun x hx => (mem_set_insert _ _ _ _).2 (Or.inr hx)⟩
  · exact ⟨is, by rw [List.getElem?_set_ne hb]; exact h, fun _ hx => hx⟩

theorem mk_unbounded_store_step {s s' : array_convt} {ma a' : array_ast} {idx : expr2tc}
    {value : smt_ast} {rs : smt_sort}
    (h : mk_unbounded_store s ma idx value rs = some (s', a')) (hinv : history_inv s) :
    history_inv s' ∧ history_grows s s' := by
  have hstep := mk_unbounded_store_in_step h hinv.1
  obtain ⟨is, us, vs, his, hus, hvs, -, rfl⟩ := mk_unbounded_store_spec h
  refine ⟨⟨hstep, selects_nodup_append _ _ hvs hinv.2.1, ?_⟩,
    history_grows_append _ _ (idx_set_grows _ _ _ _ his) hus hvs⟩
  intro p hp
  have := hinv.2.2 p hp
  simpa using this

theorem unbounded_array_ite_step {s s' : array_convt} {cond : smt_ast} {t f r : array_ast}
    {rs : smt_sort} (h : unbounded_array_ite s cond t f rs = some (s', r))
    (hinv : history_inv s) : history_inv s' ∧ history_grows s s' := by
  have hstep := unbounded_array_ite_in_step h hinv.1
  obtain ⟨tus, us, vs, -, hus, hvs, -, rfl⟩ := unbounded_array_ite_spec h
  exact ⟨⟨hstep, selects_nodup_append _ _ hvs hinv.2.1, hinv.2.2⟩,
    history_grows_append _ s.array_indexes (fun b is hb => ⟨is, hb, fun _ hx => hx⟩) hus hvs⟩

theorem mk_unbounded_select_nodup {s s' : array_convt} {ma : array_ast} {e : expr2tc}
    {rs : smt_sort} {a : smt_ast} (h : mk_unbounded_select s ma e rs = some (s', a))
    (hn : selects_nodup s) : selects_nodup s' := by
  obtain ⟨is, us, w, his, hus, hw, hcase⟩ := mk_unbounded_select_spec h
  rcases hcase with ⟨-, -, rfl⟩ | ⟨-, vs, sels, hvs, hsels, ⟨-, rfl⟩ | ⟨hnone, -, rfl⟩⟩
  · exact hn
  · exact hn
  · have hu : ma.array_update_num < vs.length := (List.getElem?_eq_some_iff.1 hsels).1
    intro b u l hl
    simp only at hl
    rw [at2_set_set _ _ _ _ _ _ _ hvs hu] at hl
    by_cases hc : ma.base_array_id = b ∧ ma.array_update_num = u
    · rw [if_pos hc] at hl
      simp only [Option.some.injEq] at hl
      subst hl
      have h0 := hn ma.base_array_id ma.array_update_num sels (by simp [at2, hvs, hsels])
      rw [List.map_append, List.nodup_append]
      refine ⟨h0, by simp, ?_⟩
      intro x hx hx'
      simp only [List.map_cons, List.map_nil, List.mem_singleton] at hx'
      obtain ⟨sel, hsel, rfl⟩ := List.mem_map.1 hx
      exact hnone sel hsel hx'
    · rw [if_neg hc] at hl
      exact hn b u l hl

theorem mk_unbounded_select_step {s s' : array_convt} {ma : array_ast} {e : expr2tc}
    {rs : smt_sort} {a : smt_ast} (h : mk_unbounded_select s ma e rs = some (s', a))
    (hinv : history_inv s) : history_inv s' ∧ history_grows s s' := by
  obtain ⟨hle, -, -⟩ := mk_unbounded_select_history_le h
  refine ⟨⟨mk_unbounded_select_in_step h hinv.1, mk_unbounded_select_nodup h hinv.2.1, ?_⟩,
    history_grows_of_le hle⟩
  have hlen : s'.array_indexes.length = s.array_indexes.length := by
    obtain ⟨is, us, w, his, hus, hw, hcase⟩ := mk_unbounded_select_spec h
    rcases hcase with ⟨-, -, rfl⟩ | ⟨-, vs, sels, hvs, hsels, ⟨-, rfl⟩ | ⟨-, -, rfl⟩⟩ <;> simp
  rw [hle.2.2.1, hlen]
  exact hinv.2.2

theorem new_array_id_step {s s' : array_convt} {id : Nat}
    (h : new_array_id s = some (s', id)) (hinv : history_inv s) :
    history_inv s' ∧ history_grows s s' ∧ id = s.array_indexes.length ∧
    s'.array_indexes.length = s.array_indexes.length + 1 ∧
    s'.array_of_vals = s.array_of_vals := by
  have hstep := new_array_id_in_step h hinv.1
  obtain ⟨h1, h2, h3⟩ := hinv.1
  rw [new_array_id_spec s h2 h1] at h
  simp only [Option.some.injEq, Prod.mk.injEq] at h
  obtain ⟨rfl, rfl⟩ := h
  refine ⟨⟨hstep, ?_, ?_⟩, ⟨?_, fun _ _ h => h, ?_, ?_⟩, rfl, by simp, rfl⟩
  · intro b u sels hs
    simp only [at2] at hs
    by_cases hb : b < s.array_values.length
    · rw [List.getElem?_append_left hb] at hs
      exact hinv.2.1 b u sels hs
    · rw [List.getElem?_append_right (by omega)] at hs
      rcases hk : b - s.array_values.length with _ | k
      · rw [hk] at hs
        simp only [List.getElem?_cons_zero, Option.some_bind] at hs
        rcases u with _ | u
        · simp only [List.getElem?_cons_zero, Option.some.injEq] at hs
          subst hs; simp
        · simp at hs
      · rw [hk] at hs; simp at hs
  · intro p hp
    have := hinv.2.2 p hp
    simp only [List.length_append, List.length_singleton]
    omega
  · intro b u w hw
    exact at2_append_singleton _ hw
  · intro b is hb
    have hlt : b < s.array_indexes.length := (List.getElem?_eq_some_iff.1 hb).1
    exact ⟨is, by rw [List.getElem?_append_left hlt]; exact hb, fun _ hx => hx⟩
  · intro b u sels hs
    exact ⟨[], by simpa using at2_append_singleton _ hs, by simp⟩

theorem mk_array_symbol_step {s s' : array_convt} {ms subtype : smt_sort} {a : array_ast}
    (h : mk_array_symbol s ms subtype = some (s', a)) (hinv : history_inv s) :
    history_inv s' ∧ history_grows s s' ∧
    (is_unbounded_array ms = true → a.base_array_id = s.array_indexes.length ∧
      s'.array_indexes.length = s.array_indexes.length + 1 ∧
      s'.array_of_vals = s.array_of_vals) := by
  unfold mk_array_symbol at h
  by_cases hsub : subtype.id = smt_sort_kind.SMT_SORT_ARRAY
  · simp [hsub] at h
  · simp only [hsub, if_false] at h
    by_cases hunb : is_unbounded_array ms = true
    · simp only [hunb, if_true] at h
      rcases hn : new_array_id s with _ | ⟨s1, id⟩
      · simp [hn] at h
      · simp only [hn, Option.some.injEq, Prod.mk.injEq] at h
        obtain ⟨rfl, rfl⟩ := h
        obtain ⟨g1, g2, g3, g4, g5⟩ := new_array_id_step hn hinv
        exact ⟨history_inv_of_eq rfl rfl rfl rfl g1,
          history_grows_trans g2 (history_grows_of_eq rfl rfl rfl rfl), fun _ => ⟨g3, g4, g5⟩⟩
    · simp only [hunb, Bool.false_eq_true, if_false] at h
      rcases hf : mk_fresh_fields subtype (2 ^ ms.domain_width) s.ctx with ⟨c, fields⟩
      simp only [hf, Option.some.injEq, Prod.mk.injEq] at h
      obtain ⟨rfl, rfl⟩ := h
      exact ⟨history_inv_of_eq rfl rfl rfl rfl hinv, history_grows_of_eq rfl rfl rfl rfl,
        fun hh => absurd hh hunb⟩

theorem lookup_array_of_vals_insert_ne (k : Nat) (v : smt_ast) (b : Nat) (hb : b ≠ k) :
    ∀ l : List (Nat × smt_ast), (array_of_vals_insert k v l).lookup b = l.lookup b := by
  intro l
  induction l with
  | nil =>
    have : (b == k) = false := by simpa using hb
    simp [array_of_vals_insert, List.lookup, this]
  | cons p rest ih =>
    obtain ⟨k', v'⟩ := p
    unfold array_of_vals_insert
    by_cases h1 : k = k'
    · simp [h1]
    · simp only [h1, if_false]
      by_cases h2 : k < k'
      · have : (b == k) = false := by simpa using hb
        simp only [h2, if_true]
        rw [List.lookup, this]
      · simp only [h2, if_false]
        by_cases h3 : (b == k') = true
        · rw [List.lookup, h3, List.lookup, h3]
        · have h3' : (b == k') = false := by simpa using h3
          rw [List.lookup, h3', List.lookup, h3']
          exact ih

theorem mem_array_of_vals_insert (k : Nat) (v : smt_ast) :
    ∀ (l : List (Nat × smt_ast)) (p : Nat × smt_ast),
      p ∈ array_of_vals_insert k v l → p = (k, v) ∨ p ∈ l := by
  intro l
  induction l with
  | nil =>
    intro p hp
    simp only [array_of_vals_insert, List.mem_singleton] at hp
    exact Or.inl hp
  | cons q rest ih =>
    intro p hp
    obtain ⟨k', v'⟩ := q
    unfold array_of_vals_insert at hp
    by_cases h1 : k = k'
    · simp only [h1, if_true] at hp
      exact Or.inr hp
    · simp only [h1, if_false] at hp
      by_cases h2 : k < k'
      · simp only [h2, if_true, List.mem_cons] at hp
        rcases hp with hp | hp | hp
        · exact Or.inl hp
        · exact Or.inr (by rw [hp]; exact List.mem_cons_self _ _)
        · exact Or.inr (List.mem_cons_of_mem _ hp)
      · simp only [h2, if_false, List.mem_cons] at hp
        rcases hp with hp | hp
        · exact Or.inr (by rw [hp]; exact List.mem_cons_self _ _)
        · rcases ih p hp with h | h
          · exact Or.inl h
          · exact Or.inr (List.mem_cons_of_mem _ h)

theorem lookup_isSome_mem {b : Nat} {v : smt_ast} :
    ∀ l : List (Nat × smt_ast), l.lookup b = some v → (b, v) ∈ l := by
  intro l
  induction l with
  | nil => intro h; simp [List.lookup] at h
  | cons p rest ih =>
    intro h
    obtain ⟨k', v'⟩ := p
    by_cases hb : (b == k') = true
    · rw [List.lookup, hb] at h
      simp only [Option.some.injEq] at h
      have : b = k' := by simpa using hb
      rw [this, h]; exact List.mem_cons_self _ _
    · have hb' : (b == k') = false := by simpa using hb
      rw [List.lookup, hb'] at h
      exact List.mem_cons_of_mem _ (ih h)

/-- Description of `convert_array_of_wsort` for an unbounded array on a history
built from the empty flattener: the initial value is on file for the new base. -/
theorem convert_array_of_wsort_step {s s' : array_convt} {v : smt_ast}
    {vsort arr_sort : smt_sort} {dw : Nat} {a : array_ast}
    (h : convert_array_of_wsort s v vsort dw arr_sort = some (s', a)) (hinv : history_inv s) :
    history_inv s' ∧ history_grows s s' ∧
    (is_unbounded_array arr_sort = true → a.sort = arr_sort ∧ a.array_update_num = 0 ∧
      s'.array_of_vals.lookup a.base_array_id = some v) := by
  unfold convert_array_of_wsort at h
  by_cases hunb : is_unbounded_array arr_sort = true
  · simp only [hunb, if_true] at h
    rcases hm : mk_array_symbol s arr_sort vsort with _ | ⟨s1, mast⟩
    · simp [hm] at h
    · simp only [hm, Option.some.injEq, Prod.mk.injEq] at h
      obtain ⟨rfl, rfl⟩ := h
      obtain ⟨g1, g2, g3⟩ := mk_array_symbol_step hm hinv
      obtain ⟨g4, g5, g6⟩ := g3 hunb
      have hkeys : ∀ p ∈ s1.array_of_vals, p.1 ≠ mast.base_array_id := by
        intro p hp
        rw [g6] at hp
        have := hinv.2.2 p hp
        omega
      have hsort : mast.sort = arr_sort ∧ mast.array_update_num = 0 := by
        unfold mk_array_symbol at hm
        by_cases hsub : vsort.id = smt_sort_kind.SMT_SORT_ARRAY
        · simp [hsub] at hm
        · simp only [hsub, if_false, hunb, if_true] at hm
          rcases hn : new_array_id s with _ | ⟨s0, id⟩
          · simp [hn] at hm
          · simp only [hn, Option.some.injEq, Prod.mk.injEq] at hm
            obtain ⟨-, rfl⟩ := hm
            exact ⟨rfl, rfl⟩
      refine ⟨⟨g1.1, g1.2.1, ?_⟩, history_grows_trans g2 ⟨fun _ _ _ h => h, ?_,
        fun _ is h => ⟨is, h, fun _ hx => hx⟩, fun _ _ sels h => ⟨[], by simpa using h, by simp⟩⟩,
        fun _ => ⟨hsort.1, hsort.2, lookup_array_of_vals_insert _ _ _ hkeys⟩⟩
      · intro p hp
        rcases mem_array_of_vals_insert _ _ _ _ hp with rfl | hp
        · show mast.base_array_id < s1.array_indexes.length
          omega
        · exact g1.2.2 p hp
      · intro b w hw
        show (array_of_vals_insert mast.base_array_id v s1.array_of_vals).lookup b = some w
        have hne : b ≠ mast.base_array_id := by
          intro hc
          exact hkeys _ (lookup_isSome_mem _ hw) hc
        rw [lookup_array_of_vals_insert_ne _ _ _ hne]; exact hw
  · simp only [hunb, Bool.false_eq_true, if_false, Option.some.injEq, Prod.mk.injEq] at h
    obtain ⟨rfl, rfl⟩ := h
    exact ⟨hinv, history_grows_refl _, fun hh => absurd hh hunb⟩

theorem mk_select_step {s s' : array_convt} {ma : array_ast} {idx : expr2tc} {rs : smt_sort}
    {a : smt_ast} (h : mk_select s ma idx rs = some (s', a)) (hinv : history_inv s) :
    history_inv s' ∧ history_grows s s' := by
  unfold mk_select at h
  by_cases hunb : is_unbounded_array ma.sort = true
  · simp only [hunb, if_true] at h
    exact mk_unbounded_select_step h hinv
  · simp only [hunb, Bool.false_eq_true, if_false] at h
    have key : s'.array_indexes = s.array_indexes ∧ s'.array_values = s.array_values ∧
        s'.array_updates = s.array_updates ∧ s'.array_of_vals = s.array_of_vals := by
      by_cases h0 : ma.array_fields.length = 0
      · simp [h0] at h
      · simp only [h0, if_false] at h
        cases idx with
        | constant_int n =>
          simp only at h
          by_cases hgt : n > ma.array_fields.length
          · simp only [hgt, if_true, smt_convt.mk_fresh, Option.some.injEq, Prod.mk.injEq] at h
            obtain ⟨rfl, -⟩ := h
            exact ⟨rfl, rfl, rfl, rfl⟩
          · simp only [hgt, if_false] at h
            rcases hf : ma.array_fields[n]? with _ | x
            · simp [hf] at h
            · simp only [hf, Option.some.injEq, Prod.mk.injEq] at h
              obtain ⟨rfl, -⟩ := h
              exact ⟨rfl, rfl, rfl, rfl⟩
        | nil =>
          simp only [smt_convt.mk_fresh, Option.some.injEq, Prod.mk.injEq] at h
          obtain ⟨rfl, -⟩ := h
          exact ⟨rfl, rfl, rfl, rfl⟩
        | symbol n =>
          simp only [smt_convt.mk_fresh, Option.some.injEq, Prod.mk.injEq] at h
          obtain ⟨rfl, -⟩ := h
          exact ⟨rfl, rfl, rfl, rfl⟩
    exact ⟨history_inv_of_eq key.1 key.2.1 key.2.2.1 key.2.2.2 hinv,
      history_grows_of_eq key.1 key.2.1 key.2.2.1 key.2.2.2⟩

theorem mk_store_step {s s' : array_convt} {ma a' : array_ast} {idx : expr2tc} {value : smt_ast}
    {rs : smt_sort} (h : mk_store s ma idx value rs = some (s', a')) (hinv : history_inv s) :
    history_inv s' ∧ history_grows s s' := by
  unfold mk_store at h
  by_cases hunb : is_unbounded_array ma.sort = true
  · simp only [hunb, if_true] at h
    exact mk_unbounded_store_step h hinv
  · simp only [hunb, Bool.false_eq_true, if_false] at h
    have key : s' = s := by
      by_cases h0 : ma.array_fields.length = 0
      · simp [h0] at h
      · simp only [h0, if_false] at h
        cases idx with
        | constant_int n =>
          simp only at h
          by_cases hgt : n > ma.array_fields.length
          · simp only [hgt, if_true, Option.some.injEq, Prod.mk.injEq] at h
            exact h.1.symm
          · simp only [hgt, if_false] at h
            rcases hf : ma.array_fields[n]? with _ | x
            · simp [hf] at h
            · simp only [hf, Option.some.injEq, Prod.mk.injEq] at h
              exact h.1.symm
        | nil =>
          simp only [Option.some.injEq, Prod.mk.injEq] at h
          exact h.1.symm
        | symbol n =>
          simp only [Option.some.injEq, Prod.mk.injEq] at h
          exact h.1.symm
    rw [key]
    exact ⟨hinv, history_grows_refl _⟩

theorem build_call_step {s s' : array_convt} {c : build_call} (h : c.run s = some s')
    (hinv : history_inv s) : history_inv s' ∧ history_grows s s' := by
  cases c with
  | mk_array_symbol ms subtype =>
    simp only [build_call.run, Option.map_eq_some', Prod.exists, exists_and_right,
      exists_eq_right] at h
    obtain ⟨a, h⟩ := h
    exact ⟨(mk_array_symbol_step h hinv).1, (mk_array_symbol_step h hinv).2.1⟩
  | convert_array_of_wsort v vsort dw arr_sort =>
    simp only [build_call.run, Option.map_eq_some', Prod.exists, exists_and_right,
      exists_eq_right] at h
    obtain ⟨a, h⟩ := h
    exact ⟨(convert_array_of_wsort_step h hinv).1, (convert_array_of_wsort_step h hinv).2.1⟩
  | mk_select ma idx rs =>
    simp only [build_call.run, Option.map_eq_some', Prod.exists, exists_and_right,
      exists_eq_right] at h
    obtain ⟨a, h⟩ := h
    exact mk_select_step h hinv
  | mk_store ma idx value rs =>
    simp only [build_call.run, Option.map_eq_some', Prod.exists, exists_and_right,
      exists_eq_right] at h
    obtain ⟨a, h⟩ := h
    exact mk_store_step h hinv
  | mk_unbounded_select ma idx rs =>
    simp only [build_call.run, Option.map_eq_some', Prod.exists, exists_and_right,
      exists_eq_right] at h
    obtain ⟨a, h⟩ := h
    exact mk_unbounded_select_step h hinv
  | mk_unbounded_store ma idx value rs =>
    simp only [build_call.run, Option.map_eq_some', Prod.exists, exists_and_right,
      exists_eq_right] at h
    obtain ⟨a, h⟩ := h
    exact mk_unbounded_store_step h hinv
  | unbounded_array_ite cond t f rs =>
    simp only [build_call.run, Option.map_eq_some', Prod.exists, exists_and_right,
      exists_eq_right] at h
    obtain ⟨a, h⟩ := h
    exact unbounded_array_ite_step h hinv
  | encode_array_equality a1 a2 =>
    simp only [build_call.run, Option.some.injEq] at h
    subst h
    exact ⟨history_inv_of_eq rfl rfl rfl rfl hinv, history_grows_of_eq rfl rfl rfl rfl⟩

theorem run_build_calls_step :
    ∀ (calls : List build_call) (s s' : array_convt), run_build_calls calls s = some s' →
      history_inv s → history_inv s' ∧ history_grows s s' := by
  intro calls
  induction calls with
  | nil =>
    intro s s' h hinv
    simp only [run_build_calls, Option.some.injEq] at h
    subst h; exact ⟨hinv, history_grows_refl _⟩
  | cons c rest ih =>
    intro s s' h hinv
    unfold run_build_calls at h
    rcases h1 : c.run s with _ | s1
    · simp [h1] at h
    · simp only [h1] at h
      obtain ⟨g1, g2⟩ := build_call_step h1 hinv
      obtain ⟨g3, g4⟩ := ih _ _ h g1
      exact ⟨g3, history_grows_trans g2 g4⟩

theorem history_inv_init : history_inv array_convt.init :=
  ⟨⟨rfl, rfl, fun b hb => by simp [array_convt.init] at hb⟩,
   fun b u sels h => by simp [array_convt.init, at2] at h,
   fun p hp => by simp [array_convt.init] at hp⟩

theorem reaches_step {s t : array_convt} (h : reaches s t) (hinv : history_inv s) :
    history_inv t ∧ history_grows s t := by
  obtain ⟨calls, hc⟩ := h
  exact run_build_calls_step calls s t hc hinv

theorem selects_nodup_of_grows {s s' : array_convt} (h : history_grows s s')
    (hn : selects_nodup s') : selects_nodup s := by
  intro b u sels hs
  obtain ⟨extra, h1, -⟩ := h.2.2.2 b u sels hs
  have := hn b u _ h1
  rw [List.map_append] at this
  exact (List.nodup_append.1 this).1

theorem select_filed_grows {s s' : array_convt} (h : history_grows s s') {b u : Nat}
    {j : expr2tc} {r : smt_ast} (hf : select_filed s b u j r) : select_filed s' b u j r := by
  obtain ⟨sels, h1, ⟨sel, hsel, hj, hr⟩, h3⟩ := hf
  obtain ⟨extra, h4, h5⟩ := h.2.2.2 b u sels h1
  refine ⟨sels ++ extra, h4, ⟨sel, List.mem_append_left _ hsel, hj, hr⟩, ?_⟩
  intro x hx hxj
  rcases List.mem_append.1 hx with hx | hx
  · exact h3 x hx hxj
  · exact absurd (hxj.trans hj.symm) (h5 x hx sel hsel)

theorem index_set_grows {s s' : array_convt} (h : history_grows s s') {b : Nat} {e : expr2tc}
    (he : e ∈ index_set s b) : e ∈ index_set s' b := by
  unfold index_set entry_of at he ⊢
  rcases hb : s.array_indexes[b]? with _ | is
  · simp [hb] at he
  · obtain ⟨is', h1, h2⟩ := h.2.2.1 b is hb
    simp only [hb, Option.getD_some] at he
    simp only [h1, Option.getD_some]
    exact h2 e he

/-- The term promised for an index at an update that has its record stays the
term promised when the history grows. -/
theorem select_promise_grows {s s' : array_convt} (h : history_grows s s') {r ur : Nat}
    {e : expr2tc} {a : smt_ast} {w : array_with} (hw : at2 s.array_updates r ur = some w)
    (hp : select_promise s r ur e a) : select_promise s' r ur e a := by
  unfold select_promise at hp ⊢
  have hw' := h.1 _ _ _ hw
  rcases hp with ⟨h0, src, h1⟩ | ⟨h1, h2⟩
  · exact Or.inl ⟨h0, src, h.1 _ _ _ h1⟩
  · refine Or.inr ⟨?_, select_filed_grows h h2⟩
    rintro ⟨h0, src, val, hh⟩
    rw [hw'] at hh
    exact h1 ⟨h0, src, val, by rw [hw]; exact hh⟩

/-- The term `mk_unbounded_select` returns on a history built from the empty
flattener: the term promised, at an update that has its record, for an index
of the index set. -/
theorem mk_unbounded_select_reached {s s' : array_convt} {ma : array_ast} {e : expr2tc}
    {rs : smt_sort} {a : smt_ast} (h : mk_unbounded_select s ma e rs = some (s', a))
    (hinv : history_inv s) :
    history_inv s' ∧ select_promise s' ma.base_array_id ma.array_update_num e a ∧
    e ∈ index_set s' ma.base_array_id ∧
    ∃ w, at2 s'.array_updates ma.base_array_id ma.array_update_num = some w := by
  obtain ⟨g1, g2⟩ := mk_unbounded_select_promise h hinv.2.1
  obtain ⟨is, us, w, his, hus, hw, -⟩ := mk_unbounded_select_spec h
  obtain ⟨hle, -, -⟩ := mk_unbounded_select_history_le h
  exact ⟨(mk_unbounded_select_step h hinv).1, g1, g2, w, by rw [hle.1]; simp [at2, hus, hw]⟩

/-! ## Stores, selects and constant arrays on any history (C1, C18, C21) -/

/-- C1: read-over-write for unbounded arrays. On any history built from the
empty flattener, let `a' = mk_unbounded_store(a, i, v)` and, after any further
calls, `r = mk_unbounded_select(a', j)`; after any further calls again, once
`add_array_constraints_for_solving` has emitted its constraints, in every model
of the asserted constraints in which `i` and `j` have the same value, `r` has
the value of `v`, whether or not `i` and `j` are the same expression. -/
theorem C1_read_over_write (s s1 t t1 fin s3 : array_convt) (a a' : array_ast) (i j : expr2tc)
    (v r : smt_ast) (rs rs' : smt_sort) (M : model)
    (h0 : reaches array_convt.init s)
    (h1 : mk_unbounded_store s a i v rs = some (s1, a'))
    (hmid : reaches s1 t)
    (h2 : mk_unbounded_select t a' j rs' = some (t1, r))
    (hpost : reaches t1 fin)
    (h3 : add_array_constraints_for_solving fin = some s3)
    (hM : satisfies M s3.ctx) (hij : M.index i = M.index j) :
    eval M r = eval M v := by
  have inv_s := (reaches_step h0 history_inv_init).1
  obtain ⟨inv_s1, -⟩ := mk_unbounded_store_step h1 inv_s
  have hrec1 := mk_unbounded_store_update_num h1
  obtain ⟨is, us, vs, his, hus, hvs, ha', -⟩ := mk_unbounded_store_spec h1
  have hpos : 1 ≤ a'.array_update_num := by
    have hb : a.base_array_id < s.array_indexes.length := (List.getElem?_eq_some_iff.1 his).1
    have := (inv_s.1.2.2 _ hb).2
    rw [entry_of_of_getElem? hus] at this
    have := (List.getElem?_eq_some_iff.1 this).1
    rw [ha']; exact this
  obtain ⟨inv_t, g1t⟩ := reaches_step hmid inv_s1
  obtain ⟨inv_t1, hprom, hj, w, hw⟩ := mk_unbounded_select_reached h2 inv_t
  obtain ⟨-, gtf⟩ := reaches_step hpost inv_t1
  have gt1 := (mk_unbounded_select_step h2 inv_t).2
  have hrecf : at2 fin.array_updates a'.base_array_id a'.array_update_num =
      some (array_with.w i a.array_update_num v) := gtf.1 _ _ _ (gt1.1 _ _ _ (g1t.1 _ _ _ hrec1))
  have hpromf := select_promise_grows gtf hw hprom
  have hjf := index_set_grows gtf hj
  rcases hpromf with ⟨-, src, hh⟩ | ⟨hno, hfiled⟩
  · rw [hrecf] at hh
    simp only [Option.some.injEq, array_with.w.injEq] at hh
    rw [hh.2.2]
  · have hne : i ≠ j := by
      intro hc
      exact hno ⟨by omega, a.array_update_num, v, by rw [← hc]; exact hrecf⟩
    obtain ⟨sv, hsv⟩ := add_array_constraints_for_solving_emits h3 hrecf hfiled hjf hne hpos
    have := hM _ hsv
    simp only [eval, hij, if_true] at this
    by_contra hc
    simp [hc] at this

/-- Witness of C1: a history with a store at `symbol 0`, other calls, the
select at `symbol 1`, further selects and a second store, and a model in which
all indexes are 0. -/
theorem C1_read_over_write_witness :
    eval example_row_model (smt_ast.fresh 1 sort_bv32)
      = eval example_row_model (smt_ast.term 7) :=
  C1_read_over_write example_row_s0 example_row_s1 example_hist_t example_hist_t1 example_hist_fin
    example_hist_solved example_row_a example_row_a1 (expr2tc.symbol 0) (expr2tc.symbol 1)
    (smt_ast.term 7) (smt_ast.fresh 1 sort_bv32) sort_array32 sort_bv32 example_row_model
    ⟨[build_call.mk_array_symbol sort_array32 sort_bv32], by decide⟩ (by decide)
    ⟨example_hist_mid, by decide⟩ (by decide)
    ⟨build_call.mk_unbounded_select example_row_a (expr2tc.symbol 1) sort_bv32 ::
      example_hist_post, by decide⟩
    (by decide) (by unfold satisfies; decide) (by decide)

/-- C21: constant arrays. For the array term `a` that `convert_array_of_wsort`
makes for the initial value `v`: when the array is bounded, `mk_select` at
every constant index `c < 2^domain_width` returns the term `v` itself, in any
state of the flattener; when it is unbounded and made on a history built from
the empty flattener, its update number is 0 and every select `r` made on `a`,
after any further calls and followed by any further calls, has the value of `v`
in every model of the constraints `add_array_constraints_for_solving` emits. -/
theorem C21_constant_arrays (s s1 : array_convt) (v : smt_ast) (vsort arr_sort : smt_sort)
    (dw : Nat) (a : array_ast)
    (h1 : convert_array_of_wsort s v vsort dw arr_sort = some (s1, a)) :
    (is_unbounded_array arr_sort = false →
      ∀ (t : array_convt) (c : Nat) (rs : smt_sort), c < 2 ^ dw →
        mk_select t a (expr2tc.constant_int c) rs = some (t, v)) ∧
    (is_unbounded_array arr_sort = true → reaches array_convt.init s →
      a.array_update_num = 0 ∧
      ∀ (j : expr2tc) (rs : smt_sort) (r : smt_ast) (t t1 fin s3 : array_convt) (M : model),
        reaches s1 t → mk_select t a j rs = some (t1, r) → reaches t1 fin →
        add_array_constraints_for_solving fin = some s3 → satisfies M s3.ctx →
        eval M r = eval M v) := by
  constructor
  · intro hb t c rs hc
    unfold convert_array_of_wsort at h1
    simp only [hb, Bool.false_eq_true, if_false, Option.some.injEq, Prod.mk.injEq] at h1
    obtain ⟨-, rfl⟩ := h1
    rw [mk_select_constant t _ c rs hb (by simpa using hc)]
    simp
  · intro hunb h0
    have inv_s := (reaches_step h0 history_inv_init).1
    obtain ⟨inv_s1, -, g3⟩ := convert_array_of_wsort_step h1 inv_s
    obtain ⟨hsort, hun, hval⟩ := g3 hunb
    refine ⟨hun, ?_⟩
    intro j rs r t t1 fin s3 M hmid h2 hpost h3 hM
    unfold mk_select at h2
    simp only [hsort, hunb, if_true] at h2
    obtain ⟨inv_t, g1t⟩ := reaches_step hmid inv_s1
    obtain ⟨inv_t1, hprom, hj, w, hw⟩ := mk_unbounded_select_reached h2 inv_t
    have gt1 := (mk_unbounded_select_step h2 inv_t).2
    obtain ⟨-, gtf⟩ := reaches_step hpost inv_t1
    have hvalf : fin.array_of_vals.lookup a.base_array_id = some v :=
      gtf.2.1 _ _ (gt1.2.1 _ _ (g1t.2.1 _ _ hval))
    have hpromf := select_promise_grows gtf hw hprom
    rw [hun] at hpromf
    rcases hpromf with ⟨hne, -⟩ | ⟨-, hfiled⟩
    · exact absurd rfl hne
    · have hmem := add_array_constraints_for_solving_init_emits h3 hvalf hfiled
        (index_set_grows gtf hj)
      exact eval_eq_ne_zero (hM _ hmem)

/-- Witness of C21: a bounded constant array of four elements read at index 3,
and an unbounded constant array read at `symbol 1` in a history with a second
array, a further select and a store. -/
theorem C21_constant_arrays_witness :
    mk_select example_row_s1
        { sort := sort_array2, base_array_id := 0, array_update_num := 0,
          array_fields := List.replicate (2 ^ 2) (smt_ast.term 7) }
        (expr2tc.constant_int 3) sort_bv32 = some (example_row_s1, smt_ast.term 7) ∧
    eval example_const_model (smt_ast.fresh 0 sort_bv32) =
      eval example_const_model (smt_ast.term 7) :=
  ⟨(C21_constant_arrays array_convt.init array_convt.init (smt_ast.term 7) sort_bv32
      sort_array2 2 _ (by decide)).1 (by decide) example_row_s1 3 sort_bv32 (by decide),
   ((C21_constant_arrays array_convt.init example_const_s1 (smt_ast.term 7) sort_bv32
      sort_array32 32 example_row_a (by decide)).2 (by decide) ⟨[], by decide⟩).2
      (expr2tc.symbol 1) sort_bv32 (smt_ast.fresh 0 sort_bv32)
      example_const_t example_const_t1 example_const_fin example_const_solved
      example_const_model ⟨[build_call.mk_array_symbol sort_array32 sort_bv32], by decide⟩
      (by decide) ⟨example_const_post, by decide⟩ (by decide)
      (by unfold satisfies; decide)⟩

end Esbmc
